import Mathlib

/-!
# Argparsor: the token walk of `Argparsor::parseArguments`

A shallow embedding of `src/src/argparsor-argparsor.cpp` (`parseArguments` and
`addArgument`) together with the declaration model of
`src/include/mblet/argparsor/argument.h` and the lookups of
`src/include/mblet/argparsor/argparsor.h`.

* A `std::string` / `char*` token is a `List Char` (`Str`).
* `Argument` records the fields of the C++ class that the parser reads or
  writes; the vector base class of `ArgumentElement` is the field `elements`.
* `std::list<Argument*> _arguments` is the list `arguments`; a pointer
  `Argument**` into that list (the values of `_argumentFromName`, `_helpOption`,
  `_versionOption`) is the position of the node in the list.
* A function that throws returns `Except.error (exception, state)`, the state
  being the registry as mutated up to the `throw`.
* `std::list::sort` moves nodes, not objects: `addArgument` renumbers the
  positions held by the map after the sort.
* `int` / `std::size_t` arithmetic: every sum the parser forms is an index into
  `argv` plus an `_nargs`, taken on `std::size_t`. The routines come twice. The
  routines `Argparsor._parseArgument`, `Argparsor._parsePositionnalArgument`,
  `groupLoop` and the walk built on them take the sum exactly, in `Nat`. The
  routines of the namespace `Machine` take it modulo `2^64` (`sizeAdd`) and
  keep the index that `_parsePositionnalArgument` writes back as an `Int`. The
  two agree on every registry and `argv` with `argc + _nargs < 2^64` for each
  declaration (`machine_parseArguments_eq`); past that bound only the routines
  of `Machine` follow the source.
-/

set_option autoImplicit false

namespace Mblet

/-- A `std::string` or NUL-terminated `char*`. -/
abbrev Str := List Char

/-! ## Data model (`argument.h`) -/

/-- The `enum Type` of `class Argument`. -/
inductive Type_
  | NONE
  | HELP_OPTION
  | VERSION_OPTION
  | BOOLEAN_OPTION
  | REVERSE_BOOLEAN_OPTION
  | SIMPLE_OPTION
  | NUMBER_OPTION
  | INFINITE_OPTION
  | MULTI_OPTION
  | MULTI_INFINITE_OPTION
  | MULTI_NUMBER_OPTION
  | MULTI_NUMBER_INFINITE_OPTION
  | POSITIONAL_ARGUMENT
  | NUMBER_POSITIONAL_ARGUMENT
  | INFINITE_POSITIONAL_ARGUMENT
  | INFINITE_NUMBER_POSITIONAL_ARGUMENT
  deriving DecidableEq, Repr

/-- One `ArgumentElement` stored in an `Argument`: its `_argument` string and
its own vector of elements. The parser only ever nests leaves built by
`ArgumentElement(const char*)`, so a nested element is given by its string. -/
structure ArgumentElement where
  argument : Str
  elements : List Str
  deriving DecidableEq, Repr

/-- The element `ArgumentElement(const char* arg)` pushed by `push_back(argv[i])`. -/
def ArgumentElement.leaf (arg : Str) : ArgumentElement := ⟨arg, []⟩

/-- The element `newNumberArgument` after `push_back(argv[j])` for each `j`. -/
def ArgumentElement.group (args : List Str) : ArgumentElement := ⟨[], args⟩

/-- The interface `IValid`: `isValid(std::vector<std::string>&)` either throws a
`ParseArgumentValidException` with a message, or returns its verdict and leaves
the (possibly rewritten) argument vector. -/
structure IValid where
  isValid : List Str → Except Str (Bool × List Str)

/-- The fields of `class Argument` used by `Argparsor`. -/
structure Argument where
  nameOrFlags : List Str
  type : Type_
  isExist : Bool
  isRequired : Bool
  count : Nat
  nargs : Nat
  argument : Str
  elements : List ArgumentElement
  valid : Option IValid

/-- `Argument::_isPositionnalArgument`. -/
def Argument._isPositionnalArgument (a : Argument) : Bool :=
  match a.type with
  | .POSITIONAL_ARGUMENT => true
  | .NUMBER_POSITIONAL_ARGUMENT => true
  | .INFINITE_POSITIONAL_ARGUMENT => true
  | .INFINITE_NUMBER_POSITIONAL_ARGUMENT => true
  | _ => false

/-- `std::vector::clear()` on the element vector of the argument. -/
def Argument.clear (a : Argument) : Argument := { a with elements := [] }

/-- `push_back(const char*)`. -/
def Argument.push_back (a : Argument) (arg : Str) : Argument :=
  { a with elements := a.elements ++ [ArgumentElement.leaf arg] }

/-- `push_back` of each token of `args`, in order. -/
def Argument.push_backs (a : Argument) (args : List Str) : Argument :=
  { a with elements := a.elements ++ args.map ArgumentElement.leaf }

/-- `argument->_isExist = true; ++argument->_count;`. -/
def Argument.matched (a : Argument) : Argument :=
  { a with isExist := true, count := a.count + 1 }

/-- `_nameOrFlags.front()`. -/
def Argument.front (a : Argument) : Str := a.nameOrFlags.headD []

/-- What a call can end with other than a normal return. -/
inductive Exception
  | ParseArgumentException (argument message : Str)
  | ParseArgumentRequiredException (argument message : Str)
  | ParseArgumentValidException (argument message : Str)
  | ArgumentException (argument message : Str)
  | AccessDeniedException (argument message : Str)
  /-- `exit(0)` after the usage text was printed. -/
  | exitHelp
  /-- `exit(0)` after the version text was printed. -/
  | exitVersion
  /-- A loop of the source that never leaves (`i += _nargs` with `_nargs == 0`). -/
  | nonTermination
  /-- The walk of the model ran out of its iteration budget. -/
  | outOfFuel
  deriving DecidableEq, Repr

/-- The members of `class Argparsor` used by `parseArguments`. -/
structure Argparsor where
  binaryName : Str
  arguments : List Argument
  argumentFromName : List (Str × Nat)
  helpOption : Option Nat
  versionOption : Option Nat
  isAlternative : Bool
  isStrict : Bool
  additionalArguments : List Str

/-- `_argumentFromName.find(key)`: the position of the node and the argument in it. -/
def Argparsor.find (self : Argparsor) (key : Str) : Option (Nat × Argument) :=
  match self.argumentFromName.lookup key with
  | some p =>
    match self.arguments[p]? with
    | some a => some (p, a)
    | none => none
  | none => none

/-- Store `a` in the node at position `p`. -/
def Argparsor.store (self : Argparsor) (p : Nat) (a : Argument) : Argparsor :=
  { self with arguments := self.arguments.set p a }

/-! ## Token classifier (`utils.h`) -/

/-- Modelled from the spec: `isShortOption` of `mblet/argparsor/utils.h`, a header that
is not among the sources. The token starts with exactly one `-` followed by at
least one character that is not `-`. -/
def isShortOption : Str → Bool
  | '-' :: c :: _ => c != '-'
  | _ => false

/-- Modelled from the spec: `isLongOption` of the absent `utils.h`. The token starts
with `--` followed by at least one character. -/
def isLongOption : Str → Bool
  | '-' :: '-' :: _ :: _ => true
  | _ => false

/-- Modelled from the spec: `isEndOption` of the absent `utils.h`. The token is exactly `--`. -/
def isEndOption (arg : Str) : Bool := arg == ['-', '-']

/-- Modelled from the spec: `endOptionIndex` of the absent `utils.h`. The index of the
first `--` of `argv`, and `argc` when there is none. -/
def endOptionIndex (argv : List Str) : Nat := argv.findIdx isEndOption

/-- Modelled from the spec: `takeArg` of the absent `utils.h`, called as
`hasArg = takeArg(token, &option, &arg)` on short and on long tokens alike. The
token is split at its first `=`: the part before it is the option, the part
after it the inline argument; without `=` the whole token is the option and
`arg` stays empty. The option keeps its dashes and, for a short token, the
whole cluster: `_parseLongArgument` looks it up as it is, and
`_parseShortArgument` reads its characters from position 1 and tests the
returned `hasArg` before it splits a cluster itself. -/
def takeArg (token : Str) : Bool × Str × Str :=
  match token.dropWhile (· != '=') with
  | [] => (false, token, [])
  | _ :: value => (true, token.takeWhile (· != '='), value)

/-! ## Consumption of one option (`argparsor-argparsor.cpp`) -/

/-- The six types tested together in the cluster loops of `_parseShortArgument` and
`_endOfInfiniteArgument`. -/
def takesParameter : Type_ → Bool
  | .SIMPLE_OPTION => true
  | .NUMBER_OPTION => true
  | .INFINITE_OPTION => true
  | .MULTI_OPTION => true
  | .MULTI_INFINITE_OPTION => true
  | .MULTI_NUMBER_OPTION => true
  | _ => false

/-- The test `_type == BOOLEAN_OPTION || _type == REVERSE_BOOLEAN_OPTION`. -/
def isBoolean : Type_ → Bool
  | .BOOLEAN_OPTION => true
  | .REVERSE_BOOLEAN_OPTION => true
  | _ => false

/-- The loop `for (i = 1; i < option.size() - 1; ++i)` of `_endOfInfiniteArgument`,
run on the characters of `option` from position `i` on: `some b` when the loop
returns `b`, `none` when it runs to its end. -/
def Argparsor.endOfInfiniteFirsts (self : Argparsor) (hasArg : Bool) : List Char → Option Bool
  | c :: c' :: r =>
    match self.find ['-', c] with
    | none => some false
    | some (_, a) =>
      if !hasArg && takesParameter a.type then some true
      else if isBoolean a.type then some true
      else self.endOfInfiniteFirsts hasArg (c' :: r)
  | _ => none

/-- `Argparsor::_endOfInfiniteArgument`. -/
def Argparsor._endOfInfiniteArgument (self : Argparsor) (argument : Str) : Bool :=
  if isShortOption argument then
    let (hasArg, option, _) := takeArg argument
    if self.isAlternative && (self.find ('-' :: option)).isSome then true
    else
      match self.endOfInfiniteFirsts hasArg (option.drop 1) with
      | some b => b
      | none => (self.find ('-' :: option.getLast?.toList)).isSome
  else if isLongOption argument then
    let (_, option, _) := takeArg argument
    (self.find option).isSome
  else false

/-- The result of a parsing routine that advances `*index`: the new index and the
registry, or the exception thrown and the registry at the throw. -/
abbrev Step := Except (Exception × Argparsor) (Nat × Argparsor)

/-- `throw ParseArgumentException(argument, message)` in state `self`. -/
def Argparsor.throwParse (self : Argparsor) (argument : Str) (message : String) : Step :=
  .error (.ParseArgumentException argument message.toList, self)

/-- The tokens `argv[from_ .. to_)`. -/
def slice (argv : List Str) (from_ to_ : Nat) : List Str := (argv.take to_).drop from_

/-- How a loop over groups of `_nargs` tokens ends. -/
inductive GroupEnd
  | done
  | badNumber
  | nonTermination
  deriving DecidableEq, Repr

/-- The loop `for (i = ..; i < maxIndex; i += _nargs)` shared by
`MULTI_NUMBER_INFINITE_OPTION` and `INFINITE_NUMBER_POSITIONAL_ARGUMENT`: from
index `i` it returns the groups pushed, in order, and how the loop ended.
`stop` is the test that breaks the loop. The budget is only exhausted when
`_nargs == 0`, where the source loop never advances. The sum `i + _nargs` is
taken exactly; `Machine.groupLoop` takes it on `std::size_t`. -/
def groupLoop (stop : Str → Bool) (argv : List Str) (maxIndex nargs : Nat) :
    Nat → Nat → List ArgumentElement × GroupEnd
  | 0, _ => ([], .nonTermination)
  | fuel + 1, i =>
    if i < maxIndex then
      if stop (argv.getD i []) then ([], .done)
      else if i + nargs > maxIndex then ([], .badNumber)
      else
        let (groups, e) := groupLoop stop argv maxIndex nargs fuel (i + nargs)
        (ArgumentElement.group (slice argv i (i + nargs)) :: groups, e)
    else ([], .done)

/-- `Argparsor::_parseArgument`. The pointer `argument` is the position `p` with
the object `a` it points to. The sum `*index + _nargs` is taken exactly;
`Machine._parseArgument` takes it on `std::size_t`. -/
def Argparsor._parseArgument (self : Argparsor) (maxIndex : Nat) (argv : List Str) (index : Nat)
    (hasArg : Bool) (option arg : Str) (p : Nat) (a : Argument) : Step :=
  if hasArg then
    match a.type with
    | .SIMPLE_OPTION => .ok (index, self.store p { a with argument := arg }.matched)
    | .NUMBER_OPTION | .MULTI_NUMBER_OPTION | .MULTI_NUMBER_INFINITE_OPTION =>
      (self.store p a).throwParse option "option cannot use with only 1 argument"
    | .INFINITE_OPTION => .ok (index, self.store p (a.clear.push_back arg).matched)
    | .MULTI_OPTION | .MULTI_INFINITE_OPTION =>
      let a1 := if a.isExist = false then a.clear else a
      .ok (index, self.store p (a1.push_back arg).matched)
    | _ => (self.store p a).throwParse option "option cannot use with argument"
  else
    match a.type with
    | .SIMPLE_OPTION =>
      if index + 1 ≥ maxIndex then (self.store p a).throwParse option "bad number of argument"
      else .ok (index + 1, self.store p { a with argument := argv.getD (index + 1) [] }.matched)
    | .NUMBER_OPTION =>
      let a1 := a.clear
      if index + a.nargs ≥ maxIndex then (self.store p a1).throwParse option "bad number of argument"
      else
        .ok (index + a.nargs,
          self.store p (a1.push_backs (slice argv (index + 1) (index + a.nargs + 1))).matched)
    | .INFINITE_OPTION =>
      let a1 := a.clear
      let args := (slice argv (index + 1) maxIndex).takeWhile (fun t => !self._endOfInfiniteArgument t)
      .ok (index + args.length, self.store p (a1.push_backs args).matched)
    | .MULTI_OPTION =>
      let a1 := if a.isExist = false then a.clear else a
      if index + 1 ≥ maxIndex then (self.store p a1).throwParse option "bad number of argument"
      else .ok (index + 1, self.store p (a1.push_back (argv.getD (index + 1) [])).matched)
    | .MULTI_INFINITE_OPTION =>
      let a1 := if a.isExist = false then a.clear else a
      let args := (slice argv (index + 1) maxIndex).takeWhile (fun t => !self._endOfInfiniteArgument t)
      .ok (index + args.length, self.store p (a1.push_backs args).matched)
    | .MULTI_NUMBER_OPTION =>
      let a1 := if a.isExist = false then a.clear else a
      if index + a.nargs ≥ maxIndex then (self.store p a1).throwParse option "bad number of argument"
      else
        let newNumberArgument := ArgumentElement.group (slice argv (index + 1) (index + a.nargs + 1))
        .ok (index + a.nargs,
          self.store p { a1 with elements := a1.elements ++ [newNumberArgument] }.matched)
    | .MULTI_NUMBER_INFINITE_OPTION =>
      let a1 := if a.isExist = false then a.clear else a
      let (groups, e) :=
        groupLoop self._endOfInfiniteArgument argv maxIndex a.nargs (maxIndex + 1) (index + 1)
      let a2 := { a1 with elements := a1.elements ++ groups }
      match e with
      | .done => .ok (index + groups.length * a.nargs, self.store p a2.matched)
      | .badNumber => (self.store p a2).throwParse option "bad number of argument"
      | .nonTermination => .error (.nonTermination, self.store p a1)
    | _ => .ok (index, self.store p a.matched)

/-- The loop `for (i = 1; i < options.size() - 1; ++i)` of `_parseShortArgument`
followed by its "get last option" part, run on the characters of `options` from
position `i` on. `last` is the string `charOption` of the last character. -/
def Argparsor.parseShortLoop (maxIndex : Nat) (argv : List Str) (index : Nat) (hasArg : Bool)
    (arg last : Str) : Argparsor → List Char → Step
  | self, c :: c' :: r =>
    match self.find ['-', c] with
    | none => self.throwParse [c] "invalid option"
    | some (p, a) =>
      if !hasArg && takesParameter a.type then
        self._parseArgument maxIndex argv index true [c] (c' :: r) p a.matched
      else if !isBoolean a.type then
        self.throwParse [c] "only last option can be use a parameter"
      else
        parseShortLoop maxIndex argv index hasArg arg last (self.store p a.matched) (c' :: r)
  | self, _ =>
    match self.find ('-' :: last) with
    | none => self.throwParse last "invalid option"
    | some (p, a) => self._parseArgument maxIndex argv index hasArg last arg p a

/-- `Argparsor::_parseShortArgument`. -/
def Argparsor._parseShortArgument (self : Argparsor) (maxIndex : Nat) (argv : List Str)
    (index : Nat) : Step :=
  let (hasArg, options, arg) := takeArg (argv.getD index [])
  match (if self.isAlternative then self.find ('-' :: options) else none) with
  | some (p, a) => self._parseArgument maxIndex argv index hasArg (options.drop 1) arg p a
  | none =>
    Argparsor.parseShortLoop maxIndex argv index hasArg arg options.getLast?.toList self
      (options.drop 1)

/-- `Argparsor::_parseLongArgument`. -/
def Argparsor._parseLongArgument (self : Argparsor) (maxIndex : Nat) (argv : List Str)
    (index : Nat) : Step :=
  let (hasArg, option, arg) := takeArg (argv.getD index [])
  match self.find option with
  | none => self.throwParse (option.drop 2) "invalid option"
  | some (p, a) => self._parseArgument maxIndex argv index hasArg (option.drop 2) arg p a

/-- The test of the search loop of `_parsePositionnalArgument`. -/
def Argument.isUnfilledPositional (a : Argument) : Bool :=
  a.isExist == false && a._isPositionnalArgument

/-- `Argparsor::_parsePositionnalArgument`. The index written back is
`*index + n - 1` for `n` tokens consumed; in the source the `- 1` is taken on
`std::size_t` and wraps when `n == 0`, and added to the `int` it gives
`*index - 1`, which is the `Nat` value below for every `*index >= 1`. The sum
`*index + _nargs` is taken exactly; `Machine._parsePositionnalArgument` takes it
on `std::size_t` and keeps the index as an `Int`. -/
def Argparsor._parsePositionnalArgument (self : Argparsor) (argc : Nat) (argv : List Str)
    (index : Nat) (hasEndOption : Bool) : Step :=
  let q := self.arguments.findIdx Argument.isUnfilledPositional
  match self.arguments[q]? with
  | some a =>
    match a.type with
    | .POSITIONAL_ARGUMENT =>
      .ok (index, self.store q { a with argument := argv.getD index [], isExist := true })
    | .NUMBER_POSITIONAL_ARGUMENT =>
      if index + a.nargs > argc then self.throwParse a.front "bad number of argument"
      else
        .ok (index + a.nargs - 1,
          self.store q { a.push_backs (slice argv index (index + a.nargs)) with isExist := true })
    | .INFINITE_POSITIONAL_ARGUMENT =>
      let args := (slice argv index argc).takeWhile
        (fun t => !(!hasEndOption && self._endOfInfiniteArgument t))
      .ok (index + args.length - 1, self.store q { a.push_backs args with isExist := true })
    | .INFINITE_NUMBER_POSITIONAL_ARGUMENT =>
      let (groups, e) :=
        groupLoop (fun t => !hasEndOption && self._endOfInfiniteArgument t) argv argc a.nargs
          (argc + 1) index
      let a2 := { a with elements := a.elements ++ groups }
      match e with
      | .done => .ok (index + groups.length * a.nargs - 1, self.store q { a2 with isExist := true })
      | .badNumber => (self.store q a2).throwParse a.front "bad number of argument"
      | .nonTermination => .error (.nonTermination, self)
    | _ => .ok (index, self.store q { a with isExist := true })
  | none =>
    if self.isStrict then self.throwParse (argv.getD index []) "invalid additional argument"
    else
      .ok (index,
        { self with additionalArguments := self.additionalArguments ++ [argv.getD index []] })

/-! ## The token walk and `parseArguments` -/

/-- The result of a routine that returns no index. -/
abbrev Outcome := Except (Exception × Argparsor) Argparsor

/-- The loop `while (i < argc) { _parsePositionnalArgument(argc, argv, &i, true); ++i; }`
that follows the end-of-options marker. -/
def Argparsor.afterEndOption : Nat → Argparsor → List Str → Nat → Outcome
  | 0, self, _, _ => .error (.outOfFuel, self)
  | fuel + 1, self, argv, i =>
    if i < argv.length then
      match self._parsePositionnalArgument argv.length argv i true with
      | .error e => .error e
      | .ok (i', self') => Argparsor.afterEndOption fuel self' argv (i' + 1)
    else .ok self

/-- The loop `for (int i = 1; i < argc; ++i)` of `parseArguments`, from index `i`. -/
def Argparsor.walk : Nat → Argparsor → Nat → List Str → Nat → Outcome
  | 0, self, _, _, _ => .error (.outOfFuel, self)
  | fuel + 1, self, endIndex, argv, i =>
    if i < argv.length then
      if isShortOption (argv.getD i []) then
        match self._parseShortArgument endIndex argv i with
        | .error e => .error e
        | .ok (i', self') => Argparsor.walk fuel self' endIndex argv (i' + 1)
      else if isLongOption (argv.getD i []) then
        match self._parseLongArgument endIndex argv i with
        | .error e => .error e
        | .ok (i', self') => Argparsor.walk fuel self' endIndex argv (i' + 1)
      else if isEndOption (argv.getD i []) then
        Argparsor.afterEndOption fuel self argv (i + 1)
      else
        match self._parsePositionnalArgument endIndex argv i false with
        | .error e => .error e
        | .ok (i', self') => Argparsor.walk fuel self' endIndex argv (i' + 1)
    else .ok self

/-- The first lines of `parseArguments`: the three assignments. -/
def Argparsor.begin (self : Argparsor) (argv : List Str) (alternative strict : Bool) : Argparsor :=
  { self with binaryName := argv.getD 0 [], isAlternative := alternative, isStrict := strict }

/-- The token walk of `parseArguments` (up to the comment `check help option`). Each
iteration advances the index or fills one positional, which bounds the number
of iterations by `argc` plus the number of declarations. -/
def Argparsor.parseTokens (self : Argparsor) (argv : List Str) (alternative strict : Bool) :
    Outcome :=
  (self.begin argv alternative strict).walk (argv.length + self.arguments.length)
    (endOptionIndex argv) argv 1

/-- `_helpOption != NULL && _helpOption->_isExist`, and the same test for `_versionOption`. -/
def Argparsor.optionExists (self : Argparsor) : Option Nat → Bool
  | some p =>
    match self.arguments[p]? with
    | some a => a.isExist
    | none => false
  | none => false

/-- The exception of the loop `check require option` for the declaration `a`. -/
def Argument.requiredException (a : Argument) : Exception :=
  if a.type = .POSITIONAL_ARGUMENT then
    .ParseArgumentRequiredException a.front "argument is required".toList
  else .ParseArgumentRequiredException a.front "option is required".toList

/-- Modelled from the spec: `Argument::operator std::vector<std::string>()` of
`argparsor/argument.h`, defined in a source file that is not among the sources.
The current values as a flat list; the shape follows the arity class (scalar,
list, or list of groups flattened in order), the same classes the write-back of
`parseArguments` distinguishes. For the list and grouped option classes this is
the operator of the earlier header `argparsor-argument.h`, which knows no other
class; the last branch is the vector left empty by the first `switch` of the
validation loop. -/
def Argument.toVector (a : Argument) : List Str :=
  match a.type with
  | .POSITIONAL_ARGUMENT | .SIMPLE_OPTION => [a.argument]
  | .NUMBER_OPTION | .MULTI_OPTION | .INFINITE_OPTION | .MULTI_INFINITE_OPTION
  | .NUMBER_POSITIONAL_ARGUMENT | .INFINITE_POSITIONAL_ARGUMENT =>
    a.elements.map (fun e => e.argument)
  | .MULTI_NUMBER_OPTION | .MULTI_NUMBER_INFINITE_OPTION
  | .INFINITE_NUMBER_POSITIONAL_ARGUMENT =>
    (a.elements.map (fun e => e.elements)).flatten
  | _ => []

/-- The loop `for (i = 0; i < size() && i < arguments.size(); ++i) at(i)._argument = arguments[i]`. -/
def writeList : List ArgumentElement → List Str → List ArgumentElement
  | e :: es, x :: xs => { e with argument := x } :: writeList es xs
  | es, _ => es

/-- The inner loop over `k` of the grouped write-back, on one group. -/
def writeGroup : List Str → List Str → List Str
  | _ :: es, x :: xs => x :: writeGroup es xs
  | es, _ => es

/-- The loops over `j` and `k` of the grouped write-back; `i` advances by the size of
each group. -/
def writeGroups : List ArgumentElement → List Str → List ArgumentElement
  | e :: es, xs =>
    { e with elements := writeGroup e.elements xs } :: writeGroups es (xs.drop e.elements.length)
  | [], _ => []

/-- The second `switch` of the validation loop: `none` is its `default` branch. -/
def Argument.writeBack (a : Argument) (arguments : List Str) : Option Argument :=
  match a.type with
  | .POSITIONAL_ARGUMENT | .SIMPLE_OPTION =>
    match arguments with
    | x :: _ => some { a with argument := x }
    | [] => some a
  | .NUMBER_OPTION | .MULTI_OPTION | .INFINITE_OPTION | .MULTI_INFINITE_OPTION
  | .NUMBER_POSITIONAL_ARGUMENT | .INFINITE_POSITIONAL_ARGUMENT =>
    some { a with elements := writeList a.elements arguments }
  | .MULTI_NUMBER_OPTION | .MULTI_NUMBER_INFINITE_OPTION
  | .INFINITE_NUMBER_POSITIONAL_ARGUMENT =>
    some { a with elements := writeGroups a.elements arguments }
  | _ => none

/-- The body of the loop `check valid configuration function` for the declaration `a`:
the declaration after the write-back, or the exception rethrown with the first
name or flag. -/
def Argument.checkValid (a : Argument) : Except Exception Argument :=
  match a.isExist, a.valid with
  | true, some v =>
    match v.isValid a.toVector with
    | .error message => .error (.ParseArgumentValidException a.front message)
    | .ok (false, _) =>
      .error (.ParseArgumentValidException a.front "invalid check function".toList)
    | .ok (true, arguments) =>
      match a.writeBack arguments with
      | some a' => .ok a'
      | none =>
        .error (.ParseArgumentValidException a.front "invalid type option for use valid".toList)
  | _, _ => .ok a

/-- The loop `check valid configuration function` over the positions `qs`. -/
def Argparsor.checkValids (self : Argparsor) : List Nat → Outcome
  | [] => .ok self
  | q :: qs =>
    match self.arguments[q]? with
    | none => self.checkValids qs
    | some a =>
      match a.checkValid with
      | .error e => .error (e, self)
      | .ok a' => (self.store q a').checkValids qs

/-- The part of `parseArguments` after the token walk: help and version exits, the
required check, the validation loop. -/
def Argparsor.afterWalk (self : Argparsor) : Outcome :=
  if self.optionExists self.helpOption then .error (.exitHelp, self)
  else if self.optionExists self.versionOption then .error (.exitVersion, self)
  else
    match self.arguments.find? (fun a => a.isRequired && a.isExist == false) with
    | some a => .error (a.requiredException, self)
    | none => self.checkValids (List.range self.arguments.length)

/-- `Argparsor::parseArguments(argc, argv, alternative, strict)`, with `argc` the length
of `argv`. -/
def Argparsor.parseArguments (self : Argparsor) (argv : List Str) (alternative strict : Bool) :
    Outcome :=
  match self.parseTokens argv alternative strict with
  | .error e => .error e
  | .ok self' => self'.afterWalk

/-! ## Registries of the end-to-end scenarios -/

/-- The registry in which the outcome leaves the parser. -/
def Outcome.state : Outcome → Argparsor
  | .ok self => self
  | .error (_, self) => self

/-- The exception of an outcome, if it has one. -/
def Outcome.exception : Outcome → Option Exception
  | .ok _ => none
  | .error (e, _) => some e

/-- A declaration before any token is parsed: absent, not required, no values, no validator. -/
def Argument.declared (nameOrFlags : List String) (type : Type_) (nargs : Nat) : Argument :=
  { nameOrFlags := nameOrFlags.map String.toList, type := type, isExist := false,
    isRequired := false, count := 0, nargs := nargs, argument := [], elements := [],
    valid := none }

/-- A registry of the given declarations whose index maps every name or flag to the
position of its declaration, without help or version option. -/
def Argparsor.declared (arguments : List Argument) : Argparsor :=
  { binaryName := [], arguments := arguments,
    argumentFromName :=
      (arguments.enum.map (fun pa => pa.2.nameOrFlags.map (fun f => (f, pa.1)))).flatten,
    helpOption := none, versionOption := none, isAlternative := false, isStrict := false,
    additionalArguments := [] }

/-- An argument vector. -/
def args (tokens : List String) : List Str := tokens.map String.toList

/-- The strings of the elements of a declaration (its flat values). -/
def Argument.strings (a : Argument) : List String := a.elements.map (fun e => String.mk e.argument)

/-- The groups of the elements of a declaration (its grouped values). -/
def Argument.groups (a : Argument) : List (List String) :=
  a.elements.map (fun e => e.elements.map String.mk)

/-- Scenario 2: the flag `-v`, `--verbose` and the option `-n`, `--count` with `nargs = 2`. -/
def scenario2 : Argparsor :=
  Argparsor.declared
    [Argument.declared ["-v", "--verbose"] .BOOLEAN_OPTION 0,
     Argument.declared ["-n", "--count"] .NUMBER_OPTION 2]

/-- Scenario 3: `--tags`, repeatable and variadic. -/
def scenario3 : Argparsor :=
  Argparsor.declared [Argument.declared ["--tags"] .MULTI_INFINITE_OPTION 0]

/-- The flag `-c` is declared with one of the two boolean types. -/
def Argparsor.isBooleanFlag (self : Argparsor) (c : Char) : Bool :=
  match self.find ['-', c] with
  | some (_, a) => isBoolean a.type
  | none => false

/-- The registry after each flag `-c`, for `c` in the list, was matched once, in order. -/
def Argparsor.matchFlags (self : Argparsor) : List Char → Argparsor
  | [] => self
  | c :: cs =>
    match self.find ['-', c] with
    | some (p, a) => (self.store p a.matched).matchFlags cs
    | none => self.matchFlags cs

/-- Two boolean flags, `-a` and `-=`. -/
def scenarioEquals : Argparsor :=
  Argparsor.declared
    [Argument.declared ["-a"] .BOOLEAN_OPTION 0, Argument.declared ["-="] .BOOLEAN_OPTION 0]

/-- A `MULTI_NUMBER_OPTION` with `nargs = 2`. -/
def scenarioAppend : Argparsor :=
  Argparsor.declared [Argument.declared ["-a", "--append"] .MULTI_NUMBER_OPTION 2]

/-- A `MULTI_NUMBER_INFINITE_OPTION` with `nargs = 2`. -/
def scenarioExtend : Argparsor :=
  Argparsor.declared [Argument.declared ["-e", "--extend"] .MULTI_NUMBER_INFINITE_OPTION 2]

/-- A `SIMPLE_OPTION` with the flags `-o` and `--opt`. -/
def scenarioSimple : Argparsor :=
  Argparsor.declared [Argument.declared ["-o", "--opt"] .SIMPLE_OPTION 1]

/-- Three boolean flags, `-a`, `-b` and `-c`. -/
def scenarioFlags : Argparsor :=
  Argparsor.declared
    [Argument.declared ["-a"] .BOOLEAN_OPTION 0, Argument.declared ["-b"] .BOOLEAN_OPTION 0,
     Argument.declared ["-c"] .REVERSE_BOOLEAN_OPTION 0]

/-- A validator whose `isValid` returns `false` on every input. -/
def rejectAll : IValid := ⟨fun arguments => .ok (false, arguments)⟩

/-- The option `--level` with a validator that rejects everything, and the required
positional `FILE`. -/
def scenarioRequired : Argparsor :=
  Argparsor.declared
    [{ Argument.declared ["--level"] .SIMPLE_OPTION 1 with valid := some rejectAll },
     { Argument.declared ["FILE"] .POSITIONAL_ARGUMENT 1 with isRequired := true }]

/-- The declaration with its occurrence count set aside. -/
def Argument.forgetCount (a : Argument) : Argument := { a with count := 0 }

/-- The registry with the occurrence count of every declaration set aside. -/
def Argparsor.forgetCount (self : Argparsor) : Argparsor :=
  { self with arguments := self.arguments.map Argument.forgetCount }

/-- The outcome with the occurrence counts of its registry set aside. -/
def Outcome.forgetCount : Outcome → Outcome
  | .ok self => .ok self.forgetCount
  | .error (e, self) => .error (e, self.forgetCount)

/-- The number of declared positionals not filled yet. -/
def Argparsor.unfilled (self : Argparsor) : Nat :=
  self.arguments.countP Argument.isUnfilledPositional

/-- What a return of an option routine called at `index` in registry `self` satisfies:
the additional arguments are untouched, no positional becomes unfilled, and a
normal return gives an index not below `index` and, like it, below `maxIndex`. -/
def Step.Advances (self : Argparsor) (maxIndex index : Nat) : Step → Prop
  | .ok (i', s') =>
    s'.additionalArguments = self.additionalArguments ∧ s'.unfilled ≤ self.unfilled ∧
      index ≤ i' ∧ (index < maxIndex → i' < maxIndex)
  | .error (e, s') => e ≠ .outOfFuel ∧ s'.additionalArguments = self.additionalArguments

/-- The option declarations of the registry, position by position: a positional
declaration is blanked out. -/
def Argparsor.options (self : Argparsor) : List (Option Argument) :=
  self.arguments.map (fun a => if a._isPositionnalArgument then none else some a)

/-- A validator that accepts and rewrites every value to `X`. -/
def rewriteAll : IValid := ⟨fun arguments => .ok (true, arguments.map (fun _ => ['X']))⟩

/-- The option `--opt` with a rewriting validator, and the required positional `FILE`. -/
def scenarioRewrite : Argparsor :=
  Argparsor.declared
    [{ Argument.declared ["--opt"] .SIMPLE_OPTION 1 with valid := some rewriteAll },
     { Argument.declared ["FILE"] .POSITIONAL_ARGUMENT 1 with isRequired := true }]

/-! ## Lookup by name (`argparsor.h`) -/

/-- `Argparsor::argumentExists`. -/
def Argparsor.argumentExists (self : Argparsor) (nameOrFlag : Str) : Bool :=
  (self.argumentFromName.lookup nameOrFlag).isSome

/-- `Argparsor::getArgument`: the object behind the pointer found in the map, or the
`AccessDeniedException`. The result `none` stands for a pointer that refers to no
node of the list. -/
def Argparsor.getArgument (self : Argparsor) (nameOrFlag : Str) :
    Except Exception (Option Argument) :=
  match self.argumentFromName.lookup nameOrFlag with
  | none => .error (.AccessDeniedException nameOrFlag "argument not found".toList)
  | some p => .ok self.arguments[p]?

/-- The declaration as `addArgument` and the setters leave it: the fields that the
parser writes (`_isExist`, `_count`, `_argument` and the element vector) are
blanked. -/
def Argument.declaration (a : Argument) : Argument :=
  { a with isExist := false, count := 0, argument := [], elements := [] }

/-- Two registries hold the same declarations: the same map from names and flags to
positions, the same help and version option, and, position by position,
declarations that differ at most in the fields the parser writes. -/
def Argparsor.SameDeclarations (self self' : Argparsor) : Prop :=
  self'.argumentFromName = self.argumentFromName ∧ self'.helpOption = self.helpOption ∧
    self'.versionOption = self.versionOption ∧ self'.isAlternative = self.isAlternative ∧
    self'.isStrict = self.isStrict ∧ self'.binaryName = self.binaryName ∧
    self'.arguments.map Argument.declaration = self.arguments.map Argument.declaration

/-- The registry in which a routine leaves the parser, returning or throwing. -/
def Step.state : Step → Argparsor
  | .ok (_, self) => self
  | .error (_, self) => self

/-- The relation between a declaration and what the validation loop leaves of it. -/
def Argument.Validated (a a' : Argument) : Prop :=
  a'.isExist = a.isExist ∧ a'.count = a.count ∧ a'.declaration = a.declaration ∧
    (a.valid = none ∨ a.isExist = false → a' = a)

/-! ## Repeated occurrences of one option -/

/-- The tokens of one occurrence of the option `flag` with the value `v`: the single
token `flag=v` when `inline` is set, the two tokens `flag`, `v` otherwise. -/
def occurrence (flag : Str) : Bool × Str → List Str
  | (true, v) => [flag ++ '=' :: v]
  | (false, v) => [flag, v]

/-- The tokens of the occurrences `occ`, in order. -/
def occurrences (flag : Str) (occ : List (Bool × Str)) : List Str :=
  (occ.map (occurrence flag)).flatten

/-- The declaration after the values `vs` were pushed by one occurrence each: the
first occurrence of an absent declaration clears the element vector, every
occurrence marks the declaration and adds one to its count. -/
def Argument.appended (a : Argument) (vs : List Str) : Argument :=
  match vs with
  | [] => a
  | _ :: _ =>
    { a with
      elements := (if a.isExist = false then [] else a.elements) ++ vs.map ArgumentElement.leaf
      isExist := true
      count := a.count + vs.length }

/-- A `MULTI_OPTION` with the flags `-i` and `--item`. -/
def scenarioMulti : Argparsor :=
  Argparsor.declared [Argument.declared ["-i", "--item"] .MULTI_OPTION 1]

/-- Two options, `--aa` and `--bb`, each with a validator that rejects everything. -/
def scenarioTwoValid : Argparsor :=
  Argparsor.declared
    [{ Argument.declared ["--aa"] .SIMPLE_OPTION 1 with valid := some rejectAll },
     { Argument.declared ["--bb"] .SIMPLE_OPTION 1 with valid := some rejectAll }]

/-! ## Declaring an argument (`Argparsor::addArgument`) -/

/-- The members of `class Argument` that `addArgument` calls and that are defined in a
source file which is not among the sources, taken as parameters: the object
built by `new Argument(*this)`, `validFormatFlag` (`none` when it returns, the
exception when it throws), `_sortNameOrFlags` as a function on the vector of
names, and the comparison `compareOption` handed to `std::list::sort`. -/
structure ArgumentMembers where
  construct : Argument
  validFormatFlag : Str → Option Exception
  sortNameOrFlags : List Str → List Str
  compareOption : Argument → Argument → Bool

/-- `Argparsor::Argparsor(false)`: no declaration, empty map, no help or version option. -/
def Argparsor.new : Argparsor :=
  { binaryName := [], arguments := [], argumentFromName := [], helpOption := none,
    versionOption := none, isAlternative := false, isStrict := false, additionalArguments := [] }

/-- The loop `for (i = 0; i < nameOrFlags.size(); ++i)` of `addArgument`, on the flags
from position `i` on: the first exception thrown, if any. The map is searched
for `nameOrFlags.front()` at every turn. The vector `newFlags` the loop fills is
not read afterwards. -/
def Argparsor.checkFlags (self : Argparsor) (m : ArgumentMembers) (front : Str) :
    List Str → Option Exception
  | [] => none
  | flag :: flags =>
    match m.validFormatFlag flag with
    | some e => some e
    | none =>
      if self.argumentExists front then
        some (.ArgumentException front "invalid flag already exist".toList)
      else self.checkFlags m front flags

/-- `std::map::insert` of the pair `(key, p)`: a key that is in the map keeps its value. -/
def mapInsert (index : List (Str × Nat)) (key : Str) (p : Nat) : List (Str × Nat) :=
  if (index.lookup key).isSome then index else index ++ [(key, p)]

/-- `std::list::sort(comp)` on the nodes, each tagged with its position before the
sort. The sort is stable: a node goes before the first node that `comp` does
not put before it. -/
def sortNodes (comp : Argument → Argument → Bool) (arguments : List Argument) :
    List (Nat × Argument) :=
  arguments.enum.insertionSort (fun x y => comp y.2 x.2 = false)

/-- The position after the sort of the node that was at position `p` before it. A
pointer to a node of a `std::list` follows the node through the sort. -/
def newPosition (nodes : List (Nat × Argument)) (p : Nat) : Nat :=
  nodes.findIdx (fun x => x.1 == p)

/-- The first part of `addArgument`: the object it creates for `nameOrFlags`, whose
first element is `front` and whose other elements are `rest`, or the exception
it throws. -/
def Argparsor.createArgument (self : Argparsor) (m : ArgumentMembers) (front : Str)
    (rest : List Str) : Except Exception Argument :=
  if rest.isEmpty && front.head? != some '-' then
    if front.isEmpty then .error (.ArgumentException [] "bad name argument".toList)
    else if self.argumentExists front then
      .error (.ArgumentException front "bad name argument already exist".toList)
    else
      .ok { m.construct with
        nameOrFlags := m.construct.nameOrFlags ++ [front], nargs := 1,
        type := .POSITIONAL_ARGUMENT }
  else
    match self.checkFlags m front (front :: rest) with
    | some e => .error e
    | none => .ok { m.construct with nameOrFlags := m.sortNameOrFlags (front :: rest) }

/-- `Argparsor::addArgument`: the position of the new declaration and the registry, or
the exception thrown and the registry at the throw. -/
def Argparsor.addArgument (self : Argparsor) (m : ArgumentMembers) (nameOrFlags : List Str) :
    Step :=
  match nameOrFlags with
  | [] => .error (.ArgumentException [] "invalid empty flag".toList, self)
  | front :: rest =>
    match self.createArgument m front rest with
    | .error e => .error (e, self)
    | .ok argument =>
      let p := self.arguments.length
      let index := argument.nameOrFlags.foldl (fun index flag => mapInsert index flag p)
        self.argumentFromName
      let nodes := sortNodes m.compareOption (self.arguments ++ [argument])
      .ok (newPosition nodes p,
        { self with
          arguments := nodes.map Prod.snd
          argumentFromName := index.map (fun kp => (kp.1, newPosition nodes kp.2))
          helpOption := self.helpOption.map (newPosition nodes)
          versionOption := self.versionOption.map (newPosition nodes) })

/-- Modelled from the spec: the members of `class Argument` of the absent source file, for
the evaluation of `addArgument` on given flags. A new declaration is as the
constructor of the earlier header `argparsor-argument.h` builds it: type `NONE`,
absent, not required, never counted, `nargs = 0`, without values or validator.
A flag is well formed when it is one dash and one character that is not a dash,
or two dashes and at least one character; any other string makes
`validFormatFlag` throw. The vector of names is kept in the order given.
`compareOption` puts every option before every positional and orders nothing
else. -/
def specMembers : ArgumentMembers :=
  { construct :=
      { nameOrFlags := [], type := .NONE, isExist := false, isRequired := false,
        count := 0, nargs := 0, argument := [], elements := [], valid := none }
    validFormatFlag := fun flag =>
      if isShortOption flag && flag.length == 2 || isLongOption flag then none
      else some (.ArgumentException flag "invalid flag format".toList)
    sortNameOrFlags := fun nameOrFlags => nameOrFlags
    compareOption := fun first second =>
      !first._isPositionnalArgument && second._isPositionnalArgument }

/-- The registry after `addArgument` was called for each vector of `declarations`, in
order, as long as it returns. -/
def Argparsor.addArguments (self : Argparsor) (m : ArgumentMembers) :
    List (List String) → Argparsor
  | [] => self
  | nameOrFlags :: declarations =>
    match self.addArgument m (args nameOrFlags) with
    | .ok (_, self') => self'.addArguments m declarations
    | .error _ => self

/-- The exception a routine ended with, if it threw. -/
def Step.exception : Step → Option Exception
  | .ok _ => none
  | .error (e, _) => some e

/-- The index a routine returned, if it returned. -/
def Step.index : Step → Option Nat
  | .ok (i, _) => some i
  | .error _ => none

/-- The names and flags of the declarations of the registry, in its order. -/
def Argparsor.names (self : Argparsor) : List (List String) :=
  self.arguments.map (fun a => a.nameOrFlags.map String.mk)

/-- The map from names and flags to positions, as strings. -/
def Argparsor.keys (self : Argparsor) : List (String × Nat) :=
  self.argumentFromName.map (fun kp => (String.mk kp.1, kp.2))

/-- The body of the loop of `parseArguments` for a token that is not `--`: the routine
the token at index `i` is handed to. -/
def Argparsor.parseToken (self : Argparsor) (endIndex : Nat) (argv : List Str) (i : Nat) : Step :=
  if isShortOption (argv.getD i []) then self._parseShortArgument endIndex argv i
  else if isLongOption (argv.getD i []) then self._parseLongArgument endIndex argv i
  else self._parsePositionnalArgument endIndex argv i false

/-! ## Plain tokens and scalar positionals -/

/-- A plain token: neither a short option, nor a long option, nor `--`. -/
def isPlain (token : Str) : Bool :=
  !isShortOption token && !isLongOption token && !isEndOption token

/-- The positional declarations of the registry, in registry order. -/
def Argparsor.positionals (self : Argparsor) : List Argument :=
  self.arguments.filter Argument._isPositionnalArgument

/-- The positionals `p1, p2, ...` after the tokens `t1, t2, ...` were assigned to them
in order: `p_i` holds `t_i` and exists as long as there is a token for it. -/
def assignTokens : List Argument → List Str → List Argument
  | p :: ps, t :: ts => { p with argument := t, isExist := true } :: assignTokens ps ts
  | ps, _ => ps

/-- The declarations after the first unfilled positional of the list received the
token `t`. -/
def fillFirst (t : Str) : List Argument → List Argument
  | [] => []
  | a :: l =>
    if a.isUnfilledPositional then { a with argument := t, isExist := true } :: l
    else a :: fillFirst t l

/-- The declarations after each token of the list, in order, went to the first
positional unfilled at that time. -/
def fillAll : List Str → List Argument → List Argument
  | [], l => l
  | t :: ts, l => fillAll ts (fillFirst t l)

/-- Scenario 1: the required positional `file`. -/
def scenarioFile : Argparsor :=
  Argparsor.declared
    [{ Argument.declared ["file"] .POSITIONAL_ARGUMENT 1 with isRequired := true }]

/-- The required positional `file` with a validator that rewrites every value. -/
def scenarioFileRewrite : Argparsor :=
  Argparsor.declared
    [{ Argument.declared ["file"] .POSITIONAL_ARGUMENT 1 with
        isRequired := true, valid := some rewriteAll }]

/-- An infinite positional `files` and the flag `-v`. -/
def scenarioFiles : Argparsor :=
  Argparsor.declared
    [Argument.declared ["-v"] .BOOLEAN_OPTION 0,
     Argument.declared ["files"] .INFINITE_POSITIONAL_ARGUMENT 0]

/-- The `k` groups of `nargs` tokens each that start at index `i` of `argv`, in order. -/
def groupsFrom (argv : List Str) (nargs : Nat) : Nat → Nat → List ArgumentElement
  | _, 0 => []
  | i, k + 1 =>
    ArgumentElement.group (slice argv i (i + nargs)) :: groupsFrom argv nargs (i + nargs) k

/-- A fixed-arity positional `pair` with `nargs = 2`. -/
def scenarioPair : Argparsor :=
  Argparsor.declared [Argument.declared ["pair"] .NUMBER_POSITIONAL_ARGUMENT 2]

/-- An infinite positional `pairs` that takes groups of `nargs = 2`. -/
def scenarioPairs : Argparsor :=
  Argparsor.declared [Argument.declared ["pairs"] .INFINITE_NUMBER_POSITIONAL_ARGUMENT 2]

/-- The classes of the second branch of the write-back `switch` of the validation loop:
the element vector is a flat list of leaves. -/
def isListClass : Type_ → Bool
  | .NUMBER_OPTION => true
  | .MULTI_OPTION => true
  | .INFINITE_OPTION => true
  | .MULTI_INFINITE_OPTION => true
  | .NUMBER_POSITIONAL_ARGUMENT => true
  | .INFINITE_POSITIONAL_ARGUMENT => true
  | _ => false

/-- The classes of the third branch of the write-back `switch` of the validation loop:
the element vector is a list of groups of leaves. -/
def isGroupedClass : Type_ → Bool
  | .MULTI_NUMBER_OPTION => true
  | .MULTI_NUMBER_INFINITE_OPTION => true
  | .INFINITE_NUMBER_POSITIONAL_ARGUMENT => true
  | _ => false

/-- The sizes of the groups of the value tree, element by element (0 for a leaf). -/
def Argument.shape (a : Argument) : List Nat := a.elements.map (fun e => e.elements.length)

/-- A `MULTI_NUMBER_OPTION` with `nargs = 2` and a validator that rewrites every value. -/
def scenarioAppendRewrite : Argparsor :=
  Argparsor.declared
    [{ Argument.declared ["-a", "--append"] .MULTI_NUMBER_OPTION 2 with
        valid := some rewriteAll }]

/-- A validator whose `isValid` returns `true` on every input and leaves it as it is. -/
def acceptAll : IValid := ⟨fun arguments => .ok (true, arguments)⟩

/-- The flag `-v` with a validator that accepts everything, and the flag `-q` with a
validator that rejects everything. -/
def scenarioFlagValid : Argparsor :=
  Argparsor.declared
    [{ Argument.declared ["-v", "--verbose"] .BOOLEAN_OPTION 0 with valid := some acceptAll },
     { Argument.declared ["-q", "--quiet"] .BOOLEAN_OPTION 0 with valid := some rejectAll }]

/-- Two `SIMPLE_OPTION`s, `-a` and `-b`, and the flag `-v`. -/
def scenarioTwoSimple : Argparsor :=
  Argparsor.declared
    [Argument.declared ["-a"] .SIMPLE_OPTION 1, Argument.declared ["-b"] .SIMPLE_OPTION 1,
     Argument.declared ["-v"] .BOOLEAN_OPTION 0]

/-- The help option `-h`, `--help`, the flag `-v` and the `INFINITE_OPTION` `--tags`. -/
def scenarioHelpTags : Argparsor :=
  { Argparsor.declared
      [Argument.declared ["-h", "--help"] .HELP_OPTION 0,
       Argument.declared ["-v"] .BOOLEAN_OPTION 0,
       Argument.declared ["--tags"] .INFINITE_OPTION 0,
       Argument.declared ["--zeta"] .BOOLEAN_OPTION 0] with
    helpOption := some 0 }

/-- The registry `scenarioHelpTags` once `parseArguments` has set the alternative mode. -/
def scenarioHelpTagsAlternative : Argparsor :=
  { scenarioHelpTags with isAlternative := true }

/-- The flag `-a`, the `MULTI_OPTION` `-b`, `--bee` and the `MULTI_INFINITE_OPTION` `-c`,
`--cee`, the two options holding the default value `d` in their element vector
and not yet matched. -/
def scenarioDefaults : Argparsor :=
  Argparsor.declared
    [Argument.declared ["-a"] .BOOLEAN_OPTION 0,
     { Argument.declared ["-b", "--bee"] .MULTI_OPTION 1 with
       elements := [ArgumentElement.leaf "d".toList] },
     { Argument.declared ["-c", "--cee"] .MULTI_INFINITE_OPTION 1 with
       elements := [ArgumentElement.leaf "d".toList] }]

/-- Two argument vectors of the same length that hold the same tokens from index `i` on. -/
def AgreeFrom (i : Nat) (argv argv' : List Str) : Prop :=
  argv.length = argv'.length ∧ ∀ (j : Nat), i ≤ j → argv[j]? = argv'[j]?

/-- The flags `-a` and `-b` and the `SIMPLE_OPTION` `--ab`. -/
def scenarioAlternative : Argparsor :=
  Argparsor.declared
    [Argument.declared ["-a"] .BOOLEAN_OPTION 0,
     Argument.declared ["-b"] .BOOLEAN_OPTION 0,
     Argument.declared ["--ab"] .SIMPLE_OPTION 1]

/-! ## Word wrap of the usage text (`s_multilineWrap`) -/

/-- The lines that `while (std::getline(iss, line))` yields for the rest `s` of the
stream, `cur` being the characters already read into the current line. A line
ends at `'\n'`, which is dropped, or at the end of the stream; at the end of the
stream a call that extracts no character fails, so an empty last line is not
yielded. -/
def getlinesFrom : Str → Str → List Str
  | cur, [] => if cur.isEmpty then [] else [cur]
  | cur, c :: rest =>
    if c = '\n' then cur :: getlinesFrom [] rest else getlinesFrom (cur ++ [c]) rest

/-- The lines of `std::istringstream iss(str)` read by `std::getline`. -/
def getlines (str : Str) : List Str := getlinesFrom [] str

/-- `line.rfind(ch, pos)`: the last position at or before `pos` that holds `ch`; `none` is
`std::string::npos`. -/
def rfind (row : Str) (ch : Char) : Nat → Option Nat
  | 0 => if row[0]? = some ch then some 0 else none
  | pos + 1 => if row[pos + 1]? = some ch then some (pos + 1) else rfind row ch pos

/-- The loop `while (line.size() >= widthMax)` of `s_multilineWrap` on one line, followed
by `lines.push_back(line)`: the lines pushed, in order. The first argument
bounds the number of turns; `none` is a loop that did not end within it. -/
def wrapLine (widthMax : Nat) : Nat → Str → Option (List Str)
  | 0, _ => none
  | fuel + 1, row =>
    if row.length ≥ widthMax then
      match rfind row ' ' widthMax with
      | some spacePos =>
        match wrapLine widthMax fuel ((row.drop spacePos).dropWhile (· == ' ')) with
        | some lines => some (row.take spacePos :: lines)
        | none => none
      | none => some [row]
    else some [row]

/-- The outer loop of `s_multilineWrap` over the lines read. Every turn of the inner loop
shortens the line, so `line.size() + 1` turns are allowed for each line. -/
def wrapLines (widthMax : Nat) : List Str → Option (List Str)
  | [] => some []
  | row :: rest =>
    match wrapLine widthMax (row.length + 1) row, wrapLines widthMax rest with
    | some first, some others => some (first ++ others)
    | _, _ => none

/-- `s_multilineWrap(str, widthMax)` of `argparsor-argparsor.cpp` and `usage.cpp`. -/
def s_multilineWrap (str : Str) (widthMax : Nat) : Option (List Str) :=
  wrapLines widthMax (getlines str)

/-- The flag `-v`, the `INFINITE_OPTION` `-t`, `--tags` and the `MULTI_INFINITE_OPTION` `-m`,
`--more`. -/
def scenarioInfinite : Argparsor :=
  Argparsor.declared
    [Argument.declared ["-v"] .BOOLEAN_OPTION 0,
     Argument.declared ["-t", "--tags"] .INFINITE_OPTION 0,
     Argument.declared ["-m", "--more"] .MULTI_INFINITE_OPTION 0]

/-- The classes of fixed arity: the element vector receives `_nargs` tokens at once. -/
def isFixedClass : Type_ → Bool
  | .NUMBER_OPTION => true
  | .NUMBER_POSITIONAL_ARGUMENT => true
  | _ => false

/-- Every declaration of a fixed or grouped class has `_nargs >= 1`. -/
def Argparsor.Counted (self : Argparsor) : Prop :=
  ∀ a ∈ self.arguments, (isFixedClass a.type || isGroupedClass a.type) = true → 1 ≤ a.nargs

/-- The `INFINITE_OPTION` `--tags` and the infinite positional `files`. -/
def scenarioTagsFiles : Argparsor :=
  Argparsor.declared
    [Argument.declared ["--tags"] .INFINITE_OPTION 0,
     Argument.declared ["files"] .INFINITE_POSITIONAL_ARGUMENT 0]

/-! ## The two modes of `parseArguments` -/

/-- The registry with `_isAlternative` and `_isStrict` set as given and nothing else
changed. -/
def Argparsor.withModes (self : Argparsor) (alternative strict : Bool) : Argparsor :=
  { self with isAlternative := alternative, isStrict := strict }

/-- The result of a routine with the modes of its registry set as given. -/
def Step.withModes (r : Step) (alternative strict : Bool) : Step :=
  match r with
  | .ok (i, s) => .ok (i, s.withModes alternative strict)
  | .error (e, s) => .error (e, s.withModes alternative strict)

/-- The outcome with the modes of its registry set as given. -/
def Outcome.withModes (r : Outcome) (alternative strict : Bool) : Outcome :=
  match r with
  | .ok s => .ok (s.withModes alternative strict)
  | .error (e, s) => .error (e, s.withModes alternative strict)

/-- The alternative lookup makes no difference for the tokens of `argv`: the mode is the
one of the registry, or no short token of `argv` has its option string, with one
more dash in front, in the map. -/
def Argparsor.ModesAgree (self : Argparsor) (alternative : Bool) (argv : List Str) : Prop :=
  alternative = self.isAlternative ∨
    ∀ t ∈ argv, isShortOption t = true → self.find ('-' :: (takeArg t).2.1) = none

/-- How the outcome `S` of a run in strict mode follows from the outcome `N` of the same
run outside of it, `add` being the additional arguments at the start: `S`
returns the registry of `N`, in strict mode, when `N` returns without having
added any, and throws in every other case. -/
def StrictRefines (N S : Outcome) (add : List Str) (alternative : Bool) : Prop :=
  match N with
  | .ok t =>
    (t.additionalArguments = add → S = .ok (t.withModes alternative true)) ∧
      (t.additionalArguments ≠ add → ∃ x, S = .error x)
  | .error _ => ∃ x, S = .error x

/-- The value tree of the declaration has the shape of its class: groups of `_nargs`
tokens for a grouped class and leaves for every other class, nothing as long as
the declaration is absent, and `_nargs` elements for a fixed class that
exists. -/
def Argument.Shaped (a : Argument) : Prop :=
  (isGroupedClass a.type = true → ∀ n ∈ a.shape, n = a.nargs) ∧
  (isGroupedClass a.type = false → ∀ n ∈ a.shape, n = 0) ∧
  (a.isExist = false → a.shape = []) ∧
  (isFixedClass a.type = true → a.isExist = true → a.shape.length = a.nargs)

/-- A key that starts with a dash belongs to an option, not to a positional. -/
def Argparsor.FlagsAreOptions (self : Argparsor) : Prop :=
  ∀ (key : Str) (p : Nat) (a : Argument), self.find ('-' :: key) = some (p, a) →
    a._isPositionnalArgument = false

/-- Scenario 2 as a parse that threw leaves it: `--count 1 2 --count 3` throws
`bad number of argument` at the second `--count`, after its `clear()`. -/
def scenarioStale : Argparsor :=
  (scenario2.parseArguments (args ["prog", "--count", "1", "2", "--count", "3"]) false
    false).state

/-! ## The routines with the machine integers

`_nargs` is a `std::size_t` and `*index`, `maxIndex`, `argc` are `int`s. Where
the source adds the two, the `int` is converted and the sum is taken on
`std::size_t`, modulo `2^64` on the platforms with a 64-bit `std::size_t`. The
routines of this section follow the source there; everywhere else they are the
routines above, with which they agree as long as no such sum reaches `2^64`
(`machine_parseArguments_eq`). An `int` that stays between `0` and `argc` is a
`Nat`; the index written back by `_parsePositionnalArgument` can be `-1` and is
an `Int`. -/

/-- The sum `*index + _nargs` of an `int` and a `std::size_t`, taken on `std::size_t`. -/
def sizeAdd (index nargs : Nat) : Nat := (index + nargs) % 2 ^ 64

/-- The value of `countArg` after a loop over groups: one for each token pushed. -/
def countArg (groups : List ArgumentElement) : Nat :=
  (groups.map (fun g => g.elements.length)).sum

/-- The result of `_parsePositionnalArgument`, whose `*index` can be `-1`. -/
abbrev IntStep := Except (Exception × Argparsor) (Int × Argparsor)

/-- The result of a routine with its index as an `int`. -/
def Step.toInt : Step → IntStep
  | .ok (i, s) => .ok ((i : Int), s)
  | .error e => .error e

namespace Machine

/-- The loop `for (int i = ..; i < maxIndex; i += _nargs)` of
`MULTI_NUMBER_INFINITE_OPTION` and `INFINITE_NUMBER_POSITIONAL_ARGUMENT`. The
test `i + _nargs > maxIndex`, the bound `j < i + _nargs` of the inner loop and
the step `i += _nargs` all use the sum on `std::size_t`: when it wraps, the
group pushed is empty and `i` steps back. A sum that passed the test is at most
`maxIndex` and converts back to `int` unchanged. The budget is exhausted when
`_nargs` is `0`, where the loop never leaves its token. -/
def groupLoop (stop : Str → Bool) (argv : List Str) (maxIndex nargs : Nat) :
    Nat → Nat → List ArgumentElement × GroupEnd
  | 0, _ => ([], .nonTermination)
  | fuel + 1, i =>
    if i < maxIndex then
      if stop (argv.getD i []) then ([], .done)
      else if sizeAdd i nargs > maxIndex then ([], .badNumber)
      else
        let (groups, e) := groupLoop stop argv maxIndex nargs fuel (sizeAdd i nargs)
        (ArgumentElement.group (slice argv i (sizeAdd i nargs)) :: groups, e)
    else ([], .done)

/-- `Argparsor::_parseArgument`. In the branches of `NUMBER_OPTION` and
`MULTI_NUMBER_OPTION` the sum `*index + _nargs` of the test, of the bound
`i <= *index + _nargs` of the loop and of `*index += _nargs` is the one on
`std::size_t`; a sum that passed the test is below `maxIndex` and converts back
to `int` unchanged. `MULTI_NUMBER_INFINITE_OPTION` adds `countArg` to the
index. -/
def _parseArgument (self : Argparsor) (maxIndex : Nat) (argv : List Str) (index : Nat)
    (hasArg : Bool) (option arg : Str) (p : Nat) (a : Argument) : Step :=
  if hasArg then
    match a.type with
    | .SIMPLE_OPTION => .ok (index, self.store p { a with argument := arg }.matched)
    | .NUMBER_OPTION | .MULTI_NUMBER_OPTION | .MULTI_NUMBER_INFINITE_OPTION =>
      (self.store p a).throwParse option "option cannot use with only 1 argument"
    | .INFINITE_OPTION => .ok (index, self.store p (a.clear.push_back arg).matched)
    | .MULTI_OPTION | .MULTI_INFINITE_OPTION =>
      let a1 := if a.isExist = false then a.clear else a
      .ok (index, self.store p (a1.push_back arg).matched)
    | _ => (self.store p a).throwParse option "option cannot use with argument"
  else
    match a.type with
    | .SIMPLE_OPTION =>
      if index + 1 ≥ maxIndex then (self.store p a).throwParse option "bad number of argument"
      else .ok (index + 1, self.store p { a with argument := argv.getD (index + 1) [] }.matched)
    | .NUMBER_OPTION =>
      let a1 := a.clear
      if sizeAdd index a.nargs ≥ maxIndex then
        (self.store p a1).throwParse option "bad number of argument"
      else
        .ok (sizeAdd index a.nargs,
          self.store p
            (a1.push_backs (slice argv (index + 1) (sizeAdd index a.nargs + 1))).matched)
    | .INFINITE_OPTION =>
      let a1 := a.clear
      let args := (slice argv (index + 1) maxIndex).takeWhile (fun t => !self._endOfInfiniteArgument t)
      .ok (index + args.length, self.store p (a1.push_backs args).matched)
    | .MULTI_OPTION =>
      let a1 := if a.isExist = false then a.clear else a
      if index + 1 ≥ maxIndex then (self.store p a1).throwParse option "bad number of argument"
      else .ok (index + 1, self.store p (a1.push_back (argv.getD (index + 1) [])).matched)
    | .MULTI_INFINITE_OPTION =>
      let a1 := if a.isExist = false then a.clear else a
      let args := (slice argv (index + 1) maxIndex).takeWhile (fun t => !self._endOfInfiniteArgument t)
      .ok (index + args.length, self.store p (a1.push_backs args).matched)
    | .MULTI_NUMBER_OPTION =>
      let a1 := if a.isExist = false then a.clear else a
      if sizeAdd index a.nargs ≥ maxIndex then
        (self.store p a1).throwParse option "bad number of argument"
      else
        let newNumberArgument :=
          ArgumentElement.group (slice argv (index + 1) (sizeAdd index a.nargs + 1))
        .ok (sizeAdd index a.nargs,
          self.store p { a1 with elements := a1.elements ++ [newNumberArgument] }.matched)
    | .MULTI_NUMBER_INFINITE_OPTION =>
      let a1 := if a.isExist = false then a.clear else a
      let (groups, e) :=
        groupLoop self._endOfInfiniteArgument argv maxIndex a.nargs (maxIndex + 1) (index + 1)
      let a2 := { a1 with elements := a1.elements ++ groups }
      match e with
      | .done => .ok (index + countArg groups, self.store p a2.matched)
      | .badNumber => (self.store p a2).throwParse option "bad number of argument"
      | .nonTermination => .error (.nonTermination, self.store p a1)
    | _ => .ok (index, self.store p a.matched)

/-- The cluster loop of `_parseShortArgument` and its "get last option" part, as
`Argparsor.parseShortLoop`. -/
def parseShortLoop (maxIndex : Nat) (argv : List Str) (index : Nat) (hasArg : Bool)
    (arg last : Str) : Argparsor → List Char → Step
  | self, c :: c' :: r =>
    match self.find ['-', c] with
    | none => self.throwParse [c] "invalid option"
    | some (p, a) =>
      if !hasArg && takesParameter a.type then
        _parseArgument self maxIndex argv index true [c] (c' :: r) p a.matched
      else if !isBoolean a.type then
        self.throwParse [c] "only last option can be use a parameter"
      else
        parseShortLoop maxIndex argv index hasArg arg last (self.store p a.matched) (c' :: r)
  | self, _ =>
    match self.find ('-' :: last) with
    | none => self.throwParse last "invalid option"
    | some (p, a) => _parseArgument self maxIndex argv index hasArg last arg p a

/-- `Argparsor::_parseShortArgument`. -/
def _parseShortArgument (self : Argparsor) (maxIndex : Nat) (argv : List Str) (index : Nat) :
    Step :=
  let (hasArg, options, arg) := takeArg (argv.getD index [])
  match (if self.isAlternative then self.find ('-' :: options) else none) with
  | some (p, a) => _parseArgument self maxIndex argv index hasArg (options.drop 1) arg p a
  | none =>
    parseShortLoop maxIndex argv index hasArg arg options.getLast?.toList self (options.drop 1)

/-- `Argparsor::_parseLongArgument`. -/
def _parseLongArgument (self : Argparsor) (maxIndex : Nat) (argv : List Str) (index : Nat) :
    Step :=
  let (hasArg, option, arg) := takeArg (argv.getD index [])
  match self.find option with
  | none => self.throwParse (option.drop 2) "invalid option"
  | some (p, a) => _parseArgument self maxIndex argv index hasArg (option.drop 2) arg p a

/-- `Argparsor::_parsePositionnalArgument`. The index written back is
`*index + n - 1` for `n` tokens consumed, the `- 1` being taken on `std::size_t`
first: the `int` is one less than the sum, and `-1` when the sum is `0`. For a
`NUMBER_POSITIONAL_ARGUMENT` the sum is `*index + _nargs` on `std::size_t`, the
one of the test and of the bound of the loop. -/
def _parsePositionnalArgument (self : Argparsor) (argc : Nat) (argv : List Str) (index : Nat)
    (hasEndOption : Bool) : IntStep :=
  let q := self.arguments.findIdx Argument.isUnfilledPositional
  match self.arguments[q]? with
  | some a =>
    match a.type with
    | .POSITIONAL_ARGUMENT =>
      .ok (index, self.store q { a with argument := argv.getD index [], isExist := true })
    | .NUMBER_POSITIONAL_ARGUMENT =>
      if sizeAdd index a.nargs > argc then
        (self.throwParse a.front "bad number of argument").toInt
      else
        .ok ((sizeAdd index a.nargs : Int) - 1,
          self.store q
            { a.push_backs (slice argv index (sizeAdd index a.nargs)) with isExist := true })
    | .INFINITE_POSITIONAL_ARGUMENT =>
      let args := (slice argv index argc).takeWhile
        (fun t => !(!hasEndOption && self._endOfInfiniteArgument t))
      .ok ((index + args.length : Int) - 1,
        self.store q { a.push_backs args with isExist := true })
    | .INFINITE_NUMBER_POSITIONAL_ARGUMENT =>
      let (groups, e) :=
        groupLoop (fun t => !hasEndOption && self._endOfInfiniteArgument t) argv argc a.nargs
          (argc + 1) index
      let a2 := { a with elements := a.elements ++ groups }
      match e with
      | .done =>
        .ok ((index + countArg groups : Int) - 1, self.store q { a2 with isExist := true })
      | .badNumber => ((self.store q a2).throwParse a.front "bad number of argument").toInt
      | .nonTermination => .error (.nonTermination, self)
    | _ => .ok (index, self.store q { a with isExist := true })
  | none =>
    if self.isStrict then
      (self.throwParse (argv.getD index []) "invalid additional argument").toInt
    else
      .ok (index,
        { self with additionalArguments := self.additionalArguments ++ [argv.getD index []] })

/-- The loop `while (i < argc) { _parsePositionnalArgument(argc, argv, &i, true); ++i; }`
that follows the end-of-options marker; `fuel` bounds the number of iterations. -/
def afterEndOption : Nat → Argparsor → List Str → Nat → Outcome
  | 0, self, _, _ => .error (.outOfFuel, self)
  | fuel + 1, self, argv, i =>
    if i < argv.length then
      match _parsePositionnalArgument self argv.length argv i true with
      | .error e => .error e
      | .ok (i', self') => afterEndOption fuel self' argv (i' + 1).toNat
    else .ok self

/-- The loop `for (int i = 1; i < argc; ++i)` of `parseArguments`, from index `i`;
`fuel` bounds the number of iterations. -/
def walk : Nat → Argparsor → Nat → List Str → Nat → Outcome
  | 0, self, _, _, _ => .error (.outOfFuel, self)
  | fuel + 1, self, endIndex, argv, i =>
    if i < argv.length then
      if isShortOption (argv.getD i []) then
        match _parseShortArgument self endIndex argv i with
        | .error e => .error e
        | .ok (i', self') => walk fuel self' endIndex argv (i' + 1)
      else if isLongOption (argv.getD i []) then
        match _parseLongArgument self endIndex argv i with
        | .error e => .error e
        | .ok (i', self') => walk fuel self' endIndex argv (i' + 1)
      else if isEndOption (argv.getD i []) then
        afterEndOption fuel self argv (i + 1)
      else
        match _parsePositionnalArgument self endIndex argv i false with
        | .error e => .error e
        | .ok (i', self') => walk fuel self' endIndex argv (i' + 1).toNat
    else .ok self

/-- The token walk of `parseArguments` within `fuel` iterations: the outcome is
`outOfFuel` when the loop needs more. -/
def parseTokens (fuel : Nat) (self : Argparsor) (argv : List Str) (alternative strict : Bool) :
    Outcome :=
  walk fuel (self.begin argv alternative strict) (endOptionIndex argv) argv 1

/-- `Argparsor::parseArguments(argc, argv, alternative, strict)` within `fuel` iterations of
its token walk. -/
def parseArguments (fuel : Nat) (self : Argparsor) (argv : List Str)
    (alternative strict : Bool) : Outcome :=
  match parseTokens fuel self argv alternative strict with
  | .error e => .error e
  | .ok self' => self'.afterWalk

end Machine

/-- No sum `index + _nargs` formed on an argument vector of `argc` tokens reaches
`2^64`. -/
def Argparsor.InRange (self : Argparsor) (argc : Nat) : Prop :=
  ∀ a ∈ self.arguments, argc + a.nargs < 2 ^ 64

/-- The option `-n`, `--count` with `_nargs = 2^64 - 1`, next to the flag `-v`. -/
def scenarioWrapOption : Argparsor :=
  Argparsor.declared
    [Argument.declared ["-v", "--verbose"] .BOOLEAN_OPTION 0,
     Argument.declared ["-n", "--count"] .NUMBER_OPTION (2 ^ 64 - 1)]

/-- The positional `pair` of fixed arity `2^64 - 1`. -/
def scenarioWrapPositional : Argparsor :=
  Argparsor.declared [Argument.declared ["pair"] .NUMBER_POSITIONAL_ARGUMENT (2 ^ 64 - 1)]

/-- The flag `-v` and the grouped infinite positional `pairs` with `_nargs = 2^64 - 1`. -/
def scenarioWrapGroups : Argparsor :=
  Argparsor.declared
    [Argument.declared ["-v"] .BOOLEAN_OPTION 0,
     Argument.declared ["pairs"] .INFINITE_NUMBER_POSITIONAL_ARGUMENT (2 ^ 64 - 1)]

/-- Two options of two values, `--first` and `--second`, and `-n` with
`_nargs = 2^64 - 4`. -/
def scenarioWrapOrder : Argparsor :=
  Argparsor.declared
    [Argument.declared ["--first"] .NUMBER_OPTION 2,
     Argument.declared ["--second"] .NUMBER_OPTION 2,
     Argument.declared ["-n"] .NUMBER_OPTION (2 ^ 64 - 4)]

/-- The body of the loop of `parseArguments` for a token that is not `--`, with the
machine integers: the routine the token at index `i` is handed to, and the `int`
it leaves in `i`. -/
def Machine.parseToken (self : Argparsor) (endIndex : Nat) (argv : List Str) (i : Nat) :
    IntStep :=
  if isShortOption (argv.getD i []) then (Machine._parseShortArgument self endIndex argv i).toInt
  else if isLongOption (argv.getD i []) then
    (Machine._parseLongArgument self endIndex argv i).toInt
  else Machine._parsePositionnalArgument self endIndex argv i false

/-- The indices that the loop after the end-of-options marker hands to
`_parsePositionnalArgument` while no positional is unfilled, in the order in
which the loop meets them. -/
def Machine.afterEndOptionReached : Nat → Argparsor → List Str → Nat → List Nat
  | 0, _, _, _ => []
  | fuel + 1, self, argv, i =>
    if i < argv.length then
      match Machine._parsePositionnalArgument self argv.length argv i true with
      | .error _ => []
      | .ok (i', self') =>
        if self.unfilled = 0 then
          i :: Machine.afterEndOptionReached fuel self' argv (i' + 1).toNat
        else Machine.afterEndOptionReached fuel self' argv (i' + 1).toNat
    else []

/-- The indices that the token walk hands to `_parsePositionnalArgument` while no
positional is unfilled, in the order in which the walk meets them. -/
def Machine.walkReached : Nat → Argparsor → Nat → List Str → Nat → List Nat
  | 0, _, _, _, _ => []
  | fuel + 1, self, endIndex, argv, i =>
    if i < argv.length then
      if isShortOption (argv.getD i []) then
        match Machine._parseShortArgument self endIndex argv i with
        | .error _ => []
        | .ok (i', self') => Machine.walkReached fuel self' endIndex argv (i' + 1)
      else if isLongOption (argv.getD i []) then
        match Machine._parseLongArgument self endIndex argv i with
        | .error _ => []
        | .ok (i', self') => Machine.walkReached fuel self' endIndex argv (i' + 1)
      else if isEndOption (argv.getD i []) then
        Machine.afterEndOptionReached fuel self argv (i + 1)
      else
        match Machine._parsePositionnalArgument self endIndex argv i false with
        | .error _ => []
        | .ok (i', self') =>
          if self.unfilled = 0 then i :: Machine.walkReached fuel self' endIndex argv (i' + 1).toNat
          else Machine.walkReached fuel self' endIndex argv (i' + 1).toNat
    else []

/-- The `SIMPLE_OPTION` `-o`, `--opt` next to flags named `--o` and `--ov`. -/
def scenarioSimpleLong : Argparsor :=
  Argparsor.declared
    [Argument.declared ["-o", "--opt"] .SIMPLE_OPTION 1,
     Argument.declared ["--o"] .BOOLEAN_OPTION 0,
     Argument.declared ["--ov"] .BOOLEAN_OPTION 0]

/-! ## Basic facts -/

theorem takeArg_noEq (t : Str) (h : '=' ∉ t) : takeArg t = (false, t, []) := by
  have : t.dropWhile (· != '=') = [] := by
    rw [List.dropWhile_eq_nil_iff]
    intro c hc
    have : c ≠ '=' := fun e => h (e ▸ hc)
    simpa using this
  simp [takeArg, this]

theorem takeArg_eq (t v : Str) (h : '=' ∉ t) : takeArg (t ++ '=' :: v) = (true, t, v) := by
  have h1 : (t ++ '=' :: v).dropWhile (· != '=') = '=' :: v := by
    induction t with
    | nil => simp
    | cons c t ih =>
      have hc : c ≠ '=' := fun e => h (by simp [e])
      have ht : '=' ∉ t := fun e => h (by simp [e])
      simp [List.dropWhile_cons, hc, ih ht]
  have h2 : (t ++ '=' :: v).takeWhile (· != '=') = t := by
    clear h1
    induction t with
    | nil => simp
    | cons c t ih =>
      have hc : c ≠ '=' := fun e => h (by simp [e])
      have ht : '=' ∉ t := fun e => h (by simp [e])
      simp [List.takeWhile_cons, hc, ih ht]
  simp [takeArg, h1, h2]

theorem walk_succ (fuel : Nat) (self : Argparsor) (endIndex : Nat) (argv : List Str) (i : Nat) :
    Argparsor.walk (fuel + 1) self endIndex argv i =
      if i < argv.length then
        if isShortOption (argv.getD i []) then
          match self._parseShortArgument endIndex argv i with
          | .error e => .error e
          | .ok (i', self') => Argparsor.walk fuel self' endIndex argv (i' + 1)
        else if isLongOption (argv.getD i []) then
          match self._parseLongArgument endIndex argv i with
          | .error e => .error e
          | .ok (i', self') => Argparsor.walk fuel self' endIndex argv (i' + 1)
        else if isEndOption (argv.getD i []) then
          Argparsor.afterEndOption fuel self argv (i + 1)
        else
          match self._parsePositionnalArgument endIndex argv i false with
          | .error e => .error e
          | .ok (i', self') => Argparsor.walk fuel self' endIndex argv (i' + 1)
      else .ok self := rfl

theorem afterEndOption_succ (fuel : Nat) (self : Argparsor) (argv : List Str) (i : Nat) :
    Argparsor.afterEndOption (fuel + 1) self argv i =
      if i < argv.length then
        match self._parsePositionnalArgument argv.length argv i true with
        | .error e => .error e
        | .ok (i', self') => Argparsor.afterEndOption fuel self' argv (i' + 1)
      else .ok self := rfl

theorem getD_of_getElem? {argv : List Str} {i : Nat} {tok : Str} (h : argv[i]? = some tok) :
    argv.getD i [] = tok := by
  simp [List.getD, h]

theorem lt_of_getElem? {argv : List Str} {i : Nat} {tok : Str} (h : argv[i]? = some tok) :
    i < argv.length := by
  rcases Nat.lt_or_ge i argv.length with h' | h'
  · exact h'
  · rw [List.getElem?_eq_none h'] at h; cases h

/-- C4. An undeclared long option `--name` or `--name=value` met by the walk at any
index raises `invalid option` carrying exactly `name` and leaves the registry as
it was; as the first token after the program name it makes `parseArguments`
raise that error. -/
theorem unknown_long_option (self : Argparsor) (name suffix : Str)
    (hname : '=' ∉ name)
    (hsuffix : suffix = [] ∨ ∃ value, suffix = '=' :: value)
    (hlong : name ≠ [] ∨ suffix ≠ [])
    (hfind : self.find ('-' :: '-' :: name) = none) :
    (∀ (fuel endIndex : Nat) (argv : List Str) (i : Nat),
        argv[i]? = some ('-' :: '-' :: name ++ suffix) →
        self.walk (fuel + 1) endIndex argv i =
          .error (.ParseArgumentException name "invalid option".toList, self)) ∧
    (∀ (prog : Str) (rest : List Str) (alternative strict : Bool),
        self.parseArguments (prog :: ('-' :: '-' :: name ++ suffix) :: rest) alternative strict =
          .error (.ParseArgumentException name "invalid option".toList,
            self.begin (prog :: ('-' :: '-' :: name ++ suffix) :: rest) alternative strict)) := by
  have hshort : isShortOption ('-' :: '-' :: name ++ suffix) = false := by
    cases h : name ++ suffix <;> simp [isShortOption, h]
  have hlong' : isLongOption ('-' :: '-' :: name ++ suffix) = true := by
    cases h : name ++ suffix with
    | nil => simp at h; rcases hlong with h' | h' <;> simp_all
    | cons c r => simp [isLongOption, h]
  have htake : ∃ b v, takeArg ('-' :: '-' :: name ++ suffix) = (b, '-' :: '-' :: name, v) := by
    have hn : '=' ∉ '-' :: '-' :: name := by simp [hname]
    rcases hsuffix with h | ⟨value, h⟩
    · subst h
      refine ⟨false, [], ?_⟩
      have := takeArg_noEq _ hn
      simpa using this
    · subst h
      refine ⟨true, value, ?_⟩
      have := takeArg_eq _ value hn
      simpa using this
  have key : ∀ (s : Argparsor), s.find ('-' :: '-' :: name) = none →
      ∀ (fuel endIndex : Nat) (argv : List Str) (i : Nat),
        argv[i]? = some ('-' :: '-' :: name ++ suffix) →
        s.walk (fuel + 1) endIndex argv i =
          .error (.ParseArgumentException name "invalid option".toList, s) := by
    intro s hs fuel endIndex argv i hi
    obtain ⟨b, v, hbv⟩ := htake
    rw [walk_succ, if_pos (lt_of_getElem? hi), getD_of_getElem? hi, hshort, hlong']
    simp only [Argparsor._parseLongArgument, getD_of_getElem? hi, hbv, hs, Argparsor.throwParse,
      List.drop_succ_cons, List.drop_zero]
    simp
  refine ⟨key self hfind, ?_⟩
  intro prog rest alternative strict
  have hb : (self.begin (prog :: ('-' :: '-' :: name ++ suffix) :: rest) alternative strict).find
      ('-' :: '-' :: name) = none := hfind
  unfold Argparsor.parseArguments Argparsor.parseTokens
  have hfuel : (prog :: ('-' :: '-' :: name ++ suffix) :: rest).length + self.arguments.length
      = (rest.length + 1 + self.arguments.length) + 1 := by simp; omega
  rw [hfuel, key _ hb _ _ _ 1 (by simp)]

theorem parsePositionnal_none (self : Argparsor) (argc : Nat) (argv : List Str) (i : Nat)
    (hasEnd : Bool) (hfilled : ∀ a ∈ self.arguments, a.isUnfilledPositional = false) :
    self._parsePositionnalArgument argc argv i hasEnd =
      if self.isStrict then
        self.throwParse (argv.getD i []) "invalid additional argument"
      else
        .ok (i, { self with
          additionalArguments := self.additionalArguments ++ [argv.getD i []] }) := by
  have h : self.arguments.findIdx Argument.isUnfilledPositional = self.arguments.length :=
    List.findIdx_eq_length.mpr hfilled
  simp only [Argparsor._parsePositionnalArgument, h, List.getElem?_eq_none (Nat.le_refl _)]

/-- C7. In strict mode a token that reaches the positional consumption while no
declared positional is unfilled raises `invalid additional argument` carrying
that token, and the registry, its additional-arguments list included, is left
as it was: in `_parsePositionnalArgument` itself, for a plain token met by the
walk before `--`, and for any token met by the loop that follows `--`. -/
theorem strict_additional_raises (self : Argparsor) (argv : List Str) (i : Nat)
    (hstrict : self.isStrict = true)
    (hfilled : ∀ a ∈ self.arguments, a.isUnfilledPositional = false)
    (hi : i < argv.length) :
    (∀ (argc : Nat) (hasEnd : Bool),
        self._parsePositionnalArgument argc argv i hasEnd =
          .error (.ParseArgumentException (argv.getD i []) "invalid additional argument".toList,
            self)) ∧
    (∀ (fuel endIndex : Nat), isShortOption (argv.getD i []) = false →
        isLongOption (argv.getD i []) = false → isEndOption (argv.getD i []) = false →
        self.walk (fuel + 1) endIndex argv i =
          .error (.ParseArgumentException (argv.getD i []) "invalid additional argument".toList,
            self)) ∧
    (∀ (fuel : Nat),
        self.afterEndOption (fuel + 1) argv i =
          .error (.ParseArgumentException (argv.getD i []) "invalid additional argument".toList,
            self)) ∧
    (∀ (fuel endIndex k : Nat), k + 1 = i → isEndOption (argv.getD k []) = true →
        self.walk (fuel + 2) endIndex argv k =
          .error (.ParseArgumentException (argv.getD i []) "invalid additional argument".toList,
            self)) := by
  have h0 : ∀ (argc : Nat) (hasEnd : Bool),
      self._parsePositionnalArgument argc argv i hasEnd =
        .error (.ParseArgumentException (argv.getD i []) "invalid additional argument".toList,
          self) := by
    intro argc hasEnd
    rw [parsePositionnal_none self argc argv i hasEnd hfilled, if_pos hstrict]
    rfl
  have h2 : ∀ (fuel : Nat),
      self.afterEndOption (fuel + 1) argv i =
        .error (.ParseArgumentException (argv.getD i []) "invalid additional argument".toList,
          self) := by
    intro fuel
    rw [afterEndOption_succ, if_pos hi, h0]
  refine ⟨h0, ?_, h2, ?_⟩
  · intro fuel endIndex hs hl he
    rw [walk_succ, if_pos hi, hs, hl, he, h0]
    simp
  · intro fuel endIndex k hk he
    have hk' : k < argv.length := by omega
    have hs : isShortOption (argv.getD k []) = false := by
      simp only [isEndOption, beq_iff_eq] at he
      rw [he]; rfl
    have hl : isLongOption (argv.getD k []) = false := by
      simp only [isEndOption, beq_iff_eq] at he
      rw [he]; rfl
    rw [walk_succ, if_pos hk', hs, hl, he, hk, h2]
    simp

/-- C5. When the token walk returns normally and neither the help nor the version
option was matched, the first declaration (in registry order) that is required
and absent makes `parseArguments` raise the required-missing error naming its
first name or flag, in the registry the walk produced; no validator has run. -/
theorem required_missing (self : Argparsor) (argv : List Str) (alternative strict : Bool)
    (self' : Argparsor) (pre post : List Argument) (a : Argument)
    (hwalk : self.parseTokens argv alternative strict = .ok self')
    (hhelp : self'.optionExists self'.helpOption = false)
    (hversion : self'.optionExists self'.versionOption = false)
    (hsplit : self'.arguments = pre ++ a :: post)
    (hpre : ∀ b ∈ pre, b.isRequired = true → b.isExist = true)
    (hreq : a.isRequired = true) (hex : a.isExist = false) :
    self.parseArguments argv alternative strict =
      .error (.ParseArgumentRequiredException a.front
        (if a.type = .POSITIONAL_ARGUMENT then "argument is required".toList
         else "option is required".toList), self') := by
  have hfind : self'.arguments.find? (fun a => a.isRequired && a.isExist == false) = some a := by
    have hnone : pre.find? (fun a => a.isRequired && a.isExist == false) = none := by
      rw [List.find?_eq_none]
      intro b hb
      cases hr : b.isRequired
      · simp
      · simp [hpre b hb hr]
    rw [hsplit, List.find?_append, hnone]
    simp [List.find?_cons, hreq, hex]
  simp only [Argparsor.parseArguments, hwalk, Argparsor.afterWalk, hhelp, hversion, hfind,
    Argument.requiredException]
  by_cases ht : a.type = .POSITIONAL_ARGUMENT <;> simp [ht]

theorem slice_length (argv : List Str) (a b : Nat) (hb : b ≤ argv.length) :
    (slice argv a b).length = b - a := by
  simp [slice, Nat.min_eq_left hb]

theorem slice_getElem? (argv : List Str) (a b j : Nat) :
    (slice argv a b)[j]? = if a + j < b then argv[a + j]? else none := by
  simp [slice, List.getElem?_take]

theorem slice_eq_map (argv : List Str) (a b : Nat) (hb : b ≤ argv.length) :
    slice argv a b = (List.range' a (b - a)).map (fun j => argv.getD j []) := by
  apply List.ext_getElem?
  intro j
  rw [slice_getElem?]
  by_cases h : a + j < b
  · have h1 : j < b - a := by omega
    have h2 : a + j < argv.length := by omega
    simp [h, h1, List.getElem?_range', List.getD, List.getElem?_eq_getElem h2]
  · have h1 : ¬ j < b - a := by omega
    have h3 : (List.range' a (b - a))[j]? = none :=
      List.getElem?_eq_none (by simp; omega)
    simp [h, h3]

theorem endOptionIndex_le (argv : List Str) : endOptionIndex argv ≤ argv.length :=
  List.findIdx_le_length _

theorem isShortOption_of_isLongOption {tok : Str} (h : isLongOption tok = true) :
    isShortOption tok = false := by
  unfold isLongOption at h
  split at h
  · rfl
  · cases h

theorem takeWhile_spec {α : Type} (P : α → Bool) (L : List α) :
    L.takeWhile P = L.take (L.takeWhile P).length ∧
    (∀ t, t < (L.takeWhile P).length → ∀ x, L[t]? = some x → P x = true) ∧
    (∀ x, L[(L.takeWhile P).length]? = some x → P x = false) := by
  induction L with
  | nil => simp
  | cons y L ih =>
    cases hy : P y
    · simp [List.takeWhile_cons, hy]
    · obtain ⟨h1, h2, h3⟩ := ih
      refine ⟨?_, ?_, ?_⟩
      · simp only [List.takeWhile_cons, hy, if_true, List.length_cons, List.take_succ_cons]
        rw [← h1]
      · intro t ht x hx
        simp only [List.takeWhile_cons, hy, if_true, List.length_cons] at ht
        cases t with
        | zero => simp at hx; rw [← hx]; exact hy
        | succ t => simp at hx; exact h2 t (by omega) x hx
      · intro x hx
        simp only [List.takeWhile_cons, hy, if_true, List.length_cons,
          List.getElem?_cons_succ] at hx
        exact h3 x hx

/-- C10. An `INFINITE_OPTION` or `MULTI_INFINITE_OPTION` matched without inline value at
index `i` before the first `--` consumes exactly the tokens `argv[i+1..j)`, where
`j` is the smallest index above `i` that is the index of the first `--` (or
`argc`) or holds a token `_endOfInfiniteArgument` accepts; the index returned is
`j - 1`, so the walk resumes at `j`. A `--` met by the walk hands every later
token to the positional consumption. Scenario 3 gives `tags == ["a", "b"]` and
the additional argument `"c"`. -/
theorem infinite_option_stops (self : Argparsor) (argv : List Str) (i p : Nat) (a : Argument)
    (htype : a.type = .INFINITE_OPTION ∨ a.type = .MULTI_INFINITE_OPTION)
    (hi : i < endOptionIndex argv) :
    (∃ j, i < j ∧ j ≤ endOptionIndex argv ∧
      (j = endOptionIndex argv ∨ self._endOfInfiniteArgument (argv.getD j []) = true) ∧
      (∀ t, i < t → t < j → self._endOfInfiniteArgument (argv.getD t []) = false) ∧
      ∀ (option arg : Str),
        self._parseArgument (endOptionIndex argv) argv i false option arg p a =
          .ok (j - 1, self.store p
            { a with
              elements :=
                (if a.type = .INFINITE_OPTION ∨ a.isExist = false then [] else a.elements) ++
                  (List.range' (i + 1) (j - (i + 1))).map
                    (fun t => ArgumentElement.leaf (argv.getD t []))
              isExist := true
              count := a.count + 1 })) ∧
    (∀ (fuel k : Nat) (s : Argparsor), k < argv.length → isEndOption (argv.getD k []) = true →
        s.walk (fuel + 1) (endOptionIndex argv) argv k = s.afterEndOption fuel argv (k + 1)) ∧
    ((scenario3.parseArguments (args ["prog", "--tags", "a", "b", "--", "c"]) false false).exception
        = none ∧
      (scenario3.parseArguments (args ["prog", "--tags", "a", "b", "--", "c"]) false
        false).state.arguments.map Argument.strings = [["a", "b"]] ∧
      (scenario3.parseArguments (args ["prog", "--tags", "a", "b", "--", "c"]) false
        false).state.additionalArguments = args ["c"]) := by
  refine ⟨?_, ?_, by decide, by decide, by decide⟩
  · have hle := endOptionIndex_le argv
    obtain ⟨h1, h2, h3⟩ := takeWhile_spec (fun t => !self._endOfInfiniteArgument t)
      (slice argv (i + 1) (endOptionIndex argv))
    generalize hn : ((slice argv (i + 1) (endOptionIndex argv)).takeWhile
      (fun t => !self._endOfInfiniteArgument t)).length = n at h1 h2 h3
    have hlen : n ≤ endOptionIndex argv - (i + 1) := by
      rw [← hn, ← slice_length argv (i + 1) (endOptionIndex argv) hle]
      exact (List.takeWhile_sublist _).length_le
    have hargs : (slice argv (i + 1) (endOptionIndex argv)).takeWhile
        (fun t => !self._endOfInfiniteArgument t) =
        (List.range' (i + 1) n).map (fun t => argv.getD t []) := by
      rw [h1]
      have : (slice argv (i + 1) (endOptionIndex argv)).take n = slice argv (i + 1) (i + 1 + n) := by
        simp only [slice, List.take_drop, List.take_take]
        congr 2
        omega
      rw [this, slice_eq_map argv (i + 1) (i + 1 + n) (by omega)]
      congr 2
      omega
    refine ⟨i + 1 + n, by omega, by omega, ?_, ?_, ?_⟩
    · by_cases hend : i + 1 + n = endOptionIndex argv
      · exact Or.inl hend
      · right
        have hlt : i + 1 + n < argv.length := by omega
        have hx : (slice argv (i + 1) (endOptionIndex argv))[n]? = some (argv.getD (i + 1 + n) []) := by
          rw [slice_getElem?, if_pos (by omega)]
          simp [List.getD, List.getElem?_eq_getElem hlt]
        simpa using h3 _ hx
    · intro t ht1 ht2
      have hlt : t < argv.length := by omega
      have hx : (slice argv (i + 1) (endOptionIndex argv))[t - (i + 1)]? = some (argv.getD t []) := by
        rw [slice_getElem?, if_pos (by omega)]
        have : i + 1 + (t - (i + 1)) = t := by omega
        simp [List.getD, this, List.getElem?_eq_getElem hlt]
      simpa using h2 (t - (i + 1)) (by omega) _ hx
    · intro option arg
      have hj : i + 1 + n - 1 = i + n := by omega
      have hj' : i + 1 + n - (i + 1) = n := by omega
      rcases htype with ht | ht
      · simp only [Argparsor._parseArgument, ht, hargs, Argument.clear, Argument.push_backs,
          Argument.matched, List.length_map, List.length_range', hj, hj', List.map_map]
        simp [ht, Function.comp_def]
      · simp only [Argparsor._parseArgument, ht, hargs, Argument.clear, Argument.push_backs,
          Argument.matched, List.length_map, List.length_range', hj, hj', List.map_map]
        cases hex : a.isExist <;> simp [ht, Function.comp_def]
  · intro fuel k s hk he
    have hs : isShortOption (argv.getD k []) = false := by
      simp only [isEndOption, beq_iff_eq] at he
      rw [he]; rfl
    have hl : isLongOption (argv.getD k []) = false := by
      simp only [isEndOption, beq_iff_eq] at he
      rw [he]; rfl
    rw [walk_succ, if_pos hk, hs, hl, he]
    simp

theorem groupLoop_succ (stop : Str → Bool) (argv : List Str) (maxIndex nargs fuel i : Nat) :
    groupLoop stop argv maxIndex nargs (fuel + 1) i =
      if i < maxIndex then
        if stop (argv.getD i []) then ([], .done)
        else if i + nargs > maxIndex then ([], .badNumber)
        else
          ((ArgumentElement.group (slice argv i (i + nargs)) ::
              (groupLoop stop argv maxIndex nargs fuel (i + nargs)).1),
            (groupLoop stop argv maxIndex nargs fuel (i + nargs)).2)
      else ([], .done) := rfl

theorem getD_append_offset (pre l : List Str) (k : Nat) :
    (pre ++ l).getD (pre.length + k) [] = l.getD k [] := by
  simp [List.getD, List.getElem?_append_right]

theorem slice_append_offset (pre l : List Str) (a b : Nat) :
    slice (pre ++ l) (pre.length + a) (pre.length + b) = slice l a b := by
  apply List.ext_getElem?
  intro j
  rw [slice_getElem?, slice_getElem?]
  have h1 : pre.length + a + j = pre.length + (a + j) := by omega
  rw [h1]
  by_cases h : a + j < b
  · rw [if_pos h, if_pos (by omega), List.getElem?_append_right (by omega)]
    simp
  · rw [if_neg h, if_neg (by omega)]

/-- C9 (amended). With `_nargs = 2`, a `MULTI_NUMBER_INFINITE_OPTION` matched and followed
to the end of input by four tokens (the first and third not accepted by
`_endOfInfiniteArgument`) appends the two groups `[t1, t2]`, `[t3, t4]`; followed
by three tokens it raises `bad number of argument` after the first group. A
`MULTI_NUMBER_OPTION` appends the single group `[t1, t2]` in both cases and
returns the index of `t2`, leaving the later tokens to the walk. -/
theorem multi_number_groups (self : Argparsor) (pre : List Str) (tok t1 t2 t3 t4 : Str)
    (p : Nat) (a : Argument) (option arg : Str)
    (hn : a.nargs = 2)
    (h1 : self._endOfInfiniteArgument t1 = false)
    (h3 : self._endOfInfiniteArgument t3 = false) :
    (a.type = .MULTI_NUMBER_INFINITE_OPTION →
      self._parseArgument (pre.length + 5) (pre ++ [tok, t1, t2, t3, t4]) pre.length false
          option arg p a =
        .ok (pre.length + 4, self.store p
          { a with
            elements := (if a.isExist = false then [] else a.elements) ++
              [ArgumentElement.group [t1, t2], ArgumentElement.group [t3, t4]]
            isExist := true
            count := a.count + 1 }) ∧
      self._parseArgument (pre.length + 4) (pre ++ [tok, t1, t2, t3]) pre.length false
          option arg p a =
        .error (.ParseArgumentException option "bad number of argument".toList, self.store p
          { a with
            elements := (if a.isExist = false then [] else a.elements) ++
              [ArgumentElement.group [t1, t2]] })) ∧
    (a.type = .MULTI_NUMBER_OPTION →
      self._parseArgument (pre.length + 5) (pre ++ [tok, t1, t2, t3, t4]) pre.length false
          option arg p a =
        .ok (pre.length + 2, self.store p
          { a with
            elements := (if a.isExist = false then [] else a.elements) ++
              [ArgumentElement.group [t1, t2]]
            isExist := true
            count := a.count + 1 }) ∧
      self._parseArgument (pre.length + 4) (pre ++ [tok, t1, t2, t3]) pre.length false
          option arg p a =
        .ok (pre.length + 2, self.store p
          { a with
            elements := (if a.isExist = false then [] else a.elements) ++
              [ArgumentElement.group [t1, t2]]
            isExist := true
            count := a.count + 1 })) := by
  rcases a with ⟨names, ty, ex, req, cnt, nargs, argm, elems, valid⟩
  dsimp only at hn
  subst hn
  dsimp only
  have g1 : ∀ l : List Str, (pre ++ tok :: t1 :: l).getD (pre.length + 1) [] = t1 := by
    intro l; rw [getD_append_offset]; rfl
  have g3 : ∀ l : List Str, (pre ++ tok :: t1 :: t2 :: t3 :: l).getD (pre.length + 1 + 2) [] = t3 := by
    intro l
    rw [show pre.length + 1 + 2 = pre.length + 3 by omega, getD_append_offset]; rfl
  have s1 : ∀ l : List Str,
      slice (pre ++ tok :: t1 :: t2 :: l) (pre.length + 1) (pre.length + 1 + 2) = [t1, t2] := by
    intro l
    rw [show pre.length + 1 + 2 = pre.length + 3 by omega, slice_append_offset]; rfl
  have s1' : ∀ l : List Str,
      slice (pre ++ tok :: t1 :: t2 :: l) (pre.length + 1) (pre.length + 2 + 1) = [t1, t2] := by
    intro l
    rw [show pre.length + 2 + 1 = pre.length + 3 by omega, slice_append_offset]; rfl
  have s3 : ∀ l : List Str,
      slice (pre ++ tok :: t1 :: t2 :: t3 :: t4 :: l) (pre.length + 1 + 2) (pre.length + 1 + 2 + 2)
        = [t3, t4] := by
    intro l
    rw [show pre.length + 1 + 2 + 2 = pre.length + 5 by omega,
      show pre.length + 1 + 2 = pre.length + 3 by omega, slice_append_offset]; rfl
  constructor
  · intro ht
    constructor
    · have hloop : groupLoop self._endOfInfiniteArgument (pre ++ [tok, t1, t2, t3, t4])
          (pre.length + 5) 2 (pre.length + 5 + 1) (pre.length + 1) =
          ([ArgumentElement.group [t1, t2], ArgumentElement.group [t3, t4]], .done) := by
        rw [show pre.length + 5 + 1 = (pre.length + 3) + 1 + 1 + 1 by omega]
        rw [groupLoop_succ, groupLoop_succ, groupLoop_succ]
        simp only [g1, g3, h1, h3, s1, s3]
        simp
      subst ht
      unfold Argparsor._parseArgument
      simp only [hloop]
      cases ex <;> simp [Argument.clear, Argument.matched]
    · have hloop : groupLoop self._endOfInfiniteArgument (pre ++ [tok, t1, t2, t3])
          (pre.length + 4) 2 (pre.length + 4 + 1) (pre.length + 1) =
          ([ArgumentElement.group [t1, t2]], .badNumber) := by
        rw [show pre.length + 4 + 1 = (pre.length + 3) + 1 + 1 by omega]
        rw [groupLoop_succ, groupLoop_succ]
        simp only [g1, g3, h1, h3, s1]
        simp
      subst ht
      unfold Argparsor._parseArgument
      simp only [hloop]
      cases ex <;> simp [Argument.clear, Argparsor.throwParse]
  · intro ht
    constructor
    · subst ht
      unfold Argparsor._parseArgument
      cases ex <;> simp [Argument.clear, Argument.matched, s1']
    · subst ht
      unfold Argparsor._parseArgument
      cases ex <;> simp [Argument.clear, Argument.matched, s1']

theorem find_store (self : Argparsor) (p : Nat) (a' : Argument) (key : Str) :
    (self.store p a').find key =
      match self.find key with
      | some (q, b) => some (q, if q = p then a' else b)
      | none => none := by
  unfold Argparsor.find Argparsor.store
  dsimp only
  cases hl : self.argumentFromName.lookup key with
  | none => rfl
  | some q =>
    dsimp only
    rw [List.getElem?_set]
    by_cases hq : q < self.arguments.length
    · rw [List.getElem?_eq_getElem hq]
      by_cases hpq : p = q
      · subst hpq; simp [hq]
      · have : ¬ q = p := fun e => hpq e.symm
        simp [hpq, this]
    · rw [List.getElem?_eq_none (by omega)]
      by_cases hpq : p = q
      · subst hpq; simp [hq]
      · simp [hpq]

theorem find_getElem? {self : Argparsor} {key : Str} {p : Nat} {a : Argument}
    (h : self.find key = some (p, a)) : self.arguments[p]? = some a := by
  unfold Argparsor.find at h
  cases hl : self.argumentFromName.lookup key with
  | none => simp [hl] at h
  | some q =>
    cases hq : self.arguments[q]? with
    | none => simp [hl, hq] at h
    | some b =>
      simp [hl, hq] at h
      obtain ⟨h1, h2⟩ := h
      subst h1; subst h2; exact hq

theorem isBooleanFlag_store_matched (self : Argparsor) (p : Nat) (a : Argument) (key : Str)
    (h : self.find key = some (p, a)) (c : Char) :
    (self.store p a.matched).isBooleanFlag c = self.isBooleanFlag c := by
  unfold Argparsor.isBooleanFlag
  rw [find_store]
  cases hc : self.find ['-', c] with
  | none => rfl
  | some qb =>
    obtain ⟨q, b⟩ := qb
    dsimp only
    by_cases hq : q = p
    · subst hq
      have h1 := find_getElem? h
      have h2 := find_getElem? hc
      rw [h1] at h2
      cases h2
      simp [Argument.matched]
    · simp [hq]

theorem parseArgument_boolean (self : Argparsor) (maxIndex : Nat) (argv : List Str) (index : Nat)
    (option arg : Str) (p : Nat) (a : Argument) (h : isBoolean a.type = true) :
    self._parseArgument maxIndex argv index false option arg p a =
      .ok (index, self.store p a.matched) := by
  unfold Argparsor._parseArgument
  cases ht : a.type <;> simp [ht, isBoolean] at h ⊢

theorem takesParameter_of_isBoolean {t : Type_} (h : isBoolean t = true) :
    takesParameter t = false := by
  cases t <;> simp [isBoolean, takesParameter] at h ⊢

theorem parseShortLoop_flags (maxIndex : Nat) (argv : List Str) (index : Nat) (arg : Str) :
    ∀ (cs : List Char) (hne : cs ≠ []) (self : Argparsor),
      (∀ c ∈ cs, self.isBooleanFlag c = true) →
      Argparsor.parseShortLoop maxIndex argv index false arg [cs.getLast hne] self cs =
        .ok (index, self.matchFlags cs) := by
  intro cs
  induction cs with
  | nil => intro hne; exact absurd rfl hne
  | cons c cs ih =>
    intro hne self hbool
    have hc := hbool c (by simp)
    unfold Argparsor.isBooleanFlag at hc
    cases hf : self.find ['-', c] with
    | none => simp [hf] at hc
    | some pa =>
      obtain ⟨p, a⟩ := pa
      simp only [hf] at hc
      cases cs with
      | nil =>
        simp only [Argparsor.parseShortLoop, List.getLast_singleton, hf, Argparsor.matchFlags]
        exact parseArgument_boolean _ _ _ _ _ _ _ _ hc
      | cons c' r =>
        have hrest : ∀ d ∈ c' :: r, (self.store p a.matched).isBooleanFlag d = true := by
          intro d hd
          rw [isBooleanFlag_store_matched self p a _ hf]
          exact hbool d (by simp at hd ⊢; right; exact hd)
        have := ih (by simp) (self.store p a.matched) hrest
        simp only [Argparsor.parseShortLoop, hf, takesParameter_of_isBoolean hc, hc,
          Argparsor.matchFlags]
        simpa using this

theorem parseShortArgument_flag (self : Argparsor) (maxIndex : Nat) (argv : List Str) (i : Nat)
    (cs : List Char) (hne : cs ≠ []) (halt : self.isAlternative = false)
    (htok : argv.getD i [] = '-' :: cs) (heq : '=' ∉ cs)
    (hbool : ∀ c ∈ cs, self.isBooleanFlag c = true) :
    self._parseShortArgument maxIndex argv i = .ok (i, self.matchFlags cs) := by
  have hnoeq : '=' ∉ '-' :: cs := by
    intro h
    rcases List.mem_cons.mp h with h | h
    · cases h
    · exact heq h
  have hlast : ('-' :: cs).getLast? = some (cs.getLast hne) := by
    rw [List.getLast?_eq_getLast _ (by simp), List.getLast_cons hne]
  unfold Argparsor._parseShortArgument
  simp only [htok, takeArg_noEq _ hnoeq, halt, hlast, Option.toList, List.drop_succ_cons,
    List.drop_zero]
  exact parseShortLoop_flags maxIndex argv i [] cs hne self hbool

theorem walk_flags (endIndex : Nat) :
    ∀ (cs : List Char) (self : Argparsor) (pre : List Str) (fuel : Nat),
      self.isAlternative = false →
      (∀ c ∈ cs, c ≠ '-' ∧ c ≠ '=') →
      (∀ c ∈ cs, self.isBooleanFlag c = true) →
      self.walk (fuel + cs.length + 1) endIndex (pre ++ cs.map (fun c => ['-', c])) pre.length =
        .ok (self.matchFlags cs) := by
  intro cs
  induction cs with
  | nil =>
    intro self pre fuel _ _ _
    simp [walk_succ, Argparsor.matchFlags]
  | cons c cs ih =>
    intro self pre fuel halt hchars hbool
    obtain ⟨hc1, hc2⟩ := hchars c (by simp)
    have hc3 := hbool c (by simp)
    have htok : (pre ++ (c :: cs).map (fun c => ['-', c])).getD pre.length [] = ['-', c] := by
      have := getD_append_offset pre ((c :: cs).map (fun c => ['-', c])) 0
      simpa using this
    have hlt : pre.length < (pre ++ (c :: cs).map (fun c => ['-', c])).length := by simp
    have hshort : isShortOption ['-', c] = true := by simp [isShortOption, hc1]
    have hstep := parseShortArgument_flag self endIndex (pre ++ (c :: cs).map (fun c => ['-', c]))
      pre.length [c] (by simp) halt htok (by simpa using Ne.symm hc2)
      (by intro d hd; simp at hd; subst hd; exact hc3)
    have hfuel : fuel + (c :: cs).length + 1 = (fuel + cs.length + 1) + 1 := by simp; omega
    rw [hfuel, walk_succ, if_pos hlt, htok, hshort, if_pos rfl, hstep]
    dsimp only
    unfold Argparsor.isBooleanFlag at hc3
    cases hf : self.find ['-', c] with
    | none => simp [hf] at hc3
    | some pa =>
      obtain ⟨p, a⟩ := pa
      simp only [Argparsor.matchFlags, hf]
      have hrest : ∀ d ∈ cs, (self.store p a.matched).isBooleanFlag d = true := by
        intro d hd
        rw [isBooleanFlag_store_matched self p a _ hf]
        exact hbool d (by simp [hd])
      have := ih (self.store p a.matched) (pre ++ [['-', c]]) fuel halt
        (fun d hd => hchars d (by simp [hd])) hrest
      simpa using this

/-- C1 (amended). In standard mode, for flag characters `c1..ck` (`k >= 1`, repeats
allowed) none of which is `-` or `=`, all declared with a boolean type, the
argument vectors `[prog, -c1c2...ck]` and `[prog, -c1, ..., -ck]` give
`parseArguments` the same outcome: the same exception if any, and the same
registry. -/
theorem cluster_equivalence (self : Argparsor) (prog : Str) (cs : List Char) (strict : Bool)
    (hne : cs ≠ [])
    (hchars : ∀ c ∈ cs, c ≠ '-' ∧ c ≠ '=')
    (hbool : ∀ c ∈ cs, self.isBooleanFlag c = true) :
    self.parseArguments [prog, '-' :: cs] false strict =
      self.parseArguments (prog :: cs.map (fun c => ['-', c])) false strict := by
  have hleft : self.parseTokens [prog, '-' :: cs] false strict =
      .ok ((self.begin [prog, '-' :: cs] false strict).matchFlags cs) := by
    unfold Argparsor.parseTokens
    have hfuel : [prog, '-' :: cs].length + self.arguments.length
        = (self.arguments.length + 1) + 1 := by simp; omega
    obtain ⟨c, r, hcs⟩ : ∃ c r, cs = c :: r := by
      cases cs with
      | nil => exact absurd rfl hne
      | cons c r => exact ⟨c, r, rfl⟩
    have hshort : isShortOption ('-' :: cs) = true := by
      rw [hcs]; simp [isShortOption, (hchars c (by simp [hcs])).1]
    have hstep := parseShortArgument_flag (self.begin [prog, '-' :: cs] false strict)
      (endOptionIndex [prog, '-' :: cs]) [prog, '-' :: cs] 1 cs hne rfl rfl
      (fun h => (hchars _ h).2 rfl) hbool
    rw [hfuel, walk_succ, if_pos (by simp)]
    simp only [show [prog, '-' :: cs].getD 1 [] = '-' :: cs from rfl, hshort, if_true, hstep]
    rw [walk_succ, if_neg (by simp)]
  have hright : self.parseTokens (prog :: cs.map (fun c => ['-', c])) false strict =
      .ok ((self.begin [prog, '-' :: cs] false strict).matchFlags cs) := by
    unfold Argparsor.parseTokens
    have hfuel : (prog :: cs.map (fun c => ['-', c])).length + self.arguments.length
        = self.arguments.length + cs.length + 1 := by simp; omega
    have := walk_flags (endOptionIndex (prog :: cs.map (fun c => ['-', c]))) cs
      (self.begin [prog, '-' :: cs] false strict) [prog] self.arguments.length rfl hchars hbool
    rw [hfuel]
    exact this
  unfold Argparsor.parseArguments
  rw [hleft, hright]

/-- C1, the claim as stated fails: with the boolean flags `-a` and `-=` declared, the
cluster `-a=` raises before `-a` is marked, while `-a -=` raises after it. -/
theorem cluster_equals_counterexample :
    scenarioEquals.isBooleanFlag 'a' = true ∧ scenarioEquals.isBooleanFlag '=' = true ∧
    (scenarioEquals.parseArguments (args ["prog", "-a="]) false false).state.arguments.map
        (fun d => d.isExist) = [false, false] ∧
    (scenarioEquals.parseArguments (args ["prog", "-a", "-="]) false false).state.arguments.map
        (fun d => d.isExist) = [true, false] := by
  decide

theorem cluster_equivalence_witness :
    scenarioFlags.parseArguments (args ["prog", "-abca"]) false false =
      scenarioFlags.parseArguments (args ["prog", "-a", "-b", "-c", "-a"]) false false :=
  cluster_equivalence scenarioFlags "prog".toList ['a', 'b', 'c', 'a'] false (by decide)
    (by decide) (by decide)

theorem unknown_long_option_witness :
    scenario2.parseArguments (args ["prog", "--nope"]) false false =
      .error (.ParseArgumentException "nope".toList "invalid option".toList,
        scenario2.begin (args ["prog", "--nope"]) false false) :=
  (unknown_long_option scenario2 "nope".toList [] (by decide) (Or.inl rfl)
    (Or.inl (by decide)) rfl).2 "prog".toList [] false false

theorem required_missing_witness :
    scenarioRequired.parseArguments (args ["prog", "--level", "x"]) false false =
      .error (.ParseArgumentRequiredException "FILE".toList "argument is required".toList,
        (scenarioRequired.parseTokens (args ["prog", "--level", "x"]) false false).state) :=
  required_missing scenarioRequired (args ["prog", "--level", "x"]) false false
    (scenarioRequired.parseTokens (args ["prog", "--level", "x"]) false false).state
    [{ Argument.declared ["--level"] .SIMPLE_OPTION 1 with
        valid := some rejectAll, argument := "x".toList, isExist := true, count := 1 }]
    []
    { Argument.declared ["FILE"] .POSITIONAL_ARGUMENT 1 with isRequired := true }
    rfl rfl rfl rfl (by simp [Argument.declared]) rfl rfl

theorem strict_additional_raises_witness :
    ({ scenario3 with isStrict := true } : Argparsor).walk 1 1 (args ["prog", "extra"]) 1 =
      .error (.ParseArgumentException "extra".toList "invalid additional argument".toList,
        { scenario3 with isStrict := true }) :=
  (strict_additional_raises { scenario3 with isStrict := true } (args ["prog", "extra"]) 1 rfl
    (by decide) (by decide)).2.1 0 1 rfl rfl rfl

/-- C9, the claim as stated fails: a `MULTI_NUMBER_OPTION` with `nargs = 2` followed by
`1 2 3 4` holds the single group `["1", "2"]`, and followed by `1 2 3` it raises
nothing: the tokens after the first group become additional arguments. -/
theorem multi_number_one_group_counterexample :
    (scenarioAppend.parseArguments (args ["prog", "--append", "1", "2", "3", "4"]) false
        false).state.arguments.map Argument.groups = [[["1", "2"]]] ∧
    (scenarioAppend.parseArguments (args ["prog", "--append", "1", "2", "3", "4"]) false
        false).state.additionalArguments = args ["3", "4"] ∧
    (scenarioAppend.parseArguments (args ["prog", "--append", "1", "2", "3"]) false
        false).exception = none := by
  decide

theorem multi_number_groups_witness :
    scenarioExtend._parseArgument 6 (args ["prog", "--extend", "1", "2", "3", "4"]) 1 false
        "extend".toList [] 0
        (Argument.declared ["-e", "--extend"] .MULTI_NUMBER_INFINITE_OPTION 2) =
      .ok (5, scenarioExtend.store 0
        { Argument.declared ["-e", "--extend"] .MULTI_NUMBER_INFINITE_OPTION 2 with
          elements := [ArgumentElement.group (args ["1", "2"]), ArgumentElement.group (args ["3", "4"])]
          isExist := true
          count := 1 }) :=
  ((multi_number_groups scenarioExtend (args ["prog"]) "--extend".toList "1".toList "2".toList
    "3".toList "4".toList 0 (Argument.declared ["-e", "--extend"] .MULTI_NUMBER_INFINITE_OPTION 2)
    "extend".toList [] rfl (by decide) (by decide)).1 rfl).1

theorem infinite_option_stops_witness :
    ∃ j, 1 < j ∧ j ≤ 4 ∧
      scenario3._parseArgument (endOptionIndex (args ["prog", "--tags", "a", "b", "--", "c"]))
        (args ["prog", "--tags", "a", "b", "--", "c"]) 1 false "tags".toList [] 0
        (Argument.declared ["--tags"] .MULTI_INFINITE_OPTION 0) =
      .ok (j - 1, scenario3.store 0
        { Argument.declared ["--tags"] .MULTI_INFINITE_OPTION 0 with
          elements := (List.range' 2 (j - 2)).map
            (fun t => ArgumentElement.leaf ((args ["prog", "--tags", "a", "b", "--", "c"]).getD t []))
          isExist := true
          count := 1 }) := by
  obtain ⟨j, h1, h2, _, _, h5⟩ :=
    (infinite_option_stops scenario3 (args ["prog", "--tags", "a", "b", "--", "c"]) 1 0
      (Argument.declared ["--tags"] .MULTI_INFINITE_OPTION 0) (Or.inr rfl) (by decide)).1
  exact ⟨j, h1, h2, h5 "tags".toList []⟩

theorem forgetCount_store (self : Argparsor) (p : Nat) (a : Argument) :
    (self.store p a).forgetCount = self.forgetCount.store p a.forgetCount := by
  simp [Argparsor.store, Argparsor.forgetCount, List.map_set]

theorem forgetCount_getElem? (self : Argparsor) (q : Nat) :
    self.forgetCount.arguments[q]? = (self.arguments[q]?).map Argument.forgetCount := by
  simp [Argparsor.forgetCount]

theorem optionExists_forgetCount (self : Argparsor) (h : Option Nat) :
    self.forgetCount.optionExists h = self.optionExists h := by
  cases h with
  | none => rfl
  | some p =>
    simp only [Argparsor.optionExists, forgetCount_getElem?]
    cases self.arguments[p]? <;> rfl

theorem toVector_forgetCount (a : Argument) : a.forgetCount.toVector = a.toVector := by
  rcases a with ⟨names, ty, ex, req, cnt, nargs, argm, elems, valid⟩
  cases ty <;> rfl

theorem writeBack_forgetCount (a : Argument) (xs : List Str) :
    a.forgetCount.writeBack xs = (a.writeBack xs).map Argument.forgetCount := by
  rcases a with ⟨names, ty, ex, req, cnt, nargs, argm, elems, valid⟩
  cases ty <;> cases xs <;> rfl

theorem checkValid_forgetCount (a : Argument) :
    a.forgetCount.checkValid = match a.checkValid with
      | .ok a' => .ok a'.forgetCount
      | .error e => .error e := by
  unfold Argument.checkValid
  have h1 : a.forgetCount.isExist = a.isExist := rfl
  have h2 : a.forgetCount.valid = a.valid := rfl
  have h4 : a.forgetCount.front = a.front := rfl
  rw [h1, h2, h4, toVector_forgetCount]
  cases hex : a.isExist with
  | false => rfl
  | true =>
    cases hv : a.valid with
    | none => rfl
    | some v =>
      dsimp only
      cases hr : v.isValid a.toVector with
      | error m => rfl
      | ok r =>
        obtain ⟨b, xs⟩ := r
        cases b with
        | false => rfl
        | true =>
          dsimp only
          rw [writeBack_forgetCount]
          cases a.writeBack xs <;> rfl

theorem checkValids_forgetCount (qs : List Nat) :
    ∀ self : Argparsor, self.forgetCount.checkValids qs = (self.checkValids qs).forgetCount := by
  induction qs with
  | nil => intro self; rfl
  | cons q qs ih =>
    intro self
    unfold Argparsor.checkValids
    rw [forgetCount_getElem?]
    cases hq : self.arguments[q]? with
    | none => exact ih self
    | some a =>
      simp only [Option.map_some', checkValid_forgetCount]
      cases hc : a.checkValid with
      | error e => rfl
      | ok a' =>
        dsimp only
        rw [← forgetCount_store, ih]

theorem afterWalk_forgetCount (self : Argparsor) :
    self.forgetCount.afterWalk = self.afterWalk.forgetCount := by
  unfold Argparsor.afterWalk
  rw [optionExists_forgetCount, optionExists_forgetCount]
  have hh : self.forgetCount.helpOption = self.helpOption := rfl
  have hv : self.forgetCount.versionOption = self.versionOption := rfl
  rw [hh, hv]
  by_cases h1 : self.optionExists self.helpOption = true
  · simp [h1, Outcome.forgetCount]
  · by_cases h2 : self.optionExists self.versionOption = true
    · simp [h1, h2, Outcome.forgetCount]
    · have hfind : self.forgetCount.arguments.find? (fun a => a.isRequired && a.isExist == false) =
          (self.arguments.find? (fun a => a.isRequired && a.isExist == false)).map
            Argument.forgetCount := by
        simp only [Argparsor.forgetCount, List.find?_map]
        rfl
      have hlen : self.forgetCount.arguments.length = self.arguments.length := by
        simp [Argparsor.forgetCount]
      simp only [h1, h2, if_false, hfind, hlen]
      cases hf : self.arguments.find? (fun a => a.isRequired && a.isExist == false) with
      | none => exact checkValids_forgetCount _ self
      | some a => rfl

theorem walk_past_end (fuel : Nat) (self : Argparsor) (endIndex : Nat) (argv : List Str) (i : Nat)
    (h : argv.length ≤ i) : self.walk (fuel + 1) endIndex argv i = .ok self := by
  rw [walk_succ, if_neg (by omega)]

theorem parseArgument_simple_inline (self : Argparsor) (maxIndex : Nat) (argv : List Str)
    (index : Nat) (option arg : Str) (p : Nat) (a : Argument) (h : a.type = .SIMPLE_OPTION) :
    self._parseArgument maxIndex argv index true option arg p a =
      .ok (index, self.store p { a with argument := arg }.matched) := by
  unfold Argparsor._parseArgument
  simp [h]

theorem parseArgument_simple_separate (self : Argparsor) (maxIndex : Nat) (argv : List Str)
    (index : Nat) (option arg : Str) (p : Nat) (a : Argument) (h : a.type = .SIMPLE_OPTION)
    (hlt : index + 1 < maxIndex) :
    self._parseArgument maxIndex argv index false option arg p a =
      .ok (index + 1, self.store p { a with argument := argv.getD (index + 1) [] }.matched) := by
  unfold Argparsor._parseArgument
  have : ¬ (index + 1 ≥ maxIndex) := by omega
  simp [h, this]

theorem unfilled_store_le (self : Argparsor) (p : Nat) (a' : Argument) (h : a'.isExist = true) :
    (self.store p a').arguments.countP Argument.isUnfilledPositional ≤
      self.arguments.countP Argument.isUnfilledPositional := by
  unfold Argparsor.store
  dsimp only
  by_cases hp : p < self.arguments.length
  · rw [List.countP_set _ _ _ _ hp]
    have : Argument.isUnfilledPositional a' = false := by
      simp [Argument.isUnfilledPositional, h]
    simp only [this, Bool.false_eq_true, if_false, Nat.add_zero]
    exact Nat.sub_le _ _
  · rw [List.set_eq_of_length_le (by omega)]

theorem groupLoop_spec (stop : Str → Bool) (argv : List Str) (maxIndex nargs : Nat) :
    ∀ (fuel i : Nat), (groupLoop stop argv maxIndex nargs fuel i).2 = .done →
      (groupLoop stop argv maxIndex nargs fuel i).1 = [] ∨
      i + (groupLoop stop argv maxIndex nargs fuel i).1.length * nargs ≤ maxIndex := by
  intro fuel
  induction fuel with
  | zero => intro i h; simp [groupLoop] at h
  | succ fuel ih =>
    intro i h
    rw [groupLoop_succ] at h ⊢
    by_cases h1 : i < maxIndex
    · rw [if_pos h1] at h ⊢
      by_cases h2 : stop (argv.getD i []) = true
      · rw [if_pos h2]; left; rfl
      · rw [if_neg h2] at h ⊢
        by_cases h3 : i + nargs > maxIndex
        · rw [if_pos h3] at h; cases h
        · rw [if_neg h3] at h ⊢
          right
          dsimp only at h ⊢
          rcases ih (i + nargs) h with h4 | h4
          · rw [h4]; simp; omega
          · rw [List.length_cons, Nat.add_mul]
            omega
    · rw [if_neg h1]; left; rfl

theorem slice_take (argv : List Str) (k a b : Nat) (hb : b ≤ k) :
    slice (argv.take k) a b = slice argv a b := by
  unfold slice
  rw [List.take_take, Nat.min_eq_left hb]

theorem getD_take (argv : List Str) (k i : Nat) (hi : i < k) :
    (argv.take k).getD i [] = argv.getD i [] := by
  simp [List.getD, List.getElem?_take, hi]

theorem groupLoop_take (stop : Str → Bool) (argv : List Str) (k nargs : Nat) :
    ∀ (fuel i : Nat), groupLoop stop (argv.take k) k nargs fuel i =
      groupLoop stop argv k nargs fuel i := by
  intro fuel
  induction fuel with
  | zero => intro i; rfl
  | succ fuel ih =>
    intro i
    rw [groupLoop_succ, groupLoop_succ]
    by_cases h1 : i < k
    · rw [if_pos h1, if_pos h1, getD_take argv k i h1]
      by_cases h2 : stop (argv.getD i []) = true
      · rw [if_pos h2, if_pos h2]
      · rw [if_neg h2, if_neg h2]
        by_cases h3 : i + nargs > k
        · rw [if_pos h3, if_pos h3]
        · rw [if_neg h3, if_neg h3, ih, slice_take argv k i (i + nargs) (by omega)]
    · rw [if_neg h1, if_neg h1]

theorem slice_length_le (argv : List Str) (a b : Nat) : (slice argv a b).length ≤ b - a := by
  simp only [slice, List.length_drop, List.length_take]
  omega

theorem infinite_length_le (P : Str → Bool) (argv : List Str) (a b : Nat) :
    ((slice argv a b).takeWhile P).length ≤ b - a :=
  Nat.le_trans (List.takeWhile_sublist _).length_le (slice_length_le argv a b)

/-- What every return of `_parseArgument` has in common: the registry is the one it was
given with one declaration stored at `p`; a normal return leaves that
declaration existing and an index not below the one given and still below
`maxIndex`. -/
theorem parseArgument_spec (self : Argparsor) (maxIndex : Nat) (argv : List Str) (index : Nat)
    (hasArg : Bool) (option arg : Str) (p : Nat) (a : Argument) :
    match self._parseArgument maxIndex argv index hasArg option arg p a with
    | .ok (i', s') =>
      ∃ a', s' = self.store p a' ∧ a'.isExist = true ∧ index ≤ i' ∧
        (index < maxIndex → i' < maxIndex)
    | .error (e, s') => ∃ a', s' = self.store p a' ∧ e ≠ .outOfFuel := by
  rcases a with ⟨names, ty, ex, req, cnt, nargs, argm, elems, valid⟩
  cases hasArg
  · cases ty
    case SIMPLE_OPTION =>
      simp only [Argparsor._parseArgument, Bool.false_eq_true, if_false]
      split_ifs <;>
        first
        | exact ⟨_, rfl, rfl, by omega, fun _ => by omega⟩
        | exact ⟨_, rfl, fun h => by cases h⟩
    case NUMBER_OPTION =>
      simp only [Argparsor._parseArgument, Bool.false_eq_true, if_false]
      split_ifs <;>
        first
        | exact ⟨_, rfl, rfl, by omega, fun _ => by omega⟩
        | exact ⟨_, rfl, fun h => by cases h⟩
    case INFINITE_OPTION =>
      simp only [Argparsor._parseArgument, Bool.false_eq_true, if_false]
      have := infinite_length_le (fun t => !self._endOfInfiniteArgument t) argv (index + 1) maxIndex
      exact ⟨_, rfl, rfl, by omega, fun _ => by omega⟩
    case MULTI_OPTION =>
      simp only [Argparsor._parseArgument, Bool.false_eq_true, if_false]
      split_ifs <;>
        first
        | exact ⟨_, rfl, rfl, by omega, fun _ => by omega⟩
        | exact ⟨_, rfl, fun h => by cases h⟩
    case MULTI_INFINITE_OPTION =>
      simp only [Argparsor._parseArgument, Bool.false_eq_true, if_false]
      have := infinite_length_le (fun t => !self._endOfInfiniteArgument t) argv (index + 1) maxIndex
      exact ⟨_, rfl, rfl, by omega, fun _ => by omega⟩
    case MULTI_NUMBER_OPTION =>
      simp only [Argparsor._parseArgument, Bool.false_eq_true, if_false]
      split_ifs <;>
        first
        | exact ⟨_, rfl, rfl, by omega, fun _ => by omega⟩
        | exact ⟨_, rfl, fun h => by cases h⟩
    case MULTI_NUMBER_INFINITE_OPTION =>
      simp only [Argparsor._parseArgument, Bool.false_eq_true, if_false]
      have hs := groupLoop_spec self._endOfInfiniteArgument argv maxIndex nargs (maxIndex + 1)
        (index + 1)
      generalize groupLoop self._endOfInfiniteArgument argv maxIndex nargs (maxIndex + 1)
        (index + 1) = r at hs
      obtain ⟨groups, e⟩ := r
      cases e
      · dsimp only at hs ⊢
        refine ⟨_, rfl, rfl, by omega, fun _ => ?_⟩
        rcases hs rfl with h | h
        · rw [h]; simpa
        · omega
      · exact ⟨_, rfl, fun h => by cases h⟩
      · exact ⟨_, rfl, fun h => by cases h⟩
    all_goals exact ⟨_, rfl, rfl, Nat.le_refl _, fun h => h⟩
  · cases ty
    case SIMPLE_OPTION => exact ⟨_, rfl, rfl, Nat.le_refl _, fun h => h⟩
    case INFINITE_OPTION => exact ⟨_, rfl, rfl, Nat.le_refl _, fun h => h⟩
    case MULTI_OPTION => exact ⟨_, rfl, rfl, Nat.le_refl _, fun h => h⟩
    case MULTI_INFINITE_OPTION => exact ⟨_, rfl, rfl, Nat.le_refl _, fun h => h⟩
    all_goals exact ⟨_, rfl, fun h => by cases h⟩

theorem unfilled_store_le' (self : Argparsor) (p : Nat) (a' : Argument) (h : a'.isExist = true) :
    (self.store p a').unfilled ≤ self.unfilled :=
  unfilled_store_le self p a' h

theorem parseArgument_advances (self : Argparsor) (maxIndex : Nat) (argv : List Str) (index : Nat)
    (hasArg : Bool) (option arg : Str) (p : Nat) (a : Argument) :
    Step.Advances self maxIndex index
      (self._parseArgument maxIndex argv index hasArg option arg p a) := by
  have h := parseArgument_spec self maxIndex argv index hasArg option arg p a
  cases hr : self._parseArgument maxIndex argv index hasArg option arg p a with
  | ok r =>
    obtain ⟨i', s'⟩ := r
    rw [hr] at h
    obtain ⟨a', h1, h2, h3, h4⟩ := h
    subst h1
    exact ⟨rfl, unfilled_store_le' self p a' h2, h3, h4⟩
  | error r =>
    obtain ⟨e, s'⟩ := r
    rw [hr] at h
    obtain ⟨a', h1, h2⟩ := h
    subst h1
    exact ⟨h2, rfl⟩

theorem advances_of_store (self : Argparsor) (p : Nat) (a : Argument) (ha : a.isExist = true)
    (maxIndex index : Nat) (r : Step) (h : Step.Advances (self.store p a) maxIndex index r) :
    Step.Advances self maxIndex index r := by
  cases r with
  | ok r =>
    obtain ⟨i', s'⟩ := r
    obtain ⟨h1, h2, h3, h4⟩ := h
    exact ⟨h1, Nat.le_trans h2 (unfilled_store_le' self p a ha), h3, h4⟩
  | error r =>
    obtain ⟨e, s'⟩ := r
    exact h

theorem parseShortLoop_advances (maxIndex : Nat) (argv : List Str) (index : Nat) (hasArg : Bool)
    (arg last : Str) :
    ∀ (cs : List Char) (self : Argparsor),
      Step.Advances self maxIndex index
        (Argparsor.parseShortLoop maxIndex argv index hasArg arg last self cs) := by
  have hlast : ∀ (self : Argparsor),
      Step.Advances self maxIndex index
        (match self.find ('-' :: last) with
          | none => self.throwParse last "invalid option"
          | some (p, a) => self._parseArgument maxIndex argv index hasArg last arg p a) := by
    intro self
    cases self.find ('-' :: last) with
    | none => exact ⟨(fun h => by cases h), rfl⟩
    | some pa => exact parseArgument_advances _ _ _ _ _ _ _ _ _
  intro cs
  induction cs with
  | nil => intro self; unfold Argparsor.parseShortLoop; exact hlast self
  | cons c cs ih =>
    intro self
    cases cs with
    | nil => unfold Argparsor.parseShortLoop; exact hlast self
    | cons c' r =>
      unfold Argparsor.parseShortLoop
      cases hf : self.find ['-', c] with
      | none => exact ⟨(fun h => by cases h), rfl⟩
      | some pa =>
        obtain ⟨p, a⟩ := pa
        dsimp only
        split_ifs
        · exact parseArgument_advances _ _ _ _ _ _ _ _ _
        · exact ⟨(fun h => by cases h), rfl⟩
        · exact advances_of_store self p a.matched rfl _ _ _ (ih _)

theorem parseShortArgument_advances (self : Argparsor) (maxIndex : Nat) (argv : List Str)
    (index : Nat) :
    Step.Advances self maxIndex index (self._parseShortArgument maxIndex argv index) := by
  unfold Argparsor._parseShortArgument
  dsimp only
  split
  · exact parseArgument_advances _ _ _ _ _ _ _ _ _
  · exact parseShortLoop_advances _ _ _ _ _ _ _ _

theorem parseLongArgument_advances (self : Argparsor) (maxIndex : Nat) (argv : List Str)
    (index : Nat) :
    Step.Advances self maxIndex index (self._parseLongArgument maxIndex argv index) := by
  unfold Argparsor._parseLongArgument
  dsimp only
  split
  · exact ⟨(fun h => by cases h), rfl⟩
  · exact parseArgument_advances _ _ _ _ _ _ _ _ _

theorem findIdx_unfilled_some (self : Argparsor) (a : Argument)
    (h : self.arguments[self.arguments.findIdx Argument.isUnfilledPositional]? = some a) :
    a.isUnfilledPositional = true := by
  have hlt : self.arguments.findIdx Argument.isUnfilledPositional < self.arguments.length := by
    rcases Nat.lt_or_ge (self.arguments.findIdx Argument.isUnfilledPositional)
      self.arguments.length with h' | h'
    · exact h'
    · rw [List.getElem?_eq_none h'] at h; cases h
  rw [List.getElem?_eq_getElem hlt] at h
  cases h
  exact List.findIdx_getElem

theorem findIdx_unfilled_none (self : Argparsor)
    (h : self.arguments[self.arguments.findIdx Argument.isUnfilledPositional]? = none) :
    ∀ a ∈ self.arguments, a.isUnfilledPositional = false := by
  have hge : self.arguments.length ≤ self.arguments.findIdx Argument.isUnfilledPositional := by
    rcases Nat.lt_or_ge (self.arguments.findIdx Argument.isUnfilledPositional)
      self.arguments.length with h' | h'
    · rw [List.getElem?_eq_getElem h'] at h; cases h
    · exact h'
  exact List.findIdx_eq_length.mp (Nat.le_antisymm (List.findIdx_le_length _) hge)

/-- What every return of `_parsePositionnalArgument` has in common. A normal return
either filled the first unfilled positional, stored back existing at its place
`q`, with an index of at least `index - 1` that stays below `argc`; or, no
positional being unfilled and strict mode off, appended `argv[index]` to the
additional arguments and kept the index. An exception is `bad number of
argument`, `invalid additional argument` or the unending loop, in a registry
that differs at most in the values of that positional. -/
theorem parsePositionnal_spec (self : Argparsor) (argc : Nat) (argv : List Str) (index : Nat)
    (hasEnd : Bool) :
    match self._parsePositionnalArgument argc argv index hasEnd with
    | .ok (i', s') =>
      (∃ q a a', self.arguments[q]? = some a ∧ a.isUnfilledPositional = true ∧
          s' = self.store q a' ∧ a'.isExist = true ∧ a'._isPositionnalArgument = true ∧
          index ≤ i' + 1 ∧ (index < argc → i' < argc)) ∨
      ((∀ a ∈ self.arguments, a.isUnfilledPositional = false) ∧ self.isStrict = false ∧
          i' = index ∧
          s' = { self with
            additionalArguments := self.additionalArguments ++ [argv.getD index []] })
    | .error (e, s') =>
      (e = .nonTermination ∨
        ∃ t, e = .ParseArgumentException t "bad number of argument".toList ∨
          e = .ParseArgumentException t "invalid additional argument".toList) ∧
      (s' = self ∨ ∃ q a a', self.arguments[q]? = some a ∧ a.isUnfilledPositional = true ∧
          s' = self.store q a' ∧ a'._isPositionnalArgument = true) := by
  unfold Argparsor._parsePositionnalArgument
  dsimp only
  cases hq : self.arguments[self.arguments.findIdx Argument.isUnfilledPositional]? with
  | none =>
    have hall := findIdx_unfilled_none self hq
    dsimp only
    cases hs : self.isStrict with
    | true => exact ⟨Or.inr ⟨_, Or.inr rfl⟩, Or.inl rfl⟩
    | false => exact Or.inr ⟨hall, rfl, rfl, rfl⟩
  | some a =>
    have hun := findIdx_unfilled_some self a hq
    generalize self.arguments.findIdx Argument.isUnfilledPositional = q at hq
    rcases a with ⟨names, ty, ex, req, cnt, nargs, argm, elems, valid⟩
    have hpos : (⟨names, ty, ex, req, cnt, nargs, argm, elems, valid⟩ :
        Argument)._isPositionnalArgument = true := by
      simp only [Argument.isUnfilledPositional, Bool.and_eq_true] at hun
      exact hun.2
    cases ty <;> try (simp [Argument._isPositionnalArgument] at hpos)
    case POSITIONAL_ARGUMENT =>
      exact Or.inl ⟨q, _, _, hq, hun, rfl, rfl, rfl, by omega, fun h => h⟩
    case NUMBER_POSITIONAL_ARGUMENT =>
      dsimp only
      split_ifs with h
      · exact ⟨Or.inr ⟨_, Or.inl rfl⟩, Or.inl rfl⟩
      · exact Or.inl ⟨q, _, _, hq, hun, rfl, rfl, rfl, by omega, fun _ => by omega⟩
    case INFINITE_POSITIONAL_ARGUMENT =>
      dsimp only
      have := infinite_length_le
        (fun t => !(!hasEnd && self._endOfInfiniteArgument t)) argv index argc
      exact Or.inl ⟨q, _, _, hq, hun, rfl, rfl, rfl, by omega, fun _ => by omega⟩
    case INFINITE_NUMBER_POSITIONAL_ARGUMENT =>
      dsimp only
      have hs := groupLoop_spec (fun t => !hasEnd && self._endOfInfiniteArgument t) argv argc
        nargs (argc + 1) index
      generalize groupLoop (fun t => !hasEnd && self._endOfInfiniteArgument t) argv argc
        nargs (argc + 1) index = r at hs
      obtain ⟨groups, e⟩ := r
      cases e
      · dsimp only at hs ⊢
        refine Or.inl ⟨q, _, _, hq, hun, rfl, rfl, rfl, by omega, fun _ => ?_⟩
        rcases hs rfl with h | h
        · rw [h]; simp; omega
        · omega
      · exact ⟨Or.inr ⟨_, Or.inl rfl⟩, Or.inr ⟨q, _, _, hq, hun, rfl, rfl⟩⟩
      · exact ⟨Or.inl rfl, Or.inl rfl⟩

theorem getD_eq_getElem (argv : List Str) (i : Nat) (h : i < argv.length) :
    argv.getD i [] = argv[i] := by
  simp [List.getD, List.getElem?_eq_getElem h]

theorem afterEndOption_additional (argv : List Str) :
    ∀ (fuel : Nat) (self : Argparsor) (i : Nat) (self' : Argparsor),
      self.afterEndOption fuel argv i = .ok self' →
      ∃ extras, self'.additionalArguments = self.additionalArguments ++ extras ∧
        extras.Sublist (argv.drop i) := by
  intro fuel
  induction fuel with
  | zero => intro self i self' h; simp [Argparsor.afterEndOption] at h
  | succ fuel ih =>
    intro self i self' h
    rw [afterEndOption_succ] at h
    by_cases hi : i < argv.length
    · rw [if_pos hi] at h
      have hspec := parsePositionnal_spec self argv.length argv i true
      cases hr : self._parsePositionnalArgument argv.length argv i true with
      | error r => rw [hr] at h; cases h
      | ok r =>
        obtain ⟨i', s1⟩ := r
        rw [hr] at h hspec
        dsimp only at h hspec
        obtain ⟨extras, h1, h2⟩ := ih s1 (i' + 1) self' h
        rcases hspec with ⟨q, a, a', _, _, hs1, _, _, hle, _⟩ | ⟨_, _, hi', hs1⟩
        · refine ⟨extras, ?_, h2.trans (List.drop_sublist_drop_left argv hle)⟩
          rw [h1, hs1]; rfl
        · refine ⟨argv[i] :: extras, ?_, ?_⟩
          · rw [h1, hs1, getD_eq_getElem argv i hi]; simp
          · rw [List.drop_eq_getElem_cons hi]
            subst hi'
            exact h2.cons₂ _
    · rw [if_neg hi] at h
      cases h
      exact ⟨[], by simp, List.nil_sublist _⟩

theorem walk_additional (endIndex : Nat) (argv : List Str) :
    ∀ (fuel : Nat) (self : Argparsor) (i : Nat) (self' : Argparsor),
      self.walk fuel endIndex argv i = .ok self' →
      ∃ extras, self'.additionalArguments = self.additionalArguments ++ extras ∧
        extras.Sublist (argv.drop i) := by
  intro fuel
  induction fuel with
  | zero => intro self i self' h; simp [Argparsor.walk] at h
  | succ fuel ih =>
    intro self i self' h
    rw [walk_succ] at h
    have hopt : ∀ (r : Step), Step.Advances self endIndex i r →
        (match r with
          | .error e => (.error e : Outcome)
          | .ok (i', s1) => Argparsor.walk fuel s1 endIndex argv (i' + 1)) = .ok self' →
        ∃ extras, self'.additionalArguments = self.additionalArguments ++ extras ∧
          extras.Sublist (argv.drop i) := by
      intro r hadv hr
      cases r with
      | error r => cases hr
      | ok r =>
        obtain ⟨i', s1⟩ := r
        obtain ⟨h1, _, h3, _⟩ := hadv
        obtain ⟨extras, h5, h6⟩ := ih s1 (i' + 1) self' hr
        exact ⟨extras, by rw [h5, h1],
          h6.trans (List.drop_sublist_drop_left argv (by omega))⟩
    by_cases hi : i < argv.length
    · rw [if_pos hi] at h
      split_ifs at h
      · exact hopt _ (parseShortArgument_advances _ _ _ _) h
      · exact hopt _ (parseLongArgument_advances _ _ _ _) h
      · obtain ⟨extras, h1, h2⟩ := afterEndOption_additional argv fuel self (i + 1) self' h
        exact ⟨extras, h1, h2.trans (List.drop_sublist_drop_left argv (by omega))⟩
      · have hspec := parsePositionnal_spec self endIndex argv i false
        cases hr : self._parsePositionnalArgument endIndex argv i false with
        | error r => rw [hr] at h; cases h
        | ok r =>
          obtain ⟨i', s1⟩ := r
          rw [hr] at h hspec
          dsimp only at h hspec
          obtain ⟨extras, h1, h2⟩ := ih s1 (i' + 1) self' h
          rcases hspec with ⟨q, a, a', _, _, hs1, _, _, hle, _⟩ | ⟨_, _, hi', hs1⟩
          · refine ⟨extras, ?_, h2.trans (List.drop_sublist_drop_left argv hle)⟩
            rw [h1, hs1]; rfl
          · refine ⟨argv[i] :: extras, ?_, ?_⟩
            · rw [h1, hs1, getD_eq_getElem argv i hi]; simp
            · rw [List.drop_eq_getElem_cons hi]
              subst hi'
              exact h2.cons₂ _
    · rw [if_neg hi] at h
      cases h
      exact ⟨[], by simp, List.nil_sublist _⟩

theorem checkValids_additional (qs : List Nat) :
    ∀ (self self' : Argparsor), self.checkValids qs = .ok self' →
      self'.additionalArguments = self.additionalArguments := by
  induction qs with
  | nil => intro self self' h; cases h; rfl
  | cons q qs ih =>
    intro self self' h
    unfold Argparsor.checkValids at h
    cases hq : self.arguments[q]? with
    | none => rw [hq] at h; dsimp only at h; exact ih self self' h
    | some a =>
      rw [hq] at h
      dsimp only at h
      cases hc : a.checkValid with
      | error e => rw [hc] at h; cases h
      | ok a' =>
        rw [hc] at h
        dsimp only at h
        exact ih (self.store q a') self' h

theorem afterWalk_additional (self self' : Argparsor) (h : self.afterWalk = .ok self') :
    self'.additionalArguments = self.additionalArguments := by
  unfold Argparsor.afterWalk at h
  split_ifs at h
  split at h
  · cases h
  · exact checkValids_additional _ self self' h

theorem walk_plain (endIndex : Nat) :
    ∀ (ts : List Str) (self : Argparsor) (pre : List Str) (fuel : Nat),
      self.isStrict = false →
      (∀ a ∈ self.arguments, a._isPositionnalArgument = false) →
      (∀ t ∈ ts, isShortOption t = false ∧ isLongOption t = false ∧ isEndOption t = false) →
      self.walk (fuel + ts.length + 1) endIndex (pre ++ ts) pre.length =
        .ok { self with additionalArguments := self.additionalArguments ++ ts } := by
  intro ts
  induction ts with
  | nil =>
    intro self pre fuel _ _ _
    simp [walk_succ]
  | cons t ts ih =>
    intro self pre fuel hstrict hpos hplain
    obtain ⟨h1, h2, h3⟩ := hplain t (by simp)
    have htok : (pre ++ t :: ts).getD pre.length [] = t := by
      have := getD_append_offset pre (t :: ts) 0
      simpa using this
    have hlt : pre.length < (pre ++ t :: ts).length := by simp
    have hfilled : ∀ a ∈ self.arguments, a.isUnfilledPositional = false := by
      intro a ha
      simp [Argument.isUnfilledPositional, hpos a ha]
    have hfuel : fuel + (t :: ts).length + 1 = (fuel + ts.length + 1) + 1 := by simp; omega
    rw [hfuel, walk_succ, if_pos hlt, htok, h1, h2, h3]
    simp only [Bool.false_eq_true, if_false]
    rw [parsePositionnal_none self endIndex _ _ false hfilled, htok,
      if_neg (by rw [hstrict]; simp)]
    dsimp only
    have := ih { self with additionalArguments := self.additionalArguments ++ [t] }
      (pre ++ [t]) fuel hstrict hpos (fun u hu => hplain u (by simp [hu]))
    simpa using this

theorem parsePositionnal_progress (self : Argparsor) (argc : Nat) (argv : List Str) (index : Nat)
    (hasEnd : Bool) :
    match self._parsePositionnalArgument argc argv index hasEnd with
    | .ok (i', s') =>
      (s'.unfilled < self.unfilled ∧ index ≤ i' + 1 ∨ s'.unfilled = self.unfilled ∧ i' = index) ∧
        (index < argc → i' < argc)
    | .error (e, _) => e ≠ .outOfFuel := by
  have hspec := parsePositionnal_spec self argc argv index hasEnd
  cases hr : self._parsePositionnalArgument argc argv index hasEnd with
  | error r =>
    obtain ⟨e, s'⟩ := r
    rw [hr] at hspec
    dsimp only at hspec ⊢
    rcases hspec.1 with h | ⟨t, h | h⟩ <;> rw [h] <;> intro h' <;> cases h'
  | ok r =>
    obtain ⟨i', s'⟩ := r
    rw [hr] at hspec
    dsimp only at hspec ⊢
    rcases hspec with ⟨q, a, a', hq, hun, hs, hex, _, hle, hlt⟩ | ⟨_, _, hi, hs⟩
    · refine ⟨Or.inl ⟨?_, hle⟩, hlt⟩
      have hqlt : q < self.arguments.length := by
        rcases Nat.lt_or_ge q self.arguments.length with h' | h'
        · exact h'
        · rw [List.getElem?_eq_none h'] at hq; cases hq
      rw [List.getElem?_eq_getElem hqlt] at hq
      cases hq
      have ha' : Argument.isUnfilledPositional a' = false := by
        simp [Argument.isUnfilledPositional, hex]
      have hpos : 0 < self.arguments.countP Argument.isUnfilledPositional :=
        List.countP_pos_iff.mpr ⟨_, List.getElem_mem hqlt, hun⟩
      subst hs
      unfold Argparsor.unfilled Argparsor.store
      dsimp only
      rw [List.countP_set _ _ _ _ hqlt, hun, ha']
      simp only [if_true, Bool.false_eq_true, if_false, Nat.add_zero]
      omega
    · subst hs
      exact ⟨Or.inr ⟨rfl, hi⟩, fun h => hi ▸ h⟩

theorem afterEndOption_enough (argv : List Str) :
    ∀ (fuel : Nat) (self : Argparsor) (i : Nat), (argv.length - i) + self.unfilled < fuel →
      (self.afterEndOption fuel argv i).exception ≠ some .outOfFuel := by
  intro fuel
  induction fuel with
  | zero => intro self i h; omega
  | succ fuel ih =>
    intro self i h
    rw [afterEndOption_succ]
    by_cases hi : i < argv.length
    · rw [if_pos hi]
      have hp := parsePositionnal_progress self argv.length argv i true
      cases hr : self._parsePositionnalArgument argv.length argv i true with
      | error r =>
        obtain ⟨e, s'⟩ := r
        rw [hr] at hp
        dsimp only at hp ⊢
        intro h'
        cases h'
        exact hp rfl
      | ok r =>
        obtain ⟨i', s'⟩ := r
        rw [hr] at hp
        dsimp only at hp ⊢
        apply ih
        rcases hp.1 with ⟨h1, h2⟩ | ⟨h1, h2⟩ <;> omega
    · rw [if_neg hi]
      intro h'
      cases h'

theorem walk_enough (endIndex : Nat) (argv : List Str) :
    ∀ (fuel : Nat) (self : Argparsor) (i : Nat), (argv.length - i) + self.unfilled < fuel →
      (self.walk fuel endIndex argv i).exception ≠ some .outOfFuel := by
  intro fuel
  induction fuel with
  | zero => intro self i h; omega
  | succ fuel ih =>
    intro self i h
    rw [walk_succ]
    have hopt : ∀ (r : Step), Step.Advances self endIndex i r → i < argv.length →
        Outcome.exception (match r with
          | .error e => (.error e : Outcome)
          | .ok (i', s1) => Argparsor.walk fuel s1 endIndex argv (i' + 1))
          ≠ some .outOfFuel := by
      intro r hadv hi
      cases r with
      | error r =>
        obtain ⟨e, s'⟩ := r
        intro h'
        cases h'
        exact hadv.1 rfl
      | ok r =>
        obtain ⟨i', s1⟩ := r
        obtain ⟨_, h2, h3, _⟩ := hadv
        apply ih
        omega
    by_cases hi : i < argv.length
    · rw [if_pos hi]
      split_ifs
      · exact hopt _ (parseShortArgument_advances _ _ _ _) hi
      · exact hopt _ (parseLongArgument_advances _ _ _ _) hi
      · exact afterEndOption_enough argv fuel self (i + 1) (by omega)
      · have hp := parsePositionnal_progress self endIndex argv i false
        cases hr : self._parsePositionnalArgument endIndex argv i false with
        | error r =>
          obtain ⟨e, s'⟩ := r
          rw [hr] at hp
          dsimp only at hp ⊢
          intro h'
          cases h'
          exact hp rfl
        | ok r =>
          obtain ⟨i', s'⟩ := r
          rw [hr] at hp
          dsimp only at hp ⊢
          apply ih
          rcases hp.1 with ⟨h1, h2⟩ | ⟨h1, h2⟩ <;> omega
    · rw [if_neg hi]
      intro h'
      cases h'

theorem afterEndOption_mono (argv : List Str) :
    ∀ (fuel : Nat) (self : Argparsor) (i : Nat),
      (self.afterEndOption fuel argv i).exception ≠ some .outOfFuel →
      self.afterEndOption (fuel + 1) argv i = self.afterEndOption fuel argv i := by
  intro fuel
  induction fuel with
  | zero => intro self i h; exact absurd rfl h
  | succ fuel ih =>
    intro self i h
    rw [afterEndOption_succ] at h
    rw [afterEndOption_succ fuel, afterEndOption_succ (fuel + 1)]
    by_cases hi : i < argv.length
    · simp only [if_pos hi] at h ⊢
      cases hr : self._parsePositionnalArgument argv.length argv i true with
      | error r => rfl
      | ok r =>
        obtain ⟨i', s'⟩ := r
        rw [hr] at h
        exact ih s' (i' + 1) h
    · simp only [if_neg hi]

theorem walk_mono (endIndex : Nat) (argv : List Str) :
    ∀ (fuel : Nat) (self : Argparsor) (i : Nat),
      (self.walk fuel endIndex argv i).exception ≠ some .outOfFuel →
      self.walk (fuel + 1) endIndex argv i = self.walk fuel endIndex argv i := by
  intro fuel
  induction fuel with
  | zero => intro self i h; exact absurd rfl h
  | succ fuel ih =>
    intro self i h
    rw [walk_succ] at h
    rw [walk_succ fuel, walk_succ (fuel + 1)]
    by_cases hi : i < argv.length
    · simp only [if_pos hi] at h ⊢
      by_cases h1 : isShortOption (argv.getD i []) = true
      · simp only [if_pos h1] at h ⊢
        cases hr : self._parseShortArgument endIndex argv i with
        | error r => rfl
        | ok r =>
          obtain ⟨i', s'⟩ := r
          rw [hr] at h
          exact ih s' (i' + 1) h
      · simp only [if_neg h1] at h ⊢
        by_cases h2 : isLongOption (argv.getD i []) = true
        · simp only [if_pos h2] at h ⊢
          cases hr : self._parseLongArgument endIndex argv i with
          | error r => rfl
          | ok r =>
            obtain ⟨i', s'⟩ := r
            rw [hr] at h
            exact ih s' (i' + 1) h
        · simp only [if_neg h2] at h ⊢
          by_cases h3 : isEndOption (argv.getD i []) = true
          · simp only [if_pos h3] at h ⊢
            exact afterEndOption_mono argv fuel self (i + 1) h
          · simp only [if_neg h3] at h ⊢
            cases hr : self._parsePositionnalArgument endIndex argv i false with
            | error r => rfl
            | ok r =>
              obtain ⟨i', s'⟩ := r
              rw [hr] at h
              exact ih s' (i' + 1) h
    · simp only [if_neg hi]

theorem walk_mono_add (endIndex : Nat) (argv : List Str) (fuel : Nat) (self : Argparsor) (i : Nat)
    (h : (self.walk fuel endIndex argv i).exception ≠ some .outOfFuel) :
    ∀ d : Nat, self.walk (fuel + d) endIndex argv i = self.walk fuel endIndex argv i := by
  intro d
  induction d with
  | zero => rfl
  | succ d ih =>
    rw [← Nat.add_assoc, walk_mono endIndex argv (fuel + d) self i (by rw [ih]; exact h), ih]

theorem parseTokens_fuel (self : Argparsor) (argv : List Str) (alternative strict : Bool)
    (h : argv ≠ []) :
    (self.parseTokens argv alternative strict).exception ≠ some .outOfFuel := by
  unfold Argparsor.parseTokens
  apply walk_enough
  have h1 : 0 < argv.length := List.length_pos.mpr h
  have h2 : (self.begin argv alternative strict).unfilled ≤ self.arguments.length :=
    List.countP_le_length _
  omega

theorem parseArgument_take (self : Argparsor) (k : Nat) (argv : List Str) (index : Nat)
    (hasArg : Bool) (option arg : Str) (p : Nat) (a : Argument) :
    self._parseArgument k (argv.take k) index hasArg option arg p a =
      self._parseArgument k argv index hasArg option arg p a := by
  rcases a with ⟨names, ty, ex, req, cnt, nargs, argm, elems, valid⟩
  cases hasArg
  · cases ty <;> simp only [Argparsor._parseArgument, Bool.false_eq_true, if_false]
    case SIMPLE_OPTION =>
      split_ifs with h
      · rfl
      · rw [getD_take argv k (index + 1) (by omega)]
    case NUMBER_OPTION =>
      split_ifs with h
      · rfl
      · rw [slice_take argv k _ _ (by omega)]
    case INFINITE_OPTION => rw [slice_take argv k _ _ (Nat.le_refl _)]
    case MULTI_OPTION =>
      split_ifs with h1 h2 h2
      all_goals first | rfl | rw [getD_take argv k (index + 1) (by omega)]
    case MULTI_INFINITE_OPTION => rw [slice_take argv k _ _ (Nat.le_refl _)]
    case MULTI_NUMBER_OPTION =>
      split_ifs with h1 h2 h2
      all_goals first | rfl | rw [slice_take argv k _ _ (by omega)]
    case MULTI_NUMBER_INFINITE_OPTION => rw [groupLoop_take]
  · cases ty <;> rfl

theorem parseShortLoop_take (k : Nat) (argv : List Str) (index : Nat) (hasArg : Bool)
    (arg last : Str) :
    ∀ (cs : List Char) (self : Argparsor),
      Argparsor.parseShortLoop k (argv.take k) index hasArg arg last self cs =
        Argparsor.parseShortLoop k argv index hasArg arg last self cs := by
  intro cs
  induction cs with
  | nil => intro self; simp only [Argparsor.parseShortLoop, parseArgument_take]
  | cons c cs ih =>
    intro self
    cases cs with
    | nil => simp only [Argparsor.parseShortLoop, parseArgument_take]
    | cons c' r =>
      unfold Argparsor.parseShortLoop
      cases self.find ['-', c] with
      | none => rfl
      | some pa =>
        obtain ⟨p, a⟩ := pa
        dsimp only
        rw [parseArgument_take, ih]

theorem parseShortArgument_take (self : Argparsor) (k : Nat) (argv : List Str) (index : Nat)
    (h : index < k) :
    self._parseShortArgument k (argv.take k) index = self._parseShortArgument k argv index := by
  unfold Argparsor._parseShortArgument
  simp only [getD_take argv k index h, parseArgument_take, parseShortLoop_take]

theorem parseLongArgument_take (self : Argparsor) (k : Nat) (argv : List Str) (index : Nat)
    (h : index < k) :
    self._parseLongArgument k (argv.take k) index = self._parseLongArgument k argv index := by
  unfold Argparsor._parseLongArgument
  simp only [getD_take argv k index h, parseArgument_take]

theorem parsePositionnal_take (self : Argparsor) (k : Nat) (argv : List Str) (index : Nat)
    (hasEnd : Bool) (h : index < k) :
    self._parsePositionnalArgument k (argv.take k) index hasEnd =
      self._parsePositionnalArgument k argv index hasEnd := by
  unfold Argparsor._parsePositionnalArgument
  dsimp only
  simp only [getD_take argv k index h, slice_take argv k index k (Nat.le_refl _), groupLoop_take]
  cases self.arguments[self.arguments.findIdx Argument.isUnfilledPositional]? with
  | none => rfl
  | some a =>
    rcases a with ⟨names, ty, ex, req, cnt, nargs, argm, elems, valid⟩
    cases ty <;> try rfl
    dsimp only
    split_ifs with h1
    · rfl
    · rw [slice_take argv k _ _ (by omega)]

theorem options_store_positional (self : Argparsor) (q : Nat) (a a' : Argument)
    (hq : self.arguments[q]? = some a) (ha : a.isUnfilledPositional = true)
    (ha' : a'._isPositionnalArgument = true) :
    (self.store q a').options = self.options := by
  have hpos : a._isPositionnalArgument = true := by
    simp only [Argument.isUnfilledPositional, Bool.and_eq_true] at ha
    exact ha.2
  unfold Argparsor.options Argparsor.store
  dsimp only
  apply List.ext_getElem?
  intro j
  rw [List.getElem?_map, List.getElem?_map, List.getElem?_set]
  by_cases hj : q = j
  · subst hj
    rw [if_pos rfl, hq]
    have hlt : q < self.arguments.length := by
      rcases Nat.lt_or_ge q self.arguments.length with h' | h'
      · exact h'
      · rw [List.getElem?_eq_none h'] at hq; cases hq
    simp [hlt, ha', hpos]
  · rw [if_neg hj]

theorem afterEndOption_options (argv : List Str) :
    ∀ (fuel : Nat) (self : Argparsor) (i : Nat),
      (self.afterEndOption fuel argv i).state.options = self.options ∧
      ∀ t, (self.afterEndOption fuel argv i).exception ≠
        some (.ParseArgumentException t "invalid option".toList) := by
  intro fuel
  induction fuel with
  | zero =>
    intro self i
    exact ⟨rfl, fun t h => by cases h⟩
  | succ fuel ih =>
    intro self i
    rw [afterEndOption_succ]
    by_cases hi : i < argv.length
    · rw [if_pos hi]
      have hspec := parsePositionnal_spec self argv.length argv i true
      cases hr : self._parsePositionnalArgument argv.length argv i true with
      | error r =>
        obtain ⟨e, s'⟩ := r
        rw [hr] at hspec
        dsimp only at hspec ⊢
        constructor
        · rcases hspec.2 with h | ⟨q, a, a', hq, hun, hs, hpos⟩
          · rw [h]; rfl
          · rw [hs]; exact options_store_positional self q a a' hq hun hpos
        · intro t h
          cases h
          rcases hspec.1 with h | ⟨t', h | h⟩
          · cases h
          · have := (Exception.ParseArgumentException.inj h).2
            revert this; decide
          · have := (Exception.ParseArgumentException.inj h).2
            revert this; decide
      | ok r =>
        obtain ⟨i', s'⟩ := r
        rw [hr] at hspec
        dsimp only at hspec ⊢
        obtain ⟨h1, h2⟩ := ih s' (i' + 1)
        refine ⟨?_, h2⟩
        rw [h1]
        rcases hspec with ⟨q, a, a', hq, hun, hs, _, hpos, _, _⟩ | ⟨_, _, _, hs⟩
        · rw [hs]; exact options_store_positional self q a a' hq hun hpos
        · rw [hs]; rfl
    · rw [if_neg hi]
      exact ⟨rfl, fun t h => by cases h⟩

theorem walk_prefix (argv : List Str) (k : Nat) (hk : endOptionIndex argv = k)
    (hlt : k < argv.length) :
    ∀ (fuel : Nat) (self : Argparsor) (i : Nat), i ≤ k →
      match self.walk fuel k (argv.take k) i with
      | .error x => self.walk fuel k argv i = .error x
      | .ok st => ∃ m, self.walk fuel k argv i = st.afterEndOption m argv (k + 1) := by
  have hlen : (argv.take k).length = k := by
    rw [List.length_take]; omega
  have hbefore : ∀ j, j < k → isEndOption (argv.getD j []) = false := by
    intro j hj
    have hj' : j < argv.length := by omega
    rw [getD_eq_getElem argv j hj']
    exact List.not_of_lt_findIdx (by rw [← hk] at hj; exact hj)
  have hat : isEndOption (argv.getD k []) = true := by
    rw [getD_eq_getElem argv k hlt]
    have hk' : List.findIdx isEndOption argv < argv.length := by
      rw [show List.findIdx isEndOption argv = k from hk]; exact hlt
    have := @List.findIdx_getElem _ isEndOption argv hk'
    simpa [show List.findIdx isEndOption argv = k from hk] using this
  intro fuel
  induction fuel with
  | zero => intro self i _; rfl
  | succ fuel ih =>
    intro self i hi
    rw [walk_succ, walk_succ, hlen]
    rcases Nat.lt_or_ge i k with hik | hik
    · have hi' : i < argv.length := by omega
      rw [if_pos hik, if_pos hi', getD_take argv k i hik, hbefore i hik,
        parseShortArgument_take self k argv i hik, parseLongArgument_take self k argv i hik,
        parsePositionnal_take self k argv i false hik]
      have hopt : ∀ (r : Step), Step.Advances self k i r →
          match (match r with
            | .error e => (.error e : Outcome)
            | .ok (i', s1) => Argparsor.walk fuel s1 k (argv.take k) (i' + 1)) with
          | .error x =>
            (match r with
              | .error e => (.error e : Outcome)
              | .ok (i', s1) => Argparsor.walk fuel s1 k argv (i' + 1)) = .error x
          | .ok st =>
            ∃ m, (match r with
              | .error e => (.error e : Outcome)
              | .ok (i', s1) => Argparsor.walk fuel s1 k argv (i' + 1)) =
              st.afterEndOption m argv (k + 1) := by
        intro r hadv
        cases r with
        | error r => rfl
        | ok r =>
          obtain ⟨i', s1⟩ := r
          obtain ⟨_, _, _, h4⟩ := hadv
          exact ih s1 (i' + 1) (h4 hik)
      simp only [Bool.false_eq_true, if_false]
      split_ifs
      · exact hopt _ (parseShortArgument_advances _ _ _ _)
      · exact hopt _ (parseLongArgument_advances _ _ _ _)
      · have hp := parsePositionnal_progress self k argv i false
        cases hr : self._parsePositionnalArgument k argv i false with
        | error r => rfl
        | ok r =>
          obtain ⟨i', s1⟩ := r
          rw [hr] at hp
          exact ih s1 (i' + 1) (hp.2 hik)
    · have hik' : i = k := by omega
      subst hik'
      rw [if_neg (Nat.lt_irrefl _), if_pos hlt, hat]
      have hs : isShortOption (argv.getD i []) = false := by
        simp only [isEndOption, beq_iff_eq] at hat
        rw [hat]; rfl
      have hl : isLongOption (argv.getD i []) = false := by
        simp only [isEndOption, beq_iff_eq] at hat
        rw [hat]; rfl
      rw [hs, hl]
      exact ⟨fuel, by simp⟩

theorem endOptionIndex_take (argv : List Str) (k : Nat) (hk : endOptionIndex argv = k)
    (hlt : k < argv.length) : endOptionIndex (argv.take k) = k := by
  have hlen : (argv.take k).length = k := by
    rw [List.length_take]; omega
  have hall : ∀ x ∈ argv.take k, isEndOption x = false := by
    intro x hx
    obtain ⟨j, hj, hx'⟩ := List.getElem_of_mem hx
    rw [List.getElem_take] at hx'
    rw [← hx']
    rw [hlen] at hj
    exact List.not_of_lt_findIdx
      (by rw [show List.findIdx isEndOption argv = k from hk]; exact hj)
  have := List.findIdx_eq_length.mpr hall
  unfold endOptionIndex
  rw [this, hlen]

/-- C3 (amended). For an argument vector whose first `--` is at index `k >= 1`, the
token walk over `argv` and the token walk over `argv[0..k)` leave every option
(non-positional) declaration the same: same existence, count and values. If the
walk over the prefix raises, the walk over `argv` raises the same exception in
the same registry; if it returns, the walk over `argv` never raises
`invalid option`, so no token after `--` is reported as an unknown option. -/
theorem end_marker_protects_options (self : Argparsor) (argv : List Str)
    (alternative strict : Bool) (k : Nat)
    (hk1 : 1 ≤ k) (hk : endOptionIndex argv = k) (hlt : k < argv.length) :
    (self.parseTokens argv alternative strict).state.options =
      (self.parseTokens (argv.take k) alternative strict).state.options ∧
    (∀ x, self.parseTokens (argv.take k) alternative strict = .error x →
      self.parseTokens argv alternative strict = .error x) ∧
    (∀ st, self.parseTokens (argv.take k) alternative strict = .ok st →
      ∀ t, (self.parseTokens argv alternative strict).exception ≠
        some (.ParseArgumentException t "invalid option".toList)) := by
  have hlen : (argv.take k).length = k := by
    rw [List.length_take]; omega
  have hne : argv.take k ≠ [] := by
    intro h
    rw [h] at hlen
    simp at hlen
    omega
  have hbegin : self.begin (argv.take k) alternative strict = self.begin argv alternative strict := by
    unfold Argparsor.begin
    rw [getD_take argv k 0 (by omega)]
  have hfuelP := parseTokens_fuel self (argv.take k) alternative strict hne
  have hP : self.parseTokens (argv.take k) alternative strict =
      (self.begin argv alternative strict).walk (argv.length + self.arguments.length) k
        (argv.take k) 1 := by
    have h1 : self.parseTokens (argv.take k) alternative strict =
        (self.begin argv alternative strict).walk (k + self.arguments.length) k
          (argv.take k) 1 := by
      unfold Argparsor.parseTokens
      rw [hbegin, endOptionIndex_take argv k hk hlt, hlen]
    rw [h1] at hfuelP ⊢
    have := walk_mono_add k (argv.take k) (k + self.arguments.length)
      (self.begin argv alternative strict) 1 hfuelP (argv.length - k)
    rw [← this]
    congr 1
    omega
  have hF : self.parseTokens argv alternative strict =
      (self.begin argv alternative strict).walk (argv.length + self.arguments.length) k argv 1 := by
    unfold Argparsor.parseTokens
    rw [hk]
  have hsim := walk_prefix argv k hk hlt (argv.length + self.arguments.length)
    (self.begin argv alternative strict) 1 hk1
  rw [← hP, ← hF] at hsim
  cases hres : self.parseTokens (argv.take k) alternative strict with
  | error x =>
    rw [hres] at hsim
    dsimp only at hsim
    refine ⟨by rw [hsim], ?_, ?_⟩
    · intro x' hx'
      cases hx'
      exact hsim
    · intro st hst
      cases hst
  | ok st =>
    rw [hres] at hsim
    dsimp only at hsim
    obtain ⟨m, hm⟩ := hsim
    obtain ⟨h1, h2⟩ := afterEndOption_options argv m st (k + 1)
    refine ⟨by rw [hm, h1]; rfl, ?_, ?_⟩
    · intro x hx
      cases hx
    · intro st' _ t
      rw [hm]
      exact h2 t

/-- C3, the claim as stated fails for `parseArguments`: with the required positional
`FILE` and the option `--opt` whose validator rewrites its value, parsing
`[prog, --opt, v, --, f]` ends with `--opt == "X"`, while parsing the prefix
`[prog, --opt, v]` raises the required-missing error before any validator runs
and leaves `--opt == "v"`. -/
theorem end_marker_validation_counterexample :
    endOptionIndex (args ["prog", "--opt", "v", "--", "f"]) = 3 ∧
    (scenarioRewrite.parseArguments (args ["prog", "--opt", "v", "--", "f"]) false
        false).state.arguments.map (fun d => String.mk d.argument) = ["X", "f"] ∧
    (scenarioRewrite.parseArguments ((args ["prog", "--opt", "v", "--", "f"]).take 3) false
        false).state.arguments.map (fun d => String.mk d.argument) = ["v", ""] ∧
    (scenarioRewrite.parseArguments ((args ["prog", "--opt", "v", "--", "f"]).take 3) false
        false).exception =
      some (.ParseArgumentRequiredException "FILE".toList "argument is required".toList) := by
  decide

theorem end_marker_protects_options_witness :
    (scenarioRewrite.parseTokens (args ["prog", "--opt", "v", "--", "--nope"]) false
        true).state.options =
      (scenarioRewrite.parseTokens ((args ["prog", "--opt", "v", "--", "--nope"]).take 3) false
        true).state.options :=
  (end_marker_protects_options scenarioRewrite (args ["prog", "--opt", "v", "--", "--nope"])
    false true 3 (by decide) (by decide) (by decide)).1

/-! ## What a routine may change in the registry -/

theorem store_self (self : Argparsor) (p : Nat) (a : Argument) (h : self.arguments[p]? = some a) :
    self.store p a = self := by
  unfold Argparsor.store
  have : self.arguments.set p a = self.arguments := by
    apply List.ext_getElem?
    intro i
    rw [List.getElem?_set]
    split_ifs with h1 h2
    · subst h1; exact h.symm
    · subst h1; rw [h]; rw [List.getElem?_eq_none (by omega)] at h; cases h
    · rfl
  rw [this]

/-- The registry a call of `_parseArgument` leaves. A normal return stored the
declaration back marked and counted once more, with some scalar value and some
element vector. An exception left the mark, the count and the scalar value as
they were; the element vector can differ only for the four classes that clear it
before they test the number of tokens, reached without an inline value. -/
theorem parseArgument_change (self : Argparsor) (maxIndex : Nat) (argv : List Str) (index : Nat)
    (hasArg : Bool) (option arg : Str) (p : Nat) (a : Argument) :
    match self._parseArgument maxIndex argv index hasArg option arg p a with
    | .ok (_, s') =>
      ∃ argument elements, s' = self.store p
        { a with isExist := true, count := a.count + 1, argument := argument,
                 elements := elements }
    | .error (_, s') =>
      ∃ elements, s' = self.store p { a with elements := elements } ∧
        (elements = a.elements ∨
          (hasArg = false ∧
            (a.type = .NUMBER_OPTION ∨ a.type = .MULTI_OPTION ∨ a.type = .MULTI_NUMBER_OPTION ∨
              a.type = .MULTI_NUMBER_INFINITE_OPTION))) := by
  rcases a with ⟨names, ty, ex, req, cnt, nargs, argm, elems, valid⟩
  cases hasArg
  · cases ty
    case SIMPLE_OPTION =>
      simp only [Argparsor._parseArgument, Bool.false_eq_true, if_false]
      split_ifs <;>
        first
        | exact ⟨_, _, rfl⟩
        | exact ⟨_, rfl, by first | trivial | simp⟩
    case NUMBER_OPTION =>
      simp only [Argparsor._parseArgument, Bool.false_eq_true, if_false]
      split_ifs <;>
        first
        | exact ⟨_, _, rfl⟩
        | exact ⟨_, rfl, by first | trivial | simp⟩
    case INFINITE_OPTION =>
      simp only [Argparsor._parseArgument, Bool.false_eq_true, if_false]
      exact ⟨_, _, rfl⟩
    case MULTI_OPTION =>
      simp only [Argparsor._parseArgument, Bool.false_eq_true, if_false]
      cases ex <;> split_ifs <;>
        first
        | exact ⟨_, _, rfl⟩
        | exact ⟨_, rfl, by first | trivial | simp⟩
    case MULTI_INFINITE_OPTION =>
      simp only [Argparsor._parseArgument, Bool.false_eq_true, if_false]
      cases ex <;> exact ⟨_, _, rfl⟩
    case MULTI_NUMBER_OPTION =>
      simp only [Argparsor._parseArgument, Bool.false_eq_true, if_false]
      cases ex <;> split_ifs <;>
        first
        | exact ⟨_, _, rfl⟩
        | exact ⟨_, rfl, by first | trivial | simp⟩
    case MULTI_NUMBER_INFINITE_OPTION =>
      simp only [Argparsor._parseArgument, Bool.false_eq_true, if_false]
      generalize groupLoop self._endOfInfiniteArgument argv maxIndex nargs (maxIndex + 1)
        (index + 1) = r
      obtain ⟨groups, e⟩ := r
      cases ex <;> cases e <;>
        first
        | exact ⟨_, _, rfl⟩
        | exact ⟨_, rfl, by first | trivial | simp⟩
    all_goals exact ⟨_, _, rfl⟩
  · cases ty
    case SIMPLE_OPTION => exact ⟨_, _, rfl⟩
    case INFINITE_OPTION => exact ⟨_, _, rfl⟩
    case MULTI_OPTION => cases ex <;> exact ⟨_, _, rfl⟩
    case MULTI_INFINITE_OPTION => cases ex <;> exact ⟨_, _, rfl⟩
    all_goals exact ⟨_, rfl, by first | trivial | simp⟩

theorem sameDeclarations_refl (self : Argparsor) : self.SameDeclarations self :=
  ⟨rfl, rfl, rfl, rfl, rfl, rfl, rfl⟩

theorem sameDeclarations_trans {s1 s2 s3 : Argparsor} (h12 : s1.SameDeclarations s2)
    (h23 : s2.SameDeclarations s3) : s1.SameDeclarations s3 := by
  obtain ⟨a1, a2, a3, a4, a5, a6, a7⟩ := h12
  obtain ⟨b1, b2, b3, b4, b5, b6, b7⟩ := h23
  exact ⟨b1.trans a1, b2.trans a2, b3.trans a3, b4.trans a4, b5.trans a5, b6.trans a6,
    b7.trans a7⟩

theorem sameDeclarations_store (self : Argparsor) (p : Nat) (a a' : Argument)
    (h : self.arguments[p]? = some a) (hd : a'.declaration = a.declaration) :
    self.SameDeclarations (self.store p a') := by
  refine ⟨rfl, rfl, rfl, rfl, rfl, rfl, ?_⟩
  unfold Argparsor.store
  dsimp only
  apply List.ext_getElem?
  intro i
  rw [List.getElem?_map, List.getElem?_map, List.getElem?_set]
  split_ifs with h1 h2
  · subst h1; rw [h]; simp [hd]
  · subst h1; rw [List.getElem?_eq_none (by omega)]
  · rfl

theorem sameDeclarations_additional (self : Argparsor) (l : List Str) :
    self.SameDeclarations { self with additionalArguments := l } :=
  ⟨rfl, rfl, rfl, rfl, rfl, rfl, rfl⟩

theorem parseArgument_same (self : Argparsor) (maxIndex : Nat) (argv : List Str) (index : Nat)
    (hasArg : Bool) (option arg : Str) (p : Nat) (a0 a : Argument)
    (h : self.arguments[p]? = some a0) (hd : a.declaration = a0.declaration) :
    self.SameDeclarations
      (Step.state (self._parseArgument maxIndex argv index hasArg option arg p a)) := by
  have hc := parseArgument_change self maxIndex argv index hasArg option arg p a
  cases hr : self._parseArgument maxIndex argv index hasArg option arg p a with
  | ok r =>
    obtain ⟨i', s'⟩ := r
    rw [hr] at hc
    obtain ⟨x, y, rfl⟩ := hc
    exact sameDeclarations_store self p a0 _ h hd
  | error r =>
    obtain ⟨e, s'⟩ := r
    rw [hr] at hc
    obtain ⟨y, rfl, _⟩ := hc
    exact sameDeclarations_store self p a0 _ h hd

/-- The registry a call of `_parsePositionnalArgument` leaves. A normal return
either stored the first unfilled positional back as existing, with some scalar
value and element vector, or appended the token to the additional arguments. An
exception left the registry as it was, unless it is the `bad number of argument`
of an `INFINITE_NUMBER_POSITIONAL_ARGUMENT`, which keeps the groups pushed so
far. -/
theorem parsePositionnal_change (self : Argparsor) (argc : Nat) (argv : List Str) (index : Nat)
    (hasEnd : Bool) :
    match self._parsePositionnalArgument argc argv index hasEnd with
    | .ok (_, s') =>
      (∃ q a argument elements, self.arguments[q]? = some a ∧ a.isUnfilledPositional = true ∧
          s' = self.store q { a with isExist := true, argument := argument,
                                     elements := elements }) ∨
        s' = { self with
          additionalArguments := self.additionalArguments ++ [argv.getD index []] }
    | .error (_, s') =>
      s' = self ∨ ∃ q a elements, self.arguments[q]? = some a ∧
        a.type = .INFINITE_NUMBER_POSITIONAL_ARGUMENT ∧
        s' = self.store q { a with elements := elements } := by
  unfold Argparsor._parsePositionnalArgument
  dsimp only
  cases hq : self.arguments[self.arguments.findIdx Argument.isUnfilledPositional]? with
  | none =>
    dsimp only
    cases hs : self.isStrict with
    | true => exact Or.inl rfl
    | false => exact Or.inr rfl
  | some a =>
    have hun := findIdx_unfilled_some self a hq
    generalize self.arguments.findIdx Argument.isUnfilledPositional = q at hq
    rcases a with ⟨names, ty, ex, req, cnt, nargs, argm, elems, valid⟩
    cases ty
    case NUMBER_POSITIONAL_ARGUMENT =>
      dsimp only
      split_ifs with h
      · exact Or.inl rfl
      · exact Or.inl ⟨q, _, _, _, hq, hun, rfl⟩
    case INFINITE_NUMBER_POSITIONAL_ARGUMENT =>
      dsimp only
      generalize groupLoop (fun t => !hasEnd && self._endOfInfiniteArgument t) argv argc
        nargs (argc + 1) index = r
      obtain ⟨groups, e⟩ := r
      cases e
      · exact Or.inl ⟨q, _, _, _, hq, hun, rfl⟩
      · exact Or.inr ⟨q, _, _, hq, rfl, rfl⟩
      · exact Or.inl rfl
    all_goals exact Or.inl ⟨q, _, _, _, hq, hun, rfl⟩

theorem parseShortLoop_same (maxIndex : Nat) (argv : List Str) (index : Nat) (hasArg : Bool)
    (arg last : Str) :
    ∀ (cs : List Char) (self : Argparsor),
      self.SameDeclarations
        (Step.state (Argparsor.parseShortLoop maxIndex argv index hasArg arg last self cs)) := by
  have hlast : ∀ (self : Argparsor),
      self.SameDeclarations (Step.state
        (match self.find ('-' :: last) with
          | none => self.throwParse last "invalid option"
          | some (p, a) => self._parseArgument maxIndex argv index hasArg last arg p a)) := by
    intro self
    cases hf : self.find ('-' :: last) with
    | none => exact sameDeclarations_refl self
    | some pa => exact parseArgument_same _ _ _ _ _ _ _ _ _ _ (find_getElem? hf) rfl
  intro cs
  induction cs with
  | nil => intro self; unfold Argparsor.parseShortLoop; exact hlast self
  | cons c cs ih =>
    intro self
    cases cs with
    | nil => unfold Argparsor.parseShortLoop; exact hlast self
    | cons c' r =>
      unfold Argparsor.parseShortLoop
      cases hf : self.find ['-', c] with
      | none => exact sameDeclarations_refl self
      | some pa =>
        obtain ⟨p, a⟩ := pa
        dsimp only
        split_ifs
        · exact parseArgument_same _ _ _ _ _ _ _ _ _ _ (find_getElem? hf) rfl
        · exact sameDeclarations_refl self
        · exact sameDeclarations_trans
            (sameDeclarations_store self p a a.matched (find_getElem? hf) rfl) (ih _)

theorem parseShortArgument_same (self : Argparsor) (maxIndex : Nat) (argv : List Str)
    (index : Nat) :
    self.SameDeclarations (Step.state (self._parseShortArgument maxIndex argv index)) := by
  unfold Argparsor._parseShortArgument
  dsimp only
  split
  · rename_i p a hf
    split_ifs at hf with h
    exact parseArgument_same _ _ _ _ _ _ _ _ _ _ (find_getElem? hf) rfl
  · exact parseShortLoop_same _ _ _ _ _ _ _ _

theorem parseLongArgument_same (self : Argparsor) (maxIndex : Nat) (argv : List Str)
    (index : Nat) :
    self.SameDeclarations (Step.state (self._parseLongArgument maxIndex argv index)) := by
  unfold Argparsor._parseLongArgument
  dsimp only
  split
  · exact sameDeclarations_refl self
  · rename_i p a hf
    exact parseArgument_same _ _ _ _ _ _ _ _ _ _ (find_getElem? hf) rfl

theorem parsePositionnal_same (self : Argparsor) (argc : Nat) (argv : List Str) (index : Nat)
    (hasEnd : Bool) :
    self.SameDeclarations
      (Step.state (self._parsePositionnalArgument argc argv index hasEnd)) := by
  have hc := parsePositionnal_change self argc argv index hasEnd
  cases hr : self._parsePositionnalArgument argc argv index hasEnd with
  | ok r =>
    obtain ⟨i', s'⟩ := r
    rw [hr] at hc
    rcases hc with ⟨q, a, x, y, hq, _, rfl⟩ | h
    · exact sameDeclarations_store self q a _ hq rfl
    · rw [h]; exact sameDeclarations_additional self _
  | error r =>
    obtain ⟨e, s'⟩ := r
    rw [hr] at hc
    rcases hc with h | ⟨q, a, y, hq, _, rfl⟩
    · rw [h]; exact sameDeclarations_refl self
    · exact sameDeclarations_store self q a _ hq rfl

theorem sameDeclarations_step (self : Argparsor) (k : Nat → Argparsor → Outcome) :
    ∀ (r : Step), self.SameDeclarations (Step.state r) →
      (∀ (i' : Nat) (s1 : Argparsor), s1.SameDeclarations (Outcome.state (k i' s1))) →
      self.SameDeclarations (Outcome.state
        (match r with
          | .error e => (.error e : Outcome)
          | .ok (i', s1) => k i' s1)) := by
  intro r hr hk
  cases r with
  | error r => obtain ⟨e, s'⟩ := r; exact hr
  | ok r => obtain ⟨i', s1⟩ := r; exact sameDeclarations_trans hr (hk i' s1)

theorem afterEndOption_same (argv : List Str) :
    ∀ (fuel : Nat) (self : Argparsor) (i : Nat),
      self.SameDeclarations (Outcome.state (self.afterEndOption fuel argv i)) := by
  intro fuel
  induction fuel with
  | zero => intro self i; exact sameDeclarations_refl self
  | succ fuel ih =>
    intro self i
    rw [afterEndOption_succ]
    split_ifs
    · exact sameDeclarations_step self (fun i' s1 => Argparsor.afterEndOption fuel s1 argv (i' + 1)) _
        (parsePositionnal_same _ _ _ _ _) (fun i' s1 => ih s1 (i' + 1))
    · exact sameDeclarations_refl self

theorem walk_same (endIndex : Nat) (argv : List Str) :
    ∀ (fuel : Nat) (self : Argparsor) (i : Nat),
      self.SameDeclarations (Outcome.state (self.walk fuel endIndex argv i)) := by
  intro fuel
  induction fuel with
  | zero => intro self i; exact sameDeclarations_refl self
  | succ fuel ih =>
    intro self i
    rw [walk_succ]
    split_ifs
    · exact sameDeclarations_step self (fun i' s1 => Argparsor.walk fuel s1 endIndex argv (i' + 1)) _
        (parseShortArgument_same _ _ _ _) (fun i' s1 => ih s1 (i' + 1))
    · exact sameDeclarations_step self (fun i' s1 => Argparsor.walk fuel s1 endIndex argv (i' + 1)) _
        (parseLongArgument_same _ _ _ _) (fun i' s1 => ih s1 (i' + 1))
    · exact afterEndOption_same argv fuel self (i + 1)
    · exact sameDeclarations_step self (fun i' s1 => Argparsor.walk fuel s1 endIndex argv (i' + 1)) _
        (parsePositionnal_same _ _ _ _ _) (fun i' s1 => ih s1 (i' + 1))
    · exact sameDeclarations_refl self

/-- What the validation loop does to one declaration: mark, count and declaration
stay, and a declaration that is absent or has no validator is not touched. -/
theorem checkValid_change (a a' : Argument) (h : a.checkValid = .ok a') :
    a'.isExist = a.isExist ∧ a'.count = a.count ∧ a'.declaration = a.declaration ∧
      (a.valid = none ∨ a.isExist = false → a' = a) := by
  rcases a with ⟨names, ty, ex, req, cnt, nargs, argm, elems, valid⟩
  unfold Argument.checkValid at h
  cases ex
  · cases h; exact ⟨rfl, rfl, rfl, fun _ => rfl⟩
  · cases valid with
    | none => cases h; exact ⟨rfl, rfl, rfl, fun _ => rfl⟩
    | some v =>
      dsimp only at h
      cases hv : v.isValid (Argument.toVector ⟨names, ty, true, req, cnt, nargs, argm, elems, some v⟩) with
      | error m => rw [hv] at h; cases h
      | ok r =>
        obtain ⟨b, arguments⟩ := r
        rw [hv] at h
        cases b
        · cases h
        · dsimp only at h
          cases ty <;> simp only [Argument.writeBack] at h <;>
            first
            | (cases h; done)
            | (cases h; exact ⟨rfl, rfl, rfl, fun h => by simp at h⟩)
            | (cases arguments <;> cases h <;> exact ⟨rfl, rfl, rfl, fun h => by simp at h⟩)

theorem validated_refl (a : Argument) : a.Validated a := ⟨rfl, rfl, rfl, fun _ => rfl⟩

theorem validated_trans {a b c : Argument} (h1 : a.Validated b) (h2 : b.Validated c) :
    a.Validated c := by
  obtain ⟨a1, a2, a3, a4⟩ := h1
  obtain ⟨b1, b2, b3, b4⟩ := h2
  refine ⟨b1.trans a1, b2.trans a2, b3.trans a3, fun h => ?_⟩
  have hab := a4 h
  subst hab
  exact b4 h

theorem forall₂_set_right {α : Type} (R : α → α → Prop) (hrefl : ∀ x, R x x) :
    ∀ (l : List α) (q : Nat) (a a' : α), l[q]? = some a → R a a' →
      List.Forall₂ R l (l.set q a') := by
  intro l
  induction l with
  | nil => intro q a a' h; simp at h
  | cons x l ih =>
    intro q a a' h hr
    cases q with
    | zero =>
      simp at h
      subst h
      exact List.Forall₂.cons hr (List.forall₂_same.mpr (fun y _ => hrefl y))
    | succ q =>
      simp at h
      exact List.Forall₂.cons (hrefl x) (ih q a a' h hr)

theorem forall₂_trans' {α : Type} (R : α → α → Prop)
    (htrans : ∀ x y z, R x y → R y z → R x z) :
    ∀ (l1 l2 l3 : List α), List.Forall₂ R l1 l2 → List.Forall₂ R l2 l3 →
      List.Forall₂ R l1 l3 := by
  intro l1 l2 l3 h12
  induction h12 generalizing l3 with
  | nil => intro h; cases h; exact List.Forall₂.nil
  | cons hab _ ih =>
    intro h
    cases h with
    | cons hbc h' => exact List.Forall₂.cons (htrans _ _ _ hab hbc) (ih _ h')

/-- The validation loop, returning or throwing, leaves the additional arguments and
the declarations as they are, and every declaration validated or untouched. -/
theorem checkValids_change (qs : List Nat) :
    ∀ (self : Argparsor),
      (Outcome.state (self.checkValids qs)).additionalArguments = self.additionalArguments ∧
      self.SameDeclarations (Outcome.state (self.checkValids qs)) ∧
      List.Forall₂ Argument.Validated self.arguments
        (Outcome.state (self.checkValids qs)).arguments := by
  induction qs with
  | nil =>
    intro self
    exact ⟨rfl, sameDeclarations_refl self, List.forall₂_same.mpr (fun a _ => validated_refl a)⟩
  | cons q qs ih =>
    intro self
    unfold Argparsor.checkValids
    cases hq : self.arguments[q]? with
    | none => exact ih self
    | some a =>
      dsimp only
      cases hv : a.checkValid with
      | error e =>
        exact ⟨rfl, sameDeclarations_refl self,
          List.forall₂_same.mpr (fun a _ => validated_refl a)⟩
      | ok a' =>
        dsimp only
        obtain ⟨h1, h2, h3⟩ := ih (self.store q a')
        have hc := checkValid_change a a' hv
        refine ⟨h1, sameDeclarations_trans (sameDeclarations_store self q a a' hq hc.2.2.1) h2, ?_⟩
        exact forall₂_trans' Argument.Validated (fun _ _ _ => validated_trans) _ _ _
          (forall₂_set_right Argument.Validated validated_refl _ q a a' hq hc) h3

theorem afterWalk_change (self : Argparsor) :
    (Outcome.state self.afterWalk).additionalArguments = self.additionalArguments ∧
      self.SameDeclarations (Outcome.state self.afterWalk) ∧
      List.Forall₂ Argument.Validated self.arguments (Outcome.state self.afterWalk).arguments := by
  have hrefl : (Outcome.state (.error (Exception.exitHelp, self))).additionalArguments =
        self.additionalArguments ∧
      self.SameDeclarations self ∧ List.Forall₂ Argument.Validated self.arguments self.arguments :=
    ⟨rfl, sameDeclarations_refl self, List.forall₂_same.mpr (fun a _ => validated_refl a)⟩
  unfold Argparsor.afterWalk
  split_ifs
  · exact hrefl
  · exact hrefl
  · split
    · exact hrefl
    · exact checkValids_change _ self

/-- Whatever `parseArguments` ends with, the registry it leaves holds the
declarations of the registry after the three assignments at its start. -/
theorem parseArguments_same (self : Argparsor) (argv : List Str) (alternative strict : Bool) :
    (self.begin argv alternative strict).SameDeclarations
      (Outcome.state (self.parseArguments argv alternative strict)) := by
  unfold Argparsor.parseArguments
  have hw := walk_same (endOptionIndex argv) argv (argv.length + self.arguments.length)
    (self.begin argv alternative strict) 1
  unfold Argparsor.parseTokens
  cases hr : (self.begin argv alternative strict).walk (argv.length + self.arguments.length)
      (endOptionIndex argv) argv 1 with
  | error r => obtain ⟨e, s'⟩ := r; rw [hr] at hw; exact hw
  | ok s1 =>
    rw [hr] at hw
    exact sameDeclarations_trans hw (afterWalk_change s1).2.1

theorem lookup_isSome_iff (m : List (Str × Nat)) (s : Str) :
    (m.lookup s).isSome = true ↔ s ∈ m.map Prod.fst := by
  induction m with
  | nil => simp
  | cons kv m ih =>
    obtain ⟨k, v⟩ := kv
    rw [List.lookup_cons]
    by_cases h : s = k
    · subst h; simp
    · have hb : (s == k) = false := by simpa using h
      rw [hb]
      simp [ih, h]

theorem declaration_names {l l' : List Argument}
    (h : l'.map Argument.declaration = l.map Argument.declaration) :
    l'.map (fun a => a.nameOrFlags) = l.map (fun a => a.nameOrFlags) := by
  have := congrArg (List.map (fun a : Argument => a.nameOrFlags)) h
  simpa [List.map_map, Function.comp_def, Argument.declaration] using this

/-- C14. `argumentExists(s)` is true exactly when `s` is a key of the map from names and
flags to declarations, whatever the parser stored in the declarations;
`getArgument(s)` throws `AccessDeniedException(s, "argument not found")` exactly
when `argumentExists(s)` is false, and returns the declaration behind the key
otherwise; and `parseArguments`, however it ends, leaves the map and the names
and flags of every declaration as they were. -/
theorem lookup_by_name (self : Argparsor) (s : Str) :
    (self.argumentExists s = true ↔ s ∈ self.argumentFromName.map Prod.fst) ∧
    (∀ (p : Nat) (a : Argument), (self.store p a).argumentExists s = self.argumentExists s) ∧
    (self.argumentExists s = false ↔
      self.getArgument s = .error (.AccessDeniedException s "argument not found".toList)) ∧
    (self.argumentExists s = false ↔ ∃ e, self.getArgument s = .error e) ∧
    (∀ (argv : List Str) (alternative strict : Bool),
      (Outcome.state (self.parseArguments argv alternative strict)).argumentFromName =
          self.argumentFromName ∧
        (Outcome.state (self.parseArguments argv alternative strict)).arguments.map
            (fun a => a.nameOrFlags) = self.arguments.map (fun a => a.nameOrFlags) ∧
        (Outcome.state (self.parseArguments argv alternative strict)).argumentExists s =
          self.argumentExists s) := by
  refine ⟨lookup_isSome_iff _ s, fun _ _ => rfl, ?_, ?_, ?_⟩
  · unfold Argparsor.argumentExists Argparsor.getArgument
    cases self.argumentFromName.lookup s with
    | none => simp
    | some p => simp
  · unfold Argparsor.argumentExists Argparsor.getArgument
    cases self.argumentFromName.lookup s with
    | none => simp
    | some p => simp
  · intro argv alternative strict
    obtain ⟨h1, _, _, _, _, _, h7⟩ := parseArguments_same self argv alternative strict
    refine ⟨h1, declaration_names h7, ?_⟩
    unfold Argparsor.argumentExists
    rw [h1]
    rfl

/-! ## One token of the walk -/

theorem walk_long_token (fuel : Nat) (self : Argparsor) (endIndex : Nat) (argv : List Str)
    (i : Nat) (tok : Str) (hi : argv[i]? = some tok) (hlong : isLongOption tok = true) :
    self.walk (fuel + 1) endIndex argv i =
      match self._parseLongArgument endIndex argv i with
      | .error e => .error e
      | .ok (i', self') => Argparsor.walk fuel self' endIndex argv (i' + 1) := by
  rw [walk_succ, if_pos (lt_of_getElem? hi), getD_of_getElem? hi,
    isShortOption_of_isLongOption hlong, hlong]
  simp

theorem walk_short_token (fuel : Nat) (self : Argparsor) (endIndex : Nat) (argv : List Str)
    (i : Nat) (tok : Str) (hi : argv[i]? = some tok) (hshort : isShortOption tok = true) :
    self.walk (fuel + 1) endIndex argv i =
      match self._parseShortArgument endIndex argv i with
      | .error e => .error e
      | .ok (i', self') => Argparsor.walk fuel self' endIndex argv (i' + 1) := by
  rw [walk_succ, if_pos (lt_of_getElem? hi), getD_of_getElem? hi, hshort]
  simp

theorem parseLongArgument_found (self : Argparsor) (maxIndex : Nat) (argv : List Str) (i : Nat)
    (tok : Str) (p : Nat) (a : Argument) (hi : argv[i]? = some tok)
    (hfind : self.find (takeArg tok).2.1 = some (p, a)) :
    self._parseLongArgument maxIndex argv i =
      self._parseArgument maxIndex argv i (takeArg tok).1 ((takeArg tok).2.1.drop 2)
        (takeArg tok).2.2 p a := by
  simp only [Argparsor._parseLongArgument, getD_of_getElem? hi, hfind]

/-- A short token of one character `-c`, outside of the alternative lookup, is
handed to `_parseArgument` for the declaration of `-c`. -/
theorem parseShortArgument_lone (self : Argparsor) (maxIndex : Nat) (argv : List Str) (i : Nat)
    (c : Char) (v : Str) (hasArg : Bool) (p : Nat) (a : Argument) (tok : Str)
    (hi : argv[i]? = some tok) (htake : takeArg tok = (hasArg, ['-', c], v))
    (halt : self.isAlternative = false ∨ self.find ['-', '-', c] = none)
    (hfind : self.find ['-', c] = some (p, a)) :
    self._parseShortArgument maxIndex argv i =
      self._parseArgument maxIndex argv i hasArg [c] v p a := by
  simp only [Argparsor._parseShortArgument, getD_of_getElem? hi, htake]
  have hfirst : (if self.isAlternative = true then self.find ['-', '-', c] else none) = none := by
    rcases halt with h | h
    · simp [h]
    · simp [h]
  rw [hfirst]
  simp only [List.drop_succ_cons, List.drop_zero, Argparsor.parseShortLoop, List.getLast?,
    List.getLast, Option.toList, hfind]

/-- C15. A `SIMPLE_OPTION` matched without inline value at index `i`, with `end` the
index of the first `--` (or `argc`): when `i + 1 < end` its value becomes
`argv[i+1]` as it stands, it exists, its count grows by one and the index
returned is `i + 1`, so that the walk resumes at `i + 2`; otherwise
`ParseArgumentException(option, "bad number of argument")` is thrown, `option`
being the name it was matched by, and nothing is stored. The walk does so on a
long token `--opt` and on a short token `-o`. -/
theorem simple_separate_consumption (self : Argparsor) (argv : List Str) (i p : Nat)
    (a : Argument) (htype : a.type = .SIMPLE_OPTION) :
    (∀ (option arg : Str), i + 1 < endOptionIndex argv →
        self._parseArgument (endOptionIndex argv) argv i false option arg p a =
          .ok (i + 1, self.store p
            { a with argument := argv.getD (i + 1) [], isExist := true, count := a.count + 1 })) ∧
    (∀ (option arg : Str), endOptionIndex argv ≤ i + 1 →
        self._parseArgument (endOptionIndex argv) argv i false option arg p a =
          .error (.ParseArgumentException option "bad number of argument".toList,
            self.store p a)) ∧
    (∀ (fuel : Nat) (tok : Str), argv[i]? = some tok → isLongOption tok = true → '=' ∉ tok →
        self.find tok = some (p, a) →
        (i + 1 < endOptionIndex argv →
          self.walk (fuel + 1) (endOptionIndex argv) argv i =
            (self.store p
              { a with argument := argv.getD (i + 1) [], isExist := true,
                       count := a.count + 1 }).walk fuel (endOptionIndex argv) argv (i + 2)) ∧
        (endOptionIndex argv ≤ i + 1 →
          self.walk (fuel + 1) (endOptionIndex argv) argv i =
            .error (.ParseArgumentException (tok.drop 2) "bad number of argument".toList,
              self))) ∧
    (∀ (fuel : Nat) (c : Char), argv[i]? = some ['-', c] → c ≠ '-' → c ≠ '=' →
        (self.isAlternative = false ∨ self.find ['-', '-', c] = none) →
        self.find ['-', c] = some (p, a) →
        (i + 1 < endOptionIndex argv →
          self.walk (fuel + 1) (endOptionIndex argv) argv i =
            (self.store p
              { a with argument := argv.getD (i + 1) [], isExist := true,
                       count := a.count + 1 }).walk fuel (endOptionIndex argv) argv (i + 2)) ∧
        (endOptionIndex argv ≤ i + 1 →
          self.walk (fuel + 1) (endOptionIndex argv) argv i =
            .error (.ParseArgumentException [c] "bad number of argument".toList, self))) := by
  have hok : ∀ (option arg : Str), i + 1 < endOptionIndex argv →
      self._parseArgument (endOptionIndex argv) argv i false option arg p a =
        .ok (i + 1, self.store p
          { a with argument := argv.getD (i + 1) [], isExist := true, count := a.count + 1 }) := by
    intro option arg h
    rw [parseArgument_simple_separate self _ argv i option arg p a htype h]
    rfl
  have herr : ∀ (option arg : Str), endOptionIndex argv ≤ i + 1 →
      self._parseArgument (endOptionIndex argv) argv i false option arg p a =
        .error (.ParseArgumentException option "bad number of argument".toList,
          self.store p a) := by
    intro option arg h
    have h' : i + 1 ≥ endOptionIndex argv := h
    simp only [Argparsor._parseArgument, htype, if_pos h', Argparsor.throwParse]
    rfl
  refine ⟨hok, herr, ?_, ?_⟩
  · intro fuel tok hi hlong hnoeq hfind
    have htake := takeArg_noEq tok hnoeq
    have hf : self.find (takeArg tok).2.1 = some (p, a) := by rw [htake]; exact hfind
    have hwalk := walk_long_token fuel self (endOptionIndex argv) argv i tok hi hlong
    rw [parseLongArgument_found self _ argv i tok p a hi hf, htake] at hwalk
    constructor
    · intro h
      rw [hwalk, hok _ _ h]
    · intro h
      rw [hwalk, herr _ _ h, store_self self p a (find_getElem? hfind)]
  · intro fuel c hi hc1 hc2 halt hfind
    have hshort : isShortOption ['-', c] = true := by simp [isShortOption, hc1]
    have htake : takeArg ['-', c] = (false, ['-', c], []) :=
      takeArg_noEq _ (by simp [Ne.symm hc2])
    have hwalk := walk_short_token fuel self (endOptionIndex argv) argv i _ hi hshort
    rw [parseShortArgument_lone self _ argv i c [] false p a _ hi htake halt hfind] at hwalk
    constructor
    · intro h
      rw [hwalk, hok _ _ h]
    · intro h
      rw [hwalk, herr _ _ h, store_self self p a (find_getElem? hfind)]

theorem simple_separate_consumption_witness :
    scenarioSimple.walk 3 (endOptionIndex (args ["prog", "--opt", "-x"]))
        (args ["prog", "--opt", "-x"]) 1 =
      (scenarioSimple.store 0
        { Argument.declared ["-o", "--opt"] .SIMPLE_OPTION 1 with
          argument := "-x".toList, isExist := true, count := 1 }).walk 2
        (endOptionIndex (args ["prog", "--opt", "-x"])) (args ["prog", "--opt", "-x"]) 3 :=
  ((simple_separate_consumption scenarioSimple (args ["prog", "--opt", "-x"]) 1 0
    (Argument.declared ["-o", "--opt"] .SIMPLE_OPTION 1) rfl).2.2.1 2 "--opt".toList rfl
    (by decide) (by decide) rfl).1 (by decide)

/-- C16. An inline value handed to a declaration of class `BOOLEAN_OPTION`,
`REVERSE_BOOLEAN_OPTION`, `HELP_OPTION` or `VERSION_OPTION` throws
`ParseArgumentException(option, "option cannot use with argument")`, and handed
to a `NUMBER_OPTION`, `MULTI_NUMBER_OPTION` or `MULTI_NUMBER_INFINITE_OPTION` it
throws `ParseArgumentException(option, "option cannot use with only 1
argument")`; `_parseArgument` stores nothing before the throw. On a token
`--opt=value`, and on a token `-o=value`, the walk ends with that exception in
the registry it had before the token: mark, count and values of the declaration
are unchanged. -/
theorem inline_value_rejected (self : Argparsor) (argv : List Str) (i p : Nat) (a : Argument)
    (message : Str)
    (hclass :
      ((a.type = .BOOLEAN_OPTION ∨ a.type = .REVERSE_BOOLEAN_OPTION ∨ a.type = .HELP_OPTION ∨
          a.type = .VERSION_OPTION) ∧ message = "option cannot use with argument".toList) ∨
      ((a.type = .NUMBER_OPTION ∨ a.type = .MULTI_NUMBER_OPTION ∨
          a.type = .MULTI_NUMBER_INFINITE_OPTION) ∧
        message = "option cannot use with only 1 argument".toList)) :
    (∀ (maxIndex : Nat) (option arg : Str),
        self._parseArgument maxIndex argv i true option arg p a =
          .error (.ParseArgumentException option message, self.store p a)) ∧
    (∀ (fuel endIndex : Nat) (opt value : Str), argv[i]? = some (opt ++ '=' :: value) →
        isLongOption opt = true → '=' ∉ opt → self.find opt = some (p, a) →
        self.walk (fuel + 1) endIndex argv i =
          .error (.ParseArgumentException (opt.drop 2) message, self)) ∧
    (∀ (fuel endIndex : Nat) (c : Char) (value : Str), argv[i]? = some ('-' :: c :: '=' :: value) →
        c ≠ '-' → c ≠ '=' → (self.isAlternative = false ∨ self.find ['-', '-', c] = none) →
        self.find ['-', c] = some (p, a) →
        self.walk (fuel + 1) endIndex argv i =
          .error (.ParseArgumentException [c] message, self)) := by
  have hthrow : ∀ (maxIndex : Nat) (option arg : Str),
      self._parseArgument maxIndex argv i true option arg p a =
        .error (.ParseArgumentException option message, self.store p a) := by
    intro maxIndex option arg
    rcases a with ⟨names, ty, ex, req, cnt, nargs, argm, elems, valid⟩
    rcases hclass with ⟨h | h | h | h, rfl⟩ | ⟨h | h | h, rfl⟩ <;> dsimp only at h <;> subst h <;> rfl
  refine ⟨hthrow, ?_, ?_⟩
  · intro fuel endIndex opt value hi hlong hnoeq hfind
    have htake := takeArg_eq opt value hnoeq
    have hlong' : isLongOption (opt ++ '=' :: value) = true := by
      unfold isLongOption at hlong ⊢
      split at hlong
      · rfl
      · cases hlong
    have hf : self.find (takeArg (opt ++ '=' :: value)).2.1 = some (p, a) := by
      rw [htake]; exact hfind
    rw [walk_long_token fuel self endIndex argv i _ hi hlong',
      parseLongArgument_found self _ argv i _ p a hi hf, htake, hthrow,
      store_self self p a (find_getElem? hfind)]
  · intro fuel endIndex c value hi hc1 hc2 halt hfind
    have hshort : isShortOption ('-' :: c :: '=' :: value) = true := by simp [isShortOption, hc1]
    have htake : takeArg ('-' :: c :: '=' :: value) = (true, ['-', c], value) :=
      takeArg_eq ['-', c] value (by simp [Ne.symm hc2])
    rw [walk_short_token fuel self endIndex argv i _ hi hshort,
      parseShortArgument_lone self _ argv i c value true p a _ hi htake halt hfind, hthrow,
      store_self self p a (find_getElem? hfind)]

theorem inline_value_rejected_witness :
    scenario2.walk 2 2 (args ["prog", "--count=3"]) 1 =
      .error (.ParseArgumentException "count".toList
        "option cannot use with only 1 argument".toList, scenario2) :=
  (inline_value_rejected scenario2 (args ["prog", "--count=3"]) 1 1
    (Argument.declared ["-n", "--count"] .NUMBER_OPTION 2)
    "option cannot use with only 1 argument".toList (Or.inr ⟨Or.inl rfl, rfl⟩)).2.1 1 2
    "--count".toList "3".toList rfl (by decide) (by decide) rfl

/-- C17, the code at the failing input: the `SIMPLE_OPTION` `-o` given once as `-ovalue`
ends with the value `value` and the occurrence count 2, where `-o value` and
`--opt=value` give 1; the flag `-a` given as `-aaa` has the count 3. -/
theorem occurrence_count_cluster_value :
    ((scenarioSimple.parseArguments (args ["prog", "-ovalue"]) false false).exception = none ∧
      (scenarioSimple.parseArguments (args ["prog", "-ovalue"]) false false).state.arguments.map
        (fun d => (String.mk d.argument, d.isExist, d.count)) = [("value", true, 2)]) ∧
    (scenarioSimple.parseArguments (args ["prog", "-o", "value"]) false false).state.arguments.map
        (fun d => (String.mk d.argument, d.isExist, d.count)) = [("value", true, 1)] ∧
    (scenarioSimple.parseArguments (args ["prog", "--opt=value"]) false false).state.arguments.map
        (fun d => (String.mk d.argument, d.isExist, d.count)) = [("value", true, 1)] ∧
    (scenarioFlags.parseArguments (args ["prog", "-aaa"]) false false).state.arguments.map
        (fun d => (d.isExist, d.count)) = [(true, 3), (false, 0), (false, 0)] := by
  decide

theorem store_store (self : Argparsor) (p : Nat) (a b : Argument) :
    (self.store p a).store p b = self.store p b := by
  simp [Argparsor.store, List.set_set]

theorem find_store_same {self : Argparsor} {key : Str} {p : Nat} {a : Argument}
    (h : self.find key = some (p, a)) (a' : Argument) :
    (self.store p a').find key = some (p, a') := by
  rw [find_store, h]
  simp

theorem appended_cons (a : Argument) (v : Str) (vs : List Str) :
    (a.appended [v]).appended vs = a.appended (v :: vs) := by
  rcases a with ⟨names, ty, ex, req, cnt, nargs, argm, elems, valid⟩
  cases vs with
  | nil => rfl
  | cons w ws =>
    simp only [Argument.appended, List.map_cons, List.map_nil, List.length_cons, List.length_nil,
      Bool.true_eq_false, if_false, List.append_assoc, List.singleton_append]
    congr 1
    omega

theorem parseArgument_multi (self : Argparsor) (maxIndex : Nat) (argv : List Str) (index : Nat)
    (option arg : Str) (p : Nat) (a : Argument) (h : a.type = .MULTI_OPTION) :
    self._parseArgument maxIndex argv index true option arg p a =
        .ok (index, self.store p (a.appended [arg])) ∧
      (index + 1 < maxIndex →
        self._parseArgument maxIndex argv index false option arg p a =
          .ok (index + 1, self.store p (a.appended [argv.getD (index + 1) []]))) := by
  rcases a with ⟨names, ty, ex, req, cnt, nargs, argm, elems, valid⟩
  dsimp only at h
  subst h
  constructor
  · cases ex <;> rfl
  · intro hlt
    have : ¬ (index + 1 ≥ maxIndex) := by omega
    cases ex <;> simp [Argparsor._parseArgument, this, Argument.appended, Argument.matched,
      Argument.push_back, Argument.clear]

theorem appended_type (a : Argument) (vs : List Str) : (a.appended vs).type = a.type := by
  cases vs <;> rfl

theorem isLongOption_append (flag rest : Str) (h : isLongOption flag = true) :
    isLongOption (flag ++ rest) = true := by
  unfold isLongOption at h ⊢
  split at h
  · rfl
  · cases h

theorem getElem?_append_zero {α : Type} (pre : List α) (x : α) (rest : List α) :
    (pre ++ x :: rest)[pre.length]? = some x := by
  rw [List.getElem?_append_right (Nat.le_refl _)]
  simp

theorem getElem?_append_one {α : Type} (pre : List α) (x y : α) (rest : List α) :
    (pre ++ x :: y :: rest)[pre.length + 1]? = some y := by
  rw [List.getElem?_append_right (by omega)]
  simp

/-- The walk over the tokens of the occurrences `occ` of a `MULTI_OPTION`, which start
at index `pre.length` and end the argument vector, `endIndex` being `argc`. -/
theorem walk_occurrences (flag : Str) (p : Nat) (hlong : isLongOption flag = true)
    (hnoeq : '=' ∉ flag) (endIndex : Nat) :
    ∀ (occ : List (Bool × Str)) (pre : List Str) (self : Argparsor) (a : Argument) (fuel : Nat),
      self.find flag = some (p, a) → a.type = .MULTI_OPTION →
      endIndex = (pre ++ occurrences flag occ).length →
      self.walk (fuel + occ.length + 1) endIndex (pre ++ occurrences flag occ) pre.length =
        .ok (self.store p (a.appended (occ.map Prod.snd))) := by
  intro occ
  induction occ with
  | nil =>
    intro pre self a fuel hfind _ _
    rw [walk_past_end _ _ _ _ _ (by simp [occurrences])]
    simp only [List.map_nil, Argument.appended]
    rw [store_self self p a (find_getElem? hfind)]
  | cons bv r ih =>
    intro pre self a fuel hfind htype hend
    obtain ⟨b, v⟩ := bv
    have hfuel : fuel + ((b, v) :: r).length + 1 = (fuel + r.length + 1) + 1 := by
      simp only [List.length_cons]; omega
    rw [hfuel]
    have hm := parseArgument_multi self endIndex (pre ++ occurrences flag ((b, v) :: r)) pre.length
    cases b with
    | true =>
      have hargv : pre ++ occurrences flag ((true, v) :: r) =
          (pre ++ [flag ++ '=' :: v]) ++ occurrences flag r := by
        simp [occurrences, occurrence]
      have hi : (pre ++ occurrences flag ((true, v) :: r))[pre.length]? =
          some (flag ++ '=' :: v) := getElem?_append_zero pre _ _
      have htake := takeArg_eq flag v hnoeq
      have hf : self.find (takeArg (flag ++ '=' :: v)).2.1 = some (p, a) := by
        rw [htake]; exact hfind
      rw [walk_long_token _ self endIndex _ _ _ hi (isLongOption_append flag _ hlong),
        parseLongArgument_found self _ _ _ _ p a hi hf, htake, (hm _ _ p a htype).1]
      dsimp only
      have hlen : pre.length + 1 = (pre ++ [flag ++ '=' :: v]).length := by simp
      rw [hargv, hlen,
        ih (pre ++ [flag ++ '=' :: v]) (self.store p (a.appended [v])) (a.appended [v]) fuel
          (find_store_same hfind _) ((appended_type a _).trans htype) (by rw [hend, hargv]),
        store_store, appended_cons]
      rfl
    | false =>
      have hargv : pre ++ occurrences flag ((false, v) :: r) =
          (pre ++ [flag, v]) ++ occurrences flag r := by
        simp [occurrences, occurrence]
      have hi : (pre ++ occurrences flag ((false, v) :: r))[pre.length]? = some flag :=
        getElem?_append_zero pre _ _
      have hv : (pre ++ occurrences flag ((false, v) :: r)).getD (pre.length + 1) [] = v :=
        getD_of_getElem? (getElem?_append_one pre flag v _)
      have htake := takeArg_noEq flag hnoeq
      have hf : self.find (takeArg flag).2.1 = some (p, a) := by
        rw [htake]; exact hfind
      have hlt : pre.length + 1 < endIndex := by
        rw [hend]; simp [occurrences, occurrence]
      rw [walk_long_token _ self endIndex _ _ _ hi hlong,
        parseLongArgument_found self _ _ _ _ p a hi hf, htake, (hm _ _ p a htype).2 hlt, hv]
      dsimp only
      have hlen : pre.length + 1 + 1 = (pre ++ [flag, v]).length := by simp
      rw [hargv, hlen,
        ih (pre ++ [flag, v]) (self.store p (a.appended [v])) (a.appended [v]) fuel
          (find_store_same hfind _) ((appended_type a _).trans htype) (by rw [hend, hargv]),
        store_store, appended_cons]
      rfl

theorem occurrences_length (flag : Str) (occ : List (Bool × Str)) :
    occ.length ≤ (occurrences flag occ).length := by
  induction occ with
  | nil => simp [occurrences]
  | cons bv r ih =>
    obtain ⟨b, v⟩ := bv
    have : (occurrences flag ((b, v) :: r)).length =
        (occurrence flag (b, v)).length + (occurrences flag r).length := by
      simp [occurrences]
    rw [this]
    cases b <;> simp [occurrence] <;> omega

theorem isEndOption_of_isLongOption {tok : Str} (h : isLongOption tok = true) :
    isEndOption tok = false := by
  unfold isLongOption at h
  split at h
  · simp [isEndOption]
  · cases h

theorem occurrences_no_end (flag : Str) (hlong : isLongOption flag = true) :
    ∀ (occ : List (Bool × Str)), (∀ bv ∈ occ, bv.1 = false → bv.2 ≠ ['-', '-']) →
      ∀ t ∈ occurrences flag occ, isEndOption t = false := by
  intro occ
  induction occ with
  | nil => intro _ t ht; simp [occurrences] at ht
  | cons bv r ih =>
    intro h t ht
    obtain ⟨b, v⟩ := bv
    have hmem : t ∈ occurrence flag (b, v) ∨ t ∈ occurrences flag r := by
      simpa [occurrences] using ht
    rcases hmem with h1 | h1
    · cases b with
      | true =>
        simp only [occurrence, List.mem_singleton] at h1
        subst h1
        exact isEndOption_of_isLongOption (isLongOption_append flag _ hlong)
      | false =>
        simp only [occurrence, List.mem_cons, List.mem_singleton, List.not_mem_nil,
          or_false] at h1
        rcases h1 with h1 | h1
        · subst h1; exact isEndOption_of_isLongOption hlong
        · subst h1
          have := h (false, t) (List.mem_cons_self _ _) rfl
          simpa [isEndOption] using this
    · exact ih (fun bv hbv => h bv (List.mem_cons_of_mem _ hbv)) t h1

/-- C18. A `MULTI_OPTION` matched `k` times, each time as `flag=v` or as `flag` followed
by `v` (a `v` given in the second form not being `--`, and the program name not
being `--`), ends the token walk with the element vector `[v1, ..., vk]` when it
was absent before, marked, its count grown by `k`: the first occurrence clears
the vector, every later one appends. One match of a `MULTI_OPTION` or a
`MULTI_INFINITE_OPTION` that already exists appends what it consumed to the
element vector; scenario 3 with `--tags a b --tags c` gives `["a", "b", "c"]`. -/
theorem multi_appends (self : Argparsor) (prog flag : Str) (occ : List (Bool × Str)) (p : Nat)
    (a : Argument) (alternative strict : Bool) (hprog : prog ≠ ['-', '-'])
    (hlong : isLongOption flag = true) (hnoeq : '=' ∉ flag)
    (hvalues : ∀ bv ∈ occ, bv.1 = false → bv.2 ≠ ['-', '-'])
    (hfind : self.find flag = some (p, a)) (htype : a.type = .MULTI_OPTION) :
    self.parseTokens (prog :: occurrences flag occ) alternative strict =
        .ok ((self.begin (prog :: occurrences flag occ) alternative strict).store p
          (a.appended (occ.map Prod.snd))) ∧
    (a.isExist = false → occ ≠ [] →
      (a.appended (occ.map Prod.snd)).elements = (occ.map Prod.snd).map ArgumentElement.leaf ∧
      (a.appended (occ.map Prod.snd)).isExist = true ∧
      (a.appended (occ.map Prod.snd)).count = a.count + occ.length) ∧
    (∀ (s : Argparsor) (maxIndex : Nat) (argv : List Str) (i : Nat) (option arg : Str) (q : Nat)
        (b : Argument), b.type = .MULTI_OPTION ∨ b.type = .MULTI_INFINITE_OPTION →
      s._parseArgument maxIndex argv i true option arg q b =
        .ok (i, s.store q
          { b with
            elements := (if b.isExist = false then [] else b.elements) ++
              [ArgumentElement.leaf arg]
            isExist := true
            count := b.count + 1 })) ∧
    (∀ (s : Argparsor) (maxIndex : Nat) (argv : List Str) (i : Nat) (option arg : Str) (q : Nat)
        (b : Argument), b.type = .MULTI_OPTION → i + 1 < maxIndex →
      s._parseArgument maxIndex argv i false option arg q b =
        .ok (i + 1, s.store q
          { b with
            elements := (if b.isExist = false then [] else b.elements) ++
              [ArgumentElement.leaf (argv.getD (i + 1) [])]
            isExist := true
            count := b.count + 1 })) ∧
    (∀ (s : Argparsor) (maxIndex : Nat) (argv : List Str) (i : Nat) (option arg : Str) (q : Nat)
        (b : Argument), b.type = .MULTI_INFINITE_OPTION →
      s._parseArgument maxIndex argv i false option arg q b =
        .ok (i + ((slice argv (i + 1) maxIndex).takeWhile
              (fun t => !s._endOfInfiniteArgument t)).length,
          s.store q
            { b with
              elements := (if b.isExist = false then [] else b.elements) ++
                ((slice argv (i + 1) maxIndex).takeWhile
                  (fun t => !s._endOfInfiniteArgument t)).map ArgumentElement.leaf
              isExist := true
              count := b.count + 1 })) ∧
    ((scenario3.parseArguments (args ["prog", "--tags", "a", "b", "--tags", "c"]) false
        false).exception = none ∧
      (scenario3.parseArguments (args ["prog", "--tags", "a", "b", "--tags", "c"]) false
        false).state.arguments.map (fun d => (d.strings, d.count)) = [(["a", "b", "c"], 2)]) := by
  refine ⟨?_, ?_, ?_, ?_, ?_, by decide, by decide⟩
  · have hend : endOptionIndex (prog :: occurrences flag occ) =
        ([prog] ++ occurrences flag occ).length := by
      unfold endOptionIndex
      apply List.findIdx_eq_length.mpr
      intro t ht
      rcases List.mem_cons.mp ht with h | h
      · subst h; simpa [isEndOption] using hprog
      · exact occurrences_no_end flag hlong occ hvalues t h
    have hlen := occurrences_length flag occ
    obtain ⟨fuel, hfuel⟩ : ∃ fuel, (prog :: occurrences flag occ).length + self.arguments.length =
        fuel + occ.length + 1 :=
      ⟨(occurrences flag occ).length + self.arguments.length - occ.length, by
        simp only [List.length_cons]; omega⟩
    unfold Argparsor.parseTokens
    rw [hfuel, hend]
    exact walk_occurrences flag p hlong hnoeq _ occ [prog]
      (self.begin (prog :: occurrences flag occ) alternative strict) a fuel hfind htype rfl
  · intro hex hocc
    rcases a with ⟨names, ty, ex, req, cnt, nargs, argm, elems, valid⟩
    dsimp only at hex
    subst hex
    cases occ with
    | nil => exact absurd rfl hocc
    | cons bv r => simp [Argument.appended]
  · intro s maxIndex argv i option arg q b hb
    rcases b with ⟨names, ty, ex, req, cnt, nargs, argm, elems, valid⟩
    rcases hb with h | h <;> dsimp only at h <;> subst h <;> cases ex <;> rfl
  · intro s maxIndex argv i option arg q b hb hlt
    have := (parseArgument_multi s maxIndex argv i option arg q b hb).2 hlt
    rw [this]
    rfl
  · intro s maxIndex argv i option arg q b hb
    rcases b with ⟨names, ty, ex, req, cnt, nargs, argm, elems, valid⟩
    dsimp only at hb
    subst hb
    cases ex <;> rfl

theorem multi_appends_witness :
    scenarioMulti.parseTokens
        (args ["prog", "--item", "x", "--item=y", "--item", "-z"]) false false =
      .ok ((scenarioMulti.begin
          (args ["prog", "--item", "x", "--item=y", "--item", "-z"]) false false).store 0
        ((Argument.declared ["-i", "--item"] .MULTI_OPTION 1).appended
          (args ["x", "y", "-z"]))) :=
  (multi_appends scenarioMulti "prog".toList "--item".toList
    [(false, "x".toList), (true, "y".toList), (false, "-z".toList)] 0
    (Argument.declared ["-i", "--item"] .MULTI_OPTION 1) false false (by decide) (by decide)
    (by decide) (by decide) rfl rfl).1

/-- The validation loop on a registry whose declarations are `done ++ pre ++ a :: post`,
from the position after `done`: when those of `pre` pass and the one of `a`
throws, the loop throws that exception. -/
theorem checkValids_first_error (a : Argument) (post : List Argument) (e : Exception)
    (ha : a.checkValid = .error e) :
    ∀ (pre done : List Argument) (self : Argparsor),
      self.arguments = done ++ (pre ++ a :: post) →
      (∀ b ∈ pre, ∃ b', b.checkValid = .ok b') →
      Outcome.exception
        (self.checkValids (List.range' done.length (pre ++ a :: post).length)) = some e := by
  intro pre
  induction pre with
  | nil =>
    intro done self hargs _
    have hq : self.arguments[done.length]? = some a := by
      rw [hargs]; exact getElem?_append_zero done a post
    simp only [List.nil_append, List.length_cons, List.range'_succ, Argparsor.checkValids, hq, ha]
    rfl
  | cons b pre ih =>
    intro done self hargs hpre
    have hq : self.arguments[done.length]? = some b := by
      rw [hargs]; exact getElem?_append_zero done b _
    obtain ⟨b', hb'⟩ := hpre b (List.mem_cons_self _ _)
    simp only [List.cons_append, List.length_cons, List.range'_succ, Argparsor.checkValids, hq,
      hb']
    have hargs' : (self.store done.length b').arguments = (done ++ [b']) ++ (pre ++ a :: post) := by
      simp only [Argparsor.store, hargs]
      rw [List.set_append_right _ _ (Nat.le_refl _)]
      simp
    have := ih (done ++ [b']) (self.store done.length b') hargs'
      (fun c hc => hpre c (List.mem_cons_of_mem _ hc))
    simpa using this

/-- C20 (amended). When the validation loop reaches a declaration that exists and has a
validator (the token walk returned, neither the help nor the version option was
matched, no required declaration is absent, and every declaration before it in
registry order passes its own validation), a validator that throws with message
`m` makes `parseArguments` throw `ParseArgumentValidException` with the first
name or flag of the declaration and `m`, and a validator that returns `false`
makes it throw it with the message `invalid check function`. A declaration that
does not exist is never handed to its validator: the loop keeps it as it is. -/
theorem validation_error (self : Argparsor) (argv : List Str) (alternative strict : Bool)
    (self' : Argparsor) (pre post : List Argument) (a : Argument) (v : IValid)
    (hwalk : self.parseTokens argv alternative strict = .ok self')
    (hhelp : self'.optionExists self'.helpOption = false)
    (hversion : self'.optionExists self'.versionOption = false)
    (hrequired : ∀ b ∈ self'.arguments, b.isRequired = true → b.isExist = true)
    (hsplit : self'.arguments = pre ++ a :: post)
    (hpre : ∀ b ∈ pre, ∃ b', b.checkValid = .ok b')
    (hexist : a.isExist = true) (hvalid : a.valid = some v) :
    (∀ (m : Str), v.isValid a.toVector = .error m →
      (self.parseArguments argv alternative strict).exception =
        some (.ParseArgumentValidException a.front m)) ∧
    (∀ (arguments : List Str), v.isValid a.toVector = .ok (false, arguments) →
      (self.parseArguments argv alternative strict).exception =
        some (.ParseArgumentValidException a.front "invalid check function".toList)) ∧
    (∀ (b : Argument), b.isExist = false → b.checkValid = .ok b) := by
  have hfind : self'.arguments.find? (fun a => a.isRequired && a.isExist == false) = none := by
    rw [List.find?_eq_none]
    intro b hb
    cases hr : b.isRequired
    · simp
    · simp [hrequired b hb hr]
  have hparse : self.parseArguments argv alternative strict =
      self'.checkValids (List.range' 0 (pre ++ a :: post).length) := by
    have hlen : self'.arguments.length = (pre ++ a :: post).length := by rw [hsplit]
    simp only [Argparsor.parseArguments, hwalk, Argparsor.afterWalk, hhelp, hversion, hfind,
      hlen, List.range_eq_range', Bool.false_eq_true, if_false]
  have hraise : ∀ (e : Exception), a.checkValid = .error e →
      (self.parseArguments argv alternative strict).exception = some e := by
    intro e he
    rw [hparse]
    exact checkValids_first_error a post e he pre [] self' (by simpa using hsplit) hpre
  refine ⟨?_, ?_, ?_⟩
  · intro m hm
    apply hraise
    simp only [Argument.checkValid, hexist, hvalid, hm]
  · intro arguments hm
    apply hraise
    simp only [Argument.checkValid, hexist, hvalid, hm]
  · intro b hb
    simp only [Argument.checkValid, hb]

/-- C20, the claim as stated fails: with `--aa` and `--bb` both supplied and both
validators returning `false`, the exception names `--aa` only; and with
`--level` supplied, its validator returning `false`, and the required positional
`FILE` absent, `parseArguments` throws the required-missing error and no
validation error. -/
theorem validation_error_counterexample :
    (scenarioTwoValid.parseArguments (args ["prog", "--aa", "1", "--bb", "2"]) false
        false).exception =
      some (.ParseArgumentValidException "--aa".toList "invalid check function".toList) ∧
    (scenarioTwoValid.parseTokens (args ["prog", "--aa", "1", "--bb", "2"]) false
        false).state.arguments.map (fun d => (d.isExist, d.valid.isSome)) =
      [(true, true), (true, true)] ∧
    (scenarioRequired.parseArguments (args ["prog", "--level", "x"]) false false).exception =
      some (.ParseArgumentRequiredException "FILE".toList "argument is required".toList) := by
  decide

theorem validation_error_witness :
    (scenarioTwoValid.parseArguments (args ["prog", "--bb", "2"]) false false).exception =
      some (.ParseArgumentValidException "--bb".toList "invalid check function".toList) :=
  (validation_error scenarioTwoValid (args ["prog", "--bb", "2"]) false false
    (scenarioTwoValid.parseTokens (args ["prog", "--bb", "2"]) false false).state
    [{ Argument.declared ["--aa"] .SIMPLE_OPTION 1 with valid := some rejectAll }]
    []
    { Argument.declared ["--bb"] .SIMPLE_OPTION 1 with
        valid := some rejectAll, argument := "2".toList, isExist := true, count := 1 }
    rejectAll rfl rfl rfl (by simp [Argparsor.parseTokens, Argparsor.begin, Argparsor.walk,
      scenarioTwoValid, Argparsor.declared, Argument.declared, Outcome.state]; decide) rfl
    (by simp [Argument.checkValid, Argument.declared]) rfl rfl).2.1 ["2".toList] rfl

/-! ## `addArgument` -/

theorem checkFlags_front (self : Argparsor) (m : ArgumentMembers) (front : Str)
    (hfront : self.argumentExists front = false) :
    ∀ (flags : List Str), (∀ f ∈ flags, m.validFormatFlag f = none) →
      self.checkFlags m front flags = none := by
  intro flags
  induction flags with
  | nil => intro _; rfl
  | cons f flags ih =>
    intro h
    unfold Argparsor.checkFlags
    rw [h f (List.mem_cons_self _ _), hfront]
    exact ih (fun g hg => h g (List.mem_cons_of_mem _ hg))

/-- The duplicate test of `addArgument` reads the first flag only: with two flags or
more, all well formed, `addArgument` returns as soon as the first one is not in
the map, whatever the map holds for the other ones. -/
theorem addArgument_front_only (self : Argparsor) (m : ArgumentMembers) (front second : Str)
    (rest : List Str) (hfront : self.argumentExists front = false)
    (hformat : ∀ f ∈ front :: second :: rest, m.validFormatFlag f = none) :
    Step.exception (self.addArgument m (front :: second :: rest)) = none := by
  simp only [Argparsor.addArgument, Argparsor.createArgument, List.isEmpty_cons, Bool.false_and,
    Bool.false_eq_true, if_false, checkFlags_front self m front hfront _ hformat]
  rfl

/-- C12, the code at the failing input: in the registry that declares `-a`, `--all`, the
call `addArgument({"-b", "--all"})` returns; the registry then holds two
declarations that list `--all`, and the key `-b`. The call
`addArgument({"--all", "-b"})`, whose first flag is the declared one, throws
`ArgumentException("--all", "invalid flag already exist")` and leaves the
registry as it was. -/
theorem duplicate_later_flag_accepted :
    Step.exception ((Argparsor.new.addArguments specMembers [["-a", "--all"]]).addArgument
        specMembers (args ["-b", "--all"])) = none ∧
    (Step.state ((Argparsor.new.addArguments specMembers [["-a", "--all"]]).addArgument
        specMembers (args ["-b", "--all"]))).names = [["-a", "--all"], ["-b", "--all"]] ∧
    (Step.state ((Argparsor.new.addArguments specMembers [["-a", "--all"]]).addArgument
        specMembers (args ["-b", "--all"]))).keys = [("-a", 0), ("--all", 0), ("-b", 1)] ∧
    Step.exception ((Argparsor.new.addArguments specMembers [["-a", "--all"]]).addArgument
        specMembers (args ["--all", "-b"])) =
      some (.ArgumentException "--all".toList "invalid flag already exist".toList) ∧
    (Step.state ((Argparsor.new.addArguments specMembers [["-a", "--all"]]).addArgument
        specMembers (args ["--all", "-b"]))).names = [["-a", "--all"]] ∧
    (Step.state ((Argparsor.new.addArguments specMembers [["-a", "--all"]]).addArgument
        specMembers (args ["--all", "-b"]))).keys = [("-a", 0), ("--all", 0)] := by
  decide

/-- C13, the code at the failing input: after `addArgument({"-a", "--all"})` and a
returning `addArgument({"-b", "--all"})`, which creates the declaration at
position 1, the key `--all` still refers to position 0: `getArgument("--all")`
gives the declaration `-a`, `--all`, not the new one, while `getArgument("-b")`
gives the new one; and `--all` is listed by both declarations. -/
theorem mapping_after_later_duplicate :
    Step.index ((Argparsor.new.addArguments specMembers [["-a", "--all"]]).addArgument
        specMembers (args ["-b", "--all"])) = some 1 ∧
    ((Step.state ((Argparsor.new.addArguments specMembers [["-a", "--all"]]).addArgument
        specMembers (args ["-b", "--all"]))).getArgument "--all".toList).toOption.map
        (fun d => d.map (fun a => a.nameOrFlags.map String.mk)) =
      some (some ["-a", "--all"]) ∧
    ((Step.state ((Argparsor.new.addArguments specMembers [["-a", "--all"]]).addArgument
        specMembers (args ["-b", "--all"]))).getArgument "-b".toList).toOption.map
        (fun d => d.map (fun a => a.nameOrFlags.map String.mk)) =
      some (some ["-b", "--all"]) ∧
    ((Step.state ((Argparsor.new.addArguments specMembers [["-a", "--all"]]).addArgument
        specMembers (args ["-b", "--all"]))).arguments.filter
        (fun a => decide ("--all".toList ∈ a.nameOrFlags))).length = 2 := by
  decide

theorem walk_parseToken (fuel : Nat) (self : Argparsor) (endIndex : Nat) (argv : List Str)
    (i : Nat) (hi : i < argv.length) (hend : isEndOption (argv.getD i []) = false) :
    self.walk (fuel + 1) endIndex argv i =
      match self.parseToken endIndex argv i with
      | .error e => .error e
      | .ok (i', self') => Argparsor.walk fuel self' endIndex argv (i' + 1) := by
  rw [walk_succ, if_pos hi, hend]
  unfold Argparsor.parseToken
  by_cases hs : isShortOption (argv.getD i []) = true
  · simp only [if_pos hs]
  · by_cases hl : isLongOption (argv.getD i []) = true
    · simp only [if_neg hs, if_pos hl]
    · simp only [if_neg hs, if_neg hl, Bool.false_eq_true, if_false]

theorem matchFlags_cons (self : Argparsor) (c : Char) (cs : List Char) (p : Nat) (a : Argument)
    (h : self.find ['-', c] = some (p, a)) :
    self.matchFlags (c :: cs) = (self.store p a.matched).matchFlags cs := by
  simp only [Argparsor.matchFlags, h]

/-- The registry in which the loop over a short cluster throws: the flags of a prefix
of the cluster are marked and counted, and beyond that at most one declaration
differs, by its element vector or by one more mark and count. -/
theorem parseShortLoop_error (maxIndex : Nat) (argv : List Str) (index : Nat) (hasArg : Bool)
    (arg last : Str) (e : Exception) (s' : Argparsor) :
    ∀ (cs : List Char) (self : Argparsor),
      Argparsor.parseShortLoop maxIndex argv index hasArg arg last self cs = .error (e, s') →
      ∃ marked, marked <+: cs ∧
        (s' = self.matchFlags marked ∨
          ∃ p a, (self.matchFlags marked).arguments[p]? = some a ∧
            ((∃ elements, s' = (self.matchFlags marked).store p { a with elements := elements }) ∨
              s' = (self.matchFlags marked).store p a.matched)) := by
  have hlast : ∀ (cs : List Char) (self : Argparsor),
      (match self.find ('-' :: last) with
        | none => self.throwParse last "invalid option"
        | some (p, a) => self._parseArgument maxIndex argv index hasArg last arg p a) =
        .error (e, s') →
      ∃ marked, marked <+: cs ∧
        (s' = self.matchFlags marked ∨
          ∃ p a, (self.matchFlags marked).arguments[p]? = some a ∧
            ((∃ elements, s' = (self.matchFlags marked).store p { a with elements := elements }) ∨
              s' = (self.matchFlags marked).store p a.matched)) := by
    intro cs self h
    refine ⟨[], List.nil_prefix, ?_⟩
    cases hf : self.find ('-' :: last) with
    | none =>
      rw [hf] at h
      simp only [Argparsor.throwParse, Except.error.injEq, Prod.mk.injEq] at h
      exact Or.inl h.2.symm
    | some pa =>
      obtain ⟨p, a⟩ := pa
      rw [hf] at h
      have hc := parseArgument_change self maxIndex argv index hasArg last arg p a
      dsimp only at h
      rw [h] at hc
      obtain ⟨elements, hs, _⟩ := hc
      exact Or.inr ⟨p, a, find_getElem? hf, Or.inl ⟨elements, hs⟩⟩
  intro cs
  induction cs with
  | nil => intro self h; unfold Argparsor.parseShortLoop at h; exact hlast [] self h
  | cons c cs ih =>
    intro self h
    cases cs with
    | nil => unfold Argparsor.parseShortLoop at h; exact hlast [c] self h
    | cons c' r =>
      unfold Argparsor.parseShortLoop at h
      cases hf : self.find ['-', c] with
      | none =>
        rw [hf] at h
        simp only [Argparsor.throwParse, Except.error.injEq, Prod.mk.injEq] at h
        exact ⟨[], List.nil_prefix, Or.inl h.2.symm⟩
      | some pa =>
        obtain ⟨p, a⟩ := pa
        rw [hf] at h
        dsimp only at h
        split_ifs at h with h1 h2
        · have hc := parseArgument_change self maxIndex argv index true [c] (c' :: r) p a.matched
          rw [h] at hc
          obtain ⟨elements, hs, hel⟩ := hc
          refine ⟨[], List.nil_prefix, Or.inr ⟨p, a, find_getElem? hf, Or.inr ?_⟩⟩
          rcases hel with hel | ⟨hel, _⟩
          · rw [hs, hel]; rfl
          · cases hel
        · simp only [Argparsor.throwParse, Except.error.injEq, Prod.mk.injEq] at h
          exact ⟨[], List.nil_prefix, Or.inl h.2.symm⟩
        · obtain ⟨marked, hpre, hs⟩ := ih (self.store p a.matched) h
          refine ⟨c :: marked, (List.prefix_cons_inj c).mpr hpre, ?_⟩
          rw [matchFlags_cons self c marked p a hf]
          exact hs

theorem parseLongArgument_error (self : Argparsor) (maxIndex : Nat) (argv : List Str) (i : Nat)
    (e : Exception) (s' : Argparsor)
    (h : self._parseLongArgument maxIndex argv i = .error (e, s')) :
    s' = self ∨ ∃ p a elements, self.arguments[p]? = some a ∧
      (a.type = .NUMBER_OPTION ∨ a.type = .MULTI_OPTION ∨ a.type = .MULTI_NUMBER_OPTION ∨
        a.type = .MULTI_NUMBER_INFINITE_OPTION ∨
        a.type = .INFINITE_NUMBER_POSITIONAL_ARGUMENT) ∧
      s' = self.store p { a with elements := elements } := by
  unfold Argparsor._parseLongArgument at h
  dsimp only at h
  cases hf : self.find (takeArg (argv.getD i [])).2.1 with
  | none =>
    rw [hf] at h
    simp only [Argparsor.throwParse, Except.error.injEq, Prod.mk.injEq] at h
    exact Or.inl h.2.symm
  | some pa =>
    obtain ⟨p, a⟩ := pa
    rw [hf] at h
    dsimp only at h
    have hc := parseArgument_change self maxIndex argv i (takeArg (argv.getD i [])).1
      ((takeArg (argv.getD i [])).2.1.drop 2) (takeArg (argv.getD i [])).2.2 p a
    rw [h] at hc
    obtain ⟨elements, hs, hel⟩ := hc
    rcases hel with hel | ⟨_, ht⟩
    · left
      rw [hs, hel]
      exact store_self self p a (find_getElem? hf)
    · right
      refine ⟨p, a, elements, find_getElem? hf, ?_, hs⟩
      rcases ht with ht | ht | ht | ht
      · exact Or.inl ht
      · exact Or.inr (Or.inl ht)
      · exact Or.inr (Or.inr (Or.inl ht))
      · exact Or.inr (Or.inr (Or.inr (Or.inl ht)))

/-! ## Plain tokens fill the scalar positionals -/

theorem set_findIdx_fillFirst (t : Str) :
    ∀ (l : List Argument) (a : Argument),
      l[l.findIdx Argument.isUnfilledPositional]? = some a →
      l.set (l.findIdx Argument.isUnfilledPositional) { a with argument := t, isExist := true } =
        fillFirst t l := by
  intro l
  induction l with
  | nil => intro a h; simp at h
  | cons b l ih =>
    intro a h
    by_cases hb : b.isUnfilledPositional = true
    · have h0 : (b :: l).findIdx Argument.isUnfilledPositional = 0 := by
        simp [List.findIdx_cons, hb]
      rw [h0] at h ⊢
      simp only [List.getElem?_cons_zero, Option.some.injEq] at h
      subst h
      simp [fillFirst, hb]
    · have hb' : b.isUnfilledPositional = false := by simpa using hb
      have h1 : (b :: l).findIdx Argument.isUnfilledPositional =
          l.findIdx Argument.isUnfilledPositional + 1 := by
        simp [List.findIdx_cons, hb']
      rw [h1] at h ⊢
      simp only [List.getElem?_cons_succ] at h
      simp only [List.set_cons_succ, fillFirst, hb', Bool.false_eq_true, if_false]
      rw [ih a h]

/-- `_parsePositionnalArgument` in a registry whose positionals are all of the class
`POSITIONAL_ARGUMENT`: the token goes to the first unfilled one, and to the
additional arguments (or to the exception of the strict mode) when none is. -/
theorem parsePositionnal_scalar (self : Argparsor) (argc : Nat) (argv : List Str) (i : Nat)
    (hasEnd : Bool)
    (hscalar : ∀ a ∈ self.arguments, a._isPositionnalArgument = true →
      a.type = .POSITIONAL_ARGUMENT) :
    self._parsePositionnalArgument argc argv i hasEnd =
      if self.unfilled = 0 then
        if self.isStrict then self.throwParse (argv.getD i []) "invalid additional argument"
        else .ok (i, { self with
          additionalArguments := self.additionalArguments ++ [argv.getD i []] })
      else .ok (i, { self with arguments := fillFirst (argv.getD i []) self.arguments }) := by
  unfold Argparsor._parsePositionnalArgument
  dsimp only
  cases hq : self.arguments[self.arguments.findIdx Argument.isUnfilledPositional]? with
  | none =>
    have hall := findIdx_unfilled_none self hq
    have h0 : self.unfilled = 0 := by
      unfold Argparsor.unfilled
      rw [List.countP_eq_zero]
      intro a ha
      simp [hall a ha]
    rw [if_pos h0]
  | some a =>
    have hun := findIdx_unfilled_some self a hq
    have hmem : a ∈ self.arguments := List.getElem?_mem hq
    have hpos : a._isPositionnalArgument = true := by
      simp only [Argument.isUnfilledPositional, Bool.and_eq_true] at hun
      exact hun.2
    have htype := hscalar a hmem hpos
    have h0 : ¬ self.unfilled = 0 := by
      unfold Argparsor.unfilled
      rw [List.countP_eq_zero]
      intro h
      exact h a hmem hun
    rw [if_neg h0]
    have hset := set_findIdx_fillFirst (argv.getD i []) self.arguments a hq
    simp only [htype, Argparsor.store] at hset ⊢
    rw [hset]

theorem fillFirst_scalar (t : Str) :
    ∀ (l : List Argument),
      (∀ a ∈ l, a._isPositionnalArgument = true → a.type = .POSITIONAL_ARGUMENT) →
      ∀ a ∈ fillFirst t l, a._isPositionnalArgument = true → a.type = .POSITIONAL_ARGUMENT := by
  intro l
  induction l with
  | nil => intro _ a ha; simp [fillFirst] at ha
  | cons b l ih =>
    intro h a ha hpos
    unfold fillFirst at ha
    split_ifs at ha with hb
    · rcases List.mem_cons.mp ha with h1 | h1
      · subst h1
        exact h b (List.mem_cons_self _ _) hpos
      · exact h a (List.mem_cons_of_mem _ h1) hpos
    · rcases List.mem_cons.mp ha with h1 | h1
      · subst h1
        exact h a (List.mem_cons_self _ _) hpos
      · exact ih (fun c hc => h c (List.mem_cons_of_mem _ hc)) a h1 hpos

theorem countP_fillFirst (t : Str) :
    ∀ (l : List Argument),
      (fillFirst t l).countP Argument.isUnfilledPositional =
        l.countP Argument.isUnfilledPositional - 1 := by
  intro l
  induction l with
  | nil => rfl
  | cons b l ih =>
    unfold fillFirst
    by_cases hb : b.isUnfilledPositional = true
    · rw [if_pos hb, List.countP_cons_of_pos _ _ hb, List.countP_cons_of_neg]
      · omega
      · simp [Argument.isUnfilledPositional]
    · rw [if_neg hb, List.countP_cons_of_neg _ _ hb, List.countP_cons_of_neg _ _ hb, ih]

theorem fillFirst_none (t : Str) :
    ∀ (l : List Argument), (∀ a ∈ l, a.isUnfilledPositional = false) → fillFirst t l = l := by
  intro l
  induction l with
  | nil => intro _; rfl
  | cons b l ih =>
    intro hall
    simp only [fillFirst, hall b (List.mem_cons_self _ _), Bool.false_eq_true, if_false]
    rw [ih (fun a ha => hall a (List.mem_cons_of_mem _ ha))]

/-- The walk over plain tokens that end the argument vector, in non-strict mode and in
a registry whose positionals are all of the class `POSITIONAL_ARGUMENT`. -/
theorem walk_scalar (endIndex : Nat) :
    ∀ (ts pre : List Str) (self : Argparsor) (fuel : Nat), self.isStrict = false →
      (∀ a ∈ self.arguments, a._isPositionnalArgument = true → a.type = .POSITIONAL_ARGUMENT) →
      (∀ t ∈ ts, isPlain t = true) →
      self.walk (fuel + ts.length + 1) endIndex (pre ++ ts) pre.length =
        .ok { self with
          arguments := fillAll ts self.arguments
          additionalArguments := self.additionalArguments ++ ts.drop self.unfilled } := by
  intro ts
  induction ts with
  | nil =>
    intro pre self fuel _ _ _
    rw [walk_past_end _ _ _ _ _ (by simp)]
    simp [fillAll]
  | cons t ts ih =>
    intro pre self fuel hstrict hscalar hplain
    have hfuel : fuel + (t :: ts).length + 1 = (fuel + ts.length + 1) + 1 := by
      simp only [List.length_cons]; omega
    have hi : (pre ++ t :: ts)[pre.length]? = some t := getElem?_append_zero pre t ts
    have ht := hplain t (List.mem_cons_self _ _)
    simp only [isPlain, Bool.and_eq_true, Bool.not_eq_true'] at ht
    obtain ⟨⟨hs, hl⟩, he⟩ := ht
    have hargv : pre ++ t :: ts = (pre ++ [t]) ++ ts := by simp
    have hlen : pre.length + 1 = (pre ++ [t]).length := by simp
    rw [hfuel, walk_succ, if_pos (lt_of_getElem? hi), getD_of_getElem? hi, hs, hl, he]
    simp only [Bool.false_eq_true, if_false]
    rw [parsePositionnal_scalar self endIndex _ _ false hscalar, getD_of_getElem? hi]
    have hns : ¬ self.isStrict = true := by simp [hstrict]
    by_cases h0 : self.unfilled = 0
    · rw [if_pos h0, if_neg hns]
      dsimp only
      rw [hargv, hlen, ih (pre ++ [t])
        { self with additionalArguments := self.additionalArguments ++ [t] } fuel hstrict hscalar
        (fun u hu => hplain u (List.mem_cons_of_mem _ hu))]
      have hfill : fillFirst t self.arguments = self.arguments := by
        apply fillFirst_none
        unfold Argparsor.unfilled at h0
        rw [List.countP_eq_zero] at h0
        intro a ha
        simpa using h0 a ha
      have hu : Argparsor.unfilled
          { self with additionalArguments := self.additionalArguments ++ [t] } = 0 := h0
      simp only [hu, h0, List.drop_zero, fillAll, hfill, List.append_assoc, List.singleton_append]
    · rw [if_neg h0]
      dsimp only
      rw [hargv, hlen, ih (pre ++ [t])
        { self with arguments := fillFirst t self.arguments } fuel hstrict
        (fillFirst_scalar t _ hscalar) (fun u hu => hplain u (List.mem_cons_of_mem _ hu))]
      have hu : Argparsor.unfilled { self with arguments := fillFirst t self.arguments } =
          self.unfilled - 1 := countP_fillFirst t self.arguments
      obtain ⟨n, hn⟩ : ∃ n, self.unfilled = n + 1 := ⟨self.unfilled - 1, by omega⟩
      simp only [hu, hn, fillAll, Nat.add_sub_cancel, List.drop_succ_cons]

theorem fillAll_skip (a : Argument) (h : a.isUnfilledPositional = false) :
    ∀ (ts : List Str) (l : List Argument), fillAll ts (a :: l) = a :: fillAll ts l := by
  intro ts
  induction ts with
  | nil => intro l; rfl
  | cons t ts ih =>
    intro l
    simp only [fillAll, fillFirst, h, Bool.false_eq_true, if_false]
    exact ih _

theorem assignTokens_nil (ps : List Argument) : assignTokens ps [] = ps := by
  cases ps <;> rfl

/-- In a registry whose positionals are all unfilled, the tokens handed one by one to
the first unfilled positional end up assigned to the positionals in order, and
the other declarations are untouched. -/
theorem fillAll_fresh :
    ∀ (l : List Argument), (∀ a ∈ l, a._isPositionnalArgument = true → a.isExist = false) →
      ∀ (ts : List Str),
        (fillAll ts l).filter Argument._isPositionnalArgument =
            assignTokens (l.filter Argument._isPositionnalArgument) ts ∧
          (fillAll ts l).map (fun a => if a._isPositionnalArgument then none else some a) =
            l.map (fun a => if a._isPositionnalArgument then none else some a) := by
  intro l
  induction l with
  | nil =>
    intro _ ts
    have : fillAll ts [] = [] := by
      induction ts with
      | nil => rfl
      | cons t ts ih => simpa [fillAll, fillFirst] using ih
    rw [this]
    cases ts <;> exact ⟨rfl, rfl⟩
  | cons a l ih =>
    intro hfresh ts
    have hl := ih (fun b hb => hfresh b (List.mem_cons_of_mem _ hb))
    by_cases hpos : a._isPositionnalArgument = true
    · have hex := hfresh a (List.mem_cons_self _ _) hpos
      cases ts with
      | nil => exact ⟨(assignTokens_nil _).symm, rfl⟩
      | cons t ts =>
        have hun : a.isUnfilledPositional = true := by
          simp [Argument.isUnfilledPositional, hpos, hex]
        have hfilled : ({ a with argument := t, isExist := true } :
            Argument).isUnfilledPositional = false := by
          simp [Argument.isUnfilledPositional]
        have hpos' : ({ a with argument := t, isExist := true } :
            Argument)._isPositionnalArgument = true := hpos
        simp only [fillAll, fillFirst, hun, if_true]
        rw [fillAll_skip _ hfilled]
        simp only [List.filter_cons, hpos, hpos', if_true, List.map_cons, assignTokens]
        exact ⟨by rw [(hl ts).1], by rw [(hl ts).2]⟩
    · have hpos' : a._isPositionnalArgument = false := by simpa using hpos
      have hun : a.isUnfilledPositional = false := by
        simp [Argument.isUnfilledPositional, hpos']
      rw [fillAll_skip a hun]
      simp only [List.filter_cons, hpos', Bool.false_eq_true, if_false, List.map_cons]
      exact ⟨(hl ts).1, by rw [(hl ts).2]⟩

theorem countP_fresh :
    ∀ (l : List Argument), (∀ a ∈ l, a._isPositionnalArgument = true → a.isExist = false) →
      l.countP Argument.isUnfilledPositional = (l.filter Argument._isPositionnalArgument).length := by
  intro l hfresh
  rw [← List.countP_eq_length_filter]
  apply List.countP_congr
  intro a ha
  constructor
  · intro h
    simp only [Argument.isUnfilledPositional, Bool.and_eq_true] at h
    exact h.2
  · intro h
    simp [Argument.isUnfilledPositional, h, hfresh a ha h]

theorem assignTokens_getElem? :
    ∀ (ps : List Argument) (ts : List Str) (i : Nat) (p : Argument), ps[i]? = some p →
      (assignTokens ps ts)[i]? =
        some (match ts[i]? with
          | some t => { p with argument := t, isExist := true }
          | none => p) := by
  intro ps
  induction ps with
  | nil => intro ts i p h; simp at h
  | cons q ps ih =>
    intro ts i p h
    cases ts with
    | nil => simp [assignTokens, h]
    | cons t ts =>
      cases i with
      | zero =>
        simp only [List.getElem?_cons_zero, Option.some.injEq] at h
        subst h
        simp [assignTokens]
      | succ i =>
        simp only [List.getElem?_cons_succ] at h
        simp only [assignTokens, List.getElem?_cons_succ]
        exact ih ts i p h

theorem validated_positional {a a' : Argument} (h : a.Validated a') :
    a._isPositionnalArgument = true ↔ a'._isPositionnalArgument = true := by
  have ht : a'.declaration.type = a.declaration.type := congrArg Argument.type h.2.2.1
  have ht : a'.type = a.type := ht
  unfold Argument._isPositionnalArgument
  rw [ht]

/-- C11 (amended). In a registry whose positionals `p1, ..., pk` (in registry order) are
all of the class `POSITIONAL_ARGUMENT` and unfilled, and for plain tokens
`t1, ..., tn`, the token walk of `[prog, t1, ..., tn]` in non-strict mode
returns: `p_i` exists and holds `t_i` for `i <= min(k, n)`, `p_i` is untouched
for `i > n`, the options are untouched, and the tokens `t_(k+1), ..., t_n` are
appended to the additional arguments. After a `parseArguments` that returns, the
additional arguments and the marks are the same, and `p_i` holds `t_i` when it
has no validator (a validator may rewrite the value). Scenario 1: the required
positional `file` with `[prog, a.txt]` gives `file == "a.txt"` and no additional
argument. -/
theorem plain_tokens_fill_positionals (self : Argparsor) (prog : Str) (ts : List Str)
    (alternative : Bool)
    (hfresh : ∀ a ∈ self.arguments, a._isPositionnalArgument = true →
      a.type = .POSITIONAL_ARGUMENT ∧ a.isExist = false)
    (hplain : ∀ t ∈ ts, isPlain t = true) :
    (∃ s1, self.parseTokens (prog :: ts) alternative false = .ok s1 ∧
      s1.positionals = assignTokens self.positionals ts ∧ s1.options = self.options ∧
      s1.additionalArguments = self.additionalArguments ++ ts.drop self.positionals.length) ∧
    (∀ (s' : Argparsor), self.parseArguments (prog :: ts) alternative false = .ok s' →
      s'.additionalArguments = self.additionalArguments ++ ts.drop self.positionals.length ∧
      List.Forall₂
        (fun p p' => p'.isExist = p.isExist ∧ (p.valid = none → p'.argument = p.argument))
        (assignTokens self.positionals ts) s'.positionals) ∧
    (∀ (i : Nat) (p : Argument), self.positionals[i]? = some p →
      (assignTokens self.positionals ts)[i]? =
        some (match ts[i]? with
          | some t => { p with argument := t, isExist := true }
          | none => p)) ∧
    ((scenarioFile.parseArguments (args ["prog", "a.txt"]) false false).exception = none ∧
      (scenarioFile.parseArguments (args ["prog", "a.txt"]) false false).state.arguments.map
        (fun d => (d.isExist, String.mk d.argument)) = [(true, "a.txt")] ∧
      (scenarioFile.parseArguments (args ["prog", "a.txt"]) false
        false).state.additionalArguments = []) := by
  have hscalar : ∀ a ∈ (self.begin (prog :: ts) alternative false).arguments,
      a._isPositionnalArgument = true → a.type = .POSITIONAL_ARGUMENT :=
    fun a ha hp => (hfresh a ha hp).1
  have hexist : ∀ a ∈ self.arguments, a._isPositionnalArgument = true → a.isExist = false :=
    fun a ha hp => (hfresh a ha hp).2
  have hwalk : self.parseTokens (prog :: ts) alternative false =
      .ok { self.begin (prog :: ts) alternative false with
        arguments := fillAll ts self.arguments
        additionalArguments := self.additionalArguments ++ ts.drop self.positionals.length } := by
    unfold Argparsor.parseTokens
    have hfuel : (prog :: ts).length + self.arguments.length =
        self.arguments.length + ts.length + 1 := by
      simp only [List.length_cons]; omega
    rw [hfuel]
    have := walk_scalar (endOptionIndex (prog :: ts)) ts [prog]
      (self.begin (prog :: ts) alternative false) self.arguments.length rfl hscalar hplain
    have hu : (self.begin (prog :: ts) alternative false).unfilled = self.positionals.length :=
      countP_fresh self.arguments hexist
    rw [hu] at this
    exact this
  have hfill := fillAll_fresh self.arguments hexist ts
  refine ⟨⟨_, hwalk, hfill.1, hfill.2, rfl⟩, ?_, ?_, by decide, by decide, by decide⟩
  · intro s' hparse
    unfold Argparsor.parseArguments at hparse
    rw [hwalk] at hparse
    dsimp only at hparse
    have hc := afterWalk_change
      { self.begin (prog :: ts) alternative false with
        arguments := fillAll ts self.arguments
        additionalArguments := self.additionalArguments ++ ts.drop self.positionals.length }
    rw [hparse] at hc
    obtain ⟨h1, _, h3⟩ := hc
    refine ⟨h1, ?_⟩
    have hf : List.Forall₂ Argument.Validated
        ((fillAll ts self.arguments).filter Argument._isPositionnalArgument)
        (s'.arguments.filter Argument._isPositionnalArgument) :=
      List.rel_filter (fun a a' h => validated_positional h) h3
    rw [hfill.1] at hf
    exact hf.imp (fun p p' h => ⟨h.1, fun hv => by rw [h.2.2.2 (Or.inl hv)]⟩)
  · intro i p hp
    exact assignTokens_getElem? _ ts i p hp

/-- C11, the claim as stated fails: the required positional `file` with a validator
that rewrites every value to `X`, parsed on `[prog, a.txt]`, ends a successful
`parseArguments` with the value `X`, not `a.txt`; the token walk had stored
`a.txt`. -/
theorem positional_value_rewritten_counterexample :
    (scenarioFileRewrite.parseArguments (args ["prog", "a.txt"]) false false).exception = none ∧
    (scenarioFileRewrite.parseArguments (args ["prog", "a.txt"]) false
      false).state.arguments.map (fun d => (d.isExist, String.mk d.argument)) = [(true, "X")] ∧
    (scenarioFileRewrite.parseTokens (args ["prog", "a.txt"]) false
      false).state.arguments.map (fun d => (d.isExist, String.mk d.argument)) =
      [(true, "a.txt")] := by
  decide

theorem plain_tokens_fill_positionals_witness :
    ∃ s1, scenarioFile.parseTokens (args ["prog", "a.txt", "b.txt"]) false false = .ok s1 ∧
      s1.positionals = assignTokens scenarioFile.positionals (args ["a.txt", "b.txt"]) ∧
      s1.options = scenarioFile.options ∧
      s1.additionalArguments =
        scenarioFile.additionalArguments ++
          (args ["a.txt", "b.txt"]).drop scenarioFile.positionals.length :=
  (plain_tokens_fill_positionals scenarioFile "prog".toList (args ["a.txt", "b.txt"]) false
    (by simp [scenarioFile, Argparsor.declared, Argument.declared,
      Argument._isPositionnalArgument])
    (by decide)).1

/-! ## Positionals after the end-of-options marker, and of fixed arity -/

theorem slice_length_eq_drop (argv : List Str) (i : Nat) :
    slice argv i argv.length = argv.drop i := by
  simp [slice]

theorem takeWhile_true {α : Type} (l : List α) : l.takeWhile (fun _ => true) = l := by
  induction l with
  | nil => rfl
  | cons x l ih => simp [List.takeWhile_cons, ih]

/-- C26. When the first unfilled positional is an `INFINITE_POSITIONAL_ARGUMENT` and a token
after the end-of-options marker reaches it at index `i`, `_endOfInfiniteArgument`
is not called: the positional receives `argv[i], ..., argv[argc-1]` in order,
declared options included, the index returned is `argc - 1` and the loop after
the marker, hence the walk, returns with that registry. With the infinite
positional `files` and the flag `-v`, `[prog, --, x, -v, y]` gives
`files == ["x", "-v", "y"]` and `-v` absent. -/
theorem marker_bypasses_lookahead (self : Argparsor) (argv : List Str) (i q : Nat) (a : Argument)
    (hq : q = self.arguments.findIdx Argument.isUnfilledPositional)
    (ha : self.arguments[q]? = some a) (htype : a.type = .INFINITE_POSITIONAL_ARGUMENT)
    (hi : i < argv.length) :
    self._parsePositionnalArgument argv.length argv i true =
        .ok (argv.length - 1, self.store q
          { a with
            elements := a.elements ++ (argv.drop i).map ArgumentElement.leaf
            isExist := true }) ∧
    (∀ (fuel : Nat), self.afterEndOption (fuel + 2) argv i =
        .ok (self.store q
          { a with
            elements := a.elements ++ (argv.drop i).map ArgumentElement.leaf
            isExist := true })) ∧
    (∀ (fuel endIndex k : Nat), k + 1 = i → isEndOption (argv.getD k []) = true →
      self.walk (fuel + 3) endIndex argv k =
        .ok (self.store q
          { a with
            elements := a.elements ++ (argv.drop i).map ArgumentElement.leaf
            isExist := true })) ∧
    ((scenarioFiles.parseArguments (args ["prog", "--", "x", "-v", "y"]) false false).exception
        = none ∧
      (scenarioFiles.parseArguments (args ["prog", "--", "x", "-v", "y"]) false
        false).state.arguments.map (fun d => (d.isExist, d.strings)) =
        [(false, []), (true, ["x", "-v", "y"])]) := by
  have hstep : self._parsePositionnalArgument argv.length argv i true =
      .ok (argv.length - 1, self.store q
        { a with
          elements := a.elements ++ (argv.drop i).map ArgumentElement.leaf
          isExist := true }) := by
    rcases a with ⟨names, ty, ex, req, cnt, nargs, argm, elems, valid⟩
    dsimp only at htype
    subst htype
    subst hq
    have hlen : (argv.drop i).length = argv.length - i := List.length_drop i argv
    simp only [Argparsor._parsePositionnalArgument, ha, Bool.not_true, Bool.false_and,
      Bool.not_false, takeWhile_true, slice_length_eq_drop, Argument.push_backs, hlen]
    have : i + (argv.length - i) - 1 = argv.length - 1 := by omega
    rw [this]
  have hafter : ∀ (fuel : Nat), self.afterEndOption (fuel + 2) argv i =
      .ok (self.store q
        { a with
          elements := a.elements ++ (argv.drop i).map ArgumentElement.leaf
          isExist := true }) := by
    intro fuel
    rw [afterEndOption_succ, if_pos hi, hstep]
    dsimp only
    rw [afterEndOption_succ, if_neg (by omega)]
  refine ⟨hstep, hafter, ?_, by decide, by decide⟩
  intro fuel endIndex k hk hend
  have hs : isShortOption (argv.getD k []) = false := by
    simp only [isEndOption, beq_iff_eq] at hend
    rw [hend]; rfl
  have hl : isLongOption (argv.getD k []) = false := by
    simp only [isEndOption, beq_iff_eq] at hend
    rw [hend]; rfl
  rw [walk_succ, if_pos (by omega), hs, hl, hend]
  simp only [Bool.false_eq_true, if_false, if_true]
  rw [hk]
  exact hafter fuel

theorem marker_bypasses_lookahead_witness :
    scenarioFiles.afterEndOption 2 (args ["prog", "--", "x", "-v", "y"]) 2 =
      .ok (scenarioFiles.store 1
        { Argument.declared ["files"] .INFINITE_POSITIONAL_ARGUMENT 0 with
          elements := [] ++ ((args ["prog", "--", "x", "-v", "y"]).drop 2).map ArgumentElement.leaf
          isExist := true }) :=
  (marker_bypasses_lookahead scenarioFiles (args ["prog", "--", "x", "-v", "y"]) 2 1
    (Argument.declared ["files"] .INFINITE_POSITIONAL_ARGUMENT 0) (by decide) rfl rfl
    (by decide)).2.1 0

/-- The loop over groups after `k` full groups whose first tokens do not stop it: the
groups are pushed and the loop goes on from index `i + k * nargs`. -/
theorem groupLoop_run (stop : Str → Bool) (argv : List Str) (maxIndex nargs : Nat)
    (hN : 1 ≤ nargs) :
    ∀ (k fuel i : Nat),
      (∀ j, j < k → stop (argv.getD (i + j * nargs) []) = false) →
      i + k * nargs ≤ maxIndex →
      groupLoop stop argv maxIndex nargs (fuel + k) i =
        (groupsFrom argv nargs i k ++ (groupLoop stop argv maxIndex nargs fuel (i + k * nargs)).1,
          (groupLoop stop argv maxIndex nargs fuel (i + k * nargs)).2) := by
  intro k
  induction k with
  | zero => intro fuel i _ _; simp [groupsFrom]
  | succ k ih =>
    intro fuel i hstop hle
    have h1 : i < maxIndex := by
      have : i + (k + 1) * nargs = i + k * nargs + nargs := by rw [Nat.add_mul]; omega
      omega
    have h2 : stop (argv.getD i []) = false := by
      have := hstop 0 (by omega)
      simpa using this
    have h3 : ¬ (i + nargs > maxIndex) := by
      have : i + (k + 1) * nargs = i + nargs + k * nargs := by rw [Nat.add_mul]; omega
      omega
    have hfuel : fuel + (k + 1) = (fuel + k) + 1 := by omega
    have hnext : i + (k + 1) * nargs = i + nargs + k * nargs := by rw [Nat.add_mul]; omega
    rw [hfuel, groupLoop_succ, if_pos h1, h2, if_neg h3, hnext]
    simp only [Bool.false_eq_true, if_false]
    rw [ih fuel (i + nargs)
      (fun j hj => by
        have := hstop (j + 1) (by omega)
        have he : i + (j + 1) * nargs = i + nargs + j * nargs := by rw [Nat.add_mul]; omega
        rw [he] at this
        exact this)
      (by omega)]
    simp [groupsFrom]

theorem groupsFrom_length (argv : List Str) (nargs : Nat) :
    ∀ (k i : Nat), (groupsFrom argv nargs i k).length = k := by
  intro k
  induction k with
  | zero => intro i; rfl
  | succ k ih => intro i; simp [groupsFrom, ih]

theorem parsePositionnal_number (self : Argparsor) (argv : List Str) (i : Nat) (a : Argument)
    (argc : Nat) (hasEnd : Bool)
    (ha : self.arguments[self.arguments.findIdx Argument.isUnfilledPositional]? = some a)
    (htype : a.type = .NUMBER_POSITIONAL_ARGUMENT) (hargc : argc ≤ argv.length) :
    (i + a.nargs ≤ argc →
      self._parsePositionnalArgument argc argv i hasEnd =
        .ok (i + a.nargs - 1, self.store (self.arguments.findIdx Argument.isUnfilledPositional)
          { a with
            elements := a.elements ++
              (List.range' i a.nargs).map (fun j => ArgumentElement.leaf (argv.getD j []))
            isExist := true })) ∧
    (argc < i + a.nargs →
      self._parsePositionnalArgument argc argv i hasEnd =
        .error (.ParseArgumentException a.front "bad number of argument".toList, self)) := by
  rcases a with ⟨names, ty, ex, req, cnt, nargs, argm, elems, valid⟩
  dsimp only at htype ⊢
  subst htype
  constructor
  · intro h
    have hnot : ¬ (i + nargs > argc) := by omega
    have hs : slice argv i (i + nargs) = (List.range' i nargs).map (fun j => argv.getD j []) := by
      rw [slice_eq_map argv i (i + nargs) (by omega)]
      congr 2
      omega
    simp only [Argparsor._parsePositionnalArgument, ha, if_neg hnot, Argument.push_backs, hs,
      List.map_map]
    rfl
  · intro h
    have hpos : i + nargs > argc := h
    simp only [Argparsor._parsePositionnalArgument, ha, if_pos hpos, Argparsor.throwParse]

theorem walk_plain_token (fuel : Nat) (self : Argparsor) (endIndex : Nat) (argv : List Str)
    (i : Nat) (hi : i < argv.length) (hplain : isPlain (argv.getD i []) = true) :
    self.walk (fuel + 1) endIndex argv i =
      match self._parsePositionnalArgument endIndex argv i false with
      | .error e => .error e
      | .ok (i', self') => Argparsor.walk fuel self' endIndex argv (i' + 1) := by
  simp only [isPlain, Bool.and_eq_true, Bool.not_eq_true'] at hplain
  obtain ⟨⟨hs, hl⟩, he⟩ := hplain
  rw [walk_succ, if_pos hi, hs, hl, he]
  simp only [Bool.false_eq_true, if_false]

/-! ## The validation loop, declaration by declaration -/

/-- The validation loop that returns has replaced every declaration by what its own
validation gives. -/
theorem checkValids_pointwise :
    ∀ (todo done : List Argument) (self s' : Argparsor),
      self.arguments = done ++ todo →
      self.checkValids (List.range' done.length todo.length) = .ok s' →
      ∃ todo', s'.arguments = done ++ todo' ∧
        List.Forall₂ (fun a a' => a.checkValid = .ok a') todo todo' := by
  intro todo
  induction todo with
  | nil =>
    intro done self s' hargs h
    simp only [List.length_nil, List.range'_zero, Argparsor.checkValids] at h
    cases h
    exact ⟨[], hargs, List.Forall₂.nil⟩
  | cons b todo ih =>
    intro done self s' hargs h
    have hq : self.arguments[done.length]? = some b := by
      rw [hargs]; exact getElem?_append_zero done b _
    simp only [List.length_cons, List.range'_succ, Argparsor.checkValids, hq] at h
    cases hb : b.checkValid with
    | error e => rw [hb] at h; cases h
    | ok b' =>
      rw [hb] at h
      dsimp only at h
      have hargs' : (self.store done.length b').arguments = (done ++ [b']) ++ todo := by
        simp only [Argparsor.store, hargs]
        rw [List.set_append_right _ _ (Nat.le_refl _)]
        simp
      have hlen : done.length + 1 = (done ++ [b']).length := by simp
      rw [hlen] at h
      obtain ⟨todo', h1, h2⟩ := ih (done ++ [b']) (self.store done.length b') s' hargs' h
      exact ⟨b' :: todo', by rw [h1]; simp, List.Forall₂.cons hb h2⟩

/-- A `parseArguments` that returns: the token walk returned, and every declaration it
left was replaced by what its own validation gives. -/
theorem parseArguments_ok (self : Argparsor) (argv : List Str) (alternative strict : Bool)
    (s' : Argparsor) (h : self.parseArguments argv alternative strict = .ok s') :
    ∃ s1, self.parseTokens argv alternative strict = .ok s1 ∧
      List.Forall₂ (fun a a' => a.checkValid = .ok a') s1.arguments s'.arguments := by
  unfold Argparsor.parseArguments at h
  cases hw : self.parseTokens argv alternative strict with
  | error e => rw [hw] at h; cases h
  | ok s1 =>
    refine ⟨s1, rfl, ?_⟩
    rw [hw] at h
    dsimp only at h
    unfold Argparsor.afterWalk at h
    split_ifs at h
    split at h
    · cases h
    · rw [List.range_eq_range'] at h
      obtain ⟨todo', h1, h2⟩ := checkValids_pointwise s1.arguments [] s1 s' (by simp)
        (by simpa using h)
      rw [h1]
      simpa using h2

theorem writeList_spec :
    ∀ (es : List ArgumentElement) (xs : List Str), xs.length = es.length →
      (writeList es xs).map (fun e => e.argument) = xs ∧
      (writeList es xs).map (fun e => e.elements) = es.map (fun e => e.elements) ∧
      (xs = es.map (fun e => e.argument) → writeList es xs = es) := by
  intro es
  induction es with
  | nil =>
    intro xs h
    cases xs with
    | nil => exact ⟨rfl, rfl, fun _ => rfl⟩
    | cons x xs => simp at h
  | cons e es ih =>
    intro xs h
    cases xs with
    | nil => simp at h
    | cons x xs =>
      simp only [List.length_cons, Nat.add_right_cancel_iff] at h
      obtain ⟨h1, h2, h3⟩ := ih xs h
      refine ⟨by simp [writeList, h1], by simp [writeList, h2], ?_⟩
      intro heq
      simp only [List.map_cons, List.cons.injEq] at heq
      simp only [writeList, h3 heq.2, heq.1]

theorem writeGroup_take :
    ∀ (g xs : List Str), g.length ≤ xs.length → writeGroup g xs = xs.take g.length := by
  intro g
  induction g with
  | nil => intro xs _; cases xs <;> rfl
  | cons y g ih =>
    intro xs h
    cases xs with
    | nil => simp at h
    | cons x xs =>
      simp only [List.length_cons, Nat.add_le_add_iff_right] at h
      simp [writeGroup, ih xs h]

theorem writeGroups_spec :
    ∀ (es : List ArgumentElement) (xs : List Str),
      xs.length = ((es.map (fun e => e.elements)).flatten).length →
      ((writeGroups es xs).map (fun e => e.elements)).flatten = xs ∧
      (writeGroups es xs).map (fun e => e.elements.length) =
        es.map (fun e => e.elements.length) ∧
      (writeGroups es xs).map (fun e => e.argument) = es.map (fun e => e.argument) ∧
      (xs = (es.map (fun e => e.elements)).flatten → writeGroups es xs = es) := by
  intro es
  induction es with
  | nil =>
    intro xs h
    cases xs with
    | nil => exact ⟨rfl, rfl, rfl, fun _ => rfl⟩
    | cons x xs => simp at h
  | cons e es ih =>
    intro xs h
    simp only [List.map_cons, List.flatten_cons, List.length_append] at h
    have hle : e.elements.length ≤ xs.length := by omega
    have hrest : (xs.drop e.elements.length).length =
        ((es.map (fun e => e.elements)).flatten).length := by
      rw [List.length_drop]; omega
    obtain ⟨h1, h2, h3, h4⟩ := ih (xs.drop e.elements.length) hrest
    have hg := writeGroup_take e.elements xs hle
    refine ⟨?_, ?_, ?_, ?_⟩
    · simp only [writeGroups, List.map_cons, List.flatten_cons, hg, h1, List.take_append_drop]
    · simp only [writeGroups, List.map_cons, hg, h2, List.length_take, Nat.min_eq_left hle]
    · simp only [writeGroups, List.map_cons, h3]
    · intro heq
      have hxs : xs.take e.elements.length = e.elements := by
        rw [heq]; simp
      have hdrop : xs.drop e.elements.length = (es.map (fun e => e.elements)).flatten := by
        rw [heq]; simp
      simp only [writeGroups, hg, hxs, h4 hdrop]

theorem forall₂_getElem? {α : Type} (R : α → α → Prop) :
    ∀ (l l' : List α), List.Forall₂ R l l' → ∀ (q : Nat) (a : α), l[q]? = some a →
      ∃ a', l'[q]? = some a' ∧ R a a' := by
  intro l l' h
  induction h with
  | nil => intro q a hq; simp at hq
  | cons hab _ ih =>
    intro q a hq
    cases q with
    | zero =>
      simp only [List.getElem?_cons_zero, Option.some.injEq] at hq
      subst hq
      exact ⟨_, List.getElem?_cons_zero, hab⟩
    | succ q =>
      simp only [List.getElem?_cons_succ] at hq ⊢
      exact ih q a hq

/-- The validation of one supplied declaration of a list or grouped class whose
validator accepts and leaves a vector of the same length. -/
theorem checkValid_rewrite (a : Argument) (v : IValid) (xs : List Str)
    (hclass : isListClass a.type = true ∨ isGroupedClass a.type = true)
    (hexist : a.isExist = true) (hvalid : a.valid = some v)
    (hrewrite : v.isValid a.toVector = .ok (true, xs))
    (hlength : xs.length = a.toVector.length) :
    ∃ a', a.checkValid = .ok a' ∧ a'.toVector = xs ∧ a'.shape = a.shape ∧
      a'.type = a.type ∧ a'.isExist = a.isExist ∧ a'.count = a.count ∧
      a'.argument = a.argument ∧ (xs = a.toVector → a' = a) := by
  rcases a with ⟨names, ty, ex, req, cnt, nargs, argm, elems, valid⟩
  dsimp only at hexist hvalid hclass
  subst hexist
  subst hvalid
  have hcheck : ∀ (a' : Argument),
      Argument.writeBack ⟨names, ty, true, req, cnt, nargs, argm, elems, some v⟩ xs = some a' →
      Argument.checkValid ⟨names, ty, true, req, cnt, nargs, argm, elems, some v⟩ = .ok a' := by
    intro a' h
    simp only [Argument.checkValid, hrewrite, h]
  rcases hclass with hc | hc
  · have hl : xs.length = elems.length := by
      cases ty <;> simp [isListClass] at hc <;>
        simpa [Argument.toVector] using hlength
    obtain ⟨h1, h2, h3⟩ := writeList_spec elems xs hl
    have htv : Argument.toVector ⟨names, ty, true, req, cnt, nargs, argm, elems, some v⟩ =
        elems.map (fun e => e.argument) := by
      cases ty <;> simp [isListClass] at hc <;> rfl
    refine ⟨⟨names, ty, true, req, cnt, nargs, argm, writeList elems xs, some v⟩, ?_, ?_, ?_,
      rfl, rfl, rfl, rfl, ?_⟩
    · apply hcheck
      cases ty <;> simp [isListClass] at hc <;> rfl
    · cases ty <;> simp [isListClass] at hc <;> exact h1
    · simp only [Argument.shape]
      have := congrArg (List.map List.length) h2
      simpa [List.map_map, Function.comp_def] using this
    · intro heq
      rw [htv] at heq
      rw [h3 heq]
  · have hl : xs.length = ((elems.map (fun e => e.elements)).flatten).length := by
      cases ty <;> simp [isGroupedClass] at hc <;>
        simpa [Argument.toVector] using hlength
    obtain ⟨h1, h2, _, h4⟩ := writeGroups_spec elems xs hl
    have htv : Argument.toVector ⟨names, ty, true, req, cnt, nargs, argm, elems, some v⟩ =
        (elems.map (fun e => e.elements)).flatten := by
      cases ty <;> simp [isGroupedClass] at hc <;> rfl
    refine ⟨⟨names, ty, true, req, cnt, nargs, argm, writeGroups elems xs, some v⟩, ?_, ?_, ?_,
      rfl, rfl, rfl, rfl, ?_⟩
    · apply hcheck
      cases ty <;> simp [isGroupedClass] at hc <;> rfl
    · cases ty <;> simp [isGroupedClass] at hc <;> exact h1
    · exact h2
    · intro heq
      rw [htv] at heq
      rw [h4 heq]

/-- C28. After a `parseArguments` that returns, a supplied declaration of a list or grouped
class whose validator accepted and left a vector `xs` of the length of the
flattened values holds `xs` leaf by leaf, in flattening order (the flattening of
the result is `xs`), with the same number and sizes of groups, the same mark and
count; when `xs` is the flattened vector itself the declaration is unchanged.
With groups of two and a validator that rewrites every value to `X`,
`--append 1 2 --append 3 4` ends as `[[X, X], [X, X]]`. -/
theorem write_back_reverses_flattening (self : Argparsor) (argv : List Str)
    (alternative strict : Bool) (s1 s' : Argparsor) (q : Nat) (a : Argument) (v : IValid)
    (xs : List Str)
    (hparse : self.parseArguments argv alternative strict = .ok s')
    (hwalk : self.parseTokens argv alternative strict = .ok s1)
    (hq : s1.arguments[q]? = some a)
    (hclass : isListClass a.type = true ∨ isGroupedClass a.type = true)
    (hexist : a.isExist = true) (hvalid : a.valid = some v)
    (hrewrite : v.isValid a.toVector = .ok (true, xs))
    (hlength : xs.length = a.toVector.length) :
    (∃ a', s'.arguments[q]? = some a' ∧ a.checkValid = .ok a' ∧ a'.toVector = xs ∧
      a'.shape = a.shape ∧ a'.type = a.type ∧ a'.isExist = a.isExist ∧ a'.count = a.count ∧
      (xs = a.toVector → a' = a)) ∧
    ((scenarioAppendRewrite.parseArguments (args ["prog", "--append", "1", "2", "--append", "3", "4"])
        false false).exception = none ∧
      (scenarioAppendRewrite.parseArguments (args ["prog", "--append", "1", "2", "--append", "3", "4"])
        false false).state.arguments.map Argument.groups = [[["X", "X"], ["X", "X"]]]) := by
  refine ⟨?_, by decide, by decide⟩
  obtain ⟨s1', hw, hall⟩ := parseArguments_ok self argv alternative strict s' hparse
  rw [hwalk] at hw
  cases hw
  obtain ⟨a'', hq', hcheck⟩ := forall₂_getElem? _ _ _ hall q a hq
  obtain ⟨a', h1, h2, h3, h4, h5, h6, _, h8⟩ :=
    checkValid_rewrite a v xs hclass hexist hvalid hrewrite hlength
  rw [h1] at hcheck
  rw [← Except.ok.inj hcheck] at hq'
  exact ⟨a', hq', h1, h2, h3, h4, h5, h6, h8⟩

theorem write_back_reverses_flattening_witness :
    ∃ a', (scenarioAppendRewrite.parseArguments (args ["prog", "--append", "1", "2"]) false
          false).state.arguments[0]? = some a' ∧
      ({ Argument.declared ["-a", "--append"] .MULTI_NUMBER_OPTION 2 with
          valid := some rewriteAll
          elements := [ArgumentElement.group (args ["1", "2"])]
          isExist := true
          count := 1 } : Argument).checkValid = .ok a' ∧
      a'.toVector = args ["X", "X"] ∧
      a'.shape = [2] ∧ a'.type = .MULTI_NUMBER_OPTION ∧ a'.isExist = true ∧ a'.count = 1 ∧
      (args ["X", "X"] = args ["1", "2"] → a' =
        { Argument.declared ["-a", "--append"] .MULTI_NUMBER_OPTION 2 with
          valid := some rewriteAll
          elements := [ArgumentElement.group (args ["1", "2"])]
          isExist := true
          count := 1 }) :=
  (write_back_reverses_flattening scenarioAppendRewrite (args ["prog", "--append", "1", "2"])
    false false
    (scenarioAppendRewrite.parseTokens (args ["prog", "--append", "1", "2"]) false false).state
    (scenarioAppendRewrite.parseArguments (args ["prog", "--append", "1", "2"]) false false).state
    0
    { Argument.declared ["-a", "--append"] .MULTI_NUMBER_OPTION 2 with
      valid := some rewriteAll
      elements := [ArgumentElement.group (args ["1", "2"])]
      isExist := true
      count := 1 }
    rewriteAll (args ["X", "X"]) rfl rfl rfl (Or.inr rfl) rfl rfl rfl rfl).1

/-- When the token walk returned, neither the help nor the version option was matched,
no required declaration is absent and the declarations before `a` pass their
validation, an exception of the validation of `a` is the one of `parseArguments`. -/
theorem parseArguments_first_error (self : Argparsor) (argv : List Str)
    (alternative strict : Bool) (self' : Argparsor) (pre post : List Argument) (a : Argument)
    (e : Exception)
    (hwalk : self.parseTokens argv alternative strict = .ok self')
    (hhelp : self'.optionExists self'.helpOption = false)
    (hversion : self'.optionExists self'.versionOption = false)
    (hrequired : ∀ b ∈ self'.arguments, b.isRequired = true → b.isExist = true)
    (hsplit : self'.arguments = pre ++ a :: post)
    (hpre : ∀ b ∈ pre, ∃ b', b.checkValid = .ok b')
    (he : a.checkValid = .error e) :
    (self.parseArguments argv alternative strict).exception = some e := by
  have hfind : self'.arguments.find? (fun a => a.isRequired && a.isExist == false) = none := by
    rw [List.find?_eq_none]
    intro b hb
    cases hr : b.isRequired
    · simp
    · simp [hrequired b hb hr]
  have hlen : self'.arguments.length = (pre ++ a :: post).length := by rw [hsplit]
  have hparse : self.parseArguments argv alternative strict =
      self'.checkValids (List.range' 0 (pre ++ a :: post).length) := by
    simp only [Argparsor.parseArguments, hwalk, Argparsor.afterWalk, hhelp, hversion, hfind,
      hlen, List.range_eq_range', Bool.false_eq_true, if_false]
  rw [hparse]
  exact checkValids_first_error a post e he pre [] self' (by simpa using hsplit) hpre

/-- C29 (amended). When the validation loop reaches a supplied declaration of class
`BOOLEAN_OPTION` or `REVERSE_BOOLEAN_OPTION` that has a validator (the token walk
returned, neither the help nor the version option was matched, no required
declaration is absent, and every declaration before it passes its validation),
the validator is handed the empty vector and `parseArguments` throws
`ParseArgumentValidException` with the first flag of the declaration: with the
message `invalid type option for use valid` when the validator accepts, with
`invalid check function` when it returns `false`, and with the message of the
validator when it throws. -/
theorem flag_validation (self : Argparsor) (argv : List Str) (alternative strict : Bool)
    (self' : Argparsor) (pre post : List Argument) (a : Argument) (v : IValid)
    (hwalk : self.parseTokens argv alternative strict = .ok self')
    (hhelp : self'.optionExists self'.helpOption = false)
    (hversion : self'.optionExists self'.versionOption = false)
    (hrequired : ∀ b ∈ self'.arguments, b.isRequired = true → b.isExist = true)
    (hsplit : self'.arguments = pre ++ a :: post)
    (hpre : ∀ b ∈ pre, ∃ b', b.checkValid = .ok b')
    (hflag : isBoolean a.type = true)
    (hexist : a.isExist = true) (hvalid : a.valid = some v) :
    a.toVector = [] ∧
    (∀ (xs : List Str), v.isValid [] = .ok (true, xs) →
      (self.parseArguments argv alternative strict).exception =
        some (.ParseArgumentValidException a.front
          "invalid type option for use valid".toList)) ∧
    (∀ (xs : List Str), v.isValid [] = .ok (false, xs) →
      (self.parseArguments argv alternative strict).exception =
        some (.ParseArgumentValidException a.front "invalid check function".toList)) ∧
    (∀ (m : Str), v.isValid [] = .error m →
      (self.parseArguments argv alternative strict).exception =
        some (.ParseArgumentValidException a.front m)) := by
  have hvec : a.toVector = [] := by
    rcases a with ⟨names, ty, ex, req, cnt, nargs, argm, elems, valid⟩
    cases ty <;> simp [isBoolean] at hflag <;> rfl
  have hback : ∀ (xs : List Str), a.writeBack xs = none := by
    intro xs
    rcases a with ⟨names, ty, ex, req, cnt, nargs, argm, elems, valid⟩
    cases ty <;> simp [isBoolean] at hflag <;> rfl
  refine ⟨hvec, ?_, ?_, ?_⟩
  · intro xs hx
    apply parseArguments_first_error self argv alternative strict self' pre post a _ hwalk hhelp
      hversion hrequired hsplit hpre
    simp only [Argument.checkValid, hexist, hvalid, hvec, hx, hback]
  · intro xs hx
    apply parseArguments_first_error self argv alternative strict self' pre post a _ hwalk hhelp
      hversion hrequired hsplit hpre
    simp only [Argument.checkValid, hexist, hvalid, hvec, hx]
  · intro m hx
    apply parseArguments_first_error self argv alternative strict self' pre post a _ hwalk hhelp
      hversion hrequired hsplit hpre
    simp only [Argument.checkValid, hexist, hvalid, hvec, hx]

/-- C29, the claim as stated fails: the flag `-q`, whose validator returns `false`,
supplied as `[prog, -q]`, makes `parseArguments` throw the validation error with
the message `invalid check function`, not `invalid type option for use valid`;
the flag `-v`, whose validator accepts, gives the latter. -/
theorem flag_validation_counterexample :
    (scenarioFlagValid.parseArguments (args ["prog", "-q"]) false false).exception =
      some (.ParseArgumentValidException "-q".toList "invalid check function".toList) ∧
    (scenarioFlagValid.parseArguments (args ["prog", "-v"]) false false).exception =
      some (.ParseArgumentValidException "-v".toList
        "invalid type option for use valid".toList) := by
  decide

theorem flag_validation_witness :
    (scenarioFlagValid.parseArguments (args ["prog", "--verbose"]) false false).exception =
      some (.ParseArgumentValidException "-v".toList
        "invalid type option for use valid".toList) :=
  (flag_validation scenarioFlagValid (args ["prog", "--verbose"]) false false
    (scenarioFlagValid.parseTokens (args ["prog", "--verbose"]) false false).state
    []
    [{ Argument.declared ["-q", "--quiet"] .BOOLEAN_OPTION 0 with valid := some rejectAll }]
    { Argument.declared ["-v", "--verbose"] .BOOLEAN_OPTION 0 with
        valid := some acceptAll, isExist := true, count := 1 }
    acceptAll rfl rfl rfl
    (by simp [Argparsor.parseTokens, Argparsor.begin, Argparsor.walk, scenarioFlagValid,
      Argparsor.declared, Argument.declared, Outcome.state]; decide)
    rfl (fun b hb => by simp at hb) rfl rfl rfl).2.1 [] rfl

/-! ## A value-taking option inside a short cluster -/

/-- The loop over a cluster that starts with boolean flags followed by one more
character at least: the flags are marked and the loop goes on with that
character. -/
theorem parseShortLoop_prefix (maxIndex : Nat) (argv : List Str) (index : Nat) (hasArg : Bool)
    (arg last : Str) (c : Char) (tail : List Char) :
    ∀ (marked : List Char) (self : Argparsor),
      (∀ d ∈ marked, self.isBooleanFlag d = true) →
      Argparsor.parseShortLoop maxIndex argv index hasArg arg last self (marked ++ c :: tail) =
        Argparsor.parseShortLoop maxIndex argv index hasArg arg last (self.matchFlags marked)
          (c :: tail) := by
  intro marked
  induction marked with
  | nil => intro self _; rfl
  | cons d marked ih =>
    intro self hbool
    have hd := hbool d (by simp)
    unfold Argparsor.isBooleanFlag at hd
    cases hf : self.find ['-', d] with
    | none => simp [hf] at hd
    | some pa =>
      obtain ⟨p, a⟩ := pa
      simp only [hf] at hd
      have hrest : ∀ x ∈ marked, (self.store p a.matched).isBooleanFlag x = true := by
        intro x hx
        rw [isBooleanFlag_store_matched self p a _ hf]
        exact hbool x (List.mem_cons_of_mem _ hx)
      obtain ⟨y, ys, hys⟩ : ∃ y ys, marked ++ c :: tail = y :: ys := by
        cases marked with
        | nil => exact ⟨c, tail, rfl⟩
        | cons m ms => exact ⟨m, ms ++ c :: tail, rfl⟩
      rw [matchFlags_cons self d marked p a hf, ← ih (self.store p a.matched) hrest,
        List.cons_append, hys]
      simp only [Argparsor.parseShortLoop, hf, takesParameter_of_isBoolean hd, hd,
        Bool.and_false, Bool.false_eq_true, if_false, Bool.not_true]

/-- C30 (amended). In a short cluster read outside of the alternative lookup, after
boolean flags `marked`, a character `c` that is followed by at least one more
character and resolves to a declaration `a`: if the token carries an `=`
inline value and `a` is not a boolean flag, `ParseArgumentException(c, "only
last option can be use a parameter")` is thrown; if the token carries no `=` and
`a` is one of the six value-taking classes of the loop, the rest of the cluster
is handed to `a` as its inline value, whatever its characters resolve to, so
that a `SIMPLE_OPTION` stores it and the token is parsed successfully. With the
`SIMPLE_OPTION`s `-a` and `-b`, `-ab` gives `a == "b"` and leaves `-b` absent,
and `-ab=1` throws for `a`. -/
theorem ambiguous_cluster (self : Argparsor) (maxIndex : Nat) (argv : List Str) (i : Nat)
    (marked : List Char) (c c' : Char) (r : List Char) (p : Nat) (a : Argument)
    (halt : self.isAlternative = false)
    (hbool : ∀ d ∈ marked, self.isBooleanFlag d = true)
    (hnoeq : '=' ∉ marked ++ c :: c' :: r)
    (hfind : (self.matchFlags marked).find ['-', c] = some (p, a)) :
    (∀ (v : Str), argv[i]? = some ('-' :: (marked ++ c :: c' :: r) ++ '=' :: v) →
      isBoolean a.type = false →
      self._parseShortArgument maxIndex argv i =
        .error (.ParseArgumentException [c] "only last option can be use a parameter".toList,
          self.matchFlags marked)) ∧
    (argv[i]? = some ('-' :: (marked ++ c :: c' :: r)) → takesParameter a.type = true →
      self._parseShortArgument maxIndex argv i =
        (self.matchFlags marked)._parseArgument maxIndex argv i true [c] (c' :: r) p
          a.matched) ∧
    (argv[i]? = some ('-' :: (marked ++ c :: c' :: r)) → a.type = .SIMPLE_OPTION →
      ∃ n, self._parseShortArgument maxIndex argv i =
        .ok (i, (self.matchFlags marked).store p
          { a with argument := c' :: r, isExist := true, count := n })) ∧
    ((scenarioTwoSimple.parseArguments (args ["prog", "-vab"]) false false).exception = none ∧
      (scenarioTwoSimple.parseArguments (args ["prog", "-vab"]) false
        false).state.arguments.map (fun d => (d.isExist, String.mk d.argument)) =
        [(true, "b"), (false, ""), (true, "")] ∧
      (scenarioTwoSimple.parseArguments (args ["prog", "-vab=1"]) false false).exception =
        some (.ParseArgumentException "a".toList
          "only last option can be use a parameter".toList)) := by
  have hne : marked ++ c :: c' :: r ≠ [] := by simp
  have hdash : '=' ∉ '-' :: (marked ++ c :: c' :: r) := by
    intro h
    rcases List.mem_cons.mp h with h | h
    · cases h
    · exact hnoeq h
  have hsep : ∀ (hasArg : Bool) (arg : Str) (tok : Str), argv[i]? = some tok →
      takeArg tok = (hasArg, '-' :: (marked ++ c :: c' :: r), arg) →
      self._parseShortArgument maxIndex argv i =
        Argparsor.parseShortLoop maxIndex argv i hasArg arg
          ('-' :: (marked ++ c :: c' :: r)).getLast?.toList (self.matchFlags marked)
          (c :: c' :: r) := by
    intro hasArg arg tok hi htake
    simp only [Argparsor._parseShortArgument, getD_of_getElem? hi, htake, halt,
      Bool.false_eq_true, if_false, List.drop_succ_cons, List.drop_zero]
    exact parseShortLoop_prefix maxIndex argv i hasArg arg _ c (c' :: r) marked self
      hbool
  have hvalue : argv[i]? = some ('-' :: (marked ++ c :: c' :: r)) →
      takesParameter a.type = true →
      self._parseShortArgument maxIndex argv i =
        (self.matchFlags marked)._parseArgument maxIndex argv i true [c] (c' :: r) p
          a.matched := by
    intro hi htp
    rw [hsep false [] _ hi (takeArg_noEq _ hdash)]
    simp only [Argparsor.parseShortLoop, hfind, htp, Bool.not_false, Bool.and_self, if_true]
  refine ⟨?_, hvalue, ?_, by decide, by decide, by decide⟩
  · intro v hi hnb
    have htake : takeArg ('-' :: (marked ++ c :: c' :: r) ++ '=' :: v) =
        (true, '-' :: (marked ++ c :: c' :: r), v) := takeArg_eq _ v hdash
    rw [hsep true v _ hi htake]
    simp only [Argparsor.parseShortLoop, hfind, hnb, Bool.not_true, Bool.false_and,
      Bool.false_eq_true, if_false, Bool.not_false, if_true, Argparsor.throwParse]
  · intro hi htype
    have htp : takesParameter a.type = true := by rw [htype]; rfl
    rw [hvalue hi htp]
    rcases a with ⟨names, ty, ex, req, cnt, nargs, argm, elems, valid⟩
    dsimp only at htype
    subst htype
    exact ⟨_, rfl⟩

/-- C30, the claim as stated fails: with the `SIMPLE_OPTION`s `-a` and `-b`, the cluster
`-ab` is parsed successfully: `-a` holds the value `b` and `-b` is absent. -/
theorem ambiguous_cluster_counterexample :
    (scenarioTwoSimple.parseArguments (args ["prog", "-ab"]) false false).exception = none ∧
    (scenarioTwoSimple.parseArguments (args ["prog", "-ab"]) false
      false).state.arguments.map (fun d => (d.isExist, String.mk d.argument)) =
      [(true, "b"), (false, ""), (false, "")] := by
  decide

theorem ambiguous_cluster_witness :
    scenarioTwoSimple._parseShortArgument 2 (args ["prog", "-vab=1"]) 1 =
      .error (.ParseArgumentException ['a'] "only last option can be use a parameter".toList,
        scenarioTwoSimple.matchFlags ['v']) :=
  (ambiguous_cluster scenarioTwoSimple 2 (args ["prog", "-vab=1"]) 1 ['v'] 'a' 'b' [] 0
    (Argument.declared ["-a"] .SIMPLE_OPTION 1) rfl (by decide) (by decide) rfl).1 "1".toList
    rfl rfl

/-! ## The lookahead `_endOfInfiniteArgument` -/

theorem takeArg_option (t : Str) : (takeArg t).2.1 = t.takeWhile (· != '=') := by
  unfold takeArg
  cases h : t.dropWhile (· != '=') with
  | nil =>
    dsimp only
    rw [List.dropWhile_eq_nil_iff] at h
    exact (List.takeWhile_eq_self_iff.mpr h).symm
  | cons x xs => rfl

theorem takeArg_hasArg (t : Str) : (takeArg t).1 = true ↔ '=' ∈ t := by
  unfold takeArg
  cases h : t.dropWhile (· != '=') with
  | nil =>
    dsimp only
    rw [List.dropWhile_eq_nil_iff] at h
    constructor
    · intro h'; cases h'
    · intro hmem
      have := h '=' hmem
      simp at this
  | cons x xs =>
    dsimp only
    constructor
    · intro _
      by_contra hno
      have : t.dropWhile (· != '=') = [] := by
        rw [List.dropWhile_eq_nil_iff]
        intro c hc
        have : c ≠ '=' := fun e => hno (e ▸ hc)
        simpa using this
      rw [this] at h
      cases h
    · intro _; rfl

/-- `_endOfInfiniteArgument` on a short token outside of the alternative lookup, in terms
of the characters `cs` of the token between its dash and its first `=`. -/
theorem endOfInfinite_short (self : Argparsor) (t : Str) (cs : List Char)
    (hshort : isShortOption t = true) (hopt : t.takeWhile (· != '=') = '-' :: cs)
    (halt : self.isAlternative = false ∨ self.find ('-' :: '-' :: cs) = none) :
    self._endOfInfiniteArgument t =
      match self.endOfInfiniteFirsts (takeArg t).1 cs with
      | some b => b
      | none => (self.find ('-' :: ('-' :: cs).getLast?.toList)).isSome := by
  have ho : (takeArg t).2.1 = '-' :: cs := by rw [takeArg_option, hopt]
  have hfirst : (self.isAlternative && (self.find ('-' :: '-' :: cs)).isSome) = false := by
    rcases halt with h | h
    · simp [h]
    · simp [h]
  unfold Argparsor._endOfInfiniteArgument
  rw [if_pos hshort]
  simp only [ho, hfirst, Bool.false_eq_true, if_false, List.drop_succ_cons, List.drop_zero]

/-- C24 (amended). Outside of the alternative mode, `_endOfInfiniteArgument` answers: no
for a plain token; for a long token, whether the name before its first `=` is
declared; for a short token `-c` or `-c=v`, whether `-c` is declared, whatever
its class. For a short token with two characters or more before its first `=`,
the first one, `c`, decides as follows: no when `-c` is not declared; yes when
`-c` is a boolean flag; yes when `-c` is of one of the six value-taking classes
of the loop and the token has no `=`; and otherwise (help, version, any other
class, or a value-taking class in a token with `=`) the answer is the one the
following characters give. -/
theorem lookahead_standard (self : Argparsor) (t : Str) (halt : self.isAlternative = false) :
    (isShortOption t = false → isLongOption t = false →
      self._endOfInfiniteArgument t = false) ∧
    (isLongOption t = true →
      self._endOfInfiniteArgument t = (self.find (t.takeWhile (· != '='))).isSome) ∧
    (∀ (c : Char), isShortOption t = true → t.takeWhile (· != '=') = ['-', c] →
      self._endOfInfiniteArgument t = (self.find ['-', c]).isSome) ∧
    (∀ (c c' : Char) (r : List Char), isShortOption t = true →
      t.takeWhile (· != '=') = '-' :: c :: c' :: r →
      (self.find ['-', c] = none → self._endOfInfiniteArgument t = false) ∧
      (∀ (p : Nat) (a : Argument), self.find ['-', c] = some (p, a) →
        isBoolean a.type = true → self._endOfInfiniteArgument t = true) ∧
      (∀ (p : Nat) (a : Argument), self.find ['-', c] = some (p, a) →
        takesParameter a.type = true → '=' ∉ t → self._endOfInfiniteArgument t = true) ∧
      (∀ (p : Nat) (a : Argument), self.find ['-', c] = some (p, a) →
        isBoolean a.type = false → (takesParameter a.type = false ∨ '=' ∈ t) →
        self._endOfInfiniteArgument t =
          match self.endOfInfiniteFirsts (takeArg t).1 (c' :: r) with
          | some b => b
          | none => (self.find ('-' :: (c' :: r).getLast?.toList)).isSome)) := by
  refine ⟨?_, ?_, ?_, ?_⟩
  · intro hs hl
    simp [Argparsor._endOfInfiniteArgument, hs, hl]
  · intro hl
    have hs := isShortOption_of_isLongOption hl
    simp only [Argparsor._endOfInfiniteArgument, hs, hl, Bool.false_eq_true, if_false, if_true,
      takeArg_option]
  · intro c hs hopt
    rw [endOfInfinite_short self t [c] hs hopt (Or.inl halt)]
    simp [Argparsor.endOfInfiniteFirsts]
  · intro c c' r hs hopt
    have hlast : ('-' :: c :: c' :: r).getLast? = (c' :: r).getLast? := by
      simp [List.getLast?_cons_cons]
    have hmain := endOfInfinite_short self t (c :: c' :: r) hs hopt (Or.inl halt)
    rw [hlast] at hmain
    refine ⟨?_, ?_, ?_, ?_⟩
    · intro hf
      rw [hmain]
      simp only [Argparsor.endOfInfiniteFirsts, hf]
    · intro p a hf hb
      rw [hmain]
      simp only [Argparsor.endOfInfiniteFirsts, hf, hb, takesParameter_of_isBoolean hb,
        Bool.and_false, Bool.false_eq_true, if_false, if_true]
    · intro p a hf htp hno
      have hna : (takeArg t).1 = false := by
        cases h : (takeArg t).1 with
        | false => rfl
        | true => exact absurd ((takeArg_hasArg t).mp h) hno
      rw [hmain]
      simp only [Argparsor.endOfInfiniteFirsts, hf, htp, hna, Bool.not_false, Bool.and_self,
        if_true]
    · intro p a hf hnb hcase
      have hcond : (!(takeArg t).1 && takesParameter a.type) = false := by
        rcases hcase with h | h
        · simp [h]
        · simp [(takeArg_hasArg t).mpr h]
      rw [hmain]
      simp only [Argparsor.endOfInfiniteFirsts, hf, hcond, hnb, Bool.false_eq_true, if_false]

/-- C24, the claim as stated fails: outside of the alternative mode, with `-h` declared
as the help option and `-z` not declared, the lookahead answers no for the short
token `-hz`, whose first character resolves to a declared flag; so
`--tags a -hz` hands `-hz` to `--tags` as a value. -/
theorem lookahead_standard_counterexample :
    (scenarioHelpTags.find "-h".toList).isSome = true ∧
    scenarioHelpTags._endOfInfiniteArgument "-hz".toList = false ∧
    (scenarioHelpTags.parseArguments (args ["prog", "--tags", "a", "-hz"]) false
      false).state.arguments.map (fun d => (d.isExist, d.strings)) =
      [(false, []), (false, []), (true, ["a", "-hz"]), (false, [])] := by
  decide

theorem lookahead_standard_witness :
    scenarioHelpTags._endOfInfiniteArgument "-h=1".toList =
      (scenarioHelpTags.find ['-', 'h']).isSome :=
  (lookahead_standard scenarioHelpTags "-h=1".toList rfl).2.2.1 'h' (by decide) (by decide)

theorem takeWhile_through {α : Type} (f : α → Bool) (pre : List α) (t : α) (post : List α)
    (hpre : ∀ x ∈ pre, f x = true) (ht : f t = true) :
    (pre ++ t :: post).takeWhile f = pre ++ t :: post.takeWhile f := by
  induction pre with
  | nil => simp [List.takeWhile_cons, ht]
  | cons x pre ih =>
    have hx : f x = true := hpre x (List.mem_cons_self x pre)
    have := ih (fun y hy => hpre y (List.mem_cons_of_mem x hy))
    simp [List.takeWhile_cons, hx, this]

/-- C25 (amended). A long token whose name is not declared is judged no by the lookahead;
so is a short token whose first character is not a declared flag, provided that
the flag `--` is not declared when that character is `=` and that, in the
alternative mode, the name of the token is not a declared long flag. A token `t`
judged no that follows tokens `pre` judged no in the range an `INFINITE_OPTION`
or a `MULTI_INFINITE_OPTION` matched in separate form reads, `argv(index,
maxIndex)`, is taken as a value with them, the routine returns and the index
returned is past `t`; the same holds for an infinite positional reached before
the marker, which reads `argv[index, argc)`. With `--tags` infinite and `-z` not declared,
`[prog, --tags, a, -z, b]` gives `tags == ["a", "-z", "b"]` without error, whereas
`[prog, -z]` raises `invalid option`. -/
theorem lookahead_leniency (self : Argparsor) :
    (∀ (t : Str), isLongOption t = true → self.find (t.takeWhile (· != '=')) = none →
      self._endOfInfiniteArgument t = false) ∧
    (∀ (c : Char) (rest : List Char), isShortOption ('-' :: c :: rest) = true →
      self.find ['-', c] = none →
      (c = '=' → self.find ['-', '-'] = none) →
      (self.isAlternative = false ∨
        self.find ('-' :: ('-' :: c :: rest).takeWhile (· != '=')) = none) →
      self._endOfInfiniteArgument ('-' :: c :: rest) = false) ∧
    (∀ (maxIndex index p : Nat) (argv : List Str) (option arg : Str) (a : Argument)
      (pre post : List Str) (t : Str),
      slice argv (index + 1) maxIndex = pre ++ t :: post →
      (∀ x ∈ pre, self._endOfInfiniteArgument x = false) →
      self._endOfInfiniteArgument t = false →
      (a.type = .INFINITE_OPTION →
        self._parseArgument maxIndex argv index false option arg p a =
          .ok (index + (pre ++ t :: post.takeWhile
              (fun x => !self._endOfInfiniteArgument x)).length,
            self.store p (a.clear.push_backs (pre ++ t :: post.takeWhile
              (fun x => !self._endOfInfiniteArgument x))).matched)) ∧
      (a.type = .MULTI_INFINITE_OPTION →
        self._parseArgument maxIndex argv index false option arg p a =
          .ok (index + (pre ++ t :: post.takeWhile
              (fun x => !self._endOfInfiniteArgument x)).length,
            self.store p ((if a.isExist = false then a.clear else a).push_backs
              (pre ++ t :: post.takeWhile
                (fun x => !self._endOfInfiniteArgument x))).matched))) ∧
    (∀ (argc index q : Nat) (argv : List Str) (a : Argument) (pre post : List Str) (t : Str),
      q = self.arguments.findIdx Argument.isUnfilledPositional →
      self.arguments[q]? = some a → a.type = .INFINITE_POSITIONAL_ARGUMENT →
      slice argv index argc = pre ++ t :: post →
      (∀ x ∈ pre, self._endOfInfiniteArgument x = false) →
      self._endOfInfiniteArgument t = false →
      self._parsePositionnalArgument argc argv index false =
        .ok (index + (pre ++ t :: post.takeWhile
            (fun x => !self._endOfInfiniteArgument x)).length - 1,
          self.store q
            { a.push_backs (pre ++ t :: post.takeWhile
                (fun x => !self._endOfInfiniteArgument x)) with isExist := true })) ∧
    ((scenarioHelpTags.parseArguments (args ["prog", "--tags", "a", "-z", "b"]) false
        false).exception = none ∧
      (scenarioHelpTags.parseArguments (args ["prog", "--tags", "a", "-z", "b"]) false
        false).state.arguments.map (fun d => (d.isExist, d.strings)) =
        [(false, []), (false, []), (true, ["a", "-z", "b"]), (false, [])] ∧
      (scenarioHelpTags.parseArguments (args ["prog", "-z"]) false false).exception =
        some (.ParseArgumentException "z".toList "invalid option".toList)) := by
  refine ⟨?_, ?_, ?_, ?_, by decide, by decide, by decide⟩
  · intro t hl hf
    have hs := isShortOption_of_isLongOption hl
    simp only [Argparsor._endOfInfiniteArgument, hs, hl, Bool.false_eq_true, if_false, if_true,
      takeArg_option, hf, Option.isSome_none]
  · intro c rest hs hf hdd halt
    by_cases hc : c = '='
    · subst hc
      have hopt : ('-' :: '=' :: rest).takeWhile (· != '=') = '-' :: [] := by
        simp [List.takeWhile_cons]
      rw [hopt] at halt
      rw [endOfInfinite_short self _ [] hs hopt halt]
      simp [Argparsor.endOfInfiniteFirsts, hdd rfl]
    · have hopt : ('-' :: c :: rest).takeWhile (· != '=') =
          '-' :: c :: rest.takeWhile (· != '=') := by
        simp [List.takeWhile_cons, hc]
      rw [hopt] at halt
      rw [endOfInfinite_short self _ (c :: rest.takeWhile (· != '=')) hs hopt halt]
      cases hr : rest.takeWhile (· != '=') with
      | nil => simp [Argparsor.endOfInfiniteFirsts, hf]
      | cons c' r => simp only [Argparsor.endOfInfiniteFirsts, hf]
  · intro maxIndex index p argv option arg a pre post t hslice hpre ht
    have htake : (slice argv (index + 1) maxIndex).takeWhile
        (fun x => !self._endOfInfiniteArgument x) =
        pre ++ t :: post.takeWhile (fun x => !self._endOfInfiniteArgument x) := by
      rw [hslice]
      exact takeWhile_through _ pre t post (fun x hx => by simp [hpre x hx]) (by simp [ht])
    constructor
    · intro htype
      simp only [Argparsor._parseArgument, htype, htake, Bool.false_eq_true, if_false]
    · intro htype
      simp only [Argparsor._parseArgument, htype, htake, Bool.false_eq_true, if_false]
  · intro argc index q argv a pre post t hq ha htype hslice hpre ht
    have hfun : (fun x => !(!false && self._endOfInfiniteArgument x)) =
        (fun x => !self._endOfInfiniteArgument x) := by
      funext x
      simp
    have htake : (slice argv index argc).takeWhile
        (fun x => !(!false && self._endOfInfiniteArgument x)) =
        pre ++ t :: post.takeWhile (fun x => !self._endOfInfiniteArgument x) := by
      rw [hslice, hfun]
      exact takeWhile_through _ pre t post (fun x hx => by simp [hpre x hx]) (by simp [ht])
    subst hq
    simp only [Argparsor._parsePositionnalArgument, ha, htype, htake]

/-- C25, the claim as stated fails: in the alternative mode, with `--tags` infinite, `--zeta`
declared and `-z` not declared, the first character of the short token `-zeta`
is not a declared flag, yet the lookahead judges that `-zeta` starts an option:
`[prog, --tags, a, -zeta, b]` gives `tags == ["a"]` and marks `--zeta`. -/
theorem lookahead_leniency_counterexample :
    (scenarioHelpTags.find "-z".toList).isSome = false ∧
    scenarioHelpTagsAlternative._endOfInfiniteArgument "-zeta".toList = true ∧
    (scenarioHelpTags.parseArguments (args ["prog", "--tags", "a", "-zeta", "b"]) true
      false).state.arguments.map (fun d => (d.isExist, d.strings)) =
      [(false, []), (false, []), (true, ["a"]), (true, [])] := by
  decide

theorem lookahead_leniency_witness :
    scenarioHelpTags._endOfInfiniteArgument "-zb".toList = false :=
  (lookahead_leniency scenarioHelpTags).2.1 'z' ['b'] (by decide)
    (Option.not_isSome_iff_eq_none.mp (by decide)) (fun h => absurd h (by decide))
    (Or.inl rfl)

/-! ## Default values and the cluster form -/

/-- C23, the code at the failing input: the `MULTI_OPTION` `-b` and the
`MULTI_INFINITE_OPTION` `-c`, each holding the default `d` and not yet matched,
keep that default when their first match is an inline value inside a cluster:
`-abVALUE` gives `b == ["d", "VALUE"]` and `-acVALUE` gives `c == ["d", "VALUE"]`.
The other forms discard it: `-b VALUE`, `-b=VALUE`, `--bee=VALUE`, `-ab VALUE`,
`-c VALUE` and `--cee=VALUE` give `["VALUE"]`. -/
theorem cluster_keeps_defaults :
    ((scenarioDefaults.parseArguments (args ["prog", "-abVALUE"]) false false).exception = none ∧
      (scenarioDefaults.parseArguments (args ["prog", "-abVALUE"]) false
        false).state.arguments.map (fun d => (d.isExist, d.strings)) =
        [(true, []), (true, ["d", "VALUE"]), (false, ["d"])]) ∧
    ((scenarioDefaults.parseArguments (args ["prog", "-acVALUE"]) false false).exception = none ∧
      (scenarioDefaults.parseArguments (args ["prog", "-acVALUE"]) false
        false).state.arguments.map (fun d => (d.isExist, d.strings)) =
        [(true, []), (false, ["d"]), (true, ["d", "VALUE"])]) ∧
    (scenarioDefaults.parseArguments (args ["prog", "-b", "VALUE"]) false
        false).state.arguments.map (fun d => (d.isExist, d.strings)) =
        [(false, []), (true, ["VALUE"]), (false, ["d"])] ∧
    (scenarioDefaults.parseArguments (args ["prog", "-b=VALUE"]) false
        false).state.arguments.map (fun d => (d.isExist, d.strings)) =
        [(false, []), (true, ["VALUE"]), (false, ["d"])] ∧
    (scenarioDefaults.parseArguments (args ["prog", "--bee=VALUE"]) false
        false).state.arguments.map (fun d => (d.isExist, d.strings)) =
        [(false, []), (true, ["VALUE"]), (false, ["d"])] ∧
    (scenarioDefaults.parseArguments (args ["prog", "-ab", "VALUE"]) false
        false).state.arguments.map (fun d => (d.isExist, d.strings)) =
        [(true, []), (true, ["VALUE"]), (false, ["d"])] ∧
    (scenarioDefaults.parseArguments (args ["prog", "-c", "VALUE"]) false
        false).state.arguments.map (fun d => (d.isExist, d.strings)) =
        [(false, []), (false, ["d"]), (true, ["VALUE"])] ∧
    (scenarioDefaults.parseArguments (args ["prog", "--cee=VALUE"]) false
        false).state.arguments.map (fun d => (d.isExist, d.strings)) =
        [(false, []), (false, ["d"]), (true, ["VALUE"])] := by
  decide

/-! ## The routines read `argv` from the current index on -/

theorem agreeFrom_mono {i k : Nat} {argv argv' : List Str} (h : AgreeFrom i argv argv')
    (hk : i ≤ k) : AgreeFrom k argv argv' :=
  ⟨h.1, fun j hj => h.2 j (Nat.le_trans hk hj)⟩

theorem agreeFrom_getD {i j : Nat} {argv argv' : List Str} (h : AgreeFrom i argv argv')
    (hj : i ≤ j) : argv.getD j [] = argv'.getD j [] := by
  rw [List.getD_eq_getElem?_getD, List.getD_eq_getElem?_getD, h.2 j hj]

theorem agreeFrom_slice {i a : Nat} {argv argv' : List Str} (h : AgreeFrom i argv argv')
    (ha : i ≤ a) (b : Nat) : slice argv a b = slice argv' a b := by
  apply List.ext_getElem?
  intro j
  rw [slice_getElem?, slice_getElem?, h.2 (a + j) (by omega)]

theorem groupLoop_agree (stop : Str → Bool) {i : Nat} {argv argv' : List Str}
    (h : AgreeFrom i argv argv') (maxIndex nargs : Nat) :
    ∀ (fuel k : Nat), i ≤ k →
      groupLoop stop argv maxIndex nargs fuel k = groupLoop stop argv' maxIndex nargs fuel k := by
  intro fuel
  induction fuel with
  | zero => intro k _; rfl
  | succ fuel ih =>
    intro k hk
    rw [groupLoop_succ, groupLoop_succ, agreeFrom_getD h hk, agreeFrom_slice h hk,
      ih (k + nargs) (by omega)]

theorem parseArgument_agree (self : Argparsor) (maxIndex : Nat) {argv argv' : List Str}
    (index : Nat) (h : AgreeFrom (index + 1) argv argv') (hasArg : Bool) (option arg : Str)
    (p : Nat) (a : Argument) :
    self._parseArgument maxIndex argv index hasArg option arg p a =
      self._parseArgument maxIndex argv' index hasArg option arg p a := by
  have h1 : argv.getD (index + 1) [] = argv'.getD (index + 1) [] :=
    agreeFrom_getD h (Nat.le_refl _)
  have h2 : ∀ (b : Nat), slice argv (index + 1) b = slice argv' (index + 1) b :=
    agreeFrom_slice h (Nat.le_refl _)
  have h3 : ∀ (stop : Str → Bool) (m n f : Nat),
      groupLoop stop argv m n f (index + 1) = groupLoop stop argv' m n f (index + 1) :=
    fun stop m n f => groupLoop_agree stop h m n f (index + 1) (Nat.le_refl _)
  simp only [Argparsor._parseArgument, h1, h2, h3]

theorem parseShortLoop_agree (maxIndex : Nat) {argv argv' : List Str} (index : Nat)
    (h : AgreeFrom (index + 1) argv argv') (hasArg : Bool) (arg last : Str) :
    ∀ (cs : List Char) (self : Argparsor),
      Argparsor.parseShortLoop maxIndex argv index hasArg arg last self cs =
        Argparsor.parseShortLoop maxIndex argv' index hasArg arg last self cs := by
  have hlast : ∀ (self : Argparsor) (cs : List Char), (∀ c c' r, cs ≠ c :: c' :: r) →
      Argparsor.parseShortLoop maxIndex argv index hasArg arg last self cs =
        Argparsor.parseShortLoop maxIndex argv' index hasArg arg last self cs := by
    intro self cs hcs
    unfold Argparsor.parseShortLoop
    split
    · exact absurd rfl (hcs _ _ _)
    · cases self.find ('-' :: last) with
      | none => rfl
      | some pa => exact parseArgument_agree self maxIndex index h hasArg last arg pa.1 pa.2
  intro cs
  induction cs with
  | nil => intro self; exact hlast self [] (fun _ _ _ e => by cases e)
  | cons c cs ih =>
    intro self
    cases cs with
    | nil => exact hlast self [c] (fun _ _ _ e => by cases e)
    | cons c' r =>
      unfold Argparsor.parseShortLoop
      cases self.find ['-', c] with
      | none => rfl
      | some pa =>
        dsimp only
        rw [parseArgument_agree self maxIndex index h true [c] (c' :: r) pa.1 pa.2.matched,
          ih (self.store pa.1 pa.2.matched)]

theorem parseShortArgument_agree (self : Argparsor) (maxIndex : Nat) {argv argv' : List Str}
    (index : Nat) (h : AgreeFrom index argv argv') :
    self._parseShortArgument maxIndex argv index =
      self._parseShortArgument maxIndex argv' index := by
  have h1 := agreeFrom_mono h (Nat.le_succ index)
  unfold Argparsor._parseShortArgument
  rw [agreeFrom_getD h (Nat.le_refl _)]
  dsimp only
  split
  · exact parseArgument_agree self maxIndex index h1 _ _ _ _ _
  · exact parseShortLoop_agree maxIndex index h1 _ _ _ _ _

theorem parseLongArgument_agree (self : Argparsor) (maxIndex : Nat) {argv argv' : List Str}
    (index : Nat) (h : AgreeFrom index argv argv') :
    self._parseLongArgument maxIndex argv index =
      self._parseLongArgument maxIndex argv' index := by
  have h1 := agreeFrom_mono h (Nat.le_succ index)
  unfold Argparsor._parseLongArgument
  rw [agreeFrom_getD h (Nat.le_refl _)]
  dsimp only
  split
  · rfl
  · exact parseArgument_agree self maxIndex index h1 _ _ _ _ _

theorem parsePositionnal_agree (self : Argparsor) (argc : Nat) {argv argv' : List Str}
    (index : Nat) (h : AgreeFrom index argv argv') (hasEnd : Bool) :
    self._parsePositionnalArgument argc argv index hasEnd =
      self._parsePositionnalArgument argc argv' index hasEnd := by
  have h1 : argv.getD index [] = argv'.getD index [] := agreeFrom_getD h (Nat.le_refl _)
  have h2 : ∀ (b : Nat), slice argv index b = slice argv' index b :=
    agreeFrom_slice h (Nat.le_refl _)
  have h3 : ∀ (stop : Str → Bool) (m n f : Nat),
      groupLoop stop argv m n f index = groupLoop stop argv' m n f index :=
    fun stop m n f => groupLoop_agree stop h m n f index (Nat.le_refl _)
  simp only [Argparsor._parsePositionnalArgument, h1, h2, h3]

theorem parsePositionnal_index (self : Argparsor) (argc : Nat) (argv : List Str) (index : Nat)
    (hasEnd : Bool) (i' : Nat) (s' : Argparsor)
    (h : self._parsePositionnalArgument argc argv index hasEnd = .ok (i', s')) :
    index ≤ i' + 1 := by
  have hspec := parsePositionnal_spec self argc argv index hasEnd
  rw [h] at hspec
  rcases hspec with ⟨_, _, _, _, _, _, _, _, hi, _⟩ | ⟨_, _, hi, _⟩
  · exact hi
  · omega

theorem afterEndOption_agree {argv argv' : List Str} :
    ∀ (fuel : Nat) (self : Argparsor) (i : Nat), AgreeFrom i argv argv' →
      self.afterEndOption fuel argv i = self.afterEndOption fuel argv' i := by
  intro fuel
  induction fuel with
  | zero => intro self i _; rfl
  | succ fuel ih =>
    intro self i h
    rw [afterEndOption_succ, afterEndOption_succ, ← h.1,
      ← parsePositionnal_agree self argv.length i h true]
    by_cases hi : i < argv.length
    · rw [if_pos hi, if_pos hi]
      cases hstep : self._parsePositionnalArgument argv.length argv i true with
      | error e => rfl
      | ok r =>
        obtain ⟨i', s'⟩ := r
        have hidx := parsePositionnal_index self argv.length argv i true i' s' hstep
        exact ih s' (i' + 1) (agreeFrom_mono h hidx)
    · rw [if_neg hi, if_neg hi]

theorem walk_agree (endIndex : Nat) {argv argv' : List Str} :
    ∀ (fuel : Nat) (self : Argparsor) (i : Nat), AgreeFrom i argv argv' →
      self.walk fuel endIndex argv i = self.walk fuel endIndex argv' i := by
  intro fuel
  induction fuel with
  | zero => intro self i _; rfl
  | succ fuel ih =>
    intro self i h
    rw [walk_succ, walk_succ, ← h.1, ← agreeFrom_getD h (Nat.le_refl _),
      ← parseShortArgument_agree self endIndex i h, ← parseLongArgument_agree self endIndex i h,
      ← parsePositionnal_agree self endIndex i h false,
      ← afterEndOption_agree fuel self (i + 1) (agreeFrom_mono h (Nat.le_succ i))]
    by_cases hi : i < argv.length
    · rw [if_pos hi, if_pos hi]
      by_cases hs : isShortOption (argv.getD i []) = true
      · rw [if_pos hs, if_pos hs]
        cases hstep : self._parseShortArgument endIndex argv i with
        | error e => rfl
        | ok r =>
          obtain ⟨i', s'⟩ := r
          have hadv := parseShortArgument_advances self endIndex argv i
          rw [hstep] at hadv
          exact ih s' (i' + 1) (agreeFrom_mono h (Nat.le_succ_of_le hadv.2.2.1))
      · rw [if_neg hs, if_neg hs]
        by_cases hl : isLongOption (argv.getD i []) = true
        · rw [if_pos hl, if_pos hl]
          cases hstep : self._parseLongArgument endIndex argv i with
          | error e => rfl
          | ok r =>
            obtain ⟨i', s'⟩ := r
            have hadv := parseLongArgument_advances self endIndex argv i
            rw [hstep] at hadv
            exact ih s' (i' + 1) (agreeFrom_mono h (Nat.le_succ_of_le hadv.2.2.1))
        · rw [if_neg hl, if_neg hl]
          by_cases he : isEndOption (argv.getD i []) = true
          · rw [if_pos he, if_pos he]
          · rw [if_neg he, if_neg he]
            cases hstep : self._parsePositionnalArgument endIndex argv i false with
            | error e => rfl
            | ok r =>
              obtain ⟨i', s'⟩ := r
              have hidx := parsePositionnal_index self endIndex argv i false i' s' hstep
              exact ih s' (i' + 1) (agreeFrom_mono h hidx)
    · rw [if_neg hi, if_neg hi]

/-! ## Single-dash long flags of the alternative mode -/

theorem getlinesFrom_flatten (s : Str) :
    ∀ (cur : Str), (getlinesFrom cur s).flatten = cur ++ s.filter (· != '\n') := by
  induction s with
  | nil =>
    intro cur
    cases cur with
    | nil => rfl
    | cons c cs => simp [getlinesFrom]
  | cons c rest ih =>
    intro cur
    unfold getlinesFrom
    by_cases hc : c = '\n'
    · rw [if_pos hc, List.flatten_cons, ih]
      simp [hc]
    · rw [if_neg hc, ih]
      simp [hc]

theorem rfind_some (row : Str) (ch : Char) :
    ∀ (pos p : Nat), rfind row ch pos = some p → p ≤ pos ∧ row[p]? = some ch := by
  intro pos
  induction pos with
  | zero =>
    intro p h
    unfold rfind at h
    split_ifs at h with h0
    cases h
    exact ⟨Nat.le_refl _, h0⟩
  | succ pos ih =>
    intro p h
    unfold rfind at h
    split_ifs at h with h0
    · cases h
      exact ⟨Nat.le_refl _, h0⟩
    · have := ih p h
      exact ⟨Nat.le_succ_of_le this.1, this.2⟩

theorem rfind_none (row : Str) (ch : Char) :
    ∀ (pos : Nat), rfind row ch pos = none → ∀ (q : Nat), q ≤ pos → row[q]? ≠ some ch := by
  intro pos
  induction pos with
  | zero =>
    intro h q hq
    unfold rfind at h
    split_ifs at h with h0
    have : q = 0 := by omega
    rw [this]
    exact h0
  | succ pos ih =>
    intro h q hq
    unfold rfind at h
    split_ifs at h with h0
    rcases Nat.lt_or_ge q (pos + 1) with hlt | hge
    · exact ih h q (by omega)
    · have : q = pos + 1 := by omega
      rw [this]
      exact h0

theorem filter_dropWhile_space (l : Str) :
    (l.dropWhile (· == ' ')).filter (· != ' ') = l.filter (· != ' ') := by
  induction l with
  | nil => rfl
  | cons c l ih =>
    by_cases hc : c = ' '
    · simp [List.dropWhile_cons, hc, ih]
    · simp [List.dropWhile_cons, hc]

theorem dropWhile_space_length (row : Str) (p : Nat) (h : row[p]? = some ' ') :
    ((row.drop p).dropWhile (· == ' ')).length < row.length := by
  have hp : p < row.length := by
    rcases Nat.lt_or_ge p row.length with h' | h'
    · exact h'
    · rw [List.getElem?_eq_none h'] at h; cases h
  have hd : row.drop p = ' ' :: row.drop (p + 1) := by
    rw [List.drop_eq_getElem_cons hp]
    rw [List.getElem?_eq_getElem hp] at h
    rw [Option.some.inj h]
  rw [hd, List.dropWhile_cons]
  simp only [beq_self_eq_true, if_true]
  have h1 : ((row.drop (p + 1)).dropWhile (· == ' ')).length ≤ (row.drop (p + 1)).length :=
    (List.dropWhile_sublist _).length_le
  rw [List.length_drop] at h1
  omega

/-- What the loop over one line gives when it is allowed more turns than the line has
characters: it ends, the lines pushed hold the characters of the line other
than spaces in order, and each of them is at most `widthMax` long or has no
space among its first `widthMax + 1` characters. -/
theorem wrapLine_spec (widthMax : Nat) :
    ∀ (fuel : Nat) (row : Str), row.length < fuel →
      ∃ lines, wrapLine widthMax fuel row = some lines ∧
        lines.flatten.filter (· != ' ') = row.filter (· != ' ') ∧
        ∀ l ∈ lines, l.length ≤ widthMax ∨ ' ' ∉ l.take (widthMax + 1) := by
  intro fuel
  induction fuel with
  | zero => intro row h; omega
  | succ fuel ih =>
    intro row hlen
    unfold wrapLine
    by_cases hw : row.length ≥ widthMax
    · rw [if_pos hw]
      cases hr : rfind row ' ' widthMax with
      | none =>
        refine ⟨[row], rfl, by simp, ?_⟩
        intro l hl
        rw [List.mem_singleton] at hl
        subst hl
        right
        intro hmem
        obtain ⟨q, hq⟩ := List.mem_iff_getElem?.mp hmem
        rw [List.getElem?_take] at hq
        split_ifs at hq with hlt
        exact rfind_none l ' ' widthMax hr q (by omega) hq
      | some p =>
        have hp := rfind_some row ' ' widthMax p hr
        have hshort := dropWhile_space_length row p hp.2
        obtain ⟨lines, hlines, hflat, hwidth⟩ :=
          ih ((row.drop p).dropWhile (· == ' ')) (by omega)
        refine ⟨row.take p :: lines, ?_, ?_, ?_⟩
        · simp only [hlines]
        · rw [List.flatten_cons, List.filter_append, hflat, filter_dropWhile_space,
            ← List.filter_append, List.take_append_drop]
        · intro l hl
          rcases List.mem_cons.mp hl with hl | hl
          · left
            rw [hl, List.length_take]
            omega
          · exact hwidth l hl
    · rw [if_neg hw]
      refine ⟨[row], rfl, by simp, ?_⟩
      intro l hl
      rw [List.mem_singleton] at hl
      subst hl
      left
      omega

theorem wrapLines_spec (widthMax : Nat) :
    ∀ (ls : List Str), ∃ lines, wrapLines widthMax ls = some lines ∧
      lines.flatten.filter (· != ' ') = ls.flatten.filter (· != ' ') ∧
      ∀ l ∈ lines, l.length ≤ widthMax ∨ ' ' ∉ l.take (widthMax + 1) := by
  intro ls
  induction ls with
  | nil => exact ⟨[], rfl, rfl, fun l hl => by cases hl⟩
  | cons row rest ih =>
    obtain ⟨first, h1, h2, h3⟩ := wrapLine_spec widthMax (row.length + 1) row (Nat.lt_succ_self _)
    obtain ⟨others, k1, k2, k3⟩ := ih
    refine ⟨first ++ others, ?_, ?_, ?_⟩
    · simp only [wrapLines, h1, k1]
    · rw [List.flatten_append, List.filter_append, h2, k2, List.flatten_cons, List.filter_append]
    · intro l hl
      rcases List.mem_append.mp hl with hl | hl
      · exact h3 l hl
      · exact k3 l hl

/-- C39. For every string and every width `s_multilineWrap` returns, and the lines returned,
put end to end and without their spaces, are the string without its spaces and
newlines, in the same order. With the width 5, `aaa bbb ccc` gives the lines
`aaa`, `bbb`, `ccc`; with the width 3, `ab  cd` followed by a newline and `e`
gives `ab ` (the space before the break is kept), `cd`, `e`. -/
theorem wrap_loses_no_text (str : Str) (widthMax : Nat) :
    (∃ lines, s_multilineWrap str widthMax = some lines ∧
      lines.flatten.filter (· != ' ') = str.filter (fun c => c != ' ' && c != '\n')) ∧
    s_multilineWrap "aaa bbb ccc".toList 5 = some (args ["aaa", "bbb", "ccc"]) ∧
    s_multilineWrap "ab  cd\ne".toList 3 = some (args ["ab ", "cd", "e"]) := by
  refine ⟨?_, by decide, by decide⟩
  obtain ⟨lines, h1, h2, _⟩ := wrapLines_spec widthMax (getlines str)
  refine ⟨lines, h1, ?_⟩
  rw [h2]
  unfold getlines
  rw [getlinesFrom_flatten, List.nil_append, List.filter_filter]

/-- C40. Every row that `s_multilineWrap` returns is at most `widthMax` long or has no space
among its first `widthMax + 1` characters. With the width 4, `abcdefgh ij`
is returned whole: its first five characters hold no space. -/
theorem wrap_width_bound (str : Str) (widthMax : Nat) :
    (∃ lines, s_multilineWrap str widthMax = some lines ∧
      ∀ l ∈ lines, l.length ≤ widthMax ∨ ' ' ∉ l.take (widthMax + 1)) ∧
    s_multilineWrap "abcdefgh ij".toList 4 = some (args ["abcdefgh ij"]) ∧
    s_multilineWrap "ab cdefgh ij".toList 4 = some (args ["ab", "cdefgh ij"]) := by
  refine ⟨?_, by decide, by decide⟩
  obtain ⟨lines, h1, _, h3⟩ := wrapLines_spec widthMax (getlines str)
  exact ⟨lines, h1, h3⟩

/-! ## An infinite option matched with an inline value -/

/-- A short token that the alternative lookup does not match goes to the cluster loop. -/
theorem parseShortArgument_loop (self : Argparsor) (maxIndex : Nat) (argv : List Str) (i : Nat)
    (tok : Str) (hasArg : Bool) (cs arg : Str) (hi : argv[i]? = some tok)
    (htake : takeArg tok = (hasArg, '-' :: cs, arg))
    (halt : self.isAlternative = false ∨ self.find ('-' :: '-' :: cs) = none) :
    self._parseShortArgument maxIndex argv i =
      Argparsor.parseShortLoop maxIndex argv i hasArg arg ('-' :: cs).getLast?.toList self cs := by
  have hnone : (if self.isAlternative then self.find ('-' :: '-' :: cs) else none) = none := by
    rcases halt with h | h
    · simp [h]
    · simp [h]
  simp only [Argparsor._parseShortArgument, getD_of_getElem? hi, htake, hnone,
    List.drop_succ_cons, List.drop_zero]

/-- C36. An `INFINITE_OPTION` or `MULTI_INFINITE_OPTION` handed an inline value `v` pushes
the single leaf `v` (after the clear of its class) and returns the index it was
given, so the walk goes on with the very next token. This is the case of the
long token `flag=v`, of the short token `-c=v`, and of the character `c` of a
cluster `-..cv` read after boolean flags, where `v` is the rest of the cluster.
With `--tags` infinite and no positional, `[prog, --tags=a, b]` gives
`tags == ["a"]` and `b` as additional argument, and so do `-t=a` and `-vta`. -/
theorem inline_infinite_single_value (self : Argparsor) (maxIndex : Nat) (argv : List Str)
    (i p : Nat) (a : Argument)
    (htype : a.type = .INFINITE_OPTION ∨ a.type = .MULTI_INFINITE_OPTION) :
    (∀ (s : Argparsor) (option v : Str),
      s._parseArgument maxIndex argv i true option v p a =
        .ok (i, s.store p
          { a with
            elements := (if a.type = .INFINITE_OPTION ∨ a.isExist = false then []
              else a.elements) ++ [ArgumentElement.leaf v]
            isExist := true
            count := a.count + 1 })) ∧
    (∀ (fuel : Nat) (flag v : Str), argv[i]? = some (flag ++ '=' :: v) →
      isLongOption flag = true → '=' ∉ flag → self.find flag = some (p, a) →
      self.walk (fuel + 1) maxIndex argv i =
        (self.store p
          { a with
            elements := (if a.type = .INFINITE_OPTION ∨ a.isExist = false then []
              else a.elements) ++ [ArgumentElement.leaf v]
            isExist := true
            count := a.count + 1 }).walk fuel maxIndex argv (i + 1)) ∧
    (∀ (fuel : Nat) (c : Char) (v : Str), argv[i]? = some ('-' :: c :: '=' :: v) →
      c ≠ '-' → c ≠ '=' →
      self.isAlternative = false ∨ self.find ['-', '-', c] = none →
      self.find ['-', c] = some (p, a) →
      self.walk (fuel + 1) maxIndex argv i =
        (self.store p
          { a with
            elements := (if a.type = .INFINITE_OPTION ∨ a.isExist = false then []
              else a.elements) ++ [ArgumentElement.leaf v]
            isExist := true
            count := a.count + 1 }).walk fuel maxIndex argv (i + 1)) ∧
    (∀ (fuel : Nat) (marked : List Char) (c c' : Char) (r : List Char),
      argv[i]? = some ('-' :: (marked ++ c :: c' :: r)) →
      isShortOption ('-' :: (marked ++ c :: c' :: r)) = true →
      '=' ∉ marked ++ c :: c' :: r →
      self.isAlternative = false ∨ self.find ('-' :: '-' :: (marked ++ c :: c' :: r)) = none →
      (∀ d ∈ marked, self.isBooleanFlag d = true) →
      (self.matchFlags marked).find ['-', c] = some (p, a) →
      ∃ n, self.walk (fuel + 1) maxIndex argv i =
        ((self.matchFlags marked).store p
          { a with
            elements := (if a.type = .INFINITE_OPTION then [] else a.elements) ++
              [ArgumentElement.leaf (c' :: r)]
            isExist := true
            count := n }).walk fuel maxIndex argv (i + 1)) ∧
    ((scenarioInfinite.parseArguments (args ["prog", "--tags=a", "b"]) false false).exception
        = none ∧
      (scenarioInfinite.parseArguments (args ["prog", "--tags=a", "b"]) false false).state.arguments.map
        (fun d => (d.isExist, d.strings)) = [(false, []), (true, ["a"]), (false, [])] ∧
      (scenarioInfinite.parseArguments (args ["prog", "--tags=a", "b"]) false
        false).state.additionalArguments = args ["b"] ∧
      (scenarioInfinite.parseArguments (args ["prog", "-t=a", "b"]) false false).state.arguments.map
        (fun d => (d.isExist, d.strings)) = [(false, []), (true, ["a"]), (false, [])] ∧
      (scenarioInfinite.parseArguments (args ["prog", "-vta", "b"]) false false).state.arguments.map
        (fun d => (d.isExist, d.strings)) = [(true, []), (true, ["a"]), (false, [])] ∧
      (scenarioInfinite.parseArguments (args ["prog", "-vta", "b"]) false
        false).state.additionalArguments = args ["b"] ∧
      (scenarioInfinite.parseArguments (args ["prog", "--more=a", "b", "--more=c"]) false
        false).state.arguments.map
        (fun d => (d.isExist, d.strings)) = [(false, []), (false, []), (true, ["a", "c"])]) := by
  have hstep : ∀ (s : Argparsor) (option v : Str),
      s._parseArgument maxIndex argv i true option v p a =
        .ok (i, s.store p
          { a with
            elements := (if a.type = .INFINITE_OPTION ∨ a.isExist = false then []
              else a.elements) ++ [ArgumentElement.leaf v]
            isExist := true
            count := a.count + 1 }) := by
    intro s option v
    rcases a with ⟨names, ty, ex, req, cnt, nargs, argm, elems, valid⟩
    dsimp only at htype
    rcases htype with h | h
    · subst h
      simp [Argparsor._parseArgument, Argument.clear, Argument.push_back, Argument.matched]
    · subst h
      cases ex <;>
        simp [Argparsor._parseArgument, Argument.clear, Argument.push_back, Argument.matched]
  refine ⟨hstep, ?_, ?_, ?_, by decide, by decide, by decide, by decide, by decide, by decide,
    by decide⟩
  · intro fuel flag v hi hlong hnoeq hfind
    have hl : isLongOption (flag ++ '=' :: v) = true := isLongOption_append _ _ hlong
    have htake := takeArg_eq flag v hnoeq
    rw [walk_long_token fuel self maxIndex argv i _ hi hl,
      parseLongArgument_found self maxIndex argv i _ p a hi (by rw [htake]; exact hfind),
      htake, hstep]
  · intro fuel c v hi hdash heq halt hfind
    have hs : isShortOption ('-' :: c :: '=' :: v) = true := by simp [isShortOption, hdash]
    have hno : '=' ∉ ['-', c] := by
      intro h
      simp only [List.mem_cons, List.mem_singleton, List.not_mem_nil, or_false] at h
      rcases h with h | h
      · exact absurd h (by decide)
      · exact heq h.symm
    have htake : takeArg ('-' :: c :: '=' :: v) = (true, ['-', c], v) := takeArg_eq ['-', c] v hno
    rw [walk_short_token fuel self maxIndex argv i _ hi hs,
      parseShortArgument_lone self maxIndex argv i c v true p a _ hi htake halt hfind, hstep]
  · intro fuel marked c c' r hi hs hnoeq halt hbool hfind
    have hno : '=' ∉ '-' :: (marked ++ c :: c' :: r) := by
      intro h
      rcases List.mem_cons.mp h with h | h
      · exact absurd h (by decide)
      · exact hnoeq h
    have htake := takeArg_noEq _ hno
    have htp : takesParameter a.type = true := by
      rcases htype with h | h <;> rw [h] <;> rfl
    rw [walk_short_token fuel self maxIndex argv i _ hi hs,
      parseShortArgument_loop self maxIndex argv i _ false (marked ++ c :: c' :: r) [] hi htake
        halt,
      parseShortLoop_prefix maxIndex argv i false [] _ c (c' :: r) marked self hbool]
    have hloop : Argparsor.parseShortLoop maxIndex argv i false []
        ('-' :: (marked ++ c :: c' :: r)).getLast?.toList (self.matchFlags marked)
        (c :: c' :: r) =
        (self.matchFlags marked)._parseArgument maxIndex argv i true [c] (c' :: r) p
          a.matched := by
      simp only [Argparsor.parseShortLoop, hfind, htp, Bool.not_false, Bool.and_self, if_true]
    rw [hloop]
    rcases a with ⟨names, ty, ex, req, cnt, nargs, argm, elems, valid⟩
    dsimp only at htype
    rcases htype with h | h
    · subst h
      refine ⟨cnt + 1 + 1, ?_⟩
      simp [Argparsor._parseArgument, Argument.clear, Argument.push_back, Argument.matched]
    · subst h
      refine ⟨cnt + 1 + 1, ?_⟩
      simp [Argparsor._parseArgument, Argument.clear, Argument.push_back, Argument.matched]

theorem inline_infinite_single_value_witness :
    scenarioInfinite.walk 3 2 (args ["prog", "--tags=a", "b"]) 1 =
      (scenarioInfinite.store 1
        { Argument.declared ["-t", "--tags"] .INFINITE_OPTION 0 with
          elements := [ArgumentElement.leaf "a".toList]
          isExist := true
          count := 1 }).walk 2 2 (args ["prog", "--tags=a", "b"]) 2 :=
  (inline_infinite_single_value scenarioInfinite 2 (args ["prog", "--tags=a", "b"]) 1 1
    (Argument.declared ["-t", "--tags"] .INFINITE_OPTION 0) (Or.inl rfl)).2.1 2
    "--tags".toList "a".toList rfl (by decide) (by decide) rfl

/-! ## Repeated occurrences of an option that does not accumulate -/

/-- C37, the code at the failing input and around it. One match of a `SIMPLE_OPTION`, a
`NUMBER_OPTION` or an `INFINITE_OPTION` by `_parseArgument` stores the values of
that occurrence alone, whatever the declaration held, and adds one to the
count: `-o a --opt=b -o c` ends with the value `c` and the count 3,
`-n 1 2 -n 3 4` with `["3", "4"]` and the count 2, `--tags a b --tags c` with
`["c"]` and the count 2. An occurrence given as a cluster with an inline value
is counted twice: `-o a -ob` ends with the value `b` and the count 3, and
`-ta -tb` with `["b"]` and the count 4. -/
theorem last_occurrence_wins (self : Argparsor) (maxIndex : Nat) (argv : List Str) (i p : Nat)
    (a : Argument) (option : Str) :
    (a.type = .SIMPLE_OPTION →
      (∀ (v : Str), self._parseArgument maxIndex argv i true option v p a =
        .ok (i, self.store p { a with argument := v, isExist := true, count := a.count + 1 })) ∧
      (∀ (arg : Str), i + 1 < maxIndex →
        self._parseArgument maxIndex argv i false option arg p a =
          .ok (i + 1, self.store p
            { a with argument := argv.getD (i + 1) [], isExist := true,
                     count := a.count + 1 }))) ∧
    (a.type = .NUMBER_OPTION →
      ∀ (arg : Str), i + a.nargs < maxIndex →
        self._parseArgument maxIndex argv i false option arg p a =
          .ok (i + a.nargs, self.store p
            { a with
              elements := (slice argv (i + 1) (i + a.nargs + 1)).map ArgumentElement.leaf
              isExist := true
              count := a.count + 1 })) ∧
    (a.type = .INFINITE_OPTION →
      (∀ (v : Str), self._parseArgument maxIndex argv i true option v p a =
        .ok (i, self.store p
          { a with elements := [ArgumentElement.leaf v], isExist := true,
                   count := a.count + 1 })) ∧
      (∀ (arg : Str), self._parseArgument maxIndex argv i false option arg p a =
        .ok (i + ((slice argv (i + 1) maxIndex).takeWhile
              (fun t => !self._endOfInfiniteArgument t)).length,
          self.store p
            { a with
              elements := ((slice argv (i + 1) maxIndex).takeWhile
                (fun t => !self._endOfInfiniteArgument t)).map ArgumentElement.leaf
              isExist := true
              count := a.count + 1 }))) ∧
    ((scenarioSimple.parseArguments (args ["prog", "-o", "a", "--opt=b", "-o", "c"]) false
        false).state.arguments.map (fun d => (String.mk d.argument, d.isExist, d.count)) =
        [("c", true, 3)] ∧
      (scenario2.parseArguments (args ["prog", "-n", "1", "2", "-n", "3", "4"]) false
        false).state.arguments.map (fun d => (d.strings, d.isExist, d.count)) =
        [([], false, 0), (["3", "4"], true, 2)] ∧
      (scenarioInfinite.parseArguments (args ["prog", "--tags", "a", "b", "--tags", "c"]) false
        false).state.arguments.map (fun d => (d.strings, d.isExist, d.count)) =
        [([], false, 0), (["c"], true, 2), ([], false, 0)]) ∧
    (((scenarioSimple.parseArguments (args ["prog", "-o", "a", "-ob"]) false false).exception
        = none ∧
      (scenarioSimple.parseArguments (args ["prog", "-o", "a", "-ob"]) false
        false).state.arguments.map (fun d => (String.mk d.argument, d.isExist, d.count)) =
        [("b", true, 3)]) ∧
      (scenarioInfinite.parseArguments (args ["prog", "-ta", "-tb"]) false
        false).state.arguments.map (fun d => (d.strings, d.isExist, d.count)) =
        [([], false, 0), (["b"], true, 4), ([], false, 0)]) := by
  refine ⟨?_, ?_, ?_, ⟨by decide, by decide, by decide⟩, ⟨by decide, by decide⟩, by decide⟩
  · intro htype
    rcases a with ⟨names, ty, ex, req, cnt, nargs, argm, elems, valid⟩
    dsimp only at htype
    subst htype
    constructor
    · intro v
      simp [Argparsor._parseArgument, Argument.matched]
    · intro arg hi
      have : ¬ (i + 1 ≥ maxIndex) := by omega
      simp [Argparsor._parseArgument, Argument.matched, this]
  · intro htype arg hi
    rcases a with ⟨names, ty, ex, req, cnt, nargs, argm, elems, valid⟩
    dsimp only at htype hi ⊢
    subst htype
    have : ¬ (i + nargs ≥ maxIndex) := by omega
    simp [Argparsor._parseArgument, Argument.matched, Argument.clear, Argument.push_backs, this]
  · intro htype
    rcases a with ⟨names, ty, ex, req, cnt, nargs, argm, elems, valid⟩
    dsimp only at htype
    subst htype
    constructor
    · intro v
      simp [Argparsor._parseArgument, Argument.matched, Argument.clear, Argument.push_back]
    · intro arg
      simp [Argparsor._parseArgument, Argument.matched, Argument.clear, Argument.push_backs]

/-! ## Invariants of the token walk -/

theorem isEndOption_before (argv : List Str) (i : Nat) (h : i < endOptionIndex argv) :
    isEndOption (argv.getD i []) = false := by
  have hlt : i < argv.length := Nat.lt_of_lt_of_le h (endOptionIndex_le argv)
  have := List.not_of_lt_findIdx h
  rw [getD_eq_getElem argv i hlt]
  simpa using this

theorem isEndOption_at (argv : List Str) (h : endOptionIndex argv < argv.length) :
    isEndOption (argv.getD (endOptionIndex argv) []) = true := by
  rw [getD_eq_getElem argv _ h]
  exact List.findIdx_getElem

/-- The induction over the token walk. A property `Inv` of the registry that every
iteration of the main loop before the marker and every iteration of the loop
after it keeps holds of the registry the walk returns, and an exception the
walk throws is one that such an iteration can throw, or the exhausted budget. -/
theorem walk_invariant (argv : List Str) (Inv : Argparsor → Prop) (Bad : Exception → Prop)
    (hfuel : ¬ Bad .outOfFuel)
    (hstep : ∀ (s : Argparsor) (i : Nat), Inv s → i < endOptionIndex argv →
      (∀ i' s', s.parseToken (endOptionIndex argv) argv i = .ok (i', s') → Inv s') ∧
      (∀ e s', s.parseToken (endOptionIndex argv) argv i = .error (e, s') → ¬ Bad e))
    (hafter : ∀ (s : Argparsor) (i : Nat), Inv s → endOptionIndex argv < i → i < argv.length →
      (∀ i' s', s._parsePositionnalArgument argv.length argv i true = .ok (i', s') → Inv s') ∧
      (∀ e s', s._parsePositionnalArgument argv.length argv i true = .error (e, s') →
        ¬ Bad e)) :
    ∀ (fuel : Nat) (s : Argparsor) (i : Nat), Inv s → i ≤ endOptionIndex argv →
      (∀ s', s.walk fuel (endOptionIndex argv) argv i = .ok s' → Inv s') ∧
      (∀ e s', s.walk fuel (endOptionIndex argv) argv i = .error (e, s') → ¬ Bad e) := by
  have hloop : ∀ (fuel : Nat) (s : Argparsor) (i : Nat), Inv s → endOptionIndex argv < i →
      (∀ s', s.afterEndOption fuel argv i = .ok s' → Inv s') ∧
      (∀ e s', s.afterEndOption fuel argv i = .error (e, s') → ¬ Bad e) := by
    intro fuel
    induction fuel with
    | zero =>
      intro s i _ _
      constructor
      · intro s' h; cases h
      · intro e s' h
        cases h
        exact hfuel
    | succ fuel ih =>
      intro s i hinv hi
      rw [afterEndOption_succ]
      by_cases hlt : i < argv.length
      · rw [if_pos hlt]
        obtain ⟨h1, h2⟩ := hafter s i hinv hi hlt
        cases hr : s._parsePositionnalArgument argv.length argv i true with
        | error r =>
          obtain ⟨e, s1⟩ := r
          constructor
          · intro s' h; cases h
          · intro e' s' h
            cases h
            exact h2 e s1 hr
        | ok r =>
          obtain ⟨i', s1⟩ := r
          have hidx := parsePositionnal_index s argv.length argv i true i' s1 hr
          exact ih s1 (i' + 1) (h1 i' s1 hr) (by omega)
      · rw [if_neg hlt]
        constructor
        · intro s' h
          cases h
          exact hinv
        · intro e s' h; cases h
  intro fuel
  induction fuel with
  | zero =>
    intro s i _ _
    constructor
    · intro s' h; cases h
    · intro e s' h
      cases h
      exact hfuel
  | succ fuel ih =>
    intro s i hinv hi
    by_cases hlt : i < argv.length
    · rcases Nat.lt_or_ge i (endOptionIndex argv) with hbefore | hat
      · have hend := isEndOption_before argv i hbefore
        rw [walk_parseToken fuel s _ argv i hlt hend]
        obtain ⟨h1, h2⟩ := hstep s i hinv hbefore
        cases hr : s.parseToken (endOptionIndex argv) argv i with
        | error r =>
          obtain ⟨e, s1⟩ := r
          constructor
          · intro s' h; cases h
          · intro e' s' h
            cases h
            exact h2 e s1 hr
        | ok r =>
          obtain ⟨i', s1⟩ := r
          have hbound : i' < endOptionIndex argv := by
            unfold Argparsor.parseToken at hr
            split_ifs at hr
            · have := parseShortArgument_advances s (endOptionIndex argv) argv i
              rw [hr] at this
              exact this.2.2.2 hbefore
            · have := parseLongArgument_advances s (endOptionIndex argv) argv i
              rw [hr] at this
              exact this.2.2.2 hbefore
            · have := parsePositionnal_progress s (endOptionIndex argv) argv i false
              rw [hr] at this
              exact this.2 hbefore
          exact ih s1 (i' + 1) (h1 i' s1 hr) hbound
      · have hi' : i = endOptionIndex argv := Nat.le_antisymm hi hat
        have hend : isEndOption (argv.getD i []) = true := by
          rw [hi']
          exact isEndOption_at argv (hi' ▸ hlt)
        have hs : isShortOption (argv.getD i []) = false := by
          simp only [isEndOption, beq_iff_eq] at hend
          rw [hend]; rfl
        have hl : isLongOption (argv.getD i []) = false := by
          simp only [isEndOption, beq_iff_eq] at hend
          rw [hend]; rfl
        rw [walk_succ, if_pos hlt, hs, hl, hend]
        simp only [Bool.false_eq_true, if_false, if_true]
        exact hloop fuel s (i + 1) hinv (by omega)
    · rw [walk_succ, if_neg hlt]
      constructor
      · intro s' h
        cases h
        exact hinv
      · intro e s' h; cases h

/-! ## Termination and progress -/

theorem counted_same {self s' : Argparsor} (h : self.SameDeclarations s')
    (hc : self.Counted) : s'.Counted := by
  intro a' ha' hty
  obtain ⟨j, hj⟩ := List.mem_iff_getElem?.mp ha'
  have hmap := congrArg (fun l => l[j]?) h.2.2.2.2.2.2
  simp only [List.getElem?_map, hj, Option.map_some'] at hmap
  cases hs : self.arguments[j]? with
  | none => rw [hs] at hmap; cases hmap
  | some a =>
    rw [hs] at hmap
    simp only [Option.map_some', Option.some.injEq] at hmap
    have ht : a'.declaration.type = a.declaration.type := congrArg Argument.type hmap
    have hn : a'.declaration.nargs = a.declaration.nargs := congrArg Argument.nargs hmap
    have ht : a'.type = a.type := ht
    have hn : a'.nargs = a.nargs := hn
    rw [hn]
    exact hc a (List.getElem?_mem hs) (ht ▸ hty)

theorem groupLoop_terminates (stop : Str → Bool) (argv : List Str) (maxIndex nargs : Nat)
    (hN : 1 ≤ nargs) :
    ∀ (fuel i : Nat), maxIndex ≤ fuel + i →
      (groupLoop stop argv maxIndex nargs (fuel + 1) i).2 ≠ .nonTermination := by
  intro fuel
  induction fuel with
  | zero =>
    intro i h
    rw [groupLoop_succ, if_neg (by omega)]
    intro h'; cases h'
  | succ fuel ih =>
    intro i h
    rw [groupLoop_succ]
    split_ifs
    · intro h'; cases h'
    · intro h'; cases h'
    · exact ih (i + nargs) (by omega)
    · intro h'; cases h'

theorem groupLoop_stuck (stop : Str → Bool) (argv : List Str) (maxIndex : Nat) (i : Nat)
    (hi : i < maxIndex) (hstop : stop (argv.getD i []) = false) :
    ∀ (fuel : Nat), (groupLoop stop argv maxIndex 0 fuel i).2 = .nonTermination := by
  intro fuel
  induction fuel with
  | zero => rfl
  | succ fuel ih =>
    rw [groupLoop_succ, if_pos hi, hstop]
    simp only [Bool.false_eq_true, if_false, Nat.add_zero]
    rw [if_neg (by omega)]
    exact ih

theorem parseArgument_terminates (self : Argparsor) (maxIndex : Nat) (argv : List Str)
    (index : Nat) (hasArg : Bool) (option arg : Str) (p : Nat) (a : Argument)
    (hN : a.type = .MULTI_NUMBER_INFINITE_OPTION → 1 ≤ a.nargs) (s' : Argparsor) :
    self._parseArgument maxIndex argv index hasArg option arg p a ≠
      .error (.nonTermination, s') := by
  intro h
  rcases a with ⟨names, ty, ex, req, cnt, nargs, argm, elems, valid⟩
  dsimp only at hN
  cases hasArg
  · cases ty
    case MULTI_NUMBER_INFINITE_OPTION =>
      have hg := groupLoop_terminates self._endOfInfiniteArgument argv maxIndex nargs (hN rfl)
        maxIndex (index + 1) (by omega)
      simp only [Argparsor._parseArgument, Bool.false_eq_true, if_false] at h
      cases he : (groupLoop self._endOfInfiniteArgument argv maxIndex nargs (maxIndex + 1)
          (index + 1)).2 with
      | done => rw [he] at h; cases h
      | badNumber =>
        rw [he] at h
        simp [Argparsor.throwParse] at h
      | nonTermination => exact hg he
    all_goals
      simp only [Argparsor._parseArgument, Bool.false_eq_true, if_false,
        Argparsor.throwParse] at h
      try split_ifs at h
      all_goals cases h
  · cases ty
    all_goals
      simp only [Argparsor._parseArgument, if_true, Argparsor.throwParse] at h
      cases h

theorem counted_find {self : Argparsor} {key : Str} {p : Nat} {a : Argument}
    (hc : self.Counted) (h : self.find key = some (p, a)) :
    (isFixedClass a.type || isGroupedClass a.type) = true → 1 ≤ a.nargs :=
  hc a (List.getElem?_mem (find_getElem? h))

theorem parseShortLoop_terminates (maxIndex : Nat) (argv : List Str) (index : Nat)
    (hasArg : Bool) (arg last : Str) (s' : Argparsor) :
    ∀ (cs : List Char) (self : Argparsor), self.Counted →
      Argparsor.parseShortLoop maxIndex argv index hasArg arg last self cs ≠
        .error (.nonTermination, s') := by
  have hlast : ∀ (self : Argparsor), self.Counted →
      (match self.find ('-' :: last) with
        | none => self.throwParse last "invalid option"
        | some (p, a) => self._parseArgument maxIndex argv index hasArg last arg p a) ≠
        .error (.nonTermination, s') := by
    intro self hc
    cases hf : self.find ('-' :: last) with
    | none => intro h; cases h
    | some pa =>
      exact parseArgument_terminates _ _ _ _ _ _ _ _ _
        (fun ht => counted_find hc hf (by rw [ht]; rfl)) _
  intro cs
  induction cs with
  | nil => intro self hc; unfold Argparsor.parseShortLoop; exact hlast self hc
  | cons c cs ih =>
    intro self hc
    cases cs with
    | nil => unfold Argparsor.parseShortLoop; exact hlast self hc
    | cons c' r =>
      unfold Argparsor.parseShortLoop
      cases hf : self.find ['-', c] with
      | none => intro h; cases h
      | some pa =>
        obtain ⟨p, a⟩ := pa
        dsimp only
        split_ifs
        · exact parseArgument_terminates _ _ _ _ _ _ _ _ a.matched
            (fun ht => by
              have h1 : a.type = .MULTI_NUMBER_INFINITE_OPTION := ht
              have h2 : 1 ≤ a.nargs := counted_find hc hf (by rw [h1]; rfl)
              exact h2) _
        · intro h; cases h
        · exact ih _ (counted_same
            (sameDeclarations_store self p a a.matched (find_getElem? hf) rfl) hc)

theorem parseShortArgument_terminates (self : Argparsor) (maxIndex : Nat) (argv : List Str)
    (index : Nat) (hc : self.Counted) (s' : Argparsor) :
    self._parseShortArgument maxIndex argv index ≠ .error (.nonTermination, s') := by
  unfold Argparsor._parseShortArgument
  dsimp only
  split
  · rename_i p a hf
    split_ifs at hf with h
    exact parseArgument_terminates _ _ _ _ _ _ _ _ _
      (fun ht => counted_find hc hf (by rw [ht]; rfl)) _
  · exact parseShortLoop_terminates _ _ _ _ _ _ _ _ _ hc

theorem parseLongArgument_terminates (self : Argparsor) (maxIndex : Nat) (argv : List Str)
    (index : Nat) (hc : self.Counted) (s' : Argparsor) :
    self._parseLongArgument maxIndex argv index ≠ .error (.nonTermination, s') := by
  unfold Argparsor._parseLongArgument
  dsimp only
  split
  · intro h; cases h
  · rename_i p a hf
    exact parseArgument_terminates _ _ _ _ _ _ _ _ _
      (fun ht => counted_find hc hf (by rw [ht]; rfl)) _

theorem parsePositionnal_terminates (self : Argparsor) (argc : Nat) (argv : List Str)
    (index : Nat) (hasEnd : Bool) (hc : self.Counted) (s' : Argparsor) :
    self._parsePositionnalArgument argc argv index hasEnd ≠ .error (.nonTermination, s') := by
  intro h
  unfold Argparsor._parsePositionnalArgument at h
  dsimp only at h
  cases hq : self.arguments[self.arguments.findIdx Argument.isUnfilledPositional]? with
  | none =>
    rw [hq] at h
    dsimp only at h
    split_ifs at h
    cases h
  | some a =>
    rw [hq] at h
    have hN := hc a (List.getElem?_mem hq)
    rcases a with ⟨names, ty, ex, req, cnt, nargs, argm, elems, valid⟩
    dsimp only at hN
    cases ty
    case INFINITE_NUMBER_POSITIONAL_ARGUMENT =>
      have hg := groupLoop_terminates (fun t => !hasEnd && self._endOfInfiniteArgument t) argv
        argc nargs (hN rfl) argc index (by omega)
      dsimp only at h
      cases he : (groupLoop (fun t => !hasEnd && self._endOfInfiniteArgument t) argv argc nargs
          (argc + 1) index).2 with
      | done => rw [he] at h; cases h
      | badNumber =>
        rw [he] at h
        simp [Argparsor.throwParse] at h
      | nonTermination => exact hg he
    all_goals
      simp only [Argparsor.throwParse] at h
      try split_ifs at h
      all_goals cases h

theorem slice_cons (argv : List Str) (i b : Nat) (hi : i < b) (hb : b ≤ argv.length) :
    slice argv i b = argv.getD i [] :: slice argv (i + 1) b := by
  apply List.ext_getElem?
  intro j
  rw [slice_getElem?]
  cases j with
  | zero =>
    rw [List.getElem?_cons_zero, if_pos (by omega), Nat.add_zero,
      List.getElem?_eq_getElem (by omega), getD_eq_getElem argv i (by omega)]
  | succ j =>
    rw [List.getElem?_cons_succ, slice_getElem?]
    have : i + (j + 1) = i + 1 + j := by omega
    rw [this]

/-- A positional filled from a token that does not stop the consumption gives back an
index that is not below the one it was given. -/
theorem parsePositionnal_forward (self : Argparsor) (argc : Nat) (argv : List Str)
    (index : Nat) (hasEnd : Bool) (hc : self.Counted) (hi : index < argc)
    (hargc : argc ≤ argv.length)
    (htoken : hasEnd = true ∨ self._endOfInfiniteArgument (argv.getD index []) = false)
    (i' : Nat) (s' : Argparsor)
    (h : self._parsePositionnalArgument argc argv index hasEnd = .ok (i', s')) :
    index ≤ i' := by
  have hstop : (!hasEnd && self._endOfInfiniteArgument (argv.getD index [])) = false := by
    rcases htoken with h1 | h1
    · simp [h1]
    · rw [h1]
      exact Bool.and_false _
  unfold Argparsor._parsePositionnalArgument at h
  dsimp only at h
  cases hq : self.arguments[self.arguments.findIdx Argument.isUnfilledPositional]? with
  | none =>
    rw [hq] at h
    dsimp only at h
    split_ifs at h
    · cases h
    · cases h
      exact Nat.le_refl _
  | some a =>
    rw [hq] at h
    have hN := hc a (List.getElem?_mem hq)
    rcases a with ⟨names, ty, ex, req, cnt, nargs, argm, elems, valid⟩
    dsimp only at hN
    cases ty
    case NUMBER_POSITIONAL_ARGUMENT =>
      have := hN rfl
      dsimp only at h
      split_ifs at h
      · cases h
      · cases h
        omega
    case INFINITE_POSITIONAL_ARGUMENT =>
      dsimp only at h
      cases h
      rw [slice_cons argv index argc hi hargc, List.takeWhile_cons]
      simp only [hstop, Bool.not_false, if_true, List.length_cons]
      omega
    case INFINITE_NUMBER_POSITIONAL_ARGUMENT =>
      have hn := hN rfl
      dsimp only at h
      rw [groupLoop_succ, if_pos hi] at h
      simp only [hstop, Bool.false_eq_true, if_false] at h
      split_ifs at h with hbad
      · cases h
      · dsimp only at h
        cases he : (groupLoop (fun t => !hasEnd && self._endOfInfiniteArgument t) argv argc nargs
            argc (index + nargs)).2 with
        | done =>
          rw [he] at h
          cases h
          rw [List.length_cons, Nat.add_mul]
          omega
        | badNumber => rw [he] at h; cases h
        | nonTermination => rw [he] at h; cases h
    all_goals
      cases h
      exact Nat.le_refl _

theorem endOfInfinite_plain (self : Argparsor) (t : Str) (hs : isShortOption t = false)
    (hl : isLongOption t = false) : self._endOfInfiniteArgument t = false := by
  simp [Argparsor._endOfInfiniteArgument, hs, hl]

theorem endOptionIndex_cons (prog : Str) (tokens : List Str) (h : prog ≠ ['-', '-']) :
    endOptionIndex (prog :: tokens) = endOptionIndex tokens + 1 := by
  have : isEndOption prog = false := by simpa [isEndOption] using h
  simp [endOptionIndex, List.findIdx_cons, this]

/-- One iteration of the main loop before the marker, in a registry whose fixed and
grouped declarations have `_nargs >= 1`: it does not hang, and when it returns
the index is not below the one it started from and the registry is as before
in that respect. -/
theorem parseToken_progress (argv : List Str) (s : Argparsor) (i : Nat) (hc : s.Counted)
    (hi : i < endOptionIndex argv) :
    (∀ i' s', s.parseToken (endOptionIndex argv) argv i = .ok (i', s') → i ≤ i' ∧ s'.Counted) ∧
    (∀ e s', s.parseToken (endOptionIndex argv) argv i = .error (e, s') →
      ¬ e = .nonTermination) := by
  unfold Argparsor.parseToken
  by_cases hs : isShortOption (argv.getD i []) = true
  · simp only [if_pos hs]
    constructor
    · intro i' s' h
      have hadv := parseShortArgument_advances s (endOptionIndex argv) argv i
      have hsame := parseShortArgument_same s (endOptionIndex argv) argv i
      rw [h] at hadv hsame
      exact ⟨hadv.2.2.1, counted_same hsame hc⟩
    · intro e s' h he
      subst he
      exact parseShortArgument_terminates s _ argv i hc s' h
  · by_cases hl : isLongOption (argv.getD i []) = true
    · simp only [if_neg hs, if_pos hl]
      constructor
      · intro i' s' h
        have hadv := parseLongArgument_advances s (endOptionIndex argv) argv i
        have hsame := parseLongArgument_same s (endOptionIndex argv) argv i
        rw [h] at hadv hsame
        exact ⟨hadv.2.2.1, counted_same hsame hc⟩
      · intro e s' h he
        subst he
        exact parseLongArgument_terminates s _ argv i hc s' h
    · simp only [if_neg hs, if_neg hl, Bool.false_eq_true, if_false]
      constructor
      · intro i' s' h
        have hsame := parsePositionnal_same s (endOptionIndex argv) argv i false
        rw [h] at hsame
        refine ⟨parsePositionnal_forward s _ argv i false hc hi (endOptionIndex_le argv)
          (Or.inr (endOfInfinite_plain s _ (by simpa using hs) (by simpa using hl))) i' s' h,
          counted_same hsame hc⟩
      · intro e s' h he
        subst he
        exact parsePositionnal_terminates s _ argv i false hc s' h

/-! ## The end-of-options marker is not a value -/

/-- The token walk over an argument vector whose first `--` is at index `k >= 1` is the
walk over `argv[0..k)` followed, when that returns, by the loop after the
marker from index `k + 1`. -/
theorem parseTokens_split (self : Argparsor) (argv : List Str) (alternative strict : Bool)
    (k : Nat) (hk1 : 1 ≤ k) (hk : endOptionIndex argv = k) (hlt : k < argv.length) :
    (∀ x, self.parseTokens (argv.take k) alternative strict = .error x →
      self.parseTokens argv alternative strict = .error x) ∧
    (∀ st, self.parseTokens (argv.take k) alternative strict = .ok st →
      ∃ m, self.parseTokens argv alternative strict = st.afterEndOption m argv (k + 1)) := by
  have hlen : (argv.take k).length = k := by
    rw [List.length_take]; omega
  have hne : argv.take k ≠ [] := by
    intro h
    rw [h] at hlen
    simp at hlen
    omega
  have hbegin : self.begin (argv.take k) alternative strict =
      self.begin argv alternative strict := by
    unfold Argparsor.begin
    rw [getD_take argv k 0 (by omega)]
  have hfuelP := parseTokens_fuel self (argv.take k) alternative strict hne
  have hP : self.parseTokens (argv.take k) alternative strict =
      (self.begin argv alternative strict).walk (argv.length + self.arguments.length) k
        (argv.take k) 1 := by
    have h1 : self.parseTokens (argv.take k) alternative strict =
        (self.begin argv alternative strict).walk (k + self.arguments.length) k
          (argv.take k) 1 := by
      unfold Argparsor.parseTokens
      rw [hbegin, endOptionIndex_take argv k hk hlt, hlen]
    rw [h1] at hfuelP ⊢
    have := walk_mono_add k (argv.take k) (k + self.arguments.length)
      (self.begin argv alternative strict) 1 hfuelP (argv.length - k)
    rw [← this]
    congr 1
    omega
  have hF : self.parseTokens argv alternative strict =
      (self.begin argv alternative strict).walk (argv.length + self.arguments.length) k
        argv 1 := by
    unfold Argparsor.parseTokens
    rw [hk]
  have hsim := walk_prefix argv k hk hlt (argv.length + self.arguments.length)
    (self.begin argv alternative strict) 1 hk1
  rw [← hP, ← hF] at hsim
  constructor
  · intro x hx
    rw [hx] at hsim
    exact hsim
  · intro st hst
    rw [hst] at hsim
    exact hsim

theorem agreeFrom_set (argv : List Str) (k : Nat) (x : Str) :
    AgreeFrom (k + 1) argv (argv.set k x) := by
  refine ⟨(List.length_set _ _ _).symm, ?_⟩
  intro j hj
  rw [List.getElem?_set_ne (by omega)]

/-! ## The routines under a change of mode -/

theorem endOfInfiniteFirsts_withModes (s : Argparsor) (a b hasArg : Bool) :
    ∀ (cs : List Char),
      (s.withModes a b).endOfInfiniteFirsts hasArg cs = s.endOfInfiniteFirsts hasArg cs := by
  intro cs
  induction cs with
  | nil => rfl
  | cons c cs ih =>
    cases cs with
    | nil => rfl
    | cons c' r =>
      unfold Argparsor.endOfInfiniteFirsts
      have hf : (s.withModes a b).find ['-', c] = s.find ['-', c] := rfl
      rw [hf]
      cases s.find ['-', c] with
      | none => rfl
      | some pa =>
        dsimp only
        rw [ih]

theorem endOfInfinite_withModes (s : Argparsor) (a b : Bool) (t : Str)
    (h : a = s.isAlternative ∨
      (isShortOption t = true → s.find ('-' :: (takeArg t).2.1) = none)) :
    (s.withModes a b)._endOfInfiniteArgument t = s._endOfInfiniteArgument t := by
  unfold Argparsor._endOfInfiniteArgument
  by_cases hs : isShortOption t = true
  · simp only [if_pos hs]
    have hf : ∀ key, (s.withModes a b).find key = s.find key := fun _ => rfl
    have ha : (s.withModes a b).isAlternative = a := rfl
    rw [hf, hf, ha, endOfInfiniteFirsts_withModes]
    rcases h with h | h
    · rw [h]
    · rw [h hs]
      simp
  · simp only [if_neg hs]
    rfl

theorem takeWhile_congr_mem {α : Type} (p q : α → Bool) :
    ∀ (l : List α), (∀ x ∈ l, p x = q x) → l.takeWhile p = l.takeWhile q := by
  intro l
  induction l with
  | nil => intro _; rfl
  | cons x l ih =>
    intro h
    rw [List.takeWhile_cons, List.takeWhile_cons, h x (List.mem_cons_self x l),
      ih (fun y hy => h y (List.mem_cons_of_mem x hy))]

theorem mem_of_mem_slice {argv : List Str} {x y : Nat} {t : Str} (h : t ∈ slice argv x y) :
    t ∈ argv :=
  List.mem_of_mem_take (List.mem_of_mem_drop h)

theorem getD_mem_or_nil (argv : List Str) (i : Nat) :
    argv.getD i [] ∈ argv ∨ argv.getD i [] = [] := by
  rcases Nat.lt_or_ge i argv.length with h | h
  · left
    rw [getD_eq_getElem argv i h]
    exact List.getElem_mem h
  · right
    simp [List.getD, List.getElem?_eq_none h]

theorem groupLoop_congr (stop stop' : Str → Bool) (argv : List Str) (maxIndex nargs : Nat)
    (h : ∀ t, t ∈ argv ∨ t = [] → stop t = stop' t) :
    ∀ (fuel i : Nat), groupLoop stop argv maxIndex nargs fuel i =
      groupLoop stop' argv maxIndex nargs fuel i := by
  intro fuel
  induction fuel with
  | zero => intro i; rfl
  | succ fuel ih =>
    intro i
    rw [groupLoop_succ, groupLoop_succ, h _ (getD_mem_or_nil argv i), ih]

theorem modesAgree_token {s : Argparsor} {a : Bool} {argv : List Str}
    (h : s.ModesAgree a argv) (t : Str) (ht : t ∈ argv ∨ t = []) :
    a = s.isAlternative ∨ (isShortOption t = true → s.find ('-' :: (takeArg t).2.1) = none) := by
  rcases h with h | h
  · exact Or.inl h
  · right
    intro hs
    rcases ht with ht | ht
    · exact h t ht hs
    · rw [ht] at hs
      cases hs

theorem parseArgument_withModes (s : Argparsor) (a b : Bool) (maxIndex : Nat) (argv : List Str)
    (index : Nat) (hasArg : Bool) (option arg : Str) (p : Nat) (x : Argument)
    (h : s.ModesAgree a argv) :
    (s.withModes a b)._parseArgument maxIndex argv index hasArg option arg p x =
      (s._parseArgument maxIndex argv index hasArg option arg p x).withModes a b := by
  have hL : ∀ t, t ∈ argv ∨ t = [] →
      (s.withModes a b)._endOfInfiniteArgument t = s._endOfInfiniteArgument t :=
    fun t ht => endOfInfinite_withModes s a b t (modesAgree_token h t ht)
  have htake : (slice argv (index + 1) maxIndex).takeWhile
      (fun t => !(s.withModes a b)._endOfInfiniteArgument t) =
      (slice argv (index + 1) maxIndex).takeWhile (fun t => !s._endOfInfiniteArgument t) :=
    takeWhile_congr_mem _ _ _ (fun t ht => by
      rw [hL t (Or.inl (mem_of_mem_slice ht))])
  have hgroup : ∀ n f i, groupLoop (s.withModes a b)._endOfInfiniteArgument argv maxIndex n f i =
      groupLoop s._endOfInfiniteArgument argv maxIndex n f i :=
    fun n f i => groupLoop_congr _ _ argv maxIndex n hL f i
  rcases x with ⟨names, ty, ex, req, cnt, nargs, argm, elems, valid⟩
  cases hasArg
  · cases ty
    case MULTI_NUMBER_INFINITE_OPTION =>
      simp only [Argparsor._parseArgument, Bool.false_eq_true, if_false, hgroup]
      cases (groupLoop s._endOfInfiniteArgument argv maxIndex nargs (maxIndex + 1)
        (index + 1)).2 <;> rfl
    all_goals
      simp only [Argparsor._parseArgument, Bool.false_eq_true, if_false, htake]
      try split_ifs
      all_goals rfl
  · cases ty
    all_goals
      simp only [Argparsor._parseArgument, if_true]
      rfl

theorem find_none_same {s s' : Argparsor} (h : s.SameDeclarations s') (key : Str)
    (hf : s.find key = none) : s'.find key = none := by
  have hlen : s'.arguments.length = s.arguments.length := by
    have := congrArg List.length h.2.2.2.2.2.2
    simpa using this
  unfold Argparsor.find at hf ⊢
  rw [h.1]
  cases hl : s.argumentFromName.lookup key with
  | none => rfl
  | some p =>
    rw [hl] at hf
    dsimp only at hf ⊢
    cases hp : s.arguments[p]? with
    | some x => rw [hp] at hf; cases hf
    | none =>
      have : s.arguments.length ≤ p := by
        rcases Nat.lt_or_ge p s.arguments.length with h' | h'
        · rw [List.getElem?_eq_getElem h'] at hp; cases hp
        · exact h'
      rw [List.getElem?_eq_none (by omega)]

theorem modesAgree_same {s s' : Argparsor} {a : Bool} {argv : List Str}
    (h : s.SameDeclarations s') (hm : s.ModesAgree a argv) : s'.ModesAgree a argv := by
  rcases hm with hm | hm
  · left
    rw [hm, h.2.2.2.1]
  · right
    intro t ht hs
    exact find_none_same h _ (hm t ht hs)

theorem parseShortLoop_withModes (a b : Bool) (maxIndex : Nat) (argv : List Str) (index : Nat)
    (hasArg : Bool) (arg last : Str) :
    ∀ (cs : List Char) (s : Argparsor), s.ModesAgree a argv →
      Argparsor.parseShortLoop maxIndex argv index hasArg arg last (s.withModes a b) cs =
        (Argparsor.parseShortLoop maxIndex argv index hasArg arg last s cs).withModes a b := by
  have hlast : ∀ (s : Argparsor), s.ModesAgree a argv →
      (match (s.withModes a b).find ('-' :: last) with
        | none => (s.withModes a b).throwParse last "invalid option"
        | some (p, x) =>
          (s.withModes a b)._parseArgument maxIndex argv index hasArg last arg p x) =
      (match s.find ('-' :: last) with
        | none => s.throwParse last "invalid option"
        | some (p, x) => s._parseArgument maxIndex argv index hasArg last arg p x).withModes
          a b := by
    intro s hm
    have hf : (s.withModes a b).find ('-' :: last) = s.find ('-' :: last) := rfl
    rw [hf]
    cases s.find ('-' :: last) with
    | none => rfl
    | some pa => exact parseArgument_withModes s a b _ _ _ _ _ _ _ _ hm
  intro cs
  induction cs with
  | nil => intro s hm; unfold Argparsor.parseShortLoop; exact hlast s hm
  | cons c cs ih =>
    intro s hm
    cases cs with
    | nil => unfold Argparsor.parseShortLoop; exact hlast s hm
    | cons c' r =>
      unfold Argparsor.parseShortLoop
      have hf : (s.withModes a b).find ['-', c] = s.find ['-', c] := rfl
      rw [hf]
      cases hfind : s.find ['-', c] with
      | none => rfl
      | some pa =>
        obtain ⟨p, x⟩ := pa
        dsimp only
        split_ifs
        · exact parseArgument_withModes s a b _ _ _ _ _ _ _ _ hm
        · rfl
        · exact ih (s.store p x.matched) (modesAgree_same
            (sameDeclarations_store s p x x.matched (find_getElem? hfind) rfl) hm)

theorem parseShortArgument_withModes (s : Argparsor) (a b : Bool) (maxIndex : Nat)
    (argv : List Str) (index : Nat) (hm : s.ModesAgree a argv) (hi : index < argv.length)
    (hs : isShortOption (argv.getD index []) = true) :
    (s.withModes a b)._parseShortArgument maxIndex argv index =
      (s._parseShortArgument maxIndex argv index).withModes a b := by
  have hlookup : (if (s.withModes a b).isAlternative then
        (s.withModes a b).find ('-' :: (takeArg (argv.getD index [])).2.1) else none) =
      (if s.isAlternative then s.find ('-' :: (takeArg (argv.getD index [])).2.1)
        else none) := by
    have hf : ∀ key, (s.withModes a b).find key = s.find key := fun _ => rfl
    have ha : (s.withModes a b).isAlternative = a := rfl
    rw [hf, ha]
    rcases hm with hm | hm
    · rw [hm]
    · have hmem : argv.getD index [] ∈ argv := by
        rw [getD_eq_getElem argv index hi]
        exact List.getElem_mem hi
      rw [hm _ hmem hs]
      simp
  unfold Argparsor._parseShortArgument
  dsimp only
  rw [hlookup]
  cases (if s.isAlternative then s.find ('-' :: (takeArg (argv.getD index [])).2.1)
    else none) with
  | some pa => exact parseArgument_withModes s a b _ _ _ _ _ _ _ _ hm
  | none => exact parseShortLoop_withModes a b _ _ _ _ _ _ _ s hm

theorem parseLongArgument_withModes (s : Argparsor) (a b : Bool) (maxIndex : Nat)
    (argv : List Str) (index : Nat) (hm : s.ModesAgree a argv) :
    (s.withModes a b)._parseLongArgument maxIndex argv index =
      (s._parseLongArgument maxIndex argv index).withModes a b := by
  unfold Argparsor._parseLongArgument
  dsimp only
  have hf : ∀ key, (s.withModes a b).find key = s.find key := fun _ => rfl
  rw [hf]
  cases s.find (takeArg (argv.getD index [])).2.1 with
  | none => rfl
  | some pa => exact parseArgument_withModes s a b _ _ _ _ _ _ _ _ hm

/-- The positional routine under a change of mode, as long as the strict mode is kept or
a positional is left to fill. -/
theorem parsePositionnal_withModes (s : Argparsor) (a b : Bool) (argc : Nat)
    (argv : List Str) (index : Nat) (hasEnd : Bool) (hm : s.ModesAgree a argv)
    (hb : b = s.isStrict ∨
      (s.arguments[s.arguments.findIdx Argument.isUnfilledPositional]?).isSome = true) :
    (s.withModes a b)._parsePositionnalArgument argc argv index hasEnd =
      (s._parsePositionnalArgument argc argv index hasEnd).withModes a b := by
  have hL : ∀ t, t ∈ argv ∨ t = [] →
      (s.withModes a b)._endOfInfiniteArgument t = s._endOfInfiniteArgument t :=
    fun t ht => endOfInfinite_withModes s a b t (modesAgree_token hm t ht)
  have htake : (slice argv index argc).takeWhile
      (fun t => !(!hasEnd && (s.withModes a b)._endOfInfiniteArgument t)) =
      (slice argv index argc).takeWhile (fun t => !(!hasEnd && s._endOfInfiniteArgument t)) :=
    takeWhile_congr_mem _ _ _ (fun t ht => by
      rw [hL t (Or.inl (mem_of_mem_slice ht))])
  have hgroup : ∀ n f i,
      groupLoop (fun t => !hasEnd && (s.withModes a b)._endOfInfiniteArgument t) argv argc n f i =
      groupLoop (fun t => !hasEnd && s._endOfInfiniteArgument t) argv argc n f i :=
    fun n f i => groupLoop_congr _ _ argv argc n (fun t ht => by
      rw [hL t ht]) f i
  unfold Argparsor._parsePositionnalArgument
  dsimp only
  have harg : (s.withModes a b).arguments = s.arguments := rfl
  rw [harg]
  cases hq : s.arguments[s.arguments.findIdx Argument.isUnfilledPositional]? with
  | none =>
    rw [hq] at hb
    rcases hb with hb | hb
    · subst hb
      dsimp only
      have : (s.withModes a s.isStrict).isStrict = s.isStrict := rfl
      rw [this]
      split_ifs <;> rfl
    · cases hb
  | some x =>
    rcases x with ⟨names, ty, ex, req, cnt, nargs, argm, elems, valid⟩
    cases ty
    case INFINITE_NUMBER_POSITIONAL_ARGUMENT =>
      simp only [hgroup]
      cases (groupLoop (fun t => !hasEnd && s._endOfInfiniteArgument t) argv argc nargs
        (argc + 1) index).2 <;> rfl
    all_goals
      simp only [htake]
      try split_ifs
      all_goals rfl

theorem afterEndOption_withModes (a b : Bool) (argv : List Str) :
    ∀ (fuel : Nat) (s : Argparsor) (i : Nat), s.ModesAgree a argv → b = s.isStrict →
      (s.withModes a b).afterEndOption fuel argv i =
        (s.afterEndOption fuel argv i).withModes a b := by
  intro fuel
  induction fuel with
  | zero => intro s i _ _; rfl
  | succ fuel ih =>
    intro s i hm hb
    rw [afterEndOption_succ, afterEndOption_succ]
    by_cases hi : i < argv.length
    · rw [if_pos hi, if_pos hi, parsePositionnal_withModes s a b _ argv i true hm (Or.inl hb)]
      have hsame := parsePositionnal_same s argv.length argv i true
      cases hr : s._parsePositionnalArgument argv.length argv i true with
      | error r => rfl
      | ok r =>
        obtain ⟨i', s1⟩ := r
        rw [hr] at hsame
        exact ih s1 (i' + 1) (modesAgree_same hsame hm) (by rw [hb]; exact hsame.2.2.2.2.1.symm)
    · rw [if_neg hi, if_neg hi]
      rfl

theorem walk_withModes (a b : Bool) (endIndex : Nat) (argv : List Str) :
    ∀ (fuel : Nat) (s : Argparsor) (i : Nat), s.ModesAgree a argv → b = s.isStrict →
      (s.withModes a b).walk fuel endIndex argv i =
        (s.walk fuel endIndex argv i).withModes a b := by
  intro fuel
  induction fuel with
  | zero => intro s i _ _; rfl
  | succ fuel ih =>
    intro s i hm hb
    rw [walk_succ, walk_succ]
    by_cases hi : i < argv.length
    · rw [if_pos hi, if_pos hi]
      by_cases hs : isShortOption (argv.getD i []) = true
      · rw [if_pos hs, if_pos hs, parseShortArgument_withModes s a b _ argv i hm hi hs]
        have hsame := parseShortArgument_same s endIndex argv i
        cases hr : s._parseShortArgument endIndex argv i with
        | error r => rfl
        | ok r =>
          obtain ⟨i', s1⟩ := r
          rw [hr] at hsame
          exact ih s1 (i' + 1) (modesAgree_same hsame hm)
            (by rw [hb]; exact hsame.2.2.2.2.1.symm)
      · rw [if_neg hs, if_neg hs]
        by_cases hl : isLongOption (argv.getD i []) = true
        · rw [if_pos hl, if_pos hl, parseLongArgument_withModes s a b _ argv i hm]
          have hsame := parseLongArgument_same s endIndex argv i
          cases hr : s._parseLongArgument endIndex argv i with
          | error r => rfl
          | ok r =>
            obtain ⟨i', s1⟩ := r
            rw [hr] at hsame
            exact ih s1 (i' + 1) (modesAgree_same hsame hm)
              (by rw [hb]; exact hsame.2.2.2.2.1.symm)
        · rw [if_neg hl, if_neg hl]
          by_cases he : isEndOption (argv.getD i []) = true
          · rw [if_pos he, if_pos he]
            exact afterEndOption_withModes a b argv fuel s (i + 1) hm hb
          · rw [if_neg he, if_neg he,
              parsePositionnal_withModes s a b _ argv i false hm (Or.inl hb)]
            have hsame := parsePositionnal_same s endIndex argv i false
            cases hr : s._parsePositionnalArgument endIndex argv i false with
            | error r => rfl
            | ok r =>
              obtain ⟨i', s1⟩ := r
              rw [hr] at hsame
              exact ih s1 (i' + 1) (modesAgree_same hsame hm)
                (by rw [hb]; exact hsame.2.2.2.2.1.symm)
    · rw [if_neg hi, if_neg hi]
      rfl

theorem checkValids_withModes (a b : Bool) (qs : List Nat) :
    ∀ (s : Argparsor), (s.withModes a b).checkValids qs = (s.checkValids qs).withModes a b := by
  induction qs with
  | nil => intro s; rfl
  | cons q qs ih =>
    intro s
    unfold Argparsor.checkValids
    have harg : (s.withModes a b).arguments = s.arguments := rfl
    rw [harg]
    cases s.arguments[q]? with
    | none => exact ih s
    | some x =>
      dsimp only
      cases x.checkValid with
      | error e => rfl
      | ok x' => exact ih (s.store q x')

theorem afterWalk_withModes (s : Argparsor) (a b : Bool) :
    (s.withModes a b).afterWalk = s.afterWalk.withModes a b := by
  unfold Argparsor.afterWalk
  have h1 : (s.withModes a b).optionExists (s.withModes a b).helpOption =
      s.optionExists s.helpOption := rfl
  have h2 : (s.withModes a b).optionExists (s.withModes a b).versionOption =
      s.optionExists s.versionOption := rfl
  have h3 : (s.withModes a b).arguments = s.arguments := rfl
  rw [h1, h2, h3]
  split_ifs
  · rfl
  · rfl
  · cases s.arguments.find? (fun x => x.isRequired && x.isExist == false) with
    | some x => rfl
    | none => exact checkValids_withModes a b _ s

theorem parseArguments_withModes (self : Argparsor) (argv : List Str)
    (alternative strict a : Bool)
    (hm : (self.begin argv alternative strict).ModesAgree a argv) :
    self.parseArguments argv a strict =
      (self.parseArguments argv alternative strict).withModes a strict := by
  have hb : self.begin argv a strict = (self.begin argv alternative strict).withModes a strict :=
    rfl
  have hw := walk_withModes a strict (endOptionIndex argv) argv
    (argv.length + self.arguments.length) (self.begin argv alternative strict) 1 hm rfl
  unfold Argparsor.parseArguments Argparsor.parseTokens
  rw [hb, hw]
  cases (self.begin argv alternative strict).walk (argv.length + self.arguments.length)
    (endOptionIndex argv) argv 1 with
  | error r => rfl
  | ok s1 => exact afterWalk_withModes s1 a strict

/-- C33. When no short token of `argv` has the part before its first `=`, with one more dash
in front, in the map of the registry, `parseArguments` in the alternative mode and
outside of it end alike: the same exception or none, and registries that differ
by the flag `_isAlternative` alone, so with the same declarations in the same
final state and the same additional arguments. -/
theorem alternative_only_single_dash (self : Argparsor) (argv : List Str) (strict : Bool)
    (h : ∀ t ∈ argv, isShortOption t = true →
      self.find ('-' :: t.takeWhile (· != '=')) = none) :
    self.parseArguments argv true strict =
      (self.parseArguments argv false strict).withModes true strict ∧
    (self.parseArguments argv true strict).exception =
      (self.parseArguments argv false strict).exception ∧
    (self.parseArguments argv true strict).state.arguments =
      (self.parseArguments argv false strict).state.arguments ∧
    (self.parseArguments argv true strict).state.additionalArguments =
      (self.parseArguments argv false strict).state.additionalArguments := by
  have hm : (self.begin argv false strict).ModesAgree true argv := by
    right
    intro t ht hs
    rw [takeArg_option]
    exact h t ht hs
  have heq := parseArguments_withModes self argv false strict true hm
  rw [heq]
  cases self.parseArguments argv false strict with
  | error r => exact ⟨rfl, rfl, rfl, rfl⟩
  | ok s1 => exact ⟨rfl, rfl, rfl, rfl⟩

theorem alternative_only_single_dash_witness :
    (scenarioAlternative.parseArguments (args ["prog", "-a", "--ab", "x", "-b"]) true
      false).state.arguments =
    (scenarioAlternative.parseArguments (args ["prog", "-a", "--ab", "x", "-b"]) false
      false).state.arguments :=
  (alternative_only_single_dash scenarioAlternative (args ["prog", "-a", "--ab", "x", "-b"])
    false (by
      intro t ht hs
      simp only [args, List.map_cons, List.map_nil, List.mem_cons, List.mem_singleton,
        List.not_mem_nil, or_false] at ht
      rcases ht with rfl | rfl | rfl | rfl | rfl
      · cases hs
      · exact Option.not_isSome_iff_eq_none.mp (by decide)
      · cases hs
      · cases hs
      · exact Option.not_isSome_iff_eq_none.mp (by decide))).2.2.1

/-! ## Strict mode -/

theorem strictRefines_error (N : Outcome) (x : Exception × Argparsor) (add extra : List Str)
    (a : Bool) (hne : extra ≠ [])
    (h : ∀ t, N = .ok t → ∃ more, t.additionalArguments = add ++ extra ++ more) :
    StrictRefines N (.error x) add a := by
  unfold StrictRefines
  cases N with
  | error r => exact ⟨x, rfl⟩
  | ok t =>
    dsimp only
    obtain ⟨more, hmore⟩ := h t rfl
    constructor
    · intro heq
      rw [heq, List.append_assoc] at hmore
      have := congrArg List.length hmore
      simp only [List.length_append] at this
      have hpos : 0 < extra.length := List.length_pos.mpr hne
      omega
    · intro _
      exact ⟨x, rfl⟩

/-- One iteration whose result in strict mode is the result outside of it, in strict
mode, and which adds no additional argument: the refinement carries over from
the rest of the loop. -/
theorem strictRefines_step (s : Argparsor) (a : Bool)
    (k k' : Nat → Argparsor → Outcome) :
    ∀ (r : Step),
      (∀ i' s1, r = .ok (i', s1) → s1.additionalArguments = s.additionalArguments) →
      (∀ i' s1, r = .ok (i', s1) →
        StrictRefines (k i' s1) (k' i' (s1.withModes a true)) s1.additionalArguments a) →
      StrictRefines
        (match r with
          | .error e => (.error e : Outcome)
          | .ok (i', s1) => k i' s1)
        (match r.withModes a true with
          | .error e => (.error e : Outcome)
          | .ok (i', s1) => k' i' s1)
        s.additionalArguments a := by
  intro r hadd hk
  cases r with
  | error e =>
    obtain ⟨e, s1⟩ := e
    exact ⟨_, rfl⟩
  | ok r =>
    obtain ⟨i', s1⟩ := r
    have := hk i' s1 rfl
    rw [hadd i' s1 rfl] at this
    exact this

theorem parsePositionnal_strict (s : Argparsor) (argc : Nat) (argv : List Str) (index : Nat)
    (hasEnd : Bool) (hs : s.isStrict = false)
    (hq : s.arguments[s.arguments.findIdx Argument.isUnfilledPositional]? = none) :
    s._parsePositionnalArgument argc argv index hasEnd =
      .ok (index,
        { s with additionalArguments := s.additionalArguments ++ [argv.getD index []] }) ∧
    ∀ a, ∃ x, (s.withModes a true)._parsePositionnalArgument argc argv index hasEnd =
      .error x := by
  constructor
  · unfold Argparsor._parsePositionnalArgument
    dsimp only
    rw [hq]
    dsimp only
    rw [if_neg (by rw [hs]; exact Bool.false_ne_true)]
  · intro a
    unfold Argparsor._parsePositionnalArgument
    dsimp only
    have harg : (s.withModes a true).arguments = s.arguments := rfl
    rw [harg, hq]
    exact ⟨_, rfl⟩

theorem parsePositionnal_filled_additional (s : Argparsor) (argc : Nat) (argv : List Str)
    (index : Nat) (hasEnd : Bool) (x : Argument)
    (hq : s.arguments[s.arguments.findIdx Argument.isUnfilledPositional]? = some x)
    (i' : Nat) (s1 : Argparsor)
    (h : s._parsePositionnalArgument argc argv index hasEnd = .ok (i', s1)) :
    s1.additionalArguments = s.additionalArguments := by
  have hspec := parsePositionnal_spec s argc argv index hasEnd
  rw [h] at hspec
  rcases hspec with ⟨q, y, y', _, _, hs1, _⟩ | ⟨hall, _⟩
  · rw [hs1]; rfl
  · have hx := findIdx_unfilled_some s x hq
    rw [hall x (List.getElem?_mem hq)] at hx
    cases hx

theorem afterEndOption_strict (a : Bool) (argv : List Str) :
    ∀ (fuel : Nat) (s : Argparsor) (i : Nat), s.isStrict = false → a = s.isAlternative →
      StrictRefines (s.afterEndOption fuel argv i) ((s.withModes a true).afterEndOption fuel argv i)
        s.additionalArguments a := by
  intro fuel
  induction fuel with
  | zero => intro s i _ _; exact ⟨_, rfl⟩
  | succ fuel ih =>
    intro s i hs ha
    rw [afterEndOption_succ, afterEndOption_succ]
    by_cases hi : i < argv.length
    · rw [if_pos hi, if_pos hi]
      cases hq : s.arguments[s.arguments.findIdx Argument.isUnfilledPositional]? with
      | none =>
        obtain ⟨h1, h2⟩ := parsePositionnal_strict s argv.length argv i true hs hq
        obtain ⟨x, hx⟩ := h2 a
        rw [h1, hx]
        dsimp only
        apply strictRefines_error _ x s.additionalArguments [argv.getD i []] a (by simp)
        intro t ht
        obtain ⟨more, hmore, _⟩ := afterEndOption_additional argv fuel _ (i + 1) t ht
        exact ⟨more, hmore⟩
      | some x =>
        rw [parsePositionnal_withModes s a true _ argv i true (Or.inl ha)
          (Or.inr (by rw [hq]; rfl))]
        apply strictRefines_step s a
          (fun i' s1 => Argparsor.afterEndOption fuel s1 argv (i' + 1))
          (fun i' s1 => Argparsor.afterEndOption fuel s1 argv (i' + 1))
        · intro i' s1 h
          exact parsePositionnal_filled_additional s _ argv i true x hq i' s1 h
        · intro i' s1 h
          have hsame := parsePositionnal_same s argv.length argv i true
          rw [h] at hsame
          exact ih s1 (i' + 1) ((hsame.2.2.2.2.1 : s1.isStrict = s.isStrict).trans hs)
            (ha.trans (hsame.2.2.2.1 : s1.isAlternative = s.isAlternative).symm)
    · rw [if_neg hi, if_neg hi]
      exact ⟨fun _ => rfl, fun h => absurd rfl h⟩

theorem walk_strict (a : Bool) (endIndex : Nat) (argv : List Str) :
    ∀ (fuel : Nat) (s : Argparsor) (i : Nat), s.isStrict = false → a = s.isAlternative →
      StrictRefines (s.walk fuel endIndex argv i) ((s.withModes a true).walk fuel endIndex argv i)
        s.additionalArguments a := by
  intro fuel
  induction fuel with
  | zero => intro s i _ _; exact ⟨_, rfl⟩
  | succ fuel ih =>
    intro s i hs ha
    have hnext : ∀ (r : Step), s.SameDeclarations (Step.state r) →
        ∀ i' s1, r = .ok (i', s1) →
          StrictRefines (s1.walk fuel endIndex argv (i' + 1))
            ((s1.withModes a true).walk fuel endIndex argv (i' + 1)) s1.additionalArguments a := by
      intro r hsame i' s1 h
      rw [h] at hsame
      exact ih s1 (i' + 1) ((hsame.2.2.2.2.1 : s1.isStrict = s.isStrict).trans hs)
        (ha.trans (hsame.2.2.2.1 : s1.isAlternative = s.isAlternative).symm)
    rw [walk_succ, walk_succ]
    by_cases hi : i < argv.length
    · rw [if_pos hi, if_pos hi]
      by_cases hsh : isShortOption (argv.getD i []) = true
      · rw [if_pos hsh, if_pos hsh,
          parseShortArgument_withModes s a true _ argv i (Or.inl ha) hi hsh]
        apply strictRefines_step s a
          (fun i' s1 => Argparsor.walk fuel s1 endIndex argv (i' + 1))
          (fun i' s1 => Argparsor.walk fuel s1 endIndex argv (i' + 1))
        · intro i' s1 h
          have hadv := parseShortArgument_advances s endIndex argv i
          rw [h] at hadv
          exact hadv.1
        · exact hnext _ (parseShortArgument_same s endIndex argv i)
      · rw [if_neg hsh, if_neg hsh]
        by_cases hl : isLongOption (argv.getD i []) = true
        · rw [if_pos hl, if_pos hl, parseLongArgument_withModes s a true _ argv i (Or.inl ha)]
          apply strictRefines_step s a
            (fun i' s1 => Argparsor.walk fuel s1 endIndex argv (i' + 1))
            (fun i' s1 => Argparsor.walk fuel s1 endIndex argv (i' + 1))
          · intro i' s1 h
            have hadv := parseLongArgument_advances s endIndex argv i
            rw [h] at hadv
            exact hadv.1
          · exact hnext _ (parseLongArgument_same s endIndex argv i)
        · rw [if_neg hl, if_neg hl]
          by_cases he : isEndOption (argv.getD i []) = true
          · rw [if_pos he, if_pos he]
            exact afterEndOption_strict a argv fuel s (i + 1) hs ha
          · rw [if_neg he, if_neg he]
            cases hq : s.arguments[s.arguments.findIdx Argument.isUnfilledPositional]? with
            | none =>
              obtain ⟨h1, h2⟩ := parsePositionnal_strict s endIndex argv i false hs hq
              obtain ⟨x, hx⟩ := h2 a
              rw [h1, hx]
              dsimp only
              apply strictRefines_error _ x s.additionalArguments [argv.getD i []] a (by simp)
              intro t ht
              obtain ⟨more, hmore, _⟩ := walk_additional endIndex argv fuel _ (i + 1) t ht
              exact ⟨more, hmore⟩
            | some x =>
              rw [parsePositionnal_withModes s a true _ argv i false (Or.inl ha)
                (Or.inr (by rw [hq]; rfl))]
              apply strictRefines_step s a
                (fun i' s1 => Argparsor.walk fuel s1 endIndex argv (i' + 1))
                (fun i' s1 => Argparsor.walk fuel s1 endIndex argv (i' + 1))
              · intro i' s1 h
                exact parsePositionnal_filled_additional s _ argv i false x hq i' s1 h
              · exact hnext _ (parsePositionnal_same s endIndex argv i false)
    · rw [if_neg hi, if_neg hi]
      exact ⟨fun _ => rfl, fun h => absurd rfl h⟩

theorem parseTokens_strict (self : Argparsor) (argv : List Str) (alternative : Bool) :
    StrictRefines (self.parseTokens argv alternative false)
      (self.parseTokens argv alternative true) self.additionalArguments alternative :=
  walk_strict alternative (endOptionIndex argv) argv (argv.length + self.arguments.length)
    (self.begin argv alternative false) 1 rfl rfl

/-- C32. For a registry without additional arguments, `parseArguments` in strict mode
returns exactly when `parseArguments` outside of strict mode returns with no
additional argument, and then the two registries differ by the flag `_isStrict`
alone: every declaration is in the same final state. -/
theorem strict_refines (self : Argparsor) (argv : List Str) (alternative : Bool)
    (hfresh : self.additionalArguments = []) :
    ((∃ s', self.parseArguments argv alternative true = .ok s') ↔
      (∃ t, self.parseArguments argv alternative false = .ok t ∧
        t.additionalArguments = [])) ∧
    (∀ t, self.parseArguments argv alternative false = .ok t → t.additionalArguments = [] →
      self.parseArguments argv alternative true = .ok (t.withModes alternative true)) ∧
    (∀ s', self.parseArguments argv alternative true = .ok s' →
      ∃ t, self.parseArguments argv alternative false = .ok t ∧ t.additionalArguments = [] ∧
        s'.arguments = t.arguments) := by
  have href := parseTokens_strict self argv alternative
  rw [hfresh] at href
  have hforward : ∀ t, self.parseArguments argv alternative false = .ok t →
      t.additionalArguments = [] →
      self.parseArguments argv alternative true = .ok (t.withModes alternative true) := by
    intro t ht hadd
    unfold Argparsor.parseArguments at ht ⊢
    cases hN : self.parseTokens argv alternative false with
    | error x => rw [hN] at ht; cases ht
    | ok t1 =>
      rw [hN] at ht href
      dsimp only at ht
      have h1 : t1.additionalArguments = [] := by
        rw [← afterWalk_additional t1 t ht]; exact hadd
      rw [href.1 h1]
      dsimp only
      rw [afterWalk_withModes, ht]
      rfl
  have hbackward : ∀ s', self.parseArguments argv alternative true = .ok s' →
      ∃ t, self.parseArguments argv alternative false = .ok t ∧ t.additionalArguments = [] ∧
        s'.arguments = t.arguments := by
    intro s' hs'
    unfold Argparsor.parseArguments at hs' ⊢
    cases hN : self.parseTokens argv alternative false with
    | error x =>
      rw [hN] at href
      obtain ⟨y, hy⟩ := href
      rw [hy] at hs'
      cases hs'
    | ok t1 =>
      rw [hN] at href
      by_cases hadd : t1.additionalArguments = []
      · rw [href.1 hadd] at hs'
        dsimp only at hs' ⊢
        rw [afterWalk_withModes] at hs'
        cases ha : t1.afterWalk with
        | error x => rw [ha] at hs'; cases hs'
        | ok t =>
          rw [ha] at hs'
          cases hs'
          exact ⟨t, rfl, by rw [afterWalk_additional t1 t ha]; exact hadd, rfl⟩
      · obtain ⟨y, hy⟩ := href.2 hadd
        rw [hy] at hs'
        cases hs'
  refine ⟨⟨?_, ?_⟩, hforward, hbackward⟩
  · rintro ⟨s', hs'⟩
    obtain ⟨t, ht, hadd, _⟩ := hbackward s' hs'
    exact ⟨t, ht, hadd⟩
  · rintro ⟨t, ht, hadd⟩
    exact ⟨_, hforward t ht hadd⟩

theorem strict_refines_witness :
    scenario2.parseArguments (args ["prog", "-v"]) false true =
      .ok ((scenario2.parseArguments (args ["prog", "-v"]) false false).state.withModes
        false true) :=
  (strict_refines scenario2 (args ["prog", "-v"]) false rfl).2.1
    (scenario2.parseArguments (args ["prog", "-v"]) false false).state rfl rfl

/-! ## The shape of the value tree -/

theorem groupLoop_shape (stop : Str → Bool) (argv : List Str) (maxIndex nargs : Nat)
    (hmax : maxIndex ≤ argv.length) :
    ∀ (fuel i : Nat), ∀ e ∈ (groupLoop stop argv maxIndex nargs fuel i).1,
      e.elements.length = nargs := by
  intro fuel
  induction fuel with
  | zero => intro i e he; cases he
  | succ fuel ih =>
    intro i e he
    rw [groupLoop_succ] at he
    split_ifs at he with h1 h2 h3
    · cases he
    · cases he
    · rcases List.mem_cons.mp he with h | h
      · rw [h]
        simp only [ArgumentElement.group]
        rw [slice_length argv i (i + nargs) (by omega)]
        omega
      · exact ih (i + nargs) e h
    · cases he

theorem shaped_of_leaves (y : Argument) (hg : isGroupedClass y.type = false)
    (hex : y.isExist = true) (hleaf : ∀ e ∈ y.elements, e.elements = [])
    (hfix : isFixedClass y.type = true → y.elements.length = y.nargs) : y.Shaped := by
  refine ⟨?_, ?_, ?_, ?_⟩
  · intro h
    rw [hg] at h
    cases h
  · intro _ n hn
    obtain ⟨e, he, rfl⟩ := List.mem_map.mp hn
    rw [hleaf e he]
    rfl
  · intro h
    rw [hex] at h
    cases h
  · intro h _
    rw [Argument.shape, List.length_map]
    exact hfix h

theorem shaped_of_groups (y : Argument) (hg : isGroupedClass y.type = true)
    (hex : y.isExist = true) (hgroup : ∀ e ∈ y.elements, e.elements.length = y.nargs) :
    y.Shaped := by
  refine ⟨?_, ?_, ?_, ?_⟩
  · intro _ n hn
    obtain ⟨e, he, rfl⟩ := List.mem_map.mp hn
    exact hgroup e he
  · intro h
    rw [hg] at h
    cases h
  · intro h
    rw [hex] at h
    cases h
  · intro h
    have : isFixedClass y.type = false := by
      cases hty : y.type <;> rw [hty] at hg <;> first | rfl | cases hg
    rw [this] at h
    cases h

theorem leaf_elements (l : List Str) : ∀ e ∈ l.map ArgumentElement.leaf, e.elements = [] := by
  intro e he
  obtain ⟨t, _, rfl⟩ := List.mem_map.mp he
  rfl

theorem append_leaves (A : List ArgumentElement) (hA : ∀ e ∈ A, e.elements = [])
    (l : List Str) : ∀ e ∈ A ++ l.map ArgumentElement.leaf, e.elements = [] := by
  intro e he
  rcases List.mem_append.mp he with h | h
  · exact hA e h
  · exact leaf_elements l e h

theorem append_group (A : List ArgumentElement) (n : Nat) (hA : ∀ e ∈ A, e.elements.length = n)
    (g : List Str) (hg : g.length = n) :
    ∀ e ∈ A ++ [ArgumentElement.group g], e.elements.length = n := by
  intro e he
  rcases List.mem_append.mp he with h | h
  · exact hA e h
  · rw [List.mem_singleton] at h
    rw [h]
    exact hg

theorem append_groups (A B : List ArgumentElement) (n : Nat)
    (hA : ∀ e ∈ A, e.elements.length = n) (hB : ∀ e ∈ B, e.elements.length = n) :
    ∀ e ∈ A ++ B, e.elements.length = n := by
  intro e he
  rcases List.mem_append.mp he with h | h
  · exact hA e h
  · exact hB e h

/-- A return of `_parseArgument` for an option whose value tree has the shape of its
class, mark and count apart, leaves that option with the shape of its class. -/
theorem parseArgument_shaped (s : Argparsor) (maxIndex : Nat) (argv : List Str) (index : Nat)
    (hasArg : Bool) (option arg : Str) (p : Nat) (x : Argument)
    (hmax : maxIndex ≤ argv.length) (hpos : x._isPositionnalArgument = false)
    (hx1 : isGroupedClass x.type = true → ∀ e ∈ x.elements, e.elements.length = x.nargs)
    (hx2 : isGroupedClass x.type = false → ∀ e ∈ x.elements, e.elements = [])
    (i' : Nat) (s' : Argparsor)
    (h : s._parseArgument maxIndex argv index hasArg option arg p x = .ok (i', s')) :
    ∃ x', s' = s.store p x' ∧ x'.Shaped := by
  rcases x with ⟨names, ty, ex, req, cnt, nargs, argm, elems, valid⟩
  dsimp only at hx1 hx2
  have hnil : ∀ e ∈ ([] : List ArgumentElement), e.elements = [] := fun _ h => by cases h
  have hnil' : ∀ e ∈ ([] : List ArgumentElement), e.elements.length = nargs :=
    fun _ h => by cases h
  cases hasArg
  · cases ty
    case NUMBER_OPTION =>
      simp only [Argparsor._parseArgument, Bool.false_eq_true, if_false,
        Argparsor.throwParse] at h
      split_ifs at h with hb
      cases h
      have hlen := slice_length argv (index + 1) (index + nargs + 1) (by omega)
      refine ⟨_, rfl, shaped_of_leaves _ rfl rfl (append_leaves [] hnil _) ?_⟩
      intro _
      show ([] ++ (slice argv (index + 1) (index + nargs + 1)).map ArgumentElement.leaf).length
        = nargs
      rw [List.nil_append, List.length_map, hlen]
      omega
    case MULTI_NUMBER_OPTION =>
      simp only [Argparsor._parseArgument, Bool.false_eq_true, if_false,
        Argparsor.throwParse] at h
      have hlen := slice_length argv (index + 1) (index + nargs + 1)
      cases ex
      · simp only [if_true] at h
        split_ifs at h with hb
        cases h
        exact ⟨_, rfl, shaped_of_groups _ rfl rfl
          (append_group [] nargs hnil' _ (by rw [hlen (by omega)]; omega))⟩
      · simp only [Bool.true_eq_false, if_false] at h
        split_ifs at h with hb
        cases h
        exact ⟨_, rfl, shaped_of_groups _ rfl rfl
          (append_group elems nargs (hx1 rfl) _ (by rw [hlen (by omega)]; omega))⟩
    case MULTI_NUMBER_INFINITE_OPTION =>
      have hg := groupLoop_shape s._endOfInfiniteArgument argv maxIndex nargs hmax
        (maxIndex + 1) (index + 1)
      simp only [Argparsor._parseArgument, Bool.false_eq_true, if_false] at h
      cases he : (groupLoop s._endOfInfiniteArgument argv maxIndex nargs (maxIndex + 1)
          (index + 1)).2 with
      | badNumber => rw [he] at h; simp [Argparsor.throwParse] at h
      | nonTermination => rw [he] at h; cases h
      | done =>
        rw [he] at h
        cases ex
        · simp only [if_true] at h
          cases h
          exact ⟨_, rfl, shaped_of_groups _ rfl rfl (append_groups [] _ nargs hnil' hg)⟩
        · simp only [Bool.true_eq_false, if_false] at h
          cases h
          exact ⟨_, rfl, shaped_of_groups _ rfl rfl (append_groups elems _ nargs (hx1 rfl) hg)⟩
    case POSITIONAL_ARGUMENT => cases hpos
    case NUMBER_POSITIONAL_ARGUMENT => cases hpos
    case INFINITE_POSITIONAL_ARGUMENT => cases hpos
    case INFINITE_NUMBER_POSITIONAL_ARGUMENT => cases hpos
    all_goals
      cases ex
      all_goals
        simp only [Argparsor._parseArgument, Bool.false_eq_true, if_false, if_true,
          Bool.true_eq_false, Argparsor.throwParse] at h
        try split_ifs at h
        all_goals
          cases h
          refine ⟨_, rfl, shaped_of_leaves _ rfl rfl ?_ (fun hf => by cases hf)⟩
          first
            | exact hx2 rfl
            | exact append_leaves elems (hx2 rfl) _
            | exact append_leaves [] hnil _
            | exact append_leaves elems (hx2 rfl) [_]
            | exact append_leaves [] hnil [_]
  · cases ty
    case POSITIONAL_ARGUMENT => cases hpos
    case NUMBER_POSITIONAL_ARGUMENT => cases hpos
    case INFINITE_POSITIONAL_ARGUMENT => cases hpos
    case INFINITE_NUMBER_POSITIONAL_ARGUMENT => cases hpos
    all_goals
      cases ex
      all_goals
        simp only [Argparsor._parseArgument, if_true, Bool.true_eq_false, if_false,
          Argparsor.throwParse] at h
        (cases h <;>
         (refine ⟨_, rfl, shaped_of_leaves _ rfl rfl ?_ (fun hf => by cases hf)⟩
          first
            | exact hx2 rfl
            | exact append_leaves elems (hx2 rfl) [_]
            | exact append_leaves [] hnil [_]))

theorem shaped_groups {a : Argument} (h : a.Shaped) :
    isGroupedClass a.type = true → ∀ e ∈ a.elements, e.elements.length = a.nargs :=
  fun hg e he => h.1 hg _ (List.mem_map.mpr ⟨e, he, rfl⟩)

theorem shaped_leaves {a : Argument} (h : a.Shaped) :
    isGroupedClass a.type = false → ∀ e ∈ a.elements, e.elements = [] :=
  fun hg e he => List.length_eq_zero.mp (h.2.1 hg _ (List.mem_map.mpr ⟨e, he, rfl⟩))

theorem shaped_matched (a : Argument) (h : a.Shaped) (hf : isFixedClass a.type = false) :
    a.matched.Shaped := by
  refine ⟨h.1, h.2.1, (fun hx => by cases hx), (fun hx => ?_)⟩
  have : isFixedClass a.type = true := hx
  rw [hf] at this
  cases this

theorem takeArg_long_dash (tok : Str) (hl : isLongOption tok = true) :
    ∃ key, (takeArg tok).2.1 = '-' :: key := by
  rw [takeArg_option]
  unfold isLongOption at hl
  split at hl
  · rename_i c r
    exact ⟨('-' :: c :: r).takeWhile (· != '='), by
      rw [List.takeWhile_cons]
      rfl⟩
  · cases hl

theorem shaped_store (s : Argparsor) (p : Nat) (x' : Argument)
    (hs : ∀ a ∈ s.arguments, a.Shaped) (hx : x'.Shaped) :
    ∀ a ∈ (s.store p x').arguments, a.Shaped := by
  intro a ha
  rcases List.mem_or_eq_of_mem_set ha with h | h
  · exact hs a h
  · rw [h]; exact hx

theorem find_same {s s' : Argparsor} (h : s.SameDeclarations s') {key : Str} {p : Nat}
    {a' : Argument} (hf : s'.find key = some (p, a')) :
    ∃ a, s.find key = some (p, a) ∧ a'.declaration = a.declaration := by
  unfold Argparsor.find at hf ⊢
  rw [h.1] at hf
  cases hl : s.argumentFromName.lookup key with
  | none => rw [hl] at hf; cases hf
  | some q =>
    rw [hl] at hf
    dsimp only at hf ⊢
    cases hq' : s'.arguments[q]? with
    | none => rw [hq'] at hf; cases hf
    | some y' =>
      rw [hq'] at hf
      simp only [Option.some.injEq, Prod.mk.injEq] at hf
      obtain ⟨hqp, hya⟩ := hf
      subst hqp
      subst hya
      have hmap := congrArg (fun l => l[q]?) h.2.2.2.2.2.2
      simp only [List.getElem?_map, hq', Option.map_some'] at hmap
      cases hq : s.arguments[q]? with
      | none => rw [hq] at hmap; cases hmap
      | some y =>
        rw [hq] at hmap
        simp only [Option.map_some', Option.some.injEq] at hmap
        exact ⟨y, rfl, hmap⟩

theorem flagsAreOptions_same {s s' : Argparsor} (h : s.SameDeclarations s')
    (hw : s.FlagsAreOptions) : s'.FlagsAreOptions := by
  intro key p a' hf
  obtain ⟨a, ha, hd⟩ := find_same h hf
  have ht : a'.declaration.type = a.declaration.type := congrArg Argument.type hd
  have ht' : a'.type = a.type := ht
  have := hw key p a ha
  unfold Argument._isPositionnalArgument at this ⊢
  rw [ht']
  exact this

/-- The invariant of the walk: every declaration has the shape of its class, and the
flags belong to options. -/
theorem parseArgument_inv (s : Argparsor) (maxIndex : Nat) (argv : List Str) (index : Nat)
    (hasArg : Bool) (option arg : Str) (p : Nat) (x x0 : Argument)
    (hmax : maxIndex ≤ argv.length)
    (hs : (∀ a ∈ s.arguments, a.Shaped) ∧ s.FlagsAreOptions)
    (hp : s.arguments[p]? = some x0) (hx0 : x0._isPositionnalArgument = false)
    (htype : x.type = x0.type) (hnargs : x.nargs = x0.nargs) (helems : x.elements = x0.elements)
    (hdecl : x.declaration = x0.declaration)
    (i' : Nat) (s' : Argparsor)
    (h : s._parseArgument maxIndex argv index hasArg option arg p x = .ok (i', s')) :
    (∀ a ∈ s'.arguments, a.Shaped) ∧ s'.FlagsAreOptions := by
  have hx0s := hs.1 x0 (List.getElem?_mem hp)
  have hpos : x._isPositionnalArgument = false := by
    unfold Argument._isPositionnalArgument at hx0 ⊢
    rw [htype]
    exact hx0
  obtain ⟨x', hs', hx'⟩ := parseArgument_shaped s maxIndex argv index hasArg option arg p x hmax
    hpos (by rw [htype, hnargs, helems]; exact shaped_groups hx0s)
    (by rw [htype, helems]; exact shaped_leaves hx0s) i' s' h
  have hsame := parseArgument_same s maxIndex argv index hasArg option arg p x0 x hp hdecl
  rw [h] at hsame
  refine ⟨?_, flagsAreOptions_same hsame hs.2⟩
  rw [hs']
  exact shaped_store s p x' hs.1 hx'

theorem parseShortLoop_inv (maxIndex : Nat) (argv : List Str) (index : Nat) (hasArg : Bool)
    (arg last : Str) (hmax : maxIndex ≤ argv.length) (i' : Nat) (s' : Argparsor) :
    ∀ (cs : List Char) (s : Argparsor),
      (∀ a ∈ s.arguments, a.Shaped) ∧ s.FlagsAreOptions →
      Argparsor.parseShortLoop maxIndex argv index hasArg arg last s cs = .ok (i', s') →
      (∀ a ∈ s'.arguments, a.Shaped) ∧ s'.FlagsAreOptions := by
  have hlast : ∀ (s : Argparsor), (∀ a ∈ s.arguments, a.Shaped) ∧ s.FlagsAreOptions →
      (match s.find ('-' :: last) with
        | none => s.throwParse last "invalid option"
        | some (p, a) => s._parseArgument maxIndex argv index hasArg last arg p a) =
        .ok (i', s') →
      (∀ a ∈ s'.arguments, a.Shaped) ∧ s'.FlagsAreOptions := by
    intro s hs h
    cases hf : s.find ('-' :: last) with
    | none => rw [hf] at h; cases h
    | some pa =>
      obtain ⟨p, x⟩ := pa
      rw [hf] at h
      exact parseArgument_inv s maxIndex argv index hasArg last arg p x x hmax hs
        (find_getElem? hf) (hs.2 _ p x hf) rfl rfl rfl rfl i' s' h
  intro cs
  induction cs with
  | nil => intro s hs h; unfold Argparsor.parseShortLoop at h; exact hlast s hs h
  | cons c cs ih =>
    intro s hs h
    cases cs with
    | nil => unfold Argparsor.parseShortLoop at h; exact hlast s hs h
    | cons c' r =>
      unfold Argparsor.parseShortLoop at h
      cases hf : s.find ['-', c] with
      | none => rw [hf] at h; cases h
      | some pa =>
        obtain ⟨p, x⟩ := pa
        rw [hf] at h
        dsimp only at h
        have hxpos := hs.2 _ p x hf
        split_ifs at h with h1 h2
        · exact parseArgument_inv s maxIndex argv index true [c] (c' :: r) p x.matched x hmax hs
            (find_getElem? hf) hxpos rfl rfl rfl rfl i' s' h
        · cases h
        · have hb : isBoolean x.type = true := by simpa using h2
          have hfix : isFixedClass x.type = false := by
            cases hty : x.type <;> rw [hty] at hb <;> first | rfl | cases hb
          have hsame := sameDeclarations_store s p x x.matched (find_getElem? hf) rfl
          exact ih (s.store p x.matched)
            ⟨shaped_store s p _ hs.1
              (shaped_matched x (hs.1 x (List.getElem?_mem (find_getElem? hf))) hfix),
              flagsAreOptions_same hsame hs.2⟩ h

theorem parseShortArgument_inv (s : Argparsor) (maxIndex : Nat) (argv : List Str) (index : Nat)
    (hmax : maxIndex ≤ argv.length)
    (hs : (∀ a ∈ s.arguments, a.Shaped) ∧ s.FlagsAreOptions) (i' : Nat) (s' : Argparsor)
    (h : s._parseShortArgument maxIndex argv index = .ok (i', s')) :
    (∀ a ∈ s'.arguments, a.Shaped) ∧ s'.FlagsAreOptions := by
  unfold Argparsor._parseShortArgument at h
  dsimp only at h
  split at h
  · rename_i p x hf
    split_ifs at hf with halt
    exact parseArgument_inv s maxIndex argv index _ _ _ p x x hmax hs (find_getElem? hf)
      (hs.2 _ p x hf) rfl rfl rfl rfl i' s' h
  · exact parseShortLoop_inv maxIndex argv index _ _ _ hmax i' s' _ s hs h

theorem parseLongArgument_inv (s : Argparsor) (maxIndex : Nat) (argv : List Str) (index : Nat)
    (hmax : maxIndex ≤ argv.length) (hl : isLongOption (argv.getD index []) = true)
    (hs : (∀ a ∈ s.arguments, a.Shaped) ∧ s.FlagsAreOptions) (i' : Nat) (s' : Argparsor)
    (h : s._parseLongArgument maxIndex argv index = .ok (i', s')) :
    (∀ a ∈ s'.arguments, a.Shaped) ∧ s'.FlagsAreOptions := by
  unfold Argparsor._parseLongArgument at h
  dsimp only at h
  split at h
  · cases h
  · rename_i p x hf
    obtain ⟨key, hk⟩ := takeArg_long_dash _ hl
    rw [hk] at hf
    exact parseArgument_inv s maxIndex argv index _ _ _ p x x hmax hs (find_getElem? hf)
      (hs.2 _ p x hf) rfl rfl rfl rfl i' s' h

theorem parsePositionnal_inv (s : Argparsor) (argc : Nat) (argv : List Str) (index : Nat)
    (hasEnd : Bool) (hargc : argc ≤ argv.length)
    (hs : (∀ a ∈ s.arguments, a.Shaped) ∧ s.FlagsAreOptions) (i' : Nat) (s' : Argparsor)
    (h : s._parsePositionnalArgument argc argv index hasEnd = .ok (i', s')) :
    (∀ a ∈ s'.arguments, a.Shaped) ∧ s'.FlagsAreOptions := by
  have hsame := parsePositionnal_same s argc argv index hasEnd
  rw [h] at hsame
  refine ⟨?_, flagsAreOptions_same hsame hs.2⟩
  have hnil : ∀ e ∈ ([] : List ArgumentElement), e.elements = [] := fun _ h => by cases h
  unfold Argparsor._parsePositionnalArgument at h
  dsimp only at h
  cases hq : s.arguments[s.arguments.findIdx Argument.isUnfilledPositional]? with
  | none =>
    rw [hq] at h
    dsimp only at h
    split_ifs at h
    · cases h
    · cases h
      exact hs.1
  | some x =>
    rw [hq] at h
    have hun := findIdx_unfilled_some s x hq
    have hx := hs.1 x (List.getElem?_mem hq)
    rcases x with ⟨names, ty, ex, req, cnt, nargs, argm, elems, valid⟩
    have hex : ex = false := by
      simp only [Argument.isUnfilledPositional, Bool.and_eq_true, beq_iff_eq] at hun
      exact hun.1
    subst hex
    have hel : elems = [] := by
      have := hx.2.2.1 rfl
      simpa [Argument.shape] using this
    subst hel
    cases ty
    case POSITIONAL_ARGUMENT =>
      dsimp only at h
      cases h
      exact shaped_store s _ _ hs.1 (shaped_of_leaves _ rfl rfl hnil (fun hf => by cases hf))
    case NUMBER_POSITIONAL_ARGUMENT =>
      dsimp only at h
      split_ifs at h with hb
      · cases h
      · cases h
        have hlen := slice_length argv index (index + nargs) (by omega)
        refine shaped_store s _ _ hs.1 (shaped_of_leaves _ rfl rfl (append_leaves [] hnil _) ?_)
        intro _
        show ([] ++ (slice argv index (index + nargs)).map ArgumentElement.leaf).length = nargs
        rw [List.nil_append, List.length_map, hlen]
        omega
    case INFINITE_POSITIONAL_ARGUMENT =>
      dsimp only at h
      cases h
      exact shaped_store s _ _ hs.1
        (shaped_of_leaves _ rfl rfl (append_leaves [] hnil _) (fun hf => by cases hf))
    case INFINITE_NUMBER_POSITIONAL_ARGUMENT =>
      have hg := groupLoop_shape (fun t => !hasEnd && s._endOfInfiniteArgument t) argv argc nargs
        hargc (argc + 1) index
      dsimp only at h
      cases he : (groupLoop (fun t => !hasEnd && s._endOfInfiniteArgument t) argv argc nargs
          (argc + 1) index).2 with
      | badNumber => rw [he] at h; simp [Argparsor.throwParse] at h
      | nonTermination => rw [he] at h; cases h
      | done =>
        rw [he] at h
        cases h
        exact shaped_store s _ _ hs.1
          (shaped_of_groups _ rfl rfl (append_groups [] _ nargs (fun _ h => by cases h) hg))
    all_goals
      simp [Argument.isUnfilledPositional, Argument._isPositionnalArgument] at hun

theorem writeList_elements :
    ∀ (es : List ArgumentElement) (xs : List Str),
      (writeList es xs).map (fun e => e.elements) = es.map (fun e => e.elements) := by
  intro es
  induction es with
  | nil => intro xs; cases xs <;> rfl
  | cons e es ih =>
    intro xs
    cases xs with
    | nil => rfl
    | cons x xs => simp [writeList, ih xs]

theorem writeGroup_length :
    ∀ (g xs : List Str), (writeGroup g xs).length = g.length := by
  intro g
  induction g with
  | nil => intro xs; cases xs <;> rfl
  | cons y g ih =>
    intro xs
    cases xs with
    | nil => rfl
    | cons x xs => simp [writeGroup, ih xs]

theorem writeGroups_lengths :
    ∀ (es : List ArgumentElement) (xs : List Str),
      (writeGroups es xs).map (fun e => e.elements.length) =
        es.map (fun e => e.elements.length) := by
  intro es
  induction es with
  | nil => intro xs; rfl
  | cons e es ih =>
    intro xs
    simp [writeGroups, writeGroup_length, ih]

theorem writeBack_shape (a a' : Argument) (xs : List Str) (h : a.writeBack xs = some a') :
    a'.shape = a.shape := by
  rcases a with ⟨names, ty, ex, req, cnt, nargs, argm, elems, valid⟩
  cases ty
  case MULTI_NUMBER_OPTION =>
    simp only [Argument.writeBack, Option.some.injEq] at h
    rw [← h]
    exact writeGroups_lengths elems xs
  case MULTI_NUMBER_INFINITE_OPTION =>
    simp only [Argument.writeBack, Option.some.injEq] at h
    rw [← h]
    exact writeGroups_lengths elems xs
  case INFINITE_NUMBER_POSITIONAL_ARGUMENT =>
    simp only [Argument.writeBack, Option.some.injEq] at h
    rw [← h]
    exact writeGroups_lengths elems xs
  case POSITIONAL_ARGUMENT =>
    cases xs <;> simp only [Argument.writeBack, Option.some.injEq] at h <;> subst h <;> rfl
  case SIMPLE_OPTION =>
    cases xs <;> simp only [Argument.writeBack, Option.some.injEq] at h <;> subst h <;> rfl
  case NONE => cases h
  case HELP_OPTION => cases h
  case VERSION_OPTION => cases h
  case BOOLEAN_OPTION => cases h
  case REVERSE_BOOLEAN_OPTION => cases h
  all_goals
    simp only [Argument.writeBack, Option.some.injEq] at h
    rw [← h]
    have := congrArg (List.map List.length) (writeList_elements elems xs)
    simp only [List.map_map] at this
    exact this

theorem checkValid_shaped (a a' : Argument) (h : a.checkValid = .ok a') (hs : a.Shaped) :
    a'.Shaped := by
  obtain ⟨h1, _, h3, h4⟩ := checkValid_change a a' h
  have ht : a'.declaration.type = a.declaration.type := congrArg Argument.type h3
  have hn : a'.declaration.nargs = a.declaration.nargs := congrArg Argument.nargs h3
  have ht' : a'.type = a.type := ht
  have hn' : a'.nargs = a.nargs := hn
  have hshape : a'.shape = a.shape := by
    unfold Argument.checkValid at h
    cases hex : a.isExist with
    | false => rw [h4 (Or.inr hex)]
    | true =>
      cases hv : a.valid with
      | none => rw [h4 (Or.inl hv)]
      | some v =>
        rw [hex, hv] at h
        dsimp only at h
        cases hr : v.isValid a.toVector with
        | error m => rw [hr] at h; cases h
        | ok r =>
          obtain ⟨b, xs⟩ := r
          rw [hr] at h
          cases b with
          | false => cases h
          | true =>
            dsimp only at h
            cases hw : a.writeBack xs with
            | none => rw [hw] at h; cases h
            | some y =>
              rw [hw] at h
              cases h
              exact writeBack_shape a a' xs hw
  unfold Argument.Shaped
  rw [ht', hn', h1, hshape]
  exact hs

theorem forall₂_mem_right {α : Type} (R : α → α → Prop) :
    ∀ (l l' : List α), List.Forall₂ R l l' → ∀ b ∈ l', ∃ a ∈ l, R a b := by
  intro l l' h
  induction h with
  | nil => intro b hb; cases hb
  | cons hab _ ih =>
    intro b hb
    rcases List.mem_cons.mp hb with h1 | h1
    · subst h1
      exact ⟨_, List.mem_cons_self _ _, hab⟩
    · obtain ⟨a, ha, hr⟩ := ih b h1
      exact ⟨a, List.mem_cons_of_mem _ ha, hr⟩

theorem flagsAreOptions_of_options (s : Argparsor)
    (h : ∀ a ∈ s.arguments, a._isPositionnalArgument = false) : s.FlagsAreOptions :=
  fun _ _ a hf => h a (List.getElem?_mem (find_getElem? hf))

/-! ## Index safety -/

theorem take_append_junk (argv junk : List Str) (k : Nat) (hk : k ≤ argv.length) :
    (argv ++ junk).take k = argv.take k :=
  List.take_append_of_le_length hk

/-! ## The machine integers: agreement with the exact sums -/

theorem sizeAdd_eq {i n : Nat} (h : i + n < 2 ^ 64) : sizeAdd i n = i + n :=
  Nat.mod_eq_of_lt h

theorem countArg_eq (groups : List ArgumentElement) (n : Nat)
    (h : ∀ e ∈ groups, e.elements.length = n) : countArg groups = groups.length * n := by
  induction groups with
  | nil => simp [countArg]
  | cons g gs ih =>
    have hg := h g (List.mem_cons_self _ _)
    have := ih (fun e he => h e (List.mem_cons_of_mem _ he))
    simp only [countArg, List.map_cons, List.sum_cons, List.length_cons] at this ⊢
    rw [this, hg, Nat.succ_mul]
    omega

theorem machine_groupLoop_succ (stop : Str → Bool) (argv : List Str) (maxIndex nargs fuel i : Nat) :
    Machine.groupLoop stop argv maxIndex nargs (fuel + 1) i =
      if i < maxIndex then
        if stop (argv.getD i []) then ([], .done)
        else if sizeAdd i nargs > maxIndex then ([], .badNumber)
        else
          (ArgumentElement.group (slice argv i (sizeAdd i nargs)) ::
              (Machine.groupLoop stop argv maxIndex nargs fuel (sizeAdd i nargs)).1,
            (Machine.groupLoop stop argv maxIndex nargs fuel (sizeAdd i nargs)).2)
      else ([], .done) := rfl

/-- As long as `maxIndex + _nargs` stays below `2^64`, the loop over groups is the one
computed with exact sums. -/
theorem machine_groupLoop_eq (stop : Str → Bool) (argv : List Str) (maxIndex nargs : Nat)
    (h : maxIndex + nargs < 2 ^ 64) :
    ∀ (fuel i : Nat),
      Machine.groupLoop stop argv maxIndex nargs fuel i =
        groupLoop stop argv maxIndex nargs fuel i := by
  intro fuel
  induction fuel with
  | zero => intro i; rfl
  | succ fuel ih =>
    intro i
    rw [machine_groupLoop_succ, groupLoop_succ]
    by_cases hi : i < maxIndex
    · rw [sizeAdd_eq (by omega : i + nargs < 2 ^ 64), ih]
    · rw [if_neg hi, if_neg hi]

theorem inRange_same {self s' : Argparsor} {n : Nat} (h : self.SameDeclarations s')
    (hr : self.InRange n) : s'.InRange n := by
  intro a' ha'
  obtain ⟨j, hj⟩ := List.mem_iff_getElem?.mp ha'
  have hmap := congrArg (fun l => l[j]?) h.2.2.2.2.2.2
  simp only [List.getElem?_map, hj, Option.map_some'] at hmap
  cases hs : self.arguments[j]? with
  | none => rw [hs] at hmap; cases hmap
  | some a =>
    rw [hs] at hmap
    simp only [Option.map_some', Option.some.injEq] at hmap
    have hn : a'.declaration.nargs = a.declaration.nargs := congrArg Argument.nargs hmap
    have hn' : a'.nargs = a.nargs := hn
    rw [hn']
    exact hr a (List.getElem?_mem hs)

theorem inRange_find {self : Argparsor} {key : Str} {p : Nat} {a : Argument} {n : Nat}
    (hr : self.InRange n) (h : self.find key = some (p, a)) : n + a.nargs < 2 ^ 64 :=
  hr a (List.getElem?_mem (find_getElem? h))

/-- As long as no sum reaches `2^64`, `_parseArgument` is the routine computed with
exact sums. -/
theorem machine_parseArgument_eq (self : Argparsor) (maxIndex : Nat) (argv : List Str)
    (index : Nat) (hasArg : Bool) (option arg : Str) (p : Nat) (a : Argument)
    (hmax : maxIndex ≤ argv.length) (hi : index + a.nargs < 2 ^ 64)
    (hm : maxIndex + a.nargs < 2 ^ 64) :
    Machine._parseArgument self maxIndex argv index hasArg option arg p a =
      self._parseArgument maxIndex argv index hasArg option arg p a := by
  unfold Machine._parseArgument Argparsor._parseArgument
  rw [sizeAdd_eq hi, machine_groupLoop_eq _ _ _ _ hm]
  have hc := countArg_eq
    (groupLoop self._endOfInfiniteArgument argv maxIndex a.nargs (maxIndex + 1) (index + 1)).1
    a.nargs (groupLoop_shape _ argv maxIndex a.nargs hmax _ _)
  cases hasArg with
  | true => rfl
  | false =>
    simp only [Bool.false_eq_true, if_false]
    split <;> first
      | rfl
      | (cases hg : groupLoop self._endOfInfiniteArgument argv maxIndex a.nargs (maxIndex + 1)
            (index + 1) with
          | mk groups e =>
            rw [hg] at hc
            dsimp only at hc ⊢
            rw [hc])
theorem inRange_store {self : Argparsor} {n p : Nat} {a : Argument} (hr : self.InRange n)
    (ha : n + a.nargs < 2 ^ 64) : (self.store p a).InRange n := by
  intro b hb
  rcases List.mem_or_eq_of_mem_set hb with h | h
  · exact hr b h
  · rw [h]; exact ha

theorem machine_parseShortLoop_eq (maxIndex : Nat) (argv : List Str) (index : Nat)
    (hasArg : Bool) (arg last : Str) (n : Nat) (hmax : maxIndex ≤ argv.length) (hin : index ≤ n)
    (hmn : maxIndex ≤ n) :
    ∀ (cs : List Char) (self : Argparsor), self.InRange n →
      Machine.parseShortLoop maxIndex argv index hasArg arg last self cs =
        Argparsor.parseShortLoop maxIndex argv index hasArg arg last self cs := by
  have hlast : ∀ (self : Argparsor), self.InRange n →
      (match self.find ('-' :: last) with
        | none => self.throwParse last "invalid option"
        | some (p, a) => Machine._parseArgument self maxIndex argv index hasArg last arg p a) =
      (match self.find ('-' :: last) with
        | none => self.throwParse last "invalid option"
        | some (p, a) => self._parseArgument maxIndex argv index hasArg last arg p a) := by
    intro self hr
    cases hf : self.find ('-' :: last) with
    | none => rfl
    | some pa =>
      obtain ⟨p, a⟩ := pa
      have := inRange_find hr hf
      exact machine_parseArgument_eq self maxIndex argv index hasArg last arg p a hmax
        (by omega) (by omega)
  intro cs
  induction cs with
  | nil =>
    intro self hr
    unfold Machine.parseShortLoop Argparsor.parseShortLoop
    exact hlast self hr
  | cons c r ih =>
    intro self hr
    cases r with
    | nil =>
      unfold Machine.parseShortLoop Argparsor.parseShortLoop
      exact hlast self hr
    | cons c' r' =>
      unfold Machine.parseShortLoop Argparsor.parseShortLoop
      cases hf : self.find ['-', c] with
      | none => rfl
      | some pa =>
        obtain ⟨p, a⟩ := pa
        have hn := inRange_find hr hf
        dsimp only
        have hn' : n + a.matched.nargs < 2 ^ 64 := hn
        rw [machine_parseArgument_eq self maxIndex argv index true [c] (c' :: r') p a.matched hmax
          (by omega) (by omega)]
        rw [ih (self.store p a.matched) (inRange_store hr hn')]

theorem machine_parseShortArgument_eq (self : Argparsor) (maxIndex : Nat) (argv : List Str)
    (index : Nat) (n : Nat) (hmax : maxIndex ≤ argv.length) (hin : index ≤ n) (hmn : maxIndex ≤ n)
    (hr : self.InRange n) :
    Machine._parseShortArgument self maxIndex argv index =
      self._parseShortArgument maxIndex argv index := by
  unfold Machine._parseShortArgument Argparsor._parseShortArgument
  dsimp only
  cases hf : (if self.isAlternative then self.find ('-' :: (takeArg (argv.getD index [])).2.1)
      else none) with
  | none =>
    exact machine_parseShortLoop_eq maxIndex argv index _ _ _ n hmax hin hmn _ self hr
  | some pa =>
    obtain ⟨p, a⟩ := pa
    have hf' : self.find ('-' :: (takeArg (argv.getD index [])).2.1) = some (p, a) := by
      split_ifs at hf
      exact hf
    have := inRange_find hr hf'
    exact machine_parseArgument_eq self maxIndex argv index _ _ _ p a hmax (by omega) (by omega)

theorem machine_parseLongArgument_eq (self : Argparsor) (maxIndex : Nat) (argv : List Str)
    (index : Nat) (n : Nat) (hmax : maxIndex ≤ argv.length) (hin : index ≤ n) (hmn : maxIndex ≤ n)
    (hr : self.InRange n) :
    Machine._parseLongArgument self maxIndex argv index =
      self._parseLongArgument maxIndex argv index := by
  unfold Machine._parseLongArgument Argparsor._parseLongArgument
  dsimp only
  cases hf : self.find (takeArg (argv.getD index [])).2.1 with
  | none => rfl
  | some pa =>
    obtain ⟨p, a⟩ := pa
    have := inRange_find hr hf
    exact machine_parseArgument_eq self maxIndex argv index _ _ _ p a hmax (by omega) (by omega)

/-- As long as no sum reaches `2^64`, and from an index that is not `0`,
`_parsePositionnalArgument` is the routine computed with exact sums. -/
theorem machine_parsePositionnal_eq (self : Argparsor) (argc : Nat) (argv : List Str)
    (index : Nat) (hasEnd : Bool) (n : Nat) (hmax : argc ≤ argv.length) (h1 : 1 ≤ index)
    (hin : index ≤ n) (hmn : argc ≤ n) (hr : self.InRange n) :
    Machine._parsePositionnalArgument self argc argv index hasEnd =
      (self._parsePositionnalArgument argc argv index hasEnd).toInt := by
  unfold Machine._parsePositionnalArgument Argparsor._parsePositionnalArgument
  dsimp only
  cases hq : self.arguments[self.arguments.findIdx Argument.isUnfilledPositional]? with
  | none =>
    dsimp only
    split_ifs <;> rfl
  | some a =>
    have hn := hr a (List.getElem?_mem hq)
    dsimp only
    rw [sizeAdd_eq (by omega : index + a.nargs < 2 ^ 64),
      machine_groupLoop_eq _ _ _ _ (by omega : argc + a.nargs < 2 ^ 64)]
    have hc := countArg_eq
      (groupLoop (fun t => !hasEnd && self._endOfInfiniteArgument t) argv argc a.nargs (argc + 1)
        index).1 a.nargs (groupLoop_shape _ argv argc a.nargs hmax _ _)
    split
    · rfl
    · split_ifs
      · rfl
      · simp only [Step.toInt]
        congr 2
        omega
    · simp only [Step.toInt]
      congr 2
      omega
    · cases hg : groupLoop (fun t => !hasEnd && self._endOfInfiniteArgument t) argv argc a.nargs
          (argc + 1) index with
      | mk groups e =>
        rw [hg] at hc
        dsimp only at hc ⊢
        cases e with
        | done =>
          simp only [Step.toInt]
          rw [hc]
          congr 2
          omega
        | badNumber => rfl
        | nonTermination => rfl
    · rfl
theorem machine_afterEndOption_succ (fuel : Nat) (self : Argparsor) (argv : List Str) (i : Nat) :
    Machine.afterEndOption (fuel + 1) self argv i =
      if i < argv.length then
        match Machine._parsePositionnalArgument self argv.length argv i true with
        | .error e => .error e
        | .ok (i', self') => Machine.afterEndOption fuel self' argv (i' + 1).toNat
      else .ok self := rfl

theorem machine_walk_succ (fuel : Nat) (self : Argparsor) (endIndex : Nat) (argv : List Str)
    (i : Nat) :
    Machine.walk (fuel + 1) self endIndex argv i =
      if i < argv.length then
        if isShortOption (argv.getD i []) then
          match Machine._parseShortArgument self endIndex argv i with
          | .error e => .error e
          | .ok (i', self') => Machine.walk fuel self' endIndex argv (i' + 1)
        else if isLongOption (argv.getD i []) then
          match Machine._parseLongArgument self endIndex argv i with
          | .error e => .error e
          | .ok (i', self') => Machine.walk fuel self' endIndex argv (i' + 1)
        else if isEndOption (argv.getD i []) then
          Machine.afterEndOption fuel self argv (i + 1)
        else
          match Machine._parsePositionnalArgument self endIndex argv i false with
          | .error e => .error e
          | .ok (i', self') => Machine.walk fuel self' endIndex argv (i' + 1).toNat
      else .ok self := rfl

theorem machine_afterEndOption_eq (argv : List Str) :
    ∀ (fuel : Nat) (self : Argparsor) (i : Nat), 1 ≤ i → self.InRange argv.length →
      Machine.afterEndOption fuel self argv i = self.afterEndOption fuel argv i := by
  intro fuel
  induction fuel with
  | zero => intro self i _ _; rfl
  | succ fuel ih =>
    intro self i h1 hr
    rw [machine_afterEndOption_succ, afterEndOption_succ]
    by_cases hi : i < argv.length
    · rw [if_pos hi, if_pos hi,
        machine_parsePositionnal_eq self argv.length argv i true argv.length (Nat.le_refl _) h1
          (Nat.le_of_lt hi) (Nat.le_refl _) hr]
      have hsame := parsePositionnal_same self argv.length argv i true
      cases hp : self._parsePositionnalArgument argv.length argv i true with
      | error e => rfl
      | ok r =>
        obtain ⟨i', s'⟩ := r
        rw [hp] at hsame
        simp only [Step.toInt]
        have hnat : ((i' : Int) + 1).toNat = i' + 1 := by omega
        rw [hnat]
        exact ih s' (i' + 1) (by omega) (inRange_same hsame hr)
    · rw [if_neg hi, if_neg hi]

/-- As long as no sum reaches `2^64`, the token walk is the one computed with exact
sums. -/
theorem machine_walk_eq (endIndex : Nat) (argv : List Str) (hend : endIndex ≤ argv.length) :
    ∀ (fuel : Nat) (self : Argparsor) (i : Nat), 1 ≤ i → self.InRange argv.length →
      Machine.walk fuel self endIndex argv i = self.walk fuel endIndex argv i := by
  intro fuel
  induction fuel with
  | zero => intro self i _ _; rfl
  | succ fuel ih =>
    intro self i h1 hr
    rw [machine_walk_succ, walk_succ]
    by_cases hi : i < argv.length
    · rw [if_pos hi, if_pos hi,
        machine_parseShortArgument_eq self endIndex argv i argv.length hend (Nat.le_of_lt hi) hend
          hr,
        machine_parseLongArgument_eq self endIndex argv i argv.length hend (Nat.le_of_lt hi) hend
          hr,
        machine_parsePositionnal_eq self endIndex argv i false argv.length hend h1
          (Nat.le_of_lt hi) hend hr,
        machine_afterEndOption_eq argv fuel self (i + 1) (by omega) hr]
      have hshort := parseShortArgument_same self endIndex argv i
      have hlong := parseLongArgument_same self endIndex argv i
      have hpos := parsePositionnal_same self endIndex argv i false
      split_ifs
      · cases hp : self._parseShortArgument endIndex argv i with
        | error e => rfl
        | ok r =>
          obtain ⟨i', s'⟩ := r
          rw [hp] at hshort
          exact ih s' (i' + 1) (by omega) (inRange_same hshort hr)
      · cases hp : self._parseLongArgument endIndex argv i with
        | error e => rfl
        | ok r =>
          obtain ⟨i', s'⟩ := r
          rw [hp] at hlong
          exact ih s' (i' + 1) (by omega) (inRange_same hlong hr)
      · rfl
      · cases hp : self._parsePositionnalArgument endIndex argv i false with
        | error e => rfl
        | ok r =>
          obtain ⟨i', s'⟩ := r
          rw [hp] at hpos
          simp only [Step.toInt]
          have hnat : ((i' : Int) + 1).toNat = i' + 1 := by omega
          rw [hnat]
          exact ih s' (i' + 1) (by omega) (inRange_same hpos hr)
    · rw [if_neg hi, if_neg hi]

theorem machine_parseTokens_eq (self : Argparsor) (argv : List Str) (alternative strict : Bool)
    (hr : self.InRange argv.length) (fuel : Nat) :
    Machine.parseTokens fuel self argv alternative strict =
      (self.begin argv alternative strict).walk fuel (endOptionIndex argv) argv 1 :=
  machine_walk_eq (endOptionIndex argv) argv (endOptionIndex_le argv) fuel _ 1 (Nat.le_refl _) hr

/-- As long as no sum `argc + _nargs` reaches `2^64`, `parseArguments` with the machine
integers is `parseArguments` computed with exact sums, for every budget that
covers `argc` plus the number of declarations. -/
theorem machine_parseArguments_eq (self : Argparsor) (argv : List Str)
    (alternative strict : Bool) (hne : argv ≠ []) (hr : self.InRange argv.length) (fuel : Nat)
    (hfuel : argv.length + self.arguments.length ≤ fuel) :
    Machine.parseTokens fuel self argv alternative strict =
      self.parseTokens argv alternative strict ∧
    Machine.parseArguments fuel self argv alternative strict =
      self.parseArguments argv alternative strict := by
  have h1 : Machine.parseTokens fuel self argv alternative strict =
      self.parseTokens argv alternative strict := by
    rw [machine_parseTokens_eq self argv alternative strict hr fuel]
    obtain ⟨d, rfl⟩ := Nat.exists_eq_add_of_le hfuel
    exact walk_mono_add _ _ _ _ _ (parseTokens_fuel self argv alternative strict hne) d
  refine ⟨h1, ?_⟩
  unfold Machine.parseArguments Argparsor.parseArguments
  rw [h1]

/-! ## Fixed arity and the wrap of `*index + _nargs` -/

/-- A walk whose iteration at index `i` comes back to index `i`, in a registry of the
same kind, exhausts every budget: the loop of the source never leaves. -/
theorem machine_walk_loops (endIndex : Nat) (argv : List Str) (i : Nat)
    (Inv : Argparsor → Prop)
    (hstep : ∀ s, Inv s → ∃ s', Inv s' ∧ ∀ fuel,
      Machine.walk (fuel + 1) s endIndex argv i = Machine.walk fuel s' endIndex argv i) :
    ∀ (fuel : Nat) (s : Argparsor), Inv s →
      (Machine.walk fuel s endIndex argv i).exception = some .outOfFuel := by
  intro fuel
  induction fuel with
  | zero => intro s _; rfl
  | succ fuel ih =>
    intro s hs
    obtain ⟨s', hs', h⟩ := hstep s hs
    rw [h fuel]
    exact ih s' hs'

theorem machine_parseArgument_number (self : Argparsor) (maxIndex : Nat) (argv : List Str)
    (i : Nat) (option arg : Str) (p : Nat) (a : Argument) (htype : a.type = .NUMBER_OPTION) :
    Machine._parseArgument self maxIndex argv i false option arg p a =
      if maxIndex ≤ sizeAdd i a.nargs then
        .error (.ParseArgumentException option "bad number of argument".toList,
          self.store p a.clear)
      else
        .ok (sizeAdd i a.nargs, self.store p
          { a with
            elements := (slice argv (i + 1) (sizeAdd i a.nargs + 1)).map ArgumentElement.leaf
            isExist := true
            count := a.count + 1 }) := by
  simp only [Machine._parseArgument, htype, Argument.clear, Argument.push_backs,
    Argument.matched, List.nil_append, Argparsor.throwParse, Bool.false_eq_true, if_false,
    ge_iff_le]

theorem machine_walk_long_token (fuel : Nat) (self : Argparsor) (endIndex : Nat)
    (argv : List Str) (i : Nat) (tok : Str) (p : Nat) (a : Argument) (hi : argv[i]? = some tok)
    (hlong : isLongOption tok = true) (hfind : self.find (takeArg tok).2.1 = some (p, a)) :
    Machine.walk (fuel + 1) self endIndex argv i =
      match Machine._parseArgument self endIndex argv i (takeArg tok).1
          ((takeArg tok).2.1.drop 2) (takeArg tok).2.2 p a with
      | .error e => .error e
      | .ok (i', self') => Machine.walk fuel self' endIndex argv (i' + 1) := by
  rw [machine_walk_succ, if_pos (lt_of_getElem? hi), getD_of_getElem? hi,
    isShortOption_of_isLongOption hlong, hlong]
  simp only [Machine._parseLongArgument, getD_of_getElem? hi, hfind]
  simp

/-- The option `--count` with `_nargs = 2^64 - 1` at index 1 sends the walk back to
index 1 for ever. -/
theorem wrapOption_never_returns (fuel : Nat) :
    (Machine.parseTokens fuel scenarioWrapOption (args ["prog", "--count", "x"]) false
      false).exception = some .outOfFuel := by
  unfold Machine.parseTokens
  apply machine_walk_loops _ _ 1
    (fun s => s.argumentFromName = scenarioWrapOption.argumentFromName ∧
      ∃ v a, s.arguments = [v, a] ∧ a.type = .NUMBER_OPTION ∧ a.nargs = 2 ^ 64 - 1)
  · intro s hs
    obtain ⟨hmap, v, a, harg, hty, hn⟩ := hs
    have hfind : s.find (takeArg "--count".toList).2.1 = some (1, a) := by
      have : takeArg "--count".toList = (false, "--count".toList, []) := by decide
      rw [this]
      unfold Argparsor.find
      rw [hmap, harg]
      rfl
    let a' : Argument :=
      { a with
        elements := (slice (args ["prog", "--count", "x"]) (1 + 1)
          (sizeAdd 1 a.nargs + 1)).map ArgumentElement.leaf
        isExist := true
        count := a.count + 1 }
    refine ⟨s.store 1 a', ⟨hmap, v, a', ?_, hty, hn⟩, ?_⟩
    · simp [Argparsor.store, harg]
    · intro fuel
      rw [machine_walk_long_token fuel s _ _ 1 "--count".toList 1 a rfl (by decide) hfind]
      have h1 : (takeArg "--count".toList).1 = false := by decide
      rw [h1, machine_parseArgument_number s _ _ 1 _ _ 1 a hty]
      have h0 : sizeAdd 1 a.nargs = 0 := by rw [hn]; decide
      rw [h0]
      have hend : ¬ endOptionIndex (args ["prog", "--count", "x"]) ≤ 0 := by decide
      rw [if_neg hend]
      simp only [a', h0]
  · exact ⟨rfl, _, _, rfl, rfl, rfl⟩

/-- C8, the code at the failing input and around it. A `NUMBER_OPTION` with
`_nargs = N` matched without inline value at index `i`, with `end` the index of
the first `--` (or `argc`), compares with `end` the sum `i + N` taken on
`std::size_t`: below `end` its elements become the leaves `argv[i+1..sum]`,
whatever they were, it exists, its count grows by one and the index returned is
the sum; otherwise it raises `bad number of argument`. As long as `i + N` stays
below `2^64` the sum is `i + N`: when `i + N < end` the values are exactly
`argv[i+1], ..., argv[i+N]` and the walk resumes at `i + N + 1`, when
`i + N >= end` the routine and the walk raise. Scenario 2 gives `verbose` and
`count == ["3", "4"]`. With `N = 2^64 - 1` and `[prog, --count, x]` the sum at
index 1 is `0`: nothing is raised, no value is stored, the index returned is
`0` and the walk is back at `--count` for ever. -/
theorem number_option_consumption (self : Argparsor) (argv : List Str) (i p : Nat)
    (a : Argument) (htype : a.type = .NUMBER_OPTION) :
    (∀ (option arg : Str),
        Machine._parseArgument self (endOptionIndex argv) argv i false option arg p a =
          if endOptionIndex argv ≤ sizeAdd i a.nargs then
            .error (.ParseArgumentException option "bad number of argument".toList,
              self.store p a.clear)
          else
            .ok (sizeAdd i a.nargs, self.store p
              { a with
                elements :=
                  (slice argv (i + 1) (sizeAdd i a.nargs + 1)).map ArgumentElement.leaf
                isExist := true
                count := a.count + 1 })) ∧
    (i + a.nargs < 2 ^ 64 →
      (∀ (option arg : Str), i + a.nargs < endOptionIndex argv →
        Machine._parseArgument self (endOptionIndex argv) argv i false option arg p a =
          .ok (i + a.nargs, self.store p
            { a with
              elements :=
                (List.range' (i + 1) a.nargs).map (fun j => ArgumentElement.leaf (argv.getD j []))
              isExist := true
              count := a.count + 1 })) ∧
      (∀ (option arg : Str), endOptionIndex argv ≤ i + a.nargs →
        Machine._parseArgument self (endOptionIndex argv) argv i false option arg p a =
          .error (.ParseArgumentException option "bad number of argument".toList,
            self.store p a.clear)) ∧
      (∀ (fuel : Nat) (tok : Str), argv[i]? = some tok → isLongOption tok = true → '=' ∉ tok →
        self.find tok = some (p, a) →
        (i + a.nargs < endOptionIndex argv →
          Machine.walk (fuel + 1) self (endOptionIndex argv) argv i =
            Machine.walk fuel (self.store p
              { a with
                elements :=
                  (List.range' (i + 1) a.nargs).map
                    (fun j => ArgumentElement.leaf (argv.getD j []))
                isExist := true
                count := a.count + 1 }) (endOptionIndex argv) argv (i + a.nargs + 1)) ∧
        (endOptionIndex argv ≤ i + a.nargs →
          Machine.walk (fuel + 1) self (endOptionIndex argv) argv i =
            .error (.ParseArgumentException (tok.drop 2) "bad number of argument".toList,
              self.store p a.clear)))) ∧
    ((Machine.parseArguments 7 scenario2 (args ["prog", "-v", "--count", "3", "4"]) false
        false).exception = none ∧
      (Machine.parseArguments 7 scenario2 (args ["prog", "-v", "--count", "3", "4"]) false
        false).state.arguments.map (fun d => (d.strings, d.isExist, d.count)) =
        [([], true, 1), (["3", "4"], true, 1)]) ∧
    (sizeAdd 1 (2 ^ 64 - 1) = 0 ∧
      endOptionIndex (args ["prog", "--count", "x"]) = 3 ∧
      (Machine._parseLongArgument scenarioWrapOption 3 (args ["prog", "--count", "x"])
        1).exception = none ∧
      (Machine._parseLongArgument scenarioWrapOption 3 (args ["prog", "--count", "x"])
        1).index = some 0 ∧
      (Machine._parseLongArgument scenarioWrapOption 3 (args ["prog", "--count", "x"])
        1).state.arguments.map (fun d => (d.strings, d.isExist, d.count)) =
        [([], false, 0), ([], true, 1)] ∧
      ∀ (fuel : Nat),
        (Machine.parseTokens fuel scenarioWrapOption (args ["prog", "--count", "x"]) false
          false).exception = some .outOfFuel) := by
  have hmain := fun (option arg : Str) =>
    machine_parseArgument_number self (endOptionIndex argv) argv i option arg p a htype
  refine ⟨hmain, ?_, ⟨by decide, by decide⟩,
    ⟨by decide, by decide, by decide, by decide, by decide, wrapOption_never_returns⟩⟩
  intro hrange
  have hle := endOptionIndex_le argv
  have hok : ∀ (option arg : Str), i + a.nargs < endOptionIndex argv →
      Machine._parseArgument self (endOptionIndex argv) argv i false option arg p a =
        .ok (i + a.nargs, self.store p
          { a with
            elements :=
              (List.range' (i + 1) a.nargs).map (fun j => ArgumentElement.leaf (argv.getD j []))
            isExist := true
            count := a.count + 1 }) := by
    intro option arg h
    have hs : slice argv (i + 1) (i + a.nargs + 1) =
        (List.range' (i + 1) a.nargs).map (fun j => argv.getD j []) := by
      rw [slice_eq_map argv (i + 1) (i + a.nargs + 1) (by omega)]
      congr 2
      omega
    rw [hmain, sizeAdd_eq hrange, if_neg (by omega), hs, List.map_map]
    rfl
  have herr : ∀ (option arg : Str), endOptionIndex argv ≤ i + a.nargs →
      Machine._parseArgument self (endOptionIndex argv) argv i false option arg p a =
        .error (.ParseArgumentException option "bad number of argument".toList,
          self.store p a.clear) := by
    intro option arg h
    rw [hmain, sizeAdd_eq hrange, if_pos h]
  refine ⟨hok, herr, ?_⟩
  intro fuel tok hi hlong hnoeq hfind
  have hwalk := machine_walk_long_token fuel self (endOptionIndex argv) argv i tok p a hi hlong
    (by rw [takeArg_noEq tok hnoeq]; exact hfind)
  rw [takeArg_noEq tok hnoeq] at hwalk
  constructor
  · intro h
    rw [hwalk, hok _ _ h]
  · intro h
    rw [hwalk, herr _ _ h]

theorem number_option_consumption_witness :
    Machine._parseArgument scenario2 (endOptionIndex (args ["prog", "--count", "3", "4"]))
        (args ["prog", "--count", "3", "4"]) 1 false "count".toList [] 1
        (Argument.declared ["-n", "--count"] .NUMBER_OPTION 2) =
      .ok (3, scenario2.store 1
        { Argument.declared ["-n", "--count"] .NUMBER_OPTION 2 with
          elements := [ArgumentElement.leaf "3".toList, ArgumentElement.leaf "4".toList]
          isExist := true
          count := 1 }) :=
  ((number_option_consumption scenario2 (args ["prog", "--count", "3", "4"]) 1 1
    (Argument.declared ["-n", "--count"] .NUMBER_OPTION 2) rfl).2.1 (by decide)).1
    "count".toList [] (by decide)

theorem machine_walk_plain_token (fuel : Nat) (self : Argparsor) (endIndex : Nat)
    (argv : List Str) (i : Nat) (hi : i < argv.length)
    (hplain : isPlain (argv.getD i []) = true) :
    Machine.walk (fuel + 1) self endIndex argv i =
      match Machine._parsePositionnalArgument self endIndex argv i false with
      | .error e => .error e
      | .ok (i', self') => Machine.walk fuel self' endIndex argv (i' + 1).toNat := by
  simp only [isPlain, Bool.and_eq_true, Bool.not_eq_true'] at hplain
  obtain ⟨⟨hs, hl⟩, he⟩ := hplain
  rw [machine_walk_succ, if_pos hi, hs, hl, he]
  simp only [Bool.false_eq_true, if_false]

theorem machine_parsePositionnal_number (self : Argparsor) (argv : List Str) (i : Nat)
    (a : Argument) (argc : Nat) (hasEnd : Bool)
    (ha : self.arguments[self.arguments.findIdx Argument.isUnfilledPositional]? = some a)
    (htype : a.type = .NUMBER_POSITIONAL_ARGUMENT) :
    Machine._parsePositionnalArgument self argc argv i hasEnd =
      if argc < sizeAdd i a.nargs then
        .error (.ParseArgumentException a.front "bad number of argument".toList, self)
      else
        .ok (((sizeAdd i a.nargs : Nat) : Int) - 1,
          self.store (self.arguments.findIdx Argument.isUnfilledPositional)
            { a with
              elements := a.elements ++ (slice argv i (sizeAdd i a.nargs)).map ArgumentElement.leaf
              isExist := true }) := by
  simp only [Machine._parsePositionnalArgument, ha, htype, Argument.push_backs,
    Argparsor.throwParse, Step.toInt, gt_iff_lt]

/-- C27, the code at the failing input and around it. Let the first unfilled positional
be reached by the token at index `i`, `end` being the bound handed to
`_parsePositionnalArgument` (the index of the first `--` before the marker,
`argc` after it), and let its `_nargs` be `N >= 1`. A
`NUMBER_POSITIONAL_ARGUMENT` compares with `end` the sum `i + N` taken on
`std::size_t`: not above `end`, the leaves `argv[i..sum)` are pushed, it exists
and the index written back is the sum minus one; above, it throws
`bad number of argument` with its name. As long as `argc + N` stays below
`2^64`, and for a positional that holds no value yet: with `i + N <= end` its
values are exactly `argv[i], ..., argv[i+N-1]` and the walk resumes at `i + N`,
with `i + N > end` the routine and the walk throw; a grouped positional makes
the test for every group, `k` full groups that reach `end` are its value and a
last group cut short throws after the full ones. With `N = 2^64 - 1` and
`[prog, x]` the sum at index 1 is `0`: nothing is thrown, no token is stored,
the positional is marked, the index written back is `-1` and `parseArguments`
returns, `prog` and `x` being additional arguments. -/
theorem fixed_positional_consumption (self : Argparsor) (argv : List Str) (i q : Nat)
    (a : Argument) (argc : Nat) (hasEnd : Bool)
    (hq : q = self.arguments.findIdx Argument.isUnfilledPositional)
    (ha : self.arguments[q]? = some a) (hN : 1 ≤ a.nargs) (hargc : argc ≤ argv.length) :
    (a.type = .NUMBER_POSITIONAL_ARGUMENT →
      Machine._parsePositionnalArgument self argc argv i hasEnd =
        if argc < sizeAdd i a.nargs then
          .error (.ParseArgumentException a.front "bad number of argument".toList, self)
        else
          .ok (((sizeAdd i a.nargs : Nat) : Int) - 1, self.store q
            { a with
              elements :=
                a.elements ++ (slice argv i (sizeAdd i a.nargs)).map ArgumentElement.leaf
              isExist := true })) ∧
    (i < argv.length → argv.length + a.nargs < 2 ^ 64 → a.elements = [] →
      (a.type = .NUMBER_POSITIONAL_ARGUMENT →
        (i + a.nargs ≤ argc →
          Machine._parsePositionnalArgument self argc argv i hasEnd =
            .ok (((i + a.nargs : Nat) : Int) - 1, self.store q
              { a with
                elements :=
                  (List.range' i a.nargs).map (fun j => ArgumentElement.leaf (argv.getD j []))
                isExist := true })) ∧
        (argc < i + a.nargs →
          Machine._parsePositionnalArgument self argc argv i hasEnd =
            .error (.ParseArgumentException a.front "bad number of argument".toList, self)) ∧
        (∀ (fuel : Nat), isPlain (argv.getD i []) = true →
          i + a.nargs ≤ endOptionIndex argv →
          Machine.walk (fuel + 1) self (endOptionIndex argv) argv i =
            Machine.walk fuel (self.store q
              { a with
                elements :=
                  (List.range' i a.nargs).map (fun j => ArgumentElement.leaf (argv.getD j []))
                isExist := true }) (endOptionIndex argv) argv (i + a.nargs)) ∧
        (∀ (fuel : Nat), isPlain (argv.getD i []) = true →
          endOptionIndex argv < i + a.nargs →
          Machine.walk (fuel + 1) self (endOptionIndex argv) argv i =
            .error (.ParseArgumentException a.front "bad number of argument".toList, self)) ∧
        (∀ (fuel : Nat), i + a.nargs ≤ argv.length →
          Machine.afterEndOption (fuel + 1) self argv i =
            Machine.afterEndOption fuel (self.store q
              { a with
                elements :=
                  (List.range' i a.nargs).map (fun j => ArgumentElement.leaf (argv.getD j []))
                isExist := true }) argv (i + a.nargs)) ∧
        (∀ (fuel : Nat), argv.length < i + a.nargs →
          Machine.afterEndOption (fuel + 1) self argv i =
            .error (.ParseArgumentException a.front "bad number of argument".toList, self))) ∧
      (a.type = .INFINITE_NUMBER_POSITIONAL_ARGUMENT →
        ∀ (k : Nat),
          (∀ j, j < k →
            (!hasEnd && self._endOfInfiniteArgument (argv.getD (i + j * a.nargs) [])) = false) →
          (i + k * a.nargs = argc →
            Machine._parsePositionnalArgument self argc argv i hasEnd =
              .ok (((i + k * a.nargs : Nat) : Int) - 1, self.store q
                { a with
                  elements := groupsFrom argv a.nargs i k
                  isExist := true })) ∧
          (i + k * a.nargs < argc → argc < i + k * a.nargs + a.nargs →
            (!hasEnd && self._endOfInfiniteArgument (argv.getD (i + k * a.nargs) [])) = false →
            Machine._parsePositionnalArgument self argc argv i hasEnd =
              .error (.ParseArgumentException a.front "bad number of argument".toList,
                self.store q { a with elements := groupsFrom argv a.nargs i k })))) ∧
    ((Machine.parseArguments 6 scenarioPairs (args ["prog", "a", "b", "c", "d"]) false
        false).state.arguments.map (fun d => (d.isExist, d.groups)) =
        [(true, [["a", "b"], ["c", "d"]])] ∧
      (Machine.parseArguments 5 scenarioPairs (args ["prog", "a", "b", "c"]) false
        false).exception =
        some (.ParseArgumentException "pairs".toList "bad number of argument".toList)) ∧
    (sizeAdd 1 (2 ^ 64 - 1) = 0 ∧
      endOptionIndex (args ["prog", "x"]) = 2 ∧
      (Machine._parsePositionnalArgument scenarioWrapPositional 2 (args ["prog", "x"]) 1
        false).toOption.map (fun r => (r.1, r.2.arguments.map (fun d => (d.strings, d.isExist))))
        = some (-1, [([], true)]) ∧
      (Machine.parseArguments 4 scenarioWrapPositional (args ["prog", "x"]) false
        false).exception = none ∧
      (Machine.parseArguments 4 scenarioWrapPositional (args ["prog", "x"]) false
        false).state.arguments.map (fun d => (d.strings, d.isExist)) = [([], true)] ∧
      (Machine.parseArguments 4 scenarioWrapPositional (args ["prog", "x"]) false
        false).state.additionalArguments = args ["prog", "x"]) := by
  subst hq
  refine ⟨fun htype => machine_parsePositionnal_number self argv i a argc hasEnd ha htype, ?_,
    ⟨by decide, by decide⟩, ⟨by decide, by decide, by decide, by decide, by decide, by decide⟩⟩
  intro hi hrange hempty
  constructor
  · intro htype
    have hend := endOptionIndex_le argv
    have hsum : sizeAdd i a.nargs = i + a.nargs := sizeAdd_eq (by omega)
    have hs : slice argv i (i + a.nargs) = (List.range' i a.nargs).map (fun j => argv.getD j []) →
        (a.elements ++ (slice argv i (i + a.nargs)).map ArgumentElement.leaf) =
          (List.range' i a.nargs).map (fun j => ArgumentElement.leaf (argv.getD j [])) := by
      intro h
      rw [hempty, h, List.map_map]
      rfl
    have hok : ∀ (bound : Nat) (hasEnd : Bool), bound ≤ argv.length → i + a.nargs ≤ bound →
        Machine._parsePositionnalArgument self bound argv i hasEnd =
          .ok (((i + a.nargs : Nat) : Int) - 1,
            self.store (self.arguments.findIdx Argument.isUnfilledPositional)
              { a with
                elements :=
                  (List.range' i a.nargs).map (fun j => ArgumentElement.leaf (argv.getD j []))
                isExist := true }) := by
      intro bound hasEnd hb h
      rw [machine_parsePositionnal_number self argv i a bound hasEnd ha htype, hsum,
        if_neg (by omega), hs]
      rw [slice_eq_map argv i (i + a.nargs) (by omega)]
      congr 2
      omega
    have herr : ∀ (bound : Nat) (hasEnd : Bool), bound < i + a.nargs →
        Machine._parsePositionnalArgument self bound argv i hasEnd =
          .error (.ParseArgumentException a.front "bad number of argument".toList, self) := by
      intro bound hasEnd h
      rw [machine_parsePositionnal_number self argv i a bound hasEnd ha htype, hsum, if_pos h]
    have hnext : (((i + a.nargs : Nat) : Int) - 1 + 1).toNat = i + a.nargs := by omega
    refine ⟨hok argc hasEnd hargc, herr argc hasEnd, ?_, ?_, ?_, ?_⟩
    · intro fuel hplain h
      rw [machine_walk_plain_token fuel self _ argv i hi hplain, hok _ false hend h]
      dsimp only
      rw [hnext]
    · intro fuel hplain h
      rw [machine_walk_plain_token fuel self _ argv i hi hplain, herr _ false h]
    · intro fuel h
      rw [machine_afterEndOption_succ, if_pos hi, hok _ true (Nat.le_refl _) h]
      dsimp only
      rw [hnext]
    · intro fuel h
      rw [machine_afterEndOption_succ, if_pos hi, herr _ true h]
  · intro htype k hstop
    have hshape := groupLoop_shape (fun t => !hasEnd && self._endOfInfiniteArgument t) argv argc
      a.nargs hargc (argc + 1) i
    have hcount := countArg_eq _ a.nargs hshape
    rcases a with ⟨names, ty, ex, req, cnt, nargs, argm, elems, valid⟩
    dsimp only at htype hN hstop hrange hempty hcount ⊢
    subst htype
    subst hempty
    have hk : k ≤ k * nargs := Nat.le_mul_of_pos_right k hN
    constructor
    · intro hexact
      obtain ⟨fuel, hfuel⟩ : ∃ fuel, argc + 1 = (fuel + 1) + k := ⟨argc - k, by omega⟩
      have hrun := groupLoop_run (fun t => !hasEnd && self._endOfInfiniteArgument t) argv argc
        nargs hN k (fuel + 1) i hstop (by omega)
      rw [groupLoop_succ, if_neg (by omega)] at hrun
      rw [hfuel, hrun] at hcount
      simp only [List.append_nil, groupsFrom_length] at hcount
      simp only [Machine._parsePositionnalArgument, ha,
        machine_groupLoop_eq _ argv argc nargs (by omega), hfuel, hrun, List.append_nil,
        List.nil_append, hcount]
      congr 2
    · intro hlt hcut hstopk
      obtain ⟨fuel, hfuel⟩ : ∃ fuel, argc + 1 = (fuel + 1) + k := ⟨argc - k, by omega⟩
      have hrun := groupLoop_run (fun t => !hasEnd && self._endOfInfiniteArgument t) argv argc
        nargs hN k (fuel + 1) i hstop (by omega)
      rw [groupLoop_succ, if_pos hlt] at hrun
      simp only [hstopk, Bool.false_eq_true, if_false,
        if_pos (show i + k * nargs + nargs > argc from hcut)] at hrun
      simp only [Machine._parsePositionnalArgument, ha,
        machine_groupLoop_eq _ argv argc nargs (by omega), hfuel, hrun, List.append_nil,
        List.nil_append, Argparsor.throwParse, Step.toInt]

theorem fixed_positional_consumption_witness :
    Machine.walk 3 scenarioPair (endOptionIndex (args ["prog", "x", "-y", "z"]))
        (args ["prog", "x", "-y", "z"]) 1 =
      Machine.walk 2 (scenarioPair.store 0
        { Argument.declared ["pair"] .NUMBER_POSITIONAL_ARGUMENT 2 with
          elements :=
            (List.range' 1 2).map
              (fun j => ArgumentElement.leaf ((args ["prog", "x", "-y", "z"]).getD j []))
          isExist := true }) (endOptionIndex (args ["prog", "x", "-y", "z"]))
        (args ["prog", "x", "-y", "z"]) (1 + 2) :=
  (((fixed_positional_consumption scenarioPair (args ["prog", "x", "-y", "z"]) 1 0
    (Argument.declared ["pair"] .NUMBER_POSITIONAL_ARGUMENT 2) 4 false (by decide) rfl
    (by decide) (by decide)).2.1 (by decide) (by decide) rfl).1 rfl).2.2.1 2 (by decide)
    (by decide)

/-! ## Termination of the walk and the wrap of `*index + _nargs` -/

theorem machine_parseToken_eq (s : Argparsor) (endIndex : Nat) (argv : List Str) (i n : Nat)
    (hend : endIndex ≤ argv.length) (h1 : 1 ≤ i) (hin : i ≤ n) (hmn : endIndex ≤ n)
    (hr : s.InRange n) :
    Machine.parseToken s endIndex argv i = (s.parseToken endIndex argv i).toInt := by
  unfold Machine.parseToken Argparsor.parseToken
  rw [machine_parseShortArgument_eq s endIndex argv i n hend hin hmn hr,
    machine_parseLongArgument_eq s endIndex argv i n hend hin hmn hr,
    machine_parsePositionnal_eq s endIndex argv i false n hend h1 hin hmn hr]
  split_ifs <;> rfl

theorem parseToken_same (s : Argparsor) (endIndex : Nat) (argv : List Str) (i : Nat) :
    s.SameDeclarations (Step.state (s.parseToken endIndex argv i)) := by
  unfold Argparsor.parseToken
  split_ifs
  · exact parseShortArgument_same s endIndex argv i
  · exact parseLongArgument_same s endIndex argv i
  · exact parsePositionnal_same s endIndex argv i false

/-- The induction over the token walk, for any bound `endIndex`: a property of the
registry that every call of a routine keeps holds of the registry the walk
returns, and an exception the walk throws is one that a routine can throw, or
the exhausted budget. -/
theorem walk_invariant_any (endIndex : Nat) (argv : List Str) (Inv : Argparsor → Prop)
    (Bad : Exception → Prop) (hfuel : ¬ Bad .outOfFuel)
    (hstep : ∀ (s : Argparsor) (i : Nat), Inv s →
      (∀ i' s', s.parseToken endIndex argv i = .ok (i', s') → Inv s') ∧
      (∀ e s', s.parseToken endIndex argv i = .error (e, s') → ¬ Bad e))
    (hafter : ∀ (s : Argparsor) (i : Nat), Inv s →
      (∀ i' s', s._parsePositionnalArgument argv.length argv i true = .ok (i', s') → Inv s') ∧
      (∀ e s', s._parsePositionnalArgument argv.length argv i true = .error (e, s') →
        ¬ Bad e)) :
    ∀ (fuel : Nat) (s : Argparsor) (i : Nat), Inv s →
      (∀ s', s.walk fuel endIndex argv i = .ok s' → Inv s') ∧
      (∀ e s', s.walk fuel endIndex argv i = .error (e, s') → ¬ Bad e) := by
  have hloop : ∀ (fuel : Nat) (s : Argparsor) (i : Nat), Inv s →
      (∀ s', s.afterEndOption fuel argv i = .ok s' → Inv s') ∧
      (∀ e s', s.afterEndOption fuel argv i = .error (e, s') → ¬ Bad e) := by
    intro fuel
    induction fuel with
    | zero =>
      intro s i _
      constructor
      · intro s' h; cases h
      · intro e s' h
        cases h
        exact hfuel
    | succ fuel ih =>
      intro s i hinv
      rw [afterEndOption_succ]
      by_cases hlt : i < argv.length
      · rw [if_pos hlt]
        obtain ⟨h1, h2⟩ := hafter s i hinv
        cases hr : s._parsePositionnalArgument argv.length argv i true with
        | error r =>
          obtain ⟨e, s1⟩ := r
          constructor
          · intro s' h; cases h
          · intro e' s' h
            cases h
            exact h2 e s1 hr
        | ok r =>
          obtain ⟨i', s1⟩ := r
          exact ih s1 (i' + 1) (h1 i' s1 hr)
      · rw [if_neg hlt]
        constructor
        · intro s' h
          cases h
          exact hinv
        · intro e s' h; cases h
  intro fuel
  induction fuel with
  | zero =>
    intro s i _
    constructor
    · intro s' h; cases h
    · intro e s' h
      cases h
      exact hfuel
  | succ fuel ih =>
    intro s i hinv
    by_cases hlt : i < argv.length
    · cases hend : isEndOption (argv.getD i [])
      · rw [walk_parseToken fuel s _ argv i hlt hend]
        obtain ⟨h1, h2⟩ := hstep s i hinv
        cases hr : s.parseToken endIndex argv i with
        | error r =>
          obtain ⟨e, s1⟩ := r
          constructor
          · intro s' h; cases h
          · intro e' s' h
            cases h
            exact h2 e s1 hr
        | ok r =>
          obtain ⟨i', s1⟩ := r
          exact ih s1 (i' + 1) (h1 i' s1 hr)
      · have hs : isShortOption (argv.getD i []) = false := by
          simp only [isEndOption, beq_iff_eq] at hend
          rw [hend]; rfl
        have hl : isLongOption (argv.getD i []) = false := by
          simp only [isEndOption, beq_iff_eq] at hend
          rw [hend]; rfl
        rw [walk_succ, if_pos hlt, hs, hl, hend]
        simp only [Bool.false_eq_true, if_false, if_true]
        exact hloop fuel s (i + 1) hinv
    · rw [walk_succ, if_neg hlt]
      constructor
      · intro s' h
        cases h
        exact hinv
      · intro e s' h; cases h

/-- With `_nargs >= 1` on the fixed and grouped declarations no routine of the walk
hangs, whatever the bound and the index. -/
theorem parseTokens_terminates (self : Argparsor) (argv : List Str) (alternative strict : Bool)
    (hN : self.Counted) :
    (self.parseTokens argv alternative strict).exception ≠ some .nonTermination ∧
    (self.parseTokens argv alternative strict).state.Counted := by
  have hinv := walk_invariant_any (endOptionIndex argv) argv Argparsor.Counted
    (fun e => e = .nonTermination) (fun h => by cases h)
    (fun s i hc => by
      have hsame := parseToken_same s (endOptionIndex argv) argv i
      constructor
      · intro i' s' h
        rw [h] at hsame
        exact counted_same hsame hc
      · intro e s' h he
        subst he
        unfold Argparsor.parseToken at h
        split_ifs at h
        · exact parseShortArgument_terminates s _ argv i hc s' h
        · exact parseLongArgument_terminates s _ argv i hc s' h
        · exact parsePositionnal_terminates s _ argv i false hc s' h)
    (fun s i hc => by
      have hsame := parsePositionnal_same s argv.length argv i true
      constructor
      · intro i' s' h
        rw [h] at hsame
        exact counted_same hsame hc
      · intro e s' h he
        subst he
        exact parsePositionnal_terminates s _ argv i true hc s' h)
    (argv.length + self.arguments.length) (self.begin argv alternative strict) 1 hN
  constructor
  · unfold Argparsor.parseTokens
    cases hr : (self.begin argv alternative strict).walk (argv.length + self.arguments.length)
        (endOptionIndex argv) argv 1 with
    | ok s' => intro h; cases h
    | error r =>
      obtain ⟨e, s'⟩ := r
      intro h
      exact hinv.2 e s' hr (by cases h; rfl)
  · have hsame := walk_same (endOptionIndex argv) argv (argv.length + self.arguments.length)
      (self.begin argv alternative strict) 1
    exact counted_same hsame hN

theorem sizeAdd_wrap (i : Nat) (h1 : 1 ≤ i) (hi : i < 2 ^ 64) :
    sizeAdd i (2 ^ 64 - 1) = i - 1 := by
  unfold sizeAdd
  have h : i + (2 ^ 64 - 1) = (i - 1) + 2 ^ 64 := by omega
  rw [h, Nat.add_mod_right, Nat.mod_eq_of_lt (by omega)]

/-- C34, the code at the failing input and around it. In a registry whose declarations
of a fixed or grouped class all have `_nargs >= 1`, and as long as no sum
`argc + _nargs` reaches `2^64`: the token walk of `parseArguments` ends within
`argc` plus the number of declarations iterations, returning or throwing one of
the exceptions of the source; every iteration of the main loop before the
marker index gives back an index not below its own, so the cursor is strictly
greater after the `++i`, and so does every iteration of the loop after the
marker; a group loop ends within `maxIndex + 1` turns, its index growing by
`nargs` at each turn; with `nargs = 0` it never leaves a token that does not
stop it. With `_nargs = 2^64 - 1` the sum `i + _nargs` taken on `std::size_t`
is `i - 1`: the index steps back, and on `[prog, --count, x]` the walk is back
at `--count` after every iteration and exhausts every budget. -/
theorem walk_terminates (self : Argparsor) (prog : Str) (tokens : List Str)
    (alternative strict : Bool) (hN : self.Counted)
    (hr : self.InRange (prog :: tokens).length) :
    (∀ (fuel : Nat), (prog :: tokens).length + self.arguments.length ≤ fuel →
      (Machine.parseTokens fuel self (prog :: tokens) alternative strict).exception ≠
        some .outOfFuel ∧
      (Machine.parseTokens fuel self (prog :: tokens) alternative strict).exception ≠
        some .nonTermination ∧
      (Machine.parseTokens fuel self (prog :: tokens) alternative strict).state.Counted) ∧
    (∀ (s : Argparsor) (i : Nat) (i' : Int) (s' : Argparsor), s.Counted →
      s.InRange (prog :: tokens).length → 1 ≤ i → i < endOptionIndex (prog :: tokens) →
      Machine.parseToken s (endOptionIndex (prog :: tokens)) (prog :: tokens) i =
        .ok (i', s') →
      (i : Int) < i' + 1 ∧ s'.Counted ∧ s'.InRange (prog :: tokens).length) ∧
    (∀ (s : Argparsor) (i : Nat) (i' : Int) (s' : Argparsor), s.Counted →
      s.InRange (prog :: tokens).length → 1 ≤ i → i < (prog :: tokens).length →
      Machine._parsePositionnalArgument s (prog :: tokens).length (prog :: tokens) i true =
        .ok (i', s') →
      (i : Int) < i' + 1 ∧ s'.Counted ∧ s'.InRange (prog :: tokens).length) ∧
    (∀ (stop : Str → Bool) (argv : List Str) (maxIndex nargs fuel i : Nat), 1 ≤ nargs →
      maxIndex + nargs < 2 ^ 64 →
      (i < maxIndex → i < sizeAdd i nargs) ∧
      (maxIndex ≤ fuel + i →
        (Machine.groupLoop stop argv maxIndex nargs (fuel + 1) i).2 ≠ .nonTermination)) ∧
    (∀ (stop : Str → Bool) (argv : List Str) (maxIndex fuel i : Nat), i < maxIndex →
      maxIndex < 2 ^ 64 → stop (argv.getD i []) = false →
      (Machine.groupLoop stop argv maxIndex 0 fuel i).2 = .nonTermination) ∧
    ((∀ (i : Nat), 1 ≤ i → i < 2 ^ 64 → sizeAdd i (2 ^ 64 - 1) = i - 1) ∧
      scenarioWrapOption.Counted ∧
      (Machine._parseLongArgument scenarioWrapOption 3 (args ["prog", "--count", "x"])
        1).index = some 0 ∧
      ∀ (fuel : Nat),
        (Machine.parseTokens fuel scenarioWrapOption (args ["prog", "--count", "x"]) false
          false).exception = some .outOfFuel) := by
  have hend := endOptionIndex_le (prog :: tokens)
  refine ⟨?_, ?_, ?_, ?_, ?_, ⟨sizeAdd_wrap, ?_, by decide, wrapOption_never_returns⟩⟩
  · intro fuel hfuel
    rw [(machine_parseArguments_eq self (prog :: tokens) alternative strict (by simp) hr fuel
      hfuel).1]
    exact ⟨parseTokens_fuel self _ alternative strict (by simp),
      parseTokens_terminates self _ alternative strict hN⟩
  · intro s i i' s' hc hrs h1 hi h
    rw [machine_parseToken_eq s _ _ i _ hend h1 (by omega) hend hrs] at h
    cases hp : s.parseToken (endOptionIndex (prog :: tokens)) (prog :: tokens) i with
    | error e => rw [hp] at h; cases h
    | ok r =>
      obtain ⟨j, s1⟩ := r
      rw [hp] at h
      simp only [Step.toInt, Except.ok.injEq, Prod.mk.injEq] at h
      obtain ⟨hj, hs⟩ := h
      subst hj hs
      obtain ⟨hp1, _⟩ := parseToken_progress (prog :: tokens) s i hc hi
      have hsame := parseToken_same s (endOptionIndex (prog :: tokens)) (prog :: tokens) i
      rw [hp] at hsame
      have := (hp1 j s1 hp).1
      exact ⟨by omega, (hp1 j s1 hp).2, inRange_same hsame hrs⟩
  · intro s i i' s' hc hrs h1 hi h
    rw [machine_parsePositionnal_eq s _ _ i true _ (Nat.le_refl _) h1 (by omega) (Nat.le_refl _)
      hrs] at h
    cases hp : s._parsePositionnalArgument (prog :: tokens).length (prog :: tokens) i true with
    | error e => rw [hp] at h; cases h
    | ok r =>
      obtain ⟨j, s1⟩ := r
      rw [hp] at h
      simp only [Step.toInt, Except.ok.injEq, Prod.mk.injEq] at h
      obtain ⟨hj, hs⟩ := h
      subst hj hs
      have hsame := parsePositionnal_same s (prog :: tokens).length (prog :: tokens) i true
      rw [hp] at hsame
      have := parsePositionnal_forward s _ _ i true hc hi (Nat.le_refl _) (Or.inl rfl) j s1 hp
      exact ⟨by omega, counted_same hsame hc, inRange_same hsame hrs⟩
  · intro stop argv maxIndex nargs fuel i hn hm
    constructor
    · intro hi
      rw [sizeAdd_eq (by omega)]
      omega
    · intro hle
      rw [machine_groupLoop_eq stop argv maxIndex nargs hm]
      exact groupLoop_terminates stop argv maxIndex nargs hn fuel i hle
  · intro stop argv maxIndex fuel i hi hm hstop
    rw [machine_groupLoop_eq stop argv maxIndex 0 (by omega)]
    exact groupLoop_stuck stop argv maxIndex i hi hstop fuel
  · intro a ha hty
    simp only [scenarioWrapOption, Argparsor.declared, List.mem_cons, List.mem_singleton,
      List.not_mem_nil, or_false] at ha
    rcases ha with ha | ha <;> subst ha
    · cases hty
    · decide

theorem walk_terminates_witness :
    (Machine.parseTokens 5 scenarioPairs (args ["prog", "a", "b", "c"]) false false).exception ≠
      some .nonTermination :=
  ((walk_terminates scenarioPairs "prog".toList (args ["a", "b", "c"]) false false
    (by
      intro a ha hty
      simp only [scenarioPairs, Argparsor.declared, List.mem_singleton] at ha
      subst ha
      decide)
    (by
      intro a ha
      simp only [scenarioPairs, Argparsor.declared, List.mem_singleton] at ha
      subst ha
      decide)).1 5 (by decide)).2.1

/-! ## Index safety and the wrap of `*index + _nargs` -/

theorem routines_ignore_junk (argv : List Str) (s : Argparsor) (k : Nat) (junk : List Str)
    (hk : k ≤ argv.length) :
    (∀ (index : Nat) (hasArg : Bool) (option arg : Str) (p : Nat) (a : Argument),
      s._parseArgument k (argv ++ junk) index hasArg option arg p a =
        s._parseArgument k argv index hasArg option arg p a) ∧
    (∀ (index : Nat), index < k →
      s._parseShortArgument k (argv ++ junk) index = s._parseShortArgument k argv index ∧
      s._parseLongArgument k (argv ++ junk) index = s._parseLongArgument k argv index ∧
      ∀ (hasEnd : Bool),
        s._parsePositionnalArgument k (argv ++ junk) index hasEnd =
          s._parsePositionnalArgument k argv index hasEnd) := by
  have htake : (argv ++ junk).take k = argv.take k := take_append_junk argv junk k hk
  constructor
  · intro index hasArg option arg p a
    rw [← parseArgument_take s k (argv ++ junk), htake, parseArgument_take]
  · intro index hi
    refine ⟨?_, ?_, ?_⟩
    · rw [← parseShortArgument_take s k (argv ++ junk) index hi, htake,
        parseShortArgument_take s k _ index hi]
    · rw [← parseLongArgument_take s k (argv ++ junk) index hi, htake,
        parseLongArgument_take s k _ index hi]
    · intro hasEnd
      rw [← parsePositionnal_take s k (argv ++ junk) index hasEnd hi, htake,
        parsePositionnal_take s k _ index hasEnd hi]

theorem parseToken_bounds (argv : List Str) (s : Argparsor) (i i' : Nat) (s' : Argparsor)
    (hc : s.Counted) (hi : i < endOptionIndex argv)
    (h : s.parseToken (endOptionIndex argv) argv i = .ok (i', s')) :
    i ≤ i' ∧ i' < endOptionIndex argv ∧ s'.Counted := by
  obtain ⟨h1, _⟩ := parseToken_progress argv s i hc hi
  refine ⟨(h1 i' s' h).1, ?_, (h1 i' s' h).2⟩
  unfold Argparsor.parseToken at h
  split_ifs at h
  · have := parseShortArgument_advances s (endOptionIndex argv) argv i
    rw [h] at this
    exact this.2.2.2 hi
  · have := parseLongArgument_advances s (endOptionIndex argv) argv i
    rw [h] at this
    exact this.2.2.2 hi
  · have := parsePositionnal_progress s (endOptionIndex argv) argv i false
    rw [h] at this
    exact this.2 hi

theorem afterMarker_bounds (argv : List Str) (s : Argparsor) (i i' : Nat) (s' : Argparsor)
    (hc : s.Counted) (hi : i < argv.length)
    (h : s._parsePositionnalArgument argv.length argv i true = .ok (i', s')) :
    i ≤ i' ∧ i' < argv.length ∧ s'.Counted := by
  have hsame := parsePositionnal_same s argv.length argv i true
  have hprog' := parsePositionnal_progress s argv.length argv i true
  rw [h] at hsame hprog'
  exact ⟨parsePositionnal_forward s _ _ i true hc hi (Nat.le_refl _) (Or.inl rfl) i' s' h,
    hprog'.2 hi, counted_same hsame hc⟩

theorem short_option_string (t : Str) (ht : isShortOption t = true) :
    (takeArg t).2.1 ≠ [] ∧ (takeArg t).2.1.head? = some '-' ∧
      (takeArg t).2.1.getLast? ≠ none := by
  rw [takeArg_option]
  unfold isShortOption at ht
  split at ht
  · rename_i c r
    have hc : c ≠ '-' := by simpa using ht
    have htw : ('-' :: c :: r).takeWhile (· != '=') =
        '-' :: (c :: r).takeWhile (· != '=') := by
      rw [List.takeWhile_cons]
      rfl
    rw [htw]
    refine ⟨by simp, rfl, ?_⟩
    intro hnone
    rw [List.getLast?_eq_none_iff] at hnone
    cases hnone
  · cases ht

/-- C35, the code at the failing input and around it. Let the declarations of a fixed or
grouped class have `_nargs >= 1`, and let no sum `argc + _nargs` reach `2^64`.
A routine handed the bound `k <= argc` does not look at `argv` from index `k`
on: it gives the same result whatever tokens `junk` stand there, and the index
it returns stays below `k`, so the tokens a fixed, grouped or infinite
consumption takes were all tested to lie below the marker or `argc`. The main
loop hands over `i < argc` with the index of the first `--`, the loop after the
marker `i < argc` with `argc`. The option string of a short token is never
empty: it starts with the dash, so its last position exists. An infinite
positional reached by the main loop before the marker index or by the loop
after the marker consumes at least one token: the index it writes back,
`index + countArg - 1`, is not below `index`. With `_nargs = 2^64 - 1` the
grouped positional reached by `x` in `[prog, -v, x]` pushes one empty group,
steps back to `-v` and stops: `countArg` is `0`, `countArg - 1` wraps, and the
index written back is `1`, below the index `2` it was given. -/
theorem index_safety (self : Argparsor) (prog : Str) (tokens : List Str)
    (hN : self.Counted) (hr : self.InRange (prog :: tokens).length) :
    (∀ (s : Argparsor) (k : Nat) (junk : List Str), s.InRange (prog :: tokens).length →
      k ≤ (prog :: tokens).length →
      (∀ (index : Nat) (hasArg : Bool) (option arg : Str) (p : Nat) (a : Argument),
        index ≤ (prog :: tokens).length → (prog :: tokens).length + a.nargs < 2 ^ 64 →
        Machine._parseArgument s k (prog :: tokens ++ junk) index hasArg option arg p a =
          Machine._parseArgument s k (prog :: tokens) index hasArg option arg p a) ∧
      (∀ (index : Nat), index < k →
        Machine._parseShortArgument s k (prog :: tokens ++ junk) index =
          Machine._parseShortArgument s k (prog :: tokens) index ∧
        Machine._parseLongArgument s k (prog :: tokens ++ junk) index =
          Machine._parseLongArgument s k (prog :: tokens) index ∧
        ∀ (hasEnd : Bool), 1 ≤ index →
          Machine._parsePositionnalArgument s k (prog :: tokens ++ junk) index hasEnd =
            Machine._parsePositionnalArgument s k (prog :: tokens) index hasEnd)) ∧
    endOptionIndex (prog :: tokens) ≤ (prog :: tokens).length ∧
    (∀ (s : Argparsor) (i : Nat) (i' : Int) (s' : Argparsor), s.Counted →
      s.InRange (prog :: tokens).length → 1 ≤ i → i < endOptionIndex (prog :: tokens) →
      Machine.parseToken s (endOptionIndex (prog :: tokens)) (prog :: tokens) i =
        .ok (i', s') →
      (i : Int) ≤ i' ∧ i' < endOptionIndex (prog :: tokens) ∧ s'.Counted ∧
        s'.InRange (prog :: tokens).length) ∧
    (∀ (s : Argparsor) (i : Nat) (i' : Int) (s' : Argparsor), s.Counted →
      s.InRange (prog :: tokens).length → 1 ≤ i → i < (prog :: tokens).length →
      Machine._parsePositionnalArgument s (prog :: tokens).length (prog :: tokens) i true =
        .ok (i', s') →
      (i : Int) ≤ i' ∧ i' < (prog :: tokens).length ∧ s'.Counted ∧
        s'.InRange (prog :: tokens).length) ∧
    (∀ (t : Str), isShortOption t = true →
      (takeArg t).2.1 ≠ [] ∧ (takeArg t).2.1.head? = some '-' ∧
        (takeArg t).2.1.getLast? ≠ none) ∧
    (∀ (alternative strict : Bool) (fuel : Nat),
      (prog :: tokens).length + self.arguments.length ≤ fuel →
      (Machine.parseTokens fuel self (prog :: tokens) alternative strict).state.Counted ∧
      (Machine.parseTokens fuel self (prog :: tokens) alternative strict).state.InRange
        (prog :: tokens).length) ∧
    (scenarioWrapGroups.Counted ∧
      sizeAdd 2 (2 ^ 64 - 1) = 1 ∧
      Machine.groupLoop
        (fun t => !false && scenarioWrapGroups._endOfInfiniteArgument t)
        (args ["prog", "-v", "x"]) 3 (2 ^ 64 - 1) 4 2 = ([ArgumentElement.group []], .done) ∧
      countArg [ArgumentElement.group []] = 0 ∧
      (Machine._parsePositionnalArgument scenarioWrapGroups 3 (args ["prog", "-v", "x"]) 2
        false).toOption.map (fun r => (r.1, r.2.arguments.map (fun d => (d.groups, d.isExist))))
        = some (1, [([], false), ([[]], true)]) ∧
      (Machine.parseArguments 5 scenarioWrapGroups (args ["prog", "-v", "x"]) false
        false).exception = none ∧
      (Machine.parseArguments 5 scenarioWrapGroups (args ["prog", "-v", "x"]) false
        false).state.additionalArguments = args ["x"]) := by
  have hend := endOptionIndex_le (prog :: tokens)
  refine ⟨?_, hend, ?_, ?_, short_option_string, ?_,
    ⟨?_, by decide, by decide, by decide, by decide, by decide, by decide⟩⟩
  · intro s k junk hrs hk
    have hlen : (prog :: tokens).length ≤ (prog :: tokens ++ junk).length := by simp
    have hk' : k ≤ (prog :: tokens ++ junk).length := by omega
    obtain ⟨hj1, hj2⟩ := routines_ignore_junk (prog :: tokens) s k junk hk
    constructor
    · intro index hasArg option arg p a hi ha
      rw [machine_parseArgument_eq s k _ index hasArg option arg p a hk' (by omega) (by omega),
        machine_parseArgument_eq s k _ index hasArg option arg p a hk (by omega) (by omega)]
      exact hj1 index hasArg option arg p a
    · intro index hi
      refine ⟨?_, ?_, ?_⟩
      · rw [machine_parseShortArgument_eq s k _ index _ hk' (by omega) hk hrs,
          machine_parseShortArgument_eq s k _ index _ hk (by omega) hk hrs]
        exact (hj2 index hi).1
      · rw [machine_parseLongArgument_eq s k _ index _ hk' (by omega) hk hrs,
          machine_parseLongArgument_eq s k _ index _ hk (by omega) hk hrs]
        exact (hj2 index hi).2.1
      · intro hasEnd h1
        rw [machine_parsePositionnal_eq s k _ index hasEnd _ hk' h1 (by omega) hk hrs,
          machine_parsePositionnal_eq s k _ index hasEnd _ hk h1 (by omega) hk hrs]
        exact congrArg Step.toInt ((hj2 index hi).2.2 hasEnd)
  · intro s i i' s' hc hrs h1 hi h
    rw [machine_parseToken_eq s _ _ i _ hend h1 (by omega) hend hrs] at h
    cases hp : s.parseToken (endOptionIndex (prog :: tokens)) (prog :: tokens) i with
    | error e => rw [hp] at h; cases h
    | ok r =>
      obtain ⟨j, s1⟩ := r
      rw [hp] at h
      simp only [Step.toInt, Except.ok.injEq, Prod.mk.injEq] at h
      obtain ⟨hj, hs⟩ := h
      subst hj hs
      have hb := parseToken_bounds (prog :: tokens) s i j s1 hc hi hp
      have hsame := parseToken_same s (endOptionIndex (prog :: tokens)) (prog :: tokens) i
      rw [hp] at hsame
      exact ⟨by omega, by omega, hb.2.2, inRange_same hsame hrs⟩
  · intro s i i' s' hc hrs h1 hi h
    rw [machine_parsePositionnal_eq s _ _ i true _ (Nat.le_refl _) h1 (by omega) (Nat.le_refl _)
      hrs] at h
    cases hp : s._parsePositionnalArgument (prog :: tokens).length (prog :: tokens) i true with
    | error e => rw [hp] at h; cases h
    | ok r =>
      obtain ⟨j, s1⟩ := r
      rw [hp] at h
      simp only [Step.toInt, Except.ok.injEq, Prod.mk.injEq] at h
      obtain ⟨hj, hs⟩ := h
      subst hj hs
      have hb := afterMarker_bounds (prog :: tokens) s i j s1 hc hi hp
      have hsame := parsePositionnal_same s (prog :: tokens).length (prog :: tokens) i true
      rw [hp] at hsame
      exact ⟨by omega, by omega, hb.2.2, inRange_same hsame hrs⟩
  · intro alternative strict fuel hfuel
    rw [(machine_parseArguments_eq self (prog :: tokens) alternative strict (by simp) hr fuel
      hfuel).1]
    have hsame := walk_same (endOptionIndex (prog :: tokens)) (prog :: tokens)
      ((prog :: tokens).length + self.arguments.length)
      (self.begin (prog :: tokens) alternative strict) 1
    exact ⟨counted_same hsame hN, inRange_same hsame hr⟩
  · intro a ha hty
    simp only [scenarioWrapGroups, Argparsor.declared, List.mem_cons, List.mem_singleton,
      List.not_mem_nil, or_false] at ha
    rcases ha with ha | ha <;> subst ha
    · cases hty
    · decide

theorem index_safety_witness :
    endOptionIndex (args ["prog", "a", "--", "b"]) ≤ (args ["prog", "a", "--", "b"]).length :=
  (index_safety scenarioPairs "prog".toList (args ["a", "--", "b"])
    (by
      intro a ha hty
      simp only [scenarioPairs, Argparsor.declared, List.mem_singleton] at ha
      subst ha
      decide)
    (by
      intro a ha
      simp only [scenarioPairs, Argparsor.declared, List.mem_singleton] at ha
      subst ha
      decide)).2.1

/-! ## The end-of-options marker and the wrap of `*index + _nargs` -/

theorem inRange_mono {self : Argparsor} {n m : Nat} (h : m ≤ n) (hr : self.InRange n) :
    self.InRange m := by
  intro a ha
  have := hr a ha
  omega

/-- C38, the code at the failing input and around it. Let the first `--` of `argv` be at
index `k`, and let no sum `argc + _nargs` reach `2^64`. For `k >= 1` the
registry in which the walk reaches the marker is the one the walk over
`argv[0..k)` returns, so whatever an option or a positional matched before the
marker consumed has an index below `k`; an exception of that walk is the
exception of the whole walk. The rest of the walk is the loop after the marker
from index `k + 1`, and it gives the same result when the token at index `k` is
replaced by any other string: the marker is not read again, hence stored
nowhere. For `k = 0` the walk starts behind the marker and does not read it.
The additional arguments added are tokens of `argv[1..k)` followed by tokens of
`argv[k+1..argc)`, in order. With `--tags` infinite and the infinite positional
`files`, `[prog, --tags, a, b, --, x, y]` gives `tags == ["a", "b"]`,
`files == ["x", "y"]`, and `[prog, a, --, b]` gives `files == ["a"]` and the
additional argument `b`. With the positional `pair` of `_nargs = 2^64 - 1` and
`[prog, --, x]`, the sum at index 2 is `1`: nothing is thrown, the index written
back is `0`, and the loop after the marker goes on at index 1, where it adds
the marker itself to the additional arguments. -/
theorem marker_never_stored (self : Argparsor) (argv : List Str) (alternative strict : Bool)
    (k : Nat) (hr : self.InRange argv.length) (hk : endOptionIndex argv = k)
    (hlt : k < argv.length) :
    (∀ (fuel : Nat), argv.length + self.arguments.length ≤ fuel →
      (1 ≤ k →
        (∀ x, Machine.parseTokens fuel self (argv.take k) alternative strict = .error x →
          Machine.parseTokens fuel self argv alternative strict = .error x) ∧
        (∀ st, Machine.parseTokens fuel self (argv.take k) alternative strict = .ok st →
          ∃ m, ∀ (other : Str),
            Machine.parseTokens fuel self argv alternative strict =
              Machine.afterEndOption m st (argv.set k other) (k + 1))) ∧
      (k = 0 → ∀ (other : Str),
        Machine.parseTokens fuel self argv alternative strict =
          Machine.walk fuel (self.begin argv alternative strict) 0 (argv.set 0 other) 1) ∧
      (∀ s', Machine.parseTokens fuel self argv alternative strict = .ok s' →
        ∃ before after, s'.additionalArguments = self.additionalArguments ++ before ++ after ∧
          before.Sublist ((argv.take k).drop 1) ∧ after.Sublist (argv.drop (k + 1)))) ∧
    ((Machine.parseArguments 9 scenarioTagsFiles
        (args ["prog", "--tags", "a", "b", "--", "x", "y"]) false
        false).state.arguments.map (fun d => (d.isExist, d.strings)) =
        [(true, ["a", "b"]), (true, ["x", "y"])] ∧
      (Machine.parseArguments 9 scenarioTagsFiles
        (args ["prog", "--tags", "a", "b", "--", "x", "y"]) false
        false).state.additionalArguments = [] ∧
      (Machine.parseArguments 6 scenarioTagsFiles (args ["prog", "a", "--", "b"]) false
        false).state.arguments.map (fun d => (d.isExist, d.strings)) =
        [(false, []), (true, ["a"])] ∧
      (Machine.parseArguments 6 scenarioTagsFiles (args ["prog", "a", "--", "b"]) false
        false).state.additionalArguments = args ["b"]) ∧
    (endOptionIndex (args ["prog", "--", "x"]) = 1 ∧
      sizeAdd 2 (2 ^ 64 - 1) = 1 ∧
      (Machine._parsePositionnalArgument scenarioWrapPositional 3 (args ["prog", "--", "x"]) 2
        true).toOption.map (fun r => (r.1, r.2.arguments.map (fun d => (d.strings, d.isExist))))
        = some (0, [([], true)]) ∧
      (Machine.parseArguments 5 scenarioWrapPositional (args ["prog", "--", "x"]) false
        false).exception = none ∧
      (Machine.parseArguments 5 scenarioWrapPositional (args ["prog", "--", "x"]) false
        false).state.additionalArguments = args ["--", "x"]) := by
  refine ⟨?_, ⟨by decide, by decide, by decide, by decide⟩,
    ⟨by decide, by decide, by decide, by decide, by decide⟩⟩
  intro fuel hfuel
  have hne : argv ≠ [] := by
    intro h
    rw [h] at hlt
    simp at hlt
  have hM := (machine_parseArguments_eq self argv alternative strict hne hr fuel hfuel).1
  have hsplit : 1 ≤ k →
      (∀ x, self.parseTokens (argv.take k) alternative strict = .error x →
        self.parseTokens argv alternative strict = .error x) ∧
      (∀ st, self.parseTokens (argv.take k) alternative strict = .ok st →
        ∃ m, self.parseTokens argv alternative strict = st.afterEndOption m argv (k + 1)) :=
    fun hk1 => parseTokens_split self argv alternative strict k hk1 hk hlt
  have hlen : (argv.take k).length = k := by
    rw [List.length_take]; omega
  have hMT : 1 ≤ k → Machine.parseTokens fuel self (argv.take k) alternative strict =
      self.parseTokens (argv.take k) alternative strict := by
    intro hk1
    have hneT : argv.take k ≠ [] := by
      intro h
      rw [h] at hlen
      simp at hlen
      omega
    exact (machine_parseArguments_eq self (argv.take k) alternative strict hneT
      (inRange_mono (by omega) hr) fuel (by omega)).1
  refine ⟨?_, ?_, ?_⟩
  · intro hk1
    obtain ⟨herr, hok⟩ := hsplit hk1
    rw [hM, hMT hk1]
    refine ⟨herr, ?_⟩
    intro st hst
    obtain ⟨m, hm⟩ := hok st hst
    refine ⟨m, fun other => ?_⟩
    have hsame := walk_same (endOptionIndex (argv.take k)) (argv.take k)
      ((argv.take k).length + self.arguments.length)
      (self.begin (argv.take k) alternative strict) 1
    have hst' : (self.begin (argv.take k) alternative strict).walk
        ((argv.take k).length + self.arguments.length) (endOptionIndex (argv.take k))
        (argv.take k) 1 = .ok st := hst
    rw [hst'] at hsame
    have hrst : st.InRange (argv.set k other).length := by
      rw [List.length_set]
      exact inRange_same hsame hr
    rw [hm, machine_afterEndOption_eq (argv.set k other) m st (k + 1) (by omega) hrst]
    exact afterEndOption_agree m st (k + 1) (agreeFrom_set argv k other)
  · intro hk0 other
    subst hk0
    have hr' : (self.begin argv alternative strict).InRange (argv.set 0 other).length := by
      rw [List.length_set]
      exact hr
    unfold Machine.parseTokens
    rw [hk, machine_walk_eq 0 argv (Nat.zero_le _) fuel (self.begin argv alternative strict) 1
        (Nat.le_refl _) hr,
      machine_walk_eq 0 (argv.set 0 other) (Nat.zero_le _) fuel
        (self.begin argv alternative strict) 1 (Nat.le_refl _) hr']
    exact walk_agree 0 fuel _ 1 (agreeFrom_set argv 0 other)
  · intro s' hs'
    rw [hM] at hs'
    rcases Nat.eq_zero_or_pos k with hk0 | hk1
    · subst hk0
      unfold Argparsor.parseTokens at hs'
      obtain ⟨extras, h1, h2⟩ := walk_additional _ _ _ _ _ s' hs'
      refine ⟨[], extras, ?_, by simp, h2⟩
      rw [h1]
      simp [Argparsor.begin]
    · obtain ⟨herr, hok⟩ := hsplit hk1
      cases hres : self.parseTokens (argv.take k) alternative strict with
      | error x =>
        rw [herr x hres] at hs'
        cases hs'
      | ok st =>
        obtain ⟨m, hm⟩ := hok st hres
        rw [hs'] at hm
        obtain ⟨after, ha1, ha2⟩ := afterEndOption_additional argv m st (k + 1) s' hm.symm
        unfold Argparsor.parseTokens at hres
        obtain ⟨before, hb1, hb2⟩ := walk_additional _ _ _ _ _ st hres
        refine ⟨before, after, ?_, hb2, ha2⟩
        rw [ha1, hb1]
        rfl

theorem marker_never_stored_witness :
    Machine.parseTokens 6 scenarioTagsFiles (args ["prog", "--nope", "--", "x"]) false false =
      .error (.ParseArgumentException "nope".toList "invalid option".toList,
        (Machine.parseTokens 6 scenarioTagsFiles ((args ["prog", "--nope", "--", "x"]).take 2)
          false false).state) :=
  (((marker_never_stored scenarioTagsFiles (args ["prog", "--nope", "--", "x"]) false false 2
    (by
      intro a ha
      simp only [scenarioTagsFiles, Argparsor.declared, List.mem_cons, List.mem_singleton,
        List.not_mem_nil, or_false] at ha
      rcases ha with ha | ha <;> subst ha <;> decide)
    (by decide) (by decide)).1 6 (by decide)).1 (by decide)).1 _ rfl

/-! ## The shape of the value tree with the machine integers -/

/-- The shape of the value tree after a `parseArguments` that returns, the sums being
exact. Let the registry hold no value, no declaration of a fixed class marked
as existing, and let its flags belong to options: a declaration of a fixed
class that exists holds exactly `_nargs` leaves, every element of a declaration
of a grouped class is a group of `_nargs` tokens, and no element of a
declaration of another class has children. -/
theorem value_shape_exact (self : Argparsor) (argv : List Str)
    (alternative strict : Bool) (s' : Argparsor)
    (hempty : ∀ a ∈ self.arguments, a.elements = [])
    (hfresh : ∀ a ∈ self.arguments, isFixedClass a.type = true → a.isExist = false)
    (hflags : self.FlagsAreOptions)
    (h : self.parseArguments argv alternative strict = .ok s') :
    ∀ a ∈ s'.arguments,
      (isFixedClass a.type = true → a.isExist = true →
        a.elements.length = a.nargs ∧ ∀ e ∈ a.elements, e.elements = []) ∧
      (isGroupedClass a.type = true → ∀ e ∈ a.elements, e.elements.length = a.nargs) ∧
      (isGroupedClass a.type = false → ∀ e ∈ a.elements, e.elements = []) := by
  have hinit : (∀ a ∈ (self.begin argv alternative strict).arguments, a.Shaped) ∧
      (self.begin argv alternative strict).FlagsAreOptions := by
    refine ⟨?_, hflags⟩
    intro a ha
    have hel : a.shape = [] := by
      unfold Argument.shape
      rw [hempty a ha]
      rfl
    refine ⟨?_, ?_, ?_, ?_⟩
    · intro _ n hn
      rw [hel] at hn
      cases hn
    · intro _ n hn
      rw [hel] at hn
      cases hn
    · intro _
      exact hel
    · intro hf hex
      rw [hfresh a ha hf] at hex
      cases hex
  obtain ⟨s1, hs1, hvalid⟩ := parseArguments_ok self argv alternative strict s' h
  have hinv := walk_invariant_any (endOptionIndex argv) argv
    (fun s => (∀ a ∈ s.arguments, a.Shaped) ∧ s.FlagsAreOptions) (fun _ => False)
    (fun hbad => hbad)
    (fun s i hs => by
      refine ⟨?_, fun _ _ _ hbad => hbad⟩
      intro i' s2 hstep
      have hmax := endOptionIndex_le argv
      unfold Argparsor.parseToken at hstep
      split_ifs at hstep with h1 h2
      · exact parseShortArgument_inv s _ _ i hmax hs i' s2 hstep
      · exact parseLongArgument_inv s _ _ i hmax h2 hs i' s2 hstep
      · exact parsePositionnal_inv s _ _ i false hmax hs i' s2 hstep)
    (fun s i hs =>
      ⟨fun i' s2 hstep => parsePositionnal_inv s _ _ i true (Nat.le_refl _) hs i' s2 hstep,
        fun _ _ _ hbad => hbad⟩)
    (argv.length + self.arguments.length)
    (self.begin argv alternative strict) 1 hinit
  have hshaped1 : ∀ a ∈ s1.arguments, a.Shaped := (hinv.1 s1 hs1).1
  intro a' ha'
  obtain ⟨a, ha, hcheck⟩ := forall₂_mem_right _ _ _ hvalid a' ha'
  have hsh := checkValid_shaped a a' hcheck (hshaped1 a ha)
  refine ⟨?_, shaped_groups hsh, shaped_leaves hsh⟩
  intro hf hex
  have hlen := hsh.2.2.2 hf hex
  rw [Argument.shape, List.length_map] at hlen
  refine ⟨hlen, shaped_leaves hsh ?_⟩
  cases hty : a'.type <;> rw [hty] at hf <;> first | rfl | cases hf

/-- C31 (amended). Let the registry hold no value (every element vector empty), no
declaration of a fixed class marked as existing, let its flags belong to
options and let no sum `argc + _nargs` reach `2^64`. After every
`parseArguments` that returns: a declaration of a fixed class (`NUMBER_OPTION`,
`NUMBER_POSITIONAL_ARGUMENT`) that exists holds exactly `_nargs` elements, all
leaves; every element of a declaration of a grouped class
(`MULTI_NUMBER_OPTION`, `MULTI_NUMBER_INFINITE_OPTION`,
`INFINITE_NUMBER_POSITIONAL_ARGUMENT`) is a group of exactly `_nargs` tokens;
and no element of a declaration of another class has children. -/
theorem value_shape (self : Argparsor) (prog : Str) (tokens : List Str)
    (alternative strict : Bool) (fuel : Nat) (s' : Argparsor)
    (hr : self.InRange (prog :: tokens).length)
    (hempty : ∀ a ∈ self.arguments, a.elements = [])
    (hfresh : ∀ a ∈ self.arguments, isFixedClass a.type = true → a.isExist = false)
    (hflags : self.FlagsAreOptions)
    (hfuel : (prog :: tokens).length + self.arguments.length ≤ fuel)
    (h : Machine.parseArguments fuel self (prog :: tokens) alternative strict = .ok s') :
    ∀ a ∈ s'.arguments,
      (isFixedClass a.type = true → a.isExist = true →
        a.elements.length = a.nargs ∧ ∀ e ∈ a.elements, e.elements = []) ∧
      (isGroupedClass a.type = true → ∀ e ∈ a.elements, e.elements.length = a.nargs) ∧
      (isGroupedClass a.type = false → ∀ e ∈ a.elements, e.elements = []) := by
  rw [(machine_parseArguments_eq self (prog :: tokens) alternative strict (by simp) hr fuel
    hfuel).2] at h
  exact value_shape_exact self (prog :: tokens) alternative strict s' hempty hfresh hflags h

/-- C31, the claim as stated fails. By design: scenario 2 after `--count 1 2 --count 3`
has thrown holds no value, and `-n` is still marked as existing; the parse of
`[prog]` that follows returns and leaves the `NUMBER_OPTION` `-n`, with
`nargs = 2`, existing with no value. By the wrap of `*index + _nargs`: the
positional `pair` with `_nargs = 2^64 - 1` reached by `x` in `[prog, x]` is
marked without a token, and `parseArguments` returns. -/
theorem value_shape_counterexample :
    ((Machine.parseArguments 8 scenario2 (args ["prog", "--count", "1", "2", "--count", "3"])
      false false).exception =
      some (.ParseArgumentException "count".toList "bad number of argument".toList) ∧
    (Machine.parseArguments 8 scenario2 (args ["prog", "--count", "1", "2", "--count", "3"])
      false false).state.arguments.map (fun d => (d.isExist, d.strings, d.count)) =
      scenarioStale.arguments.map (fun d => (d.isExist, d.strings, d.count)) ∧
    scenarioStale.arguments.map (fun d => (d.isExist, d.strings)) =
      [(false, []), (true, [])] ∧
    (Machine.parseArguments 3 scenarioStale (args ["prog"]) false false).exception = none ∧
    (Machine.parseArguments 3 scenarioStale (args ["prog"]) false false).state.arguments.map
      (fun d => (d.type, d.isExist, d.strings, d.nargs)) =
      [(.BOOLEAN_OPTION, false, [], 0), (.NUMBER_OPTION, true, [], 2)]) ∧
    ((Machine.parseArguments 4 scenarioWrapPositional (args ["prog", "x"]) false
      false).exception = none ∧
    (Machine.parseArguments 4 scenarioWrapPositional (args ["prog", "x"]) false
      false).state.arguments.map (fun d => (d.type, d.isExist, d.strings, d.nargs)) =
      [(.NUMBER_POSITIONAL_ARGUMENT, true, [], 2 ^ 64 - 1)]) := by
  decide

theorem value_shape_witness :
    ({ Argument.declared ["-n", "--count"] .NUMBER_OPTION 2 with
        isExist := true
        count := 1
        elements := [ArgumentElement.leaf "3".toList,
          ArgumentElement.leaf "4".toList] }).elements.length = 2 :=
  ((value_shape scenario2 "prog".toList (args ["-v", "--count", "3", "4"]) false false 7
    (Machine.parseArguments 7 scenario2 (args ["prog", "-v", "--count", "3", "4"]) false
      false).state
    (by
      intro a ha
      simp only [scenario2, Argparsor.declared, List.mem_cons, List.mem_singleton,
        List.not_mem_nil, or_false] at ha
      rcases ha with rfl | rfl <;> decide)
    (by
      intro a ha
      simp only [scenario2, Argparsor.declared, List.mem_cons, List.mem_singleton,
        List.not_mem_nil, or_false] at ha
      rcases ha with rfl | rfl <;> rfl)
    (by
      intro a ha _
      simp only [scenario2, Argparsor.declared, List.mem_cons, List.mem_singleton,
        List.not_mem_nil, or_false] at ha
      rcases ha with rfl | rfl <;> rfl)
    (flagsAreOptions_of_options scenario2 (by
      intro a ha
      simp only [scenario2, Argparsor.declared, List.mem_cons, List.mem_singleton,
        List.not_mem_nil, or_false] at ha
      rcases ha with rfl | rfl <;> rfl))
    (by decide)
    rfl
    { Argument.declared ["-n", "--count"] .NUMBER_OPTION 2 with
      isExist := true
      count := 1
      elements := [ArgumentElement.leaf "3".toList, ArgumentElement.leaf "4".toList] }
    (List.getElem?_mem (show (Machine.parseArguments 7 scenario2
      (args ["prog", "-v", "--count", "3", "4"]) false false).state.arguments[1]? = some _
      from rfl))).1 rfl rfl).1

/-! ## The additional arguments -/

theorem machine_parseArgument_additional (self : Argparsor) (maxIndex : Nat) (argv : List Str)
    (index : Nat) (hasArg : Bool) (option arg : Str) (p : Nat) (a : Argument) :
    (Step.state (Machine._parseArgument self maxIndex argv index hasArg option arg p
      a)).additionalArguments = self.additionalArguments := by
  unfold Machine._parseArgument
  cases hasArg
  · simp only [Bool.false_eq_true, if_false]
    split <;> (try split) <;> (try split) <;> rfl
  · simp only [if_true]
    split <;> rfl

theorem machine_parseShortLoop_additional (maxIndex : Nat) (argv : List Str) (index : Nat)
    (hasArg : Bool) (arg last : Str) :
    ∀ (cs : List Char) (self : Argparsor),
      (Step.state (Machine.parseShortLoop maxIndex argv index hasArg arg last self
        cs)).additionalArguments = self.additionalArguments := by
  have hlast : ∀ (self : Argparsor),
      (Step.state (match self.find ('-' :: last) with
        | none => self.throwParse last "invalid option"
        | some (p, a) =>
          Machine._parseArgument self maxIndex argv index hasArg last arg p
            a)).additionalArguments = self.additionalArguments := by
    intro self
    cases hf : self.find ('-' :: last) with
    | none => rfl
    | some pa =>
      obtain ⟨p, a⟩ := pa
      exact machine_parseArgument_additional self maxIndex argv index hasArg last arg p a
  intro cs
  induction cs with
  | nil =>
    intro self
    unfold Machine.parseShortLoop
    exact hlast self
  | cons c r ih =>
    intro self
    cases r with
    | nil =>
      unfold Machine.parseShortLoop
      exact hlast self
    | cons c' r' =>
      unfold Machine.parseShortLoop
      cases hf : self.find ['-', c] with
      | none => rfl
      | some pa =>
        obtain ⟨p, a⟩ := pa
        dsimp only
        split_ifs
        · exact machine_parseArgument_additional self maxIndex argv index true [c] (c' :: r') p
            a.matched
        · rfl
        · rw [ih (self.store p a.matched)]
          rfl

theorem machine_parseShortArgument_additional (self : Argparsor) (maxIndex : Nat)
    (argv : List Str) (index : Nat) :
    (Step.state (Machine._parseShortArgument self maxIndex argv index)).additionalArguments =
      self.additionalArguments := by
  unfold Machine._parseShortArgument
  dsimp only
  cases hf : (if self.isAlternative then self.find ('-' :: (takeArg (argv.getD index [])).2.1)
      else none) with
  | none => exact machine_parseShortLoop_additional maxIndex argv index _ _ _ _ self
  | some pa =>
    obtain ⟨p, a⟩ := pa
    exact machine_parseArgument_additional self maxIndex argv index _ _ _ p a

theorem machine_parseLongArgument_additional (self : Argparsor) (maxIndex : Nat)
    (argv : List Str) (index : Nat) :
    (Step.state (Machine._parseLongArgument self maxIndex argv index)).additionalArguments =
      self.additionalArguments := by
  unfold Machine._parseLongArgument
  dsimp only
  cases hf : self.find (takeArg (argv.getD index [])).2.1 with
  | none => rfl
  | some pa =>
    obtain ⟨p, a⟩ := pa
    exact machine_parseArgument_additional self maxIndex argv index _ _ _ p a

theorem unfilled_zero_iff (self : Argparsor) :
    self.unfilled = 0 ↔ ∀ a ∈ self.arguments, a.isUnfilledPositional = false := by
  unfold Argparsor.unfilled
  rw [List.countP_eq_zero]
  constructor
  · intro h a ha
    simpa using h a ha
  · intro h a ha
    simp [h a ha]

/-- A token that reaches `_parsePositionnalArgument` while no positional is unfilled is
thrown back in strict mode, and otherwise appended to the additional arguments,
the index being kept and nothing else changed. -/
theorem machine_parsePositionnal_none (self : Argparsor) (argc : Nat) (argv : List Str)
    (i : Nat) (hasEnd : Bool) (hfilled : self.unfilled = 0) :
    Machine._parsePositionnalArgument self argc argv i hasEnd =
      if self.isStrict then
        .error (.ParseArgumentException (argv.getD i []) "invalid additional argument".toList,
          self)
      else
        .ok ((i : Int), { self with
          additionalArguments := self.additionalArguments ++ [argv.getD i []] }) := by
  have h : self.arguments.findIdx Argument.isUnfilledPositional = self.arguments.length :=
    List.findIdx_eq_length.mpr ((unfilled_zero_iff self).mp hfilled)
  simp only [Machine._parsePositionnalArgument, h, List.getElem?_eq_none (Nat.le_refl _)]
  split_ifs <;> rfl

/-- A token that reaches `_parsePositionnalArgument` while a positional is unfilled leaves
the additional arguments as they are. -/
theorem machine_parsePositionnal_some (self : Argparsor) (argc : Nat) (argv : List Str)
    (i : Nat) (hasEnd : Bool) (hun : self.unfilled ≠ 0) (i' : Int) (s' : Argparsor)
    (h : Machine._parsePositionnalArgument self argc argv i hasEnd = .ok (i', s')) :
    s'.additionalArguments = self.additionalArguments := by
  have hlt : self.arguments.findIdx Argument.isUnfilledPositional < self.arguments.length := by
    rcases Nat.lt_or_ge (self.arguments.findIdx Argument.isUnfilledPositional)
      self.arguments.length with hlt | hge
    · exact hlt
    · exfalso
      apply hun
      rw [unfilled_zero_iff]
      exact List.findIdx_eq_length.mp
        (Nat.le_antisymm (List.findIdx_le_length _) hge)
  unfold Machine._parsePositionnalArgument at h
  dsimp only at h
  rw [List.getElem?_eq_getElem hlt] at h
  dsimp only at h
  split at h
  · cases h; rfl
  · split_ifs at h
    · cases h
    · cases h; rfl
  · cases h; rfl
  · split at h
    · cases h; rfl
    · cases h
    · cases h
  · cases h; rfl
theorem machine_afterEndOptionReached_succ (fuel : Nat) (self : Argparsor) (argv : List Str)
    (i : Nat) :
    Machine.afterEndOptionReached (fuel + 1) self argv i =
      if i < argv.length then
        match Machine._parsePositionnalArgument self argv.length argv i true with
        | .error _ => []
        | .ok (i', self') =>
          if self.unfilled = 0 then
            i :: Machine.afterEndOptionReached fuel self' argv (i' + 1).toNat
          else Machine.afterEndOptionReached fuel self' argv (i' + 1).toNat
      else [] := rfl

theorem machine_walkReached_succ (fuel : Nat) (self : Argparsor) (endIndex : Nat)
    (argv : List Str) (i : Nat) :
    Machine.walkReached (fuel + 1) self endIndex argv i =
      if i < argv.length then
        if isShortOption (argv.getD i []) then
          match Machine._parseShortArgument self endIndex argv i with
          | .error _ => []
          | .ok (i', self') => Machine.walkReached fuel self' endIndex argv (i' + 1)
        else if isLongOption (argv.getD i []) then
          match Machine._parseLongArgument self endIndex argv i with
          | .error _ => []
          | .ok (i', self') => Machine.walkReached fuel self' endIndex argv (i' + 1)
        else if isEndOption (argv.getD i []) then
          Machine.afterEndOptionReached fuel self argv (i + 1)
        else
          match Machine._parsePositionnalArgument self endIndex argv i false with
          | .error _ => []
          | .ok (i', self') =>
            if self.unfilled = 0 then
              i :: Machine.walkReached fuel self' endIndex argv (i' + 1).toNat
            else Machine.walkReached fuel self' endIndex argv (i' + 1).toNat
      else [] := rfl

/-- One call of `_parsePositionnalArgument` and the additional arguments: the token is
appended when no positional is unfilled, and nothing is otherwise. -/
theorem machine_parsePositionnal_reached (self : Argparsor) (argc : Nat) (argv : List Str)
    (i : Nat) (hasEnd : Bool) (i' : Int) (s1 : Argparsor)
    (h : Machine._parsePositionnalArgument self argc argv i hasEnd = .ok (i', s1)) :
    s1.additionalArguments = self.additionalArguments ++
      (if self.unfilled = 0 then [i] else []).map (fun j => argv.getD j []) := by
  by_cases hun : self.unfilled = 0
  · rw [machine_parsePositionnal_none self argc argv i hasEnd hun] at h
    rw [if_pos hun]
    split_ifs at h
    cases h
    rfl
  · rw [if_neg hun, machine_parsePositionnal_some self argc argv i hasEnd hun i' s1 h]
    simp

theorem machine_afterEndOption_reached (argv : List Str) :
    ∀ (fuel : Nat) (self : Argparsor) (i : Nat) (s' : Argparsor),
      Machine.afterEndOption fuel self argv i = .ok s' →
      s'.additionalArguments = self.additionalArguments ++
        (Machine.afterEndOptionReached fuel self argv i).map (fun j => argv.getD j []) := by
  intro fuel
  induction fuel with
  | zero => intro self i s' h; cases h
  | succ fuel ih =>
    intro self i s' h
    rw [machine_afterEndOption_succ] at h
    rw [machine_afterEndOptionReached_succ]
    by_cases hi : i < argv.length
    · rw [if_pos hi] at h ⊢
      cases hp : Machine._parsePositionnalArgument self argv.length argv i true with
      | error e => rw [hp] at h; cases h
      | ok r =>
        obtain ⟨i', s1⟩ := r
        rw [hp] at h
        dsimp only at h ⊢
        have h1 := machine_parsePositionnal_reached self _ argv i true i' s1 hp
        have h2 := ih s1 _ s' h
        rw [h2, h1]
        split_ifs <;> simp
    · rw [if_neg hi] at h ⊢
      cases h
      simp

/-- The additional arguments after a walk that returns are those it started with
followed by the tokens at the indices that reached `_parsePositionnalArgument`
while no positional was unfilled, in the order in which the walk met them. -/
theorem machine_walk_reached (endIndex : Nat) (argv : List Str) :
    ∀ (fuel : Nat) (self : Argparsor) (i : Nat) (s' : Argparsor),
      Machine.walk fuel self endIndex argv i = .ok s' →
      s'.additionalArguments = self.additionalArguments ++
        (Machine.walkReached fuel self endIndex argv i).map (fun j => argv.getD j []) := by
  intro fuel
  induction fuel with
  | zero => intro self i s' h; cases h
  | succ fuel ih =>
    intro self i s' h
    rw [machine_walk_succ] at h
    rw [machine_walkReached_succ]
    by_cases hi : i < argv.length
    · rw [if_pos hi] at h ⊢
      by_cases hs : isShortOption (argv.getD i []) = true
      · rw [if_pos hs] at h ⊢
        have hadd := machine_parseShortArgument_additional self endIndex argv i
        cases hp : Machine._parseShortArgument self endIndex argv i with
        | error e => rw [hp] at h; cases h
        | ok r =>
          obtain ⟨i', s1⟩ := r
          rw [hp] at h hadd
          dsimp only at h ⊢
          rw [ih s1 _ s' h]
          rw [show s1.additionalArguments = self.additionalArguments from hadd]
      · rw [if_neg hs] at h ⊢
        by_cases hl : isLongOption (argv.getD i []) = true
        · rw [if_pos hl] at h ⊢
          have hadd := machine_parseLongArgument_additional self endIndex argv i
          cases hp : Machine._parseLongArgument self endIndex argv i with
          | error e => rw [hp] at h; cases h
          | ok r =>
            obtain ⟨i', s1⟩ := r
            rw [hp] at h hadd
            dsimp only at h ⊢
            rw [ih s1 _ s' h]
            rw [show s1.additionalArguments = self.additionalArguments from hadd]
        · rw [if_neg hl] at h ⊢
          by_cases he : isEndOption (argv.getD i []) = true
          · rw [if_pos he] at h ⊢
            exact machine_afterEndOption_reached argv fuel self (i + 1) s' h
          · rw [if_neg he] at h ⊢
            cases hp : Machine._parsePositionnalArgument self endIndex argv i false with
            | error e => rw [hp] at h; cases h
            | ok r =>
              obtain ⟨i', s1⟩ := r
              rw [hp] at h
              dsimp only at h ⊢
              have h1 := machine_parsePositionnal_reached self _ argv i false i' s1 hp
              have h2 := ih s1 _ s' h
              rw [h2, h1]
              split_ifs <;> simp
    · rw [if_neg hi] at h ⊢
      cases h
      simp

theorem machine_afterEndOption_increasing (argv : List Str) :
    ∀ (fuel : Nat) (self : Argparsor) (i : Nat), 1 ≤ i → self.InRange argv.length →
      (Machine.afterEndOptionReached fuel self argv i).Pairwise (· < ·) ∧
      ∀ j ∈ Machine.afterEndOptionReached fuel self argv i, i ≤ j ∧ j < argv.length := by
  intro fuel
  induction fuel with
  | zero =>
    intro self i _ _
    exact ⟨List.Pairwise.nil, fun j hj => by cases hj⟩
  | succ fuel ih =>
    intro self i h1 hr
    rw [machine_afterEndOptionReached_succ]
    by_cases hi : i < argv.length
    · rw [if_pos hi, machine_parsePositionnal_eq self argv.length argv i true argv.length
        (Nat.le_refl _) h1 (Nat.le_of_lt hi) (Nat.le_refl _) hr]
      have hsame := parsePositionnal_same self argv.length argv i true
      cases hp : self._parsePositionnalArgument argv.length argv i true with
      | error e => exact ⟨List.Pairwise.nil, fun j hj => by cases hj⟩
      | ok r =>
        obtain ⟨i', s1⟩ := r
        rw [hp] at hsame
        have hidx := parsePositionnal_index self argv.length argv i true i' s1 hp
        simp only [Step.toInt]
        have hnat : ((i' : Int) + 1).toNat = i' + 1 := by omega
        rw [hnat]
        obtain ⟨ih1, ih2⟩ := ih s1 (i' + 1) (by omega) (inRange_same hsame hr)
        by_cases hun : self.unfilled = 0
        · rw [if_pos hun]
          have hsame' : i' = i := by
            rw [parsePositionnal_none self argv.length argv i true
              ((unfilled_zero_iff self).mp hun)] at hp
            split_ifs at hp
            · cases hp
            · cases hp; rfl
          subst hsame'
          refine ⟨List.Pairwise.cons (fun j hj => ?_) ih1, ?_⟩
          · have := (ih2 j hj).1
            omega
          · intro j hj
            rcases List.mem_cons.mp hj with hj | hj
            · subst hj
              exact ⟨Nat.le_refl _, hi⟩
            · have := ih2 j hj
              omega
        · rw [if_neg hun]
          refine ⟨ih1, fun j hj => ?_⟩
          have := ih2 j hj
          omega
    · rw [if_neg hi]
      exact ⟨List.Pairwise.nil, fun j hj => by cases hj⟩

/-- As long as no sum reaches `2^64` the cursor of the walk never goes back: the indices
that reach `_parsePositionnalArgument` while no positional is unfilled are met
in increasing order, each one once. -/
theorem machine_walk_increasing (endIndex : Nat) (argv : List Str)
    (hend : endIndex ≤ argv.length) :
    ∀ (fuel : Nat) (self : Argparsor) (i : Nat), 1 ≤ i → self.InRange argv.length →
      (Machine.walkReached fuel self endIndex argv i).Pairwise (· < ·) ∧
      ∀ j ∈ Machine.walkReached fuel self endIndex argv i, i ≤ j ∧ j < argv.length := by
  intro fuel
  induction fuel with
  | zero =>
    intro self i _ _
    exact ⟨List.Pairwise.nil, fun j hj => by cases hj⟩
  | succ fuel ih =>
    intro self i h1 hr
    rw [machine_walkReached_succ]
    by_cases hi : i < argv.length
    · rw [if_pos hi,
        machine_parseShortArgument_eq self endIndex argv i argv.length hend (Nat.le_of_lt hi) hend
          hr,
        machine_parseLongArgument_eq self endIndex argv i argv.length hend (Nat.le_of_lt hi) hend
          hr,
        machine_parsePositionnal_eq self endIndex argv i false argv.length hend h1
          (Nat.le_of_lt hi) hend hr]
      have hshort := parseShortArgument_same self endIndex argv i
      have hlong := parseLongArgument_same self endIndex argv i
      have hpos := parsePositionnal_same self endIndex argv i false
      have hshortA := parseShortArgument_advances self endIndex argv i
      have hlongA := parseLongArgument_advances self endIndex argv i
      by_cases hs : isShortOption (argv.getD i []) = true
      · rw [if_pos hs]
        cases hp : self._parseShortArgument endIndex argv i with
        | error e => exact ⟨List.Pairwise.nil, fun j hj => by cases hj⟩
        | ok r =>
          obtain ⟨i', s1⟩ := r
          rw [hp] at hshort hshortA
          obtain ⟨ih1, ih2⟩ := ih s1 (i' + 1) (by omega) (inRange_same hshort hr)
          refine ⟨ih1, fun j hj => ?_⟩
          have := ih2 j hj
          have := hshortA.2.2.1
          omega
      · rw [if_neg hs]
        by_cases hl : isLongOption (argv.getD i []) = true
        · rw [if_pos hl]
          cases hp : self._parseLongArgument endIndex argv i with
          | error e => exact ⟨List.Pairwise.nil, fun j hj => by cases hj⟩
          | ok r =>
            obtain ⟨i', s1⟩ := r
            rw [hp] at hlong hlongA
            obtain ⟨ih1, ih2⟩ := ih s1 (i' + 1) (by omega) (inRange_same hlong hr)
            refine ⟨ih1, fun j hj => ?_⟩
            have := ih2 j hj
            have := hlongA.2.2.1
            omega
        · rw [if_neg hl]
          by_cases he : isEndOption (argv.getD i []) = true
          · rw [if_pos he]
            obtain ⟨h1', h2'⟩ :=
              machine_afterEndOption_increasing argv fuel self (i + 1) (by omega) hr
            refine ⟨h1', fun j hj => ?_⟩
            have := h2' j hj
            omega
          · rw [if_neg he]
            cases hp : self._parsePositionnalArgument endIndex argv i false with
            | error e => exact ⟨List.Pairwise.nil, fun j hj => by cases hj⟩
            | ok r =>
              obtain ⟨i', s1⟩ := r
              rw [hp] at hpos
              have hidx := parsePositionnal_index self endIndex argv i false i' s1 hp
              simp only [Step.toInt]
              have hnat : ((i' : Int) + 1).toNat = i' + 1 := by omega
              rw [hnat]
              obtain ⟨ih1, ih2⟩ := ih s1 (i' + 1) (by omega) (inRange_same hpos hr)
              by_cases hun : self.unfilled = 0
              · rw [if_pos hun]
                have hsame' : i' = i := by
                  rw [parsePositionnal_none self endIndex argv i false
                    ((unfilled_zero_iff self).mp hun)] at hp
                  split_ifs at hp
                  · cases hp
                  · cases hp; rfl
                subst hsame'
                refine ⟨List.Pairwise.cons (fun j hj => ?_) ih1, ?_⟩
                · have := (ih2 j hj).1
                  omega
                · intro j hj
                  rcases List.mem_cons.mp hj with hj | hj
                  · subst hj
                    exact ⟨Nat.le_refl _, hi⟩
                  · have := ih2 j hj
                    omega
              · rw [if_neg hun]
                refine ⟨ih1, fun j hj => ?_⟩
                have := ih2 j hj
                omega
    · rw [if_neg hi]
      exact ⟨List.Pairwise.nil, fun j hj => by cases hj⟩
/-- The walk over plain tokens in a registry without positional: every token is appended
to the additional arguments, one iteration each. -/
theorem machine_walk_plain (endIndex : Nat) :
    ∀ (ts : List Str) (self : Argparsor) (pre : List Str) (fuel : Nat),
      self.isStrict = false →
      (∀ a ∈ self.arguments, a._isPositionnalArgument = false) →
      (∀ t ∈ ts, isShortOption t = false ∧ isLongOption t = false ∧ isEndOption t = false) →
      Machine.walk fuel self endIndex (pre ++ ts) pre.length =
        if ts.length < fuel then
          .ok { self with additionalArguments := self.additionalArguments ++ ts }
        else
          .error (.outOfFuel,
            { self with additionalArguments := self.additionalArguments ++ ts.take fuel }) := by
  intro ts
  induction ts with
  | nil =>
    intro self pre fuel _ _ _
    cases fuel with
    | zero => simp [Machine.walk]
    | succ fuel => simp [machine_walk_succ]
  | cons t ts ih =>
    intro self pre fuel hstrict hpos hplain
    cases fuel with
    | zero => simp [Machine.walk]
    | succ fuel =>
      obtain ⟨h1, h2, h3⟩ := hplain t (by simp)
      have htok : (pre ++ t :: ts).getD pre.length [] = t := by
        have := getD_append_offset pre (t :: ts) 0
        simpa using this
      have hlt : pre.length < (pre ++ t :: ts).length := by simp
      have hfilled : self.unfilled = 0 := by
        rw [unfilled_zero_iff]
        intro a ha
        simp [Argument.isUnfilledPositional, hpos a ha]
      rw [machine_walk_succ, if_pos hlt, htok, h1, h2, h3]
      simp only [Bool.false_eq_true, if_false]
      rw [machine_parsePositionnal_none self endIndex _ _ false hfilled, htok,
        if_neg (by rw [hstrict]; simp)]
      dsimp only
      have hnat : ((pre.length : Int) + 1).toNat = (pre ++ [t]).length := by
        simp only [List.length_append, List.length_singleton]
        omega
      have happ : pre ++ t :: ts = (pre ++ [t]) ++ ts := by simp
      rw [hnat, happ]
      rw [ih { self with additionalArguments := self.additionalArguments ++ [t] }
        (pre ++ [t]) fuel hstrict hpos (fun u hu => hplain u (by simp [hu]))]
      simp only [List.length_cons, Nat.add_lt_add_iff_right, List.append_assoc,
        List.singleton_append, List.take_succ_cons]

/-- C6, the code at the failing input and around it. With strict mode off and an empty
additional list at the start, after a `parseArguments` that returns the
additional arguments are exactly the tokens at the indices that reached
`_parsePositionnalArgument` while no positional was unfilled, in the order in
which the walk met them: such a token is appended at the end and the index is
kept, a token that fills a positional is not appended, and the option routines
leave the list untouched. As long as no sum `argc + _nargs` reaches `2^64` the
cursor never goes back, so these indices come in increasing order, each one
once, and the list is a subsequence of the tokens `argv[1..]`. For a registry
without positionals and plain tokens only, the list is exactly `argv[1..]`.
With `-n` of `_nargs = 2^64 - 4` and `[prog, --first, a, --second, p, -n]`, the
walk takes `a` and `--second` as the values of `--first`, adds `p`, is sent
back to index 2 by `-n`, adds `a` and takes `p` and `-n` as the values of
`--second`: it returns with the additional arguments `[p, a]`, against the
order of `argv`. With the positional `pair` of `_nargs = 2^64 - 1`, `[prog, x]`
returns with the additional arguments `[prog, x]`. -/
theorem additional_accumulation (self : Argparsor) (argv : List Str) (alternative : Bool)
    (fuel : Nat) (self' : Argparsor)
    (h0 : self.additionalArguments = [])
    (h : Machine.parseArguments fuel self argv alternative false = .ok self') :
    self'.additionalArguments =
      (Machine.walkReached fuel (self.begin argv alternative false) (endOptionIndex argv) argv
        1).map (fun j => argv.getD j []) ∧
    (self.InRange argv.length →
      (Machine.walkReached fuel (self.begin argv alternative false) (endOptionIndex argv) argv
        1).Pairwise (· < ·) ∧
      (∀ j ∈ Machine.walkReached fuel (self.begin argv alternative false) (endOptionIndex argv)
        argv 1, 1 ≤ j ∧ j < argv.length) ∧
      self'.additionalArguments.Sublist (argv.drop 1)) ∧
    (∀ (s : Argparsor) (argc i : Nat) (hasEnd : Bool), s.isStrict = false → s.unfilled = 0 →
        Machine._parsePositionnalArgument s argc argv i hasEnd =
          .ok ((i : Int),
            { s with additionalArguments := s.additionalArguments ++ [argv.getD i []] })) ∧
    (∀ (s : Argparsor) (argc i : Nat) (hasEnd : Bool) (i' : Int) (s' : Argparsor),
        s.unfilled ≠ 0 →
        Machine._parsePositionnalArgument s argc argv i hasEnd = .ok (i', s') →
        s'.additionalArguments = s.additionalArguments) ∧
    (∀ (s : Argparsor) (maxIndex i : Nat),
        (Step.state (Machine._parseShortArgument s maxIndex argv i)).additionalArguments =
          s.additionalArguments ∧
        (Step.state (Machine._parseLongArgument s maxIndex argv i)).additionalArguments =
          s.additionalArguments) ∧
    ((∀ a ∈ self.arguments, a._isPositionnalArgument = false) →
      (∀ t ∈ argv.drop 1,
        isShortOption t = false ∧ isLongOption t = false ∧ isEndOption t = false) →
      self'.additionalArguments = argv.drop 1) ∧
    ((Machine.parseArguments 6 scenarioWrapOrder
        (args ["prog", "--first", "a", "--second", "p", "-n"]) false false).exception = none ∧
      (Machine.parseArguments 6 scenarioWrapOrder
        (args ["prog", "--first", "a", "--second", "p", "-n"]) false
        false).state.additionalArguments = args ["p", "a"] ∧
      Machine.walkReached 6
        (scenarioWrapOrder.begin (args ["prog", "--first", "a", "--second", "p", "-n"]) false
          false)
        (endOptionIndex (args ["prog", "--first", "a", "--second", "p", "-n"]))
        (args ["prog", "--first", "a", "--second", "p", "-n"]) 1 = [4, 2] ∧
      (Machine.parseArguments 6 scenarioWrapOrder
        (args ["prog", "--first", "a", "--second", "p", "-n"]) false
        false).state.arguments.map (fun d => (d.strings, d.isExist, d.count)) =
        [(["a", "--second"], true, 1), (["p", "-n"], true, 1), ([], true, 1)] ∧
      (Machine.parseArguments 4 scenarioWrapPositional (args ["prog", "x"]) false
        false).exception = none ∧
      (Machine.parseArguments 4 scenarioWrapPositional (args ["prog", "x"]) false
        false).state.additionalArguments = args ["prog", "x"]) := by
  have hwalk : ∃ s1, Machine.walk fuel (self.begin argv alternative false) (endOptionIndex argv)
      argv 1 = .ok s1 ∧ self'.additionalArguments = s1.additionalArguments := by
    unfold Machine.parseArguments Machine.parseTokens at h
    cases hw : Machine.walk fuel (self.begin argv alternative false) (endOptionIndex argv) argv
        1 with
    | error e => rw [hw] at h; cases h
    | ok s1 =>
      rw [hw] at h
      exact ⟨s1, rfl, afterWalk_additional s1 self' h⟩
  obtain ⟨s1, hw, hadd⟩ := hwalk
  have hbegin : (self.begin argv alternative false).additionalArguments = [] := h0
  refine ⟨?_, ?_, ?_, ?_, ?_, ?_,
    ⟨by decide, by decide, by decide, by decide, by decide, by decide⟩⟩
  · rw [hadd, machine_walk_reached _ argv fuel _ 1 s1 hw, hbegin]
    rfl
  · intro hr
    obtain ⟨hp, hb⟩ := machine_walk_increasing (endOptionIndex argv) argv
      (endOptionIndex_le argv) fuel (self.begin argv alternative false) 1 (Nat.le_refl _) hr
    refine ⟨hp, hb, ?_⟩
    rw [machine_walk_eq (endOptionIndex argv) argv (endOptionIndex_le argv) fuel
      (self.begin argv alternative false) 1 (Nat.le_refl _) hr] at hw
    obtain ⟨extras, h1, h2⟩ := walk_additional _ argv _ _ 1 s1 hw
    rw [hadd, h1, hbegin]
    simpa using h2
  · intro s argc i hasEnd hs hfilled
    rw [machine_parsePositionnal_none s argc argv i hasEnd hfilled, if_neg (by rw [hs]; simp)]
  · intro s argc i hasEnd i' s' hun hp
    exact machine_parsePositionnal_some s argc argv i hasEnd hun i' s' hp
  · intro s maxIndex i
    exact ⟨machine_parseShortArgument_additional s maxIndex argv i,
      machine_parseLongArgument_additional s maxIndex argv i⟩
  · intro hpos hplain
    cases argv with
    | nil =>
      have := machine_walk_reached _ [] fuel _ 1 s1 hw
      rw [hadd, this, hbegin]
      cases fuel <;> rfl
    | cons prog ts =>
      have hp := machine_walk_plain (endOptionIndex (prog :: ts)) ts
        (self.begin (prog :: ts) alternative false) [prog] fuel rfl hpos
        (by simpa using hplain)
      have hw' : Machine.walk fuel (self.begin (prog :: ts) alternative false)
          (endOptionIndex (prog :: ts)) ([prog] ++ ts) [prog].length = .ok s1 := hw
      rw [hp] at hw'
      split_ifs at hw'
      cases hw'
      rw [hadd]
      simp [hbegin]

theorem additional_accumulation_witness :
    ((Machine.parseArguments 6 scenario2 (args ["prog", "a", "", "a"]) false
      false).state.additionalArguments = args ["a", "", "a"]) :=
  (additional_accumulation scenario2 (args ["prog", "a", "", "a"]) false 6
    (Machine.parseArguments 6 scenario2 (args ["prog", "a", "", "a"]) false false).state rfl
    rfl).2.2.2.2.2.1 (by decide) (by decide)

/-- C2 (amended). For a `SIMPLE_OPTION` declared with the flags `-o` and `--opt`:
`[prog, --opt=v]` stores `v`, marks the declaration and adds one to its count,
for every value `v`. For every `v` other than `--` (the program name not being
`--` either), `[prog, --opt, v]` gives `parseArguments` the same outcome and
registry, and so does `[prog, -o, v]` (in alternative mode, no flag `--o` being
declared). For every `v` that is not empty and holds no `=` (in alternative
mode, no flag `--ov` being declared), `[prog, -ov]` gives the same outcome and
the same registry up to the occurrence counts. -/
theorem simple_forms_equivalent (self : Argparsor) (prog opt v : Str) (o : Char) (p : Nat)
    (a : Argument) (alternative strict : Bool)
    (ho : o ≠ '-' ∧ o ≠ '=')
    (hopt : opt ≠ [] ∧ '=' ∉ opt)
    (hshort : self.find ['-', o] = some (p, a))
    (hlong : self.find ('-' :: '-' :: opt) = some (p, a))
    (htype : a.type = .SIMPLE_OPTION) :
    self.parseTokens [prog, '-' :: '-' :: opt ++ '=' :: v] alternative strict =
      .ok ((self.begin [prog] alternative strict).store p
        { a with argument := v, isExist := true, count := a.count + 1 }) ∧
    (prog ≠ ['-', '-'] → v ≠ ['-', '-'] →
      self.parseArguments [prog, '-' :: '-' :: opt, v] alternative strict =
        self.parseArguments [prog, '-' :: '-' :: opt ++ '=' :: v] alternative strict) ∧
    (prog ≠ ['-', '-'] → v ≠ ['-', '-'] →
      (alternative = true → self.find ['-', '-', o] = none) →
      self.parseArguments [prog, ['-', o], v] alternative strict =
        self.parseArguments [prog, '-' :: '-' :: opt ++ '=' :: v] alternative strict) ∧
    (v ≠ [] → '=' ∉ v →
      (alternative = true → self.find ('-' :: '-' :: o :: v) = none) →
      (self.parseArguments [prog, '-' :: o :: v] alternative strict).forgetCount =
        (self.parseArguments [prog, '-' :: '-' :: opt ++ '=' :: v] alternative
          strict).forgetCount) := by
  obtain ⟨ho1, ho2⟩ := ho
  obtain ⟨hopt1, hopt2⟩ := hopt
  obtain ⟨c, r, hc⟩ : ∃ c r, opt = c :: r := by
    cases opt with
    | nil => exact absurd rfl hopt1
    | cons c r => exact ⟨c, r, rfl⟩
  have hnoeq : '=' ∉ '-' :: '-' :: opt := by simp [hopt2]
  -- the state the three exact forms reach
  have hfuel2 : ∀ t : Str, [prog, t].length + self.arguments.length
      = (self.arguments.length + 1) + 1 := by intro t; simp; omega
  have hfuel3 : ∀ t u : Str, [prog, t, u].length + self.arguments.length
      = (self.arguments.length + 1 + 1) + 1 := by intro t u; simp; omega
  have h1 : self.parseTokens [prog, '-' :: '-' :: opt ++ '=' :: v] alternative strict =
      .ok ((self.begin [prog] alternative strict).store p
        { a with argument := v, isExist := true, count := a.count + 1 }) := by
    unfold Argparsor.parseTokens
    have hl : isLongOption ('-' :: '-' :: opt ++ '=' :: v) = true := by
      rw [hc]; rfl
    have hstep : (self.begin [prog, '-' :: '-' :: opt ++ '=' :: v] alternative strict)._parseLongArgument
        (endOptionIndex [prog, '-' :: '-' :: opt ++ '=' :: v])
        [prog, '-' :: '-' :: opt ++ '=' :: v] 1 =
        .ok (1, (self.begin [prog] alternative strict).store p
          { a with argument := v, isExist := true, count := a.count + 1 }) := by
      unfold Argparsor._parseLongArgument
      have ht : takeArg ([prog, '-' :: '-' :: opt ++ '=' :: v].getD 1 []) =
          (true, '-' :: '-' :: opt, v) := takeArg_eq ('-' :: '-' :: opt) v hnoeq
      have hf : (self.begin [prog, '-' :: '-' :: opt ++ '=' :: v] alternative strict).find
          ('-' :: '-' :: opt) = some (p, a) := hlong
      simp only [ht, hf]
      rw [parseArgument_simple_inline _ _ _ _ _ _ _ _ htype]
      rfl
    rw [hfuel2, walk_succ, if_pos (by simp)]
    simp only [show [prog, '-' :: '-' :: opt ++ '=' :: v].getD 1 [] = '-' :: '-' :: opt ++ '=' :: v
      from rfl, isShortOption_of_isLongOption hl, hl, hstep]
    simp only [Bool.false_eq_true, if_false, if_true]
    exact walk_past_end _ _ _ _ _ (by simp)
  have hend : ∀ t : Str, prog ≠ ['-', '-'] → v ≠ ['-', '-'] → t ≠ ['-', '-'] →
      endOptionIndex [prog, t, v] = 3 := by
    intro t hprog hv3 ht
    have : ∀ x ∈ [prog, t, v], isEndOption x = false := by
      intro x hx
      simp only [List.mem_cons, List.mem_singleton, List.not_mem_nil, or_false] at hx
      rcases hx with hx | hx | hx <;> subst hx <;> simp [isEndOption] <;> assumption
    exact List.findIdx_eq_length.mpr this
  have h2 : prog ≠ ['-', '-'] → v ≠ ['-', '-'] →
      self.parseTokens [prog, '-' :: '-' :: opt, v] alternative strict =
      .ok ((self.begin [prog] alternative strict).store p
        { a with argument := v, isExist := true, count := a.count + 1 }) := by
    intro hprog hv3
    unfold Argparsor.parseTokens
    have hl : isLongOption ('-' :: '-' :: opt) = true := by
      rw [hc]; rfl
    have hstep : (self.begin [prog, '-' :: '-' :: opt, v] alternative strict)._parseLongArgument
        (endOptionIndex [prog, '-' :: '-' :: opt, v]) [prog, '-' :: '-' :: opt, v] 1 =
        .ok (2, (self.begin [prog] alternative strict).store p
          { a with argument := v, isExist := true, count := a.count + 1 }) := by
      unfold Argparsor._parseLongArgument
      have ht : takeArg ([prog, '-' :: '-' :: opt, v].getD 1 []) =
          (false, '-' :: '-' :: opt, []) := takeArg_noEq ('-' :: '-' :: opt) hnoeq
      have hf : (self.begin [prog, '-' :: '-' :: opt, v] alternative strict).find
          ('-' :: '-' :: opt) = some (p, a) := hlong
      simp only [ht, hf]
      rw [parseArgument_simple_separate _ _ _ _ _ _ _ _ htype
        (by rw [hend _ hprog hv3 (by rw [hc]; simp)]; decide)]
      rfl
    rw [hfuel3, walk_succ, if_pos (by simp)]
    simp only [show [prog, '-' :: '-' :: opt, v].getD 1 [] = '-' :: '-' :: opt
      from rfl, isShortOption_of_isLongOption hl, hl, hstep]
    simp only [Bool.false_eq_true, if_false, if_true]
    exact walk_past_end _ _ _ _ _ (by simp)
  have halt' : ∀ (s : Argparsor) (key : Str), s.isAlternative = alternative →
      s.find key = self.find key → (alternative = true → self.find key = none) →
      (if s.isAlternative then s.find key else none) = none := by
    intro s key hs hk hkey
    cases halt1 : alternative with
    | false => rw [hs, halt1]; rfl
    | true =>
      rw [hs, halt1, hk]
      exact hkey halt1
  have hs : isShortOption ['-', o] = true := by simp [isShortOption, ho1]
  have h3 : prog ≠ ['-', '-'] → v ≠ ['-', '-'] →
      (alternative = true → self.find ['-', '-', o] = none) →
      self.parseTokens [prog, ['-', o], v] alternative strict =
      .ok ((self.begin [prog] alternative strict).store p
        { a with argument := v, isExist := true, count := a.count + 1 }) := by
    intro hprog hv3 halt
    unfold Argparsor.parseTokens
    have hstep : (self.begin [prog, ['-', o], v] alternative strict)._parseShortArgument
        (endOptionIndex [prog, ['-', o], v]) [prog, ['-', o], v] 1 =
        .ok (2, (self.begin [prog] alternative strict).store p
          { a with argument := v, isExist := true, count := a.count + 1 }) := by
      unfold Argparsor._parseShortArgument
      have ht : takeArg ([prog, ['-', o], v].getD 1 []) = (false, ['-', o], []) :=
        takeArg_noEq ['-', o] (by simp [Ne.symm ho2])
      have hf : (self.begin [prog, ['-', o], v] alternative strict).find ['-', o] = some (p, a) :=
        hshort
      simp only [ht, halt' (self.begin [prog, ['-', o], v] alternative strict) ['-', '-', o] rfl rfl
        halt]
      simp only [Argparsor.parseShortLoop, List.drop_succ_cons, List.drop_zero,
        List.getLast?_cons_cons, List.getLast?_singleton, Option.toList, hf]
      rw [parseArgument_simple_separate _ _ _ _ _ _ _ _ htype
        (by rw [hend _ hprog hv3 (by simp [ho1])]; decide)]
      rfl
    rw [hfuel3, walk_succ, if_pos (by simp)]
    simp only [show [prog, ['-', o], v].getD 1 [] = ['-', o] from rfl, hs, hstep]
    simp only [if_true]
    exact walk_past_end _ _ _ _ _ (by simp)
  have h4 : v ≠ [] → '=' ∉ v →
      (alternative = true → self.find ('-' :: '-' :: o :: v) = none) →
      self.parseTokens [prog, '-' :: o :: v] alternative strict =
      .ok ((self.begin [prog] alternative strict).store p
        { a with argument := v, isExist := true, count := a.count + 1 + 1 }) := by
    intro hv1 hv2 halt
    obtain ⟨c', r', hc'⟩ : ∃ c r, v = c :: r := by
      cases v with
      | nil => exact absurd rfl hv1
      | cons c r => exact ⟨c, r, rfl⟩
    unfold Argparsor.parseTokens
    have hs' : isShortOption ('-' :: o :: v) = true := by simp [isShortOption, ho1]
    have hstep : (self.begin [prog, '-' :: o :: v] alternative strict)._parseShortArgument
        (endOptionIndex [prog, '-' :: o :: v]) [prog, '-' :: o :: v] 1 =
        .ok (1, (self.begin [prog] alternative strict).store p
          { a with argument := v, isExist := true, count := a.count + 1 + 1 }) := by
      unfold Argparsor._parseShortArgument
      have ht : takeArg ([prog, '-' :: o :: v].getD 1 []) = (false, '-' :: o :: v, []) :=
        takeArg_noEq ('-' :: o :: v) (by simp [Ne.symm ho2, hv2])
      have hf : (self.begin [prog, '-' :: o :: v] alternative strict).find ['-', o] = some (p, a) :=
        hshort
      simp only [ht, halt' (self.begin [prog, '-' :: o :: v] alternative strict)
        ('-' :: '-' :: o :: v) rfl rfl halt]
      subst hc'
      have htp : takesParameter a.type = true := by rw [htype]; rfl
      simp only [Argparsor.parseShortLoop, List.drop_succ_cons, List.drop_zero, hf, htp]
      simp only [Bool.not_false, Bool.and_self, if_true]
      rw [parseArgument_simple_inline _ _ _ _ _ _ _ _ (by exact htype)]
      rfl
    rw [hfuel2, walk_succ, if_pos (by simp)]
    simp only [show [prog, '-' :: o :: v].getD 1 [] = '-' :: o :: v from rfl, hs', hstep]
    simp only [if_true]
    exact walk_past_end _ _ _ _ _ (by simp)
  refine ⟨h1, ?_, ?_, ?_⟩
  · intro hprog hv3
    unfold Argparsor.parseArguments
    rw [h1, h2 hprog hv3]
  · intro hprog hv3 halt
    unfold Argparsor.parseArguments
    rw [h1, h3 hprog hv3 halt]
  · intro hv1 hv2 halt
    unfold Argparsor.parseArguments
    rw [h1, h4 hv1 hv2 halt]
    dsimp only
    rw [← afterWalk_forgetCount, ← afterWalk_forgetCount, forgetCount_store, forgetCount_store]
    rfl

/-- C2, the claim as stated fails. For the empty value `-o` alone has no value and throws
where `--opt=` stores the empty string; for `a=b` the cluster `-oa=b` is split
at the `=` and throws where `--opt=a=b` stores `a=b`; for `--` the separate
value is the end-of-options marker, `--opt --` and `-o --` throw where
`--opt=--` stores it. In alternative mode, with flags `--o` and `--ov` declared
as well, `-o v` marks `--o` and `-ov` marks `--ov`, where `--opt=v` stores
`v`. -/
theorem simple_forms_counterexample :
    scenarioSimple.find "-o".toList = scenarioSimple.find "--opt".toList ∧
    ((scenarioSimple.parseArguments (args ["prog", "--opt="]) false false).exception = none ∧
      (scenarioSimple.parseArguments (args ["prog", "--opt="]) false false).state.arguments.map
        (fun d => (d.isExist, String.mk d.argument, d.count)) = [(true, "", 1)] ∧
      (scenarioSimple.parseArguments (args ["prog", "-o"]) false false).exception =
        some (.ParseArgumentException "o".toList "bad number of argument".toList)) ∧
    ((scenarioSimple.parseArguments (args ["prog", "--opt=a=b"]) false false).exception = none ∧
      (scenarioSimple.parseArguments (args ["prog", "--opt=a=b"]) false
        false).state.arguments.map
        (fun d => (d.isExist, String.mk d.argument, d.count)) = [(true, "a=b", 1)] ∧
      (scenarioSimple.parseArguments (args ["prog", "-oa=b"]) false false).exception =
        some (.ParseArgumentException "o".toList
          "only last option can be use a parameter".toList)) ∧
    ((scenarioSimple.parseArguments (args ["prog", "--opt=--"]) false false).exception = none ∧
      (scenarioSimple.parseArguments (args ["prog", "--opt=--"]) false
        false).state.arguments.map
        (fun d => (d.isExist, String.mk d.argument, d.count)) = [(true, "--", 1)] ∧
      (scenarioSimple.parseArguments (args ["prog", "--opt", "--"]) false false).exception =
        some (.ParseArgumentException "opt".toList "bad number of argument".toList) ∧
      (scenarioSimple.parseArguments (args ["prog", "-o", "--"]) false false).exception =
        some (.ParseArgumentException "o".toList "bad number of argument".toList)) ∧
    ((scenarioSimpleLong.parseArguments (args ["prog", "--opt=v"]) true false).exception = none ∧
      (scenarioSimpleLong.parseArguments (args ["prog", "--opt=v"]) true
        false).state.arguments.map
        (fun d => (d.isExist, String.mk d.argument, d.count)) =
        [(true, "v", 1), (false, "", 0), (false, "", 0)] ∧
      (scenarioSimpleLong.parseArguments (args ["prog", "-o", "v"]) true false).exception = none ∧
      (scenarioSimpleLong.parseArguments (args ["prog", "-o", "v"]) true
        false).state.arguments.map
        (fun d => (d.isExist, String.mk d.argument, d.count)) =
        [(false, "", 0), (true, "", 1), (false, "", 0)] ∧
      (scenarioSimpleLong.parseArguments (args ["prog", "-ov"]) true false).exception = none ∧
      (scenarioSimpleLong.parseArguments (args ["prog", "-ov"]) true
        false).state.arguments.map
        (fun d => (d.isExist, String.mk d.argument, d.count)) =
        [(false, "", 0), (false, "", 0), (true, "", 1)]) := by
  refine ⟨rfl, ⟨by decide, by decide, by decide⟩, ⟨by decide, by decide, by decide⟩,
    ⟨by decide, by decide, by decide, by decide⟩,
    ⟨by decide, by decide, by decide, by decide, by decide, by decide⟩⟩

theorem simple_forms_equivalent_witness :
    scenarioSimple.parseArguments (args ["prog", "--opt", "v"]) false true =
      scenarioSimple.parseArguments (args ["prog", "--opt=v"]) false true :=
  (simple_forms_equivalent scenarioSimple "prog".toList "opt".toList "v".toList 'o' 0
    (Argument.declared ["-o", "--opt"] .SIMPLE_OPTION 1) false true (by decide) (by decide)
    rfl rfl rfl).2.1 (by decide) (by decide)

/-! ## The registry at a throw -/

end Mblet
